import Mathlib

/-!
Alphametic solver (`csolver.cxx`): embedding and verification.

The search engine `solve` of `src/app/codebusters/csolver.cxx` is embedded as
an explicit state machine.  One `step` is one slot transition of the source:
either one pass through the sum-character part at the top of `while(1)`, or one
iteration of the summand loop `while(curr_smnd_row >= 0)`.

Modelling conventions.

* C `int` values are mathematical integers (`Int`); counters that are only
  ever incremented and lengths are `Nat`.  The search keeps every digit, carry
  and partial sum far below the machine word size.
* A word is a `List Char`; reading a C string at its length gives `'\0'`.
* Tables indexed by a character (`map_count`, `number_map`, ...) are lists of
  the declared size 128 indexed by the character code.
* The two stores whose index grows with the input, `reform_smnds`
  (`static_summands`, `MAX_LEN * MAX_STATIC_SUMMANDS` cells) and `needed_carry`
  (`MAX_LEN` cells), are written through a bounds check: a write past the
  declared size has no defined behaviour in C and ends the run with
  `Outcome.fault`.
* Storage the source leaves uninitialised (`number_map`, `min_value`,
  `max_value`, `static_summands`, and the locals `value`, `needed_sum`,
  `curr_smnd_row`) starts from an arbitrary `Uninit` argument.
* `solve` takes a `fuel` bound on the number of slot transitions and answers
  `none` when the loop is still running after that many.
* The puzzle finder `look_for_puzzles_specific_count` is a second state
  machine: one `find_step` is one iteration of `while(smnd_index >= 0)`, or,
  when that loop has ended, one step of the loop over the sums.  Besides the
  variables of the source its state carries the list `calls` of the
  invocations of `solve` made so far, with their arguments and results; the
  source has no such list and no transition reads it.
* The heap arrays of the finder start from an arbitrary `Fresh` argument, and
  every invocation of `solve` gets its own `Uninit`.
* The counters `good_puzzles`, `search_count` and `total_searched` are natural
  numbers; the wrap-around of `unsigned int` is not modelled.
* A read outside an array (`longest_smnd[-1]` with no summands, the first word
  of an empty list) and an invocation of `solve` that ends in `fault` end the
  finder with `FindOutcome.fault`.
* `find_puzzles` with the flag `filters` clear and `solve_unpruned32` are the
  variants of the finder and of `solve` without their pruning tests (the
  filters on the word length and the letter count, the forward test on
  `needed_carry`).  They are not in the source; they serve to state what the
  tests change.
* Without the forward test on `needed_carry` the carries are no longer
  bounded, so in `solve_unpruned32` the arithmetic on `needed_sum`,
  `needed_carry`, `max_possible` and `min_possible` is that of a 32-bit `int`:
  every result is reduced to the two's-complement range (`wrap32`).
  `solve_unpruned_exact` is the same variant in exact integers, an
  idealisation that is the intermediate of the proofs; the two agree when the
  weight of the puzzle is inside the range of an `int`
  (`solve_unpruned32_eq`), and differ beyond it (`unpruned_int_accepts_more`).
-/

namespace CSolver

/-! ## Constants and small helpers -/

def MAX_BASE : Nat := 16
def MAX_LEN : Nat := 16
def MAX_LEN_SHIFT : Nat := 4
def MAX_STATIC_SUMMANDS : Nat := 6
def MAX_WORDS : Nat := 2000

def min_of_two (x y : Int) : Int := if x < y then x else y

def max_of_two (x y : Int) : Int := if x > y then x else y

/-- Difficulty rating from the number of backtracks. -/
def difficulty_conv (backtracks : Nat) : Nat :=
  if backtracks ≤ 100 then 1
  else if backtracks ≤ 600 then 2
  else if backtracks ≤ 4000 then 3
  else if backtracks ≤ 20000 then 4
  else 5

/-- Read of a table indexed by a character code. -/
def tget {α : Type} [Inhabited α] (t : List α) (c : Char) : α := t.getD c.toNat default

/-- Write of a table indexed by a character code. -/
def tset {α : Type} (t : List α) (c : Char) (v : α) : List α := t.set c.toNat v

/-- Read of an `int` array at an `int` index. -/
def iget (t : List Int) (i : Int) : Int := t.getD i.toNat 0

/-- Read of a `char` array at an `int` index. -/
def cget (t : List Char) (i : Int) : Char := t.getD i.toNat '\x00'

/-- Index of the macro `summand_char(row, column)`:
`((row) << MAX_LEN_SHIFT) + (column)`. -/
def summand_index (row column : Int) : Int := row * 2 ^ MAX_LEN_SHIFT + column

/-- The macro `summand_char(row, column)` used as a value. -/
def summand_char (reform_smnds : List Char) (row column : Int) : Char :=
  cget reform_smnds (summand_index row column)

/-! ## Data -/

/-- Initial contents of the storage `solve` does not initialise: the cell
contents by index, and the three locals. -/
structure Uninit where
  number_map : Nat → Int
  min_value : Nat → Int
  max_value : Nat → Int
  static_summands : Nat → Char
  value : Int
  needed_sum : Int
  curr_smnd_row : Int

/-- An all-zero choice of the uninitialised storage. -/
def Uninit.zero : Uninit :=
  { number_map := fun _ => 0
    min_value := fun _ => 0
    max_value := fun _ => 0
    static_summands := fun _ => '\x00'
    value := 0
    needed_sum := 0
    curr_smnd_row := 0 }

/-- A line written to stdout: a solution line of `print_solution` (the
`LETTER=digit` pairs in order), or the over-length message. -/
inductive Line where
  | solution (pairs : List (Char × Int))
  | too_long
  deriving DecidableEq, Repr

/-- What `solve` hands back: the returned count, the value left in
`*difficulty`, and the lines written to stdout; or `fault` when the run wrote
outside an array. -/
inductive Outcome where
  | returned (solutions : Nat) (difficulty : Nat) (output : List Line)
  | fault
  deriving DecidableEq, Repr

/-- The data `solve` fixes before the search starts. -/
structure Puzzle where
  sum : List Char
  sum_length : Int
  base : Int
  max_digit : Int
  column_lengths : List Int
  reform_smnds : List Char
  zero_or_one_start : List Int
  max_carry : List Int
  print : Bool
  just_one : Bool

/-- The variables of `solve` that change during the search.  `in_summands`
is the control point: `false` at the top of `while(1)`, `true` at the top of
the summand loop. -/
structure State where
  in_summands : Bool
  curr_column : Int
  curr_smnd_row : Int
  backtrack : Bool
  needed_sum : Int
  value : Int
  letter_map : List Char
  map_count : List Int
  min_value : List Int
  max_value : List Int
  number_map : List Int
  needed_carry : List Int
  backtrack_count : Nat
  solutions_found : Nat
  output : List Line

/-- A running search or a finished call. -/
inductive Config where
  | running (s : State)
  | halted (o : Outcome)

/-! ## Pieces of the search -/

/-- The line `print_solution` writes: the letters with a non-zero `map_count`
in increasing code order, each with its digit. -/
def print_solution (number_map : List Int) (map_count : List Int) : Line :=
  .solution ((List.range 128).filterMap fun i =>
    if map_count.getD i 0 ≠ 0 then some (Char.ofNat i, number_map.getD i 0) else none)

/-- The loop `while(value <= max && letter_map[value] != '\0') value++`,
run for at most `n` iterations. -/
def first_free_from (letter_map : List Char) (max : Int) : Nat → Int → Int
  | 0, value => value
  | n + 1, value =>
    if value ≤ max ∧ cget letter_map value ≠ '\x00' then
      first_free_from letter_map max n (value + 1)
    else value

/-- The loop `while(value <= max && letter_map[value] != '\0') value++`; it
makes at most `max + 1 - value` iterations. -/
def first_free (letter_map : List Char) (max : Int) (value : Int) : Int :=
  first_free_from letter_map max (max + 1 - value).toNat value

/-- Write `needed_carry[i] = v`; `none` when `i` is outside the array. -/
def set_carry (needed_carry : List Int) (i : Int) (v : Int) : Option (List Int) :=
  if 0 ≤ i ∧ i < MAX_LEN then some (needed_carry.set i.toNat v) else none

/-- The code after the sum-character part and before the summand loop: the
test `curr_column == -1` that leaves `while(1)`, and the entry test of
`while(curr_smnd_row >= 0)`. -/
def enter_summands (s : State) : Config :=
  if s.curr_column = -1 then
    .halted (.returned s.solutions_found (difficulty_conv s.backtrack_count) s.output)
  else if s.curr_smnd_row ≥ 0 then .running { s with in_summands := true }
  else .running { s with in_summands := false }

/-- The tail of the sum-character part (source lines 618-662), after the
decision `backtrack` has been taken. -/
def after_sum_char (p : Puzzle) (s : State) : Config :=
  if s.backtrack then
    let needed_sum := iget s.needed_carry s.curr_column
    let curr_column := s.curr_column - 1
    let curr_smnd_row : Int :=
      if curr_column = -1 ∨ iget p.column_lengths curr_column = 0 then -1 else 0
    enter_summands { s with needed_sum := needed_sum, curr_column := curr_column,
                            curr_smnd_row := curr_smnd_row }
  else
    let curr_smnd_row := iget p.column_lengths s.curr_column - 1
    let needed_sum := s.value + p.base * iget s.needed_carry s.curr_column
    if curr_smnd_row < 0 then
      let curr_column := s.curr_column + 1
      match set_carry s.needed_carry curr_column needed_sum with
      | none => .halted .fault
      | some nc =>
        .running { s with in_summands := false, curr_smnd_row := curr_smnd_row,
                          needed_sum := needed_sum, curr_column := curr_column,
                          needed_carry := nc }
    else
      enter_summands { s with curr_smnd_row := curr_smnd_row, needed_sum := needed_sum }

/-- One pass through the top of `while(1)` (source lines 398-662): the
solution test at `curr_column == sum_length`, or the sum character of the
current column. -/
def step_sum (p : Puzzle) (s : State) : Config :=
  if s.curr_column = p.sum_length then
    if iget s.needed_carry s.curr_column = 0 then
      let solutions_found := s.solutions_found + 1
      let output :=
        if p.print then s.output ++ [print_solution s.number_map s.map_count] else s.output
      if p.just_one then .halted (.returned 1 0 output)
      else
        enter_summands { s with solutions_found := solutions_found, output := output,
                                curr_column := s.curr_column - 1, curr_smnd_row := 0,
                                backtrack := true }
    else
      enter_summands { s with curr_column := s.curr_column - 1, curr_smnd_row := 0,
                              backtrack := true }
  else
    let curr_char := cget p.sum s.curr_column
    if s.backtrack then
      if tget s.map_count curr_char = 1 then
        let value := tget s.number_map curr_char
        let letter_map := s.letter_map.set value.toNat '\x00'
        let value := first_free letter_map (tget s.max_value curr_char) (value + 1)
        if value > tget s.max_value curr_char then
          after_sum_char p { s with value := value, letter_map := letter_map,
                                    backtrack := true,
                                    backtrack_count := s.backtrack_count + 1,
                                    map_count := tset s.map_count curr_char
                                      (tget s.map_count curr_char - 1) }
        else
          after_sum_char p { s with value := value, backtrack := false,
                                    letter_map := letter_map.set value.toNat curr_char,
                                    number_map := tset s.number_map curr_char value }
      else
        after_sum_char p { s with backtrack := true,
                                  backtrack_count := s.backtrack_count + 1,
                                  map_count := tset s.map_count curr_char
                                    (tget s.map_count curr_char - 1) }
    else
      if iget s.needed_carry s.curr_column > iget p.max_carry s.curr_column then
        after_sum_char p { s with backtrack := true,
                                  backtrack_count := s.backtrack_count + 1 }
      else if tget s.map_count curr_char ≠ 0 then
        after_sum_char p { s with value := tget s.number_map curr_char,
                                  map_count := tset s.map_count curr_char
                                    (tget s.map_count curr_char + 1) }
      else
        let min_value := tset s.min_value curr_char (tget p.zero_or_one_start curr_char)
        let max_possible := iget p.max_carry (s.curr_column + 1)
                            + p.max_digit * iget p.column_lengths s.curr_column
                            - iget s.needed_carry s.curr_column * p.base
        let max_value := tset s.max_value curr_char (min_of_two p.max_digit max_possible)
        let value := first_free s.letter_map (tget max_value curr_char)
                       (tget min_value curr_char)
        if value > tget max_value curr_char then
          after_sum_char p { s with min_value := min_value, max_value := max_value,
                                    value := value, backtrack := true,
                                    backtrack_count := s.backtrack_count + 1 }
        else
          after_sum_char p { s with min_value := min_value, max_value := max_value,
                                    value := value, backtrack := false,
                                    map_count := tset s.map_count curr_char
                                      (tget s.map_count curr_char + 1),
                                    letter_map := s.letter_map.set value.toNat curr_char,
                                    number_map := tset s.number_map curr_char value }

/-- The loop test `while(curr_smnd_row >= 0)` at the end of an iteration of
the summand loop. -/
def summand_loop_test (s : State) : Config :=
  .running { s with in_summands := decide (s.curr_smnd_row ≥ 0) }

/-- The tail of one iteration of the summand loop (source lines 846-896),
after the decision `backtrack` has been taken. -/
def after_summand (p : Puzzle) (s : State) : Config :=
  if s.backtrack then
    if s.curr_smnd_row = iget p.column_lengths s.curr_column - 1 then
      .running { s with in_summands := false }
    else
      summand_loop_test { s with curr_smnd_row := s.curr_smnd_row + 1 }
  else
    if s.curr_smnd_row = 0 then
      let curr_column := s.curr_column + 1
      let needed_sum := s.needed_sum - s.value
      match set_carry s.needed_carry curr_column needed_sum with
      | none => .halted .fault
      | some nc =>
        .running { s with in_summands := false, curr_column := curr_column,
                          needed_sum := needed_sum, needed_carry := nc }
    else
      summand_loop_test { s with curr_smnd_row := s.curr_smnd_row - 1,
                                 needed_sum := s.needed_sum - s.value }

/-- One iteration of `while(curr_smnd_row >= 0)` (source lines 683-897). -/
def step_summand (p : Puzzle) (s : State) : Config :=
  let curr_char := summand_char p.reform_smnds s.curr_smnd_row s.curr_column
  if s.backtrack then
    if tget s.map_count curr_char = 1 then
      let value := tget s.number_map curr_char
      let needed_sum := s.needed_sum + value
      let letter_map := s.letter_map.set value.toNat '\x00'
      let value := first_free letter_map (tget s.max_value curr_char) (value + 1)
      if value > tget s.max_value curr_char then
        after_summand p { s with value := value, needed_sum := needed_sum,
                                 letter_map := letter_map, backtrack := true,
                                 backtrack_count := s.backtrack_count + 1,
                                 map_count := tset s.map_count curr_char
                                   (tget s.map_count curr_char - 1) }
      else
        after_summand p { s with value := value, needed_sum := needed_sum,
                                 backtrack := false,
                                 letter_map := letter_map.set value.toNat curr_char,
                                 number_map := tset s.number_map curr_char value }
    else
      after_summand p { s with backtrack := true,
                               map_count := tset s.map_count curr_char
                                 (tget s.map_count curr_char - 1),
                               needed_sum := s.needed_sum + tget s.number_map curr_char }
  else
    if tget s.map_count curr_char ≠ 0 then
      let value := tget s.number_map curr_char
      if value > s.needed_sum then
        after_summand p { s with value := value, backtrack := true,
                                 backtrack_count := s.backtrack_count + 1 }
      else
        after_summand p { s with value := value, backtrack := false,
                                 map_count := tset s.map_count curr_char
                                   (tget s.map_count curr_char + 1) }
    else
      let min_possible := s.needed_sum - p.max_digit * s.curr_smnd_row
                          - iget p.max_carry (s.curr_column + 1)
      let min_value := tset s.min_value curr_char
                         (max_of_two min_possible (tget p.zero_or_one_start curr_char))
      let max_value := tset s.max_value curr_char (min_of_two p.max_digit s.needed_sum)
      let value := first_free s.letter_map (tget max_value curr_char)
                     (tget min_value curr_char)
      if value > tget max_value curr_char then
        after_summand p { s with min_value := min_value, max_value := max_value,
                                 value := value, backtrack := true,
                                 backtrack_count := s.backtrack_count + 1 }
      else
        after_summand p { s with min_value := min_value, max_value := max_value,
                                 value := value, backtrack := false,
                                 map_count := tset s.map_count curr_char
                                   (tget s.map_count curr_char + 1),
                                 letter_map := s.letter_map.set value.toNat curr_char,
                                 number_map := tset s.number_map curr_char value }

/-- One slot transition of the search loop. -/
def step (p : Puzzle) (s : State) : Config :=
  if s.in_summands then step_summand p s else step_sum p s

/-- The search loop, cut off after `fuel` slot transitions (`none`). -/
def run (p : Puzzle) : Nat → State → Option Outcome
  | 0, _ => none
  | fuel + 1, s =>
    match step p s with
    | .halted o => some o
    | .running s' => run p fuel s'

/-! ## Initialisation -/

/-- The tables filled while the sum is scanned and the summands are
reformatted (source lines 231-329). -/
structure Layout where
  letter_used : List Int
  total_letters_used : Nat
  column_lengths : List Int
  reform_smnds : List Char
  zero_or_one_start : List Int

/-- Body of the loop over the sum (source lines 232-238), without the
length count. -/
def note_letter (l : Layout) (ch : Char) : Layout :=
  if tget l.letter_used ch = 0 then
    { l with letter_used := tset l.letter_used ch 1,
             total_letters_used := l.total_letters_used + 1 }
  else l

/-- Body of the inner reformatting loop (source lines 306-323) for summand
`i`, character `j`; `none` when the write to `reform_smnds` is outside
`static_summands`. -/
def place_char (summands : List (List Char)) (summand_lengths : List Nat)
    (sum_length : Int) (i j : Nat) (l : Layout) : Option Layout :=
  let column : Int := sum_length - ((summand_lengths.getD i 0 : Int) - (j : Int))
  let curr_char := (summands.getD i []).getD j '\x00'
  let idx := summand_index (iget l.column_lengths column) column
  if 0 ≤ idx ∧ idx < (MAX_LEN * MAX_STATIC_SUMMANDS : Nat) then
    let l1 := { l with reform_smnds := l.reform_smnds.set idx.toNat curr_char,
                       column_lengths := l.column_lengths.set column.toNat
                         (iget l.column_lengths column + 1) }
    let l2 := note_letter l1 curr_char
    some (if j = 0 then
            { l2 with zero_or_one_start := tset l2.zero_or_one_start curr_char 1 }
          else l2)
  else none

/-- The reformatting loops (source lines 304-325). -/
def reformat (summands : List (List Char)) (summand_count : Nat)
    (summand_lengths : List Nat) (sum_length : Int) (l : Layout) : Option Layout :=
  (List.range summand_count).foldl
    (fun acc i =>
      (List.range (summand_lengths.getD i 0)).foldl
        (fun acc j => acc.bind (place_char summands summand_lengths sum_length i j))
        acc)
    (some l)

/-- The loop filling `max_carry` from right to left (source lines 353-357);
`n` is the number of columns still to fill. -/
def fill_max_carry (base max_digit : Int) (column_lengths : List Int) :
    Nat → List Int → List Int
  | 0, max_carry => max_carry
  | i + 1, max_carry =>
    fill_max_carry base max_digit column_lengths i
      (max_carry.set i
        (Int.tdiv (max_digit * column_lengths.getD i 0 + max_carry.getD (i + 1) 0) base))

/-- The state in which the search loop is entered (source lines 391-392). -/
def initial_state (u : Uninit) : State :=
  { in_summands := false
    curr_column := 0
    curr_smnd_row := u.curr_smnd_row
    backtrack := false
    needed_sum := u.needed_sum
    value := u.value
    letter_map := List.replicate MAX_BASE '\x00'
    map_count := List.replicate 128 0
    min_value := (List.range 128).map u.min_value
    max_value := (List.range 128).map u.max_value
    number_map := (List.range 128).map u.number_map
    needed_carry := List.replicate MAX_LEN 0
    backtrack_count := 0
    solutions_found := 0
    output := [] }

/-- The initialisation of `solve` (source lines 222-357): `Except.error` is
an early return or a fault, `Except.ok` the data the search runs on. -/
def prepare (u : Uninit) (summands : List (List Char)) (summand_count : Nat)
    (summand_lengths : List Nat) (longest_summand : Nat) (sum : List Char) (base : Nat)
    (print just_one : Bool) : Except Outcome Puzzle :=
  let l0 : Layout :=
    { letter_used := List.replicate 128 0
      total_letters_used := 0
      column_lengths := List.replicate (MAX_LEN + 1) 0
      reform_smnds := (List.range (MAX_LEN * MAX_STATIC_SUMMANDS)).map u.static_summands
      zero_or_one_start := List.replicate 128 0 }
  let l1 := sum.foldl note_letter l0
  let sum_length := sum.length
  if sum_length > MAX_LEN ∨ longest_summand > MAX_LEN then
    .error (.returned 0 0 [.too_long])
  else if longest_summand > sum_length then
    .error (.returned 0 0 [])
  else
    match reformat summands summand_count summand_lengths sum_length l1 with
    | none => .error .fault
    | some l2 =>
      let zero_or_one_start := tset l2.zero_or_one_start (sum.getD 0 '\x00') 1
      if l2.total_letters_used > base then
        .error (.returned 0 0 [])
      else
        .ok { sum := sum
              sum_length := sum_length
              base := base
              max_digit := (base : Int) - 1
              column_lengths := l2.column_lengths
              reform_smnds := l2.reform_smnds
              zero_or_one_start := zero_or_one_start
              max_carry := fill_max_carry base ((base : Int) - 1) l2.column_lengths
                             sum_length (List.replicate (MAX_LEN + 1) 0)
              print := print
              just_one := just_one }

/-- The function `solve`: `none` when the search loop is still running after
`fuel` slot transitions. -/
def solve (u : Uninit) (fuel : Nat) (summands : List (List Char)) (summand_count : Nat)
    (summand_lengths : List Nat) (longest_summand : Nat) (sum : List Char) (base : Nat)
    (print just_one : Bool) : Option Outcome :=
  match prepare u summands summand_count summand_lengths longest_summand sum base
      print just_one with
  | .error o => some o
  | .ok p => run p fuel (initial_state u)

/-! ## Running the search step by step -/

/-- The configuration after `n` slot transitions from `s`. -/
def iterate (p : Puzzle) : Nat → State → Config
  | 0, s => .running s
  | n + 1, s =>
    match step p s with
    | .halted o => .halted o
    | .running s' => iterate p n s'

/-- The search of a `solve` call after `n` slot transitions: the prepared
puzzle and the state, when the call is still searching. -/
def search_state (u : Uninit) (n : Nat) (summands : List (List Char)) (summand_count : Nat)
    (summand_lengths : List Nat) (longest_summand : Nat) (sum : List Char) (base : Nat)
    (print just_one : Bool) : Option (Puzzle × State) :=
  match prepare u summands summand_count summand_lengths longest_summand sum base
      print just_one with
  | .error _ => none
  | .ok p =>
    match iterate p n (initial_state u) with
    | .running s => some (p, s)
    | .halted _ => none

/-- The state is about to accept a solution: it stands at the top of
`while(1)` with `curr_column == sum_length` and `needed_carry[curr_column] == 0`,
the condition under which `solutions_found++` is executed. -/
def accepting (p : Puzzle) (s : State) : Bool :=
  !s.in_summands && decide (s.curr_column = p.sum_length)
    && decide (iget s.needed_carry s.curr_column = 0)

/-! ## Validated input -/

/-- A word as the front end delivers it: non-empty, at most `MAX_LEN`
letters, all of them uppercase. -/
def is_word (w : List Char) : Bool :=
  decide (w ≠ []) && decide (w.length ≤ MAX_LEN) && w.all (fun c => decide ('A' ≤ c ∧ c ≤ 'Z'))

/-- A validated call of `solve`: base between 2 and `MAX_BASE`, at least one
summand, all words validated, and `summand_count`, `summand_lengths`,
`longest_summand` describing the summands. -/
def valid_instance (summands : List (List Char)) (summand_count : Nat)
    (summand_lengths : List Nat) (longest_summand : Nat) (sum : List Char) (base : Nat) :
    Bool :=
  decide (2 ≤ base) && decide (base ≤ MAX_BASE) && decide (1 ≤ summand_count)
    && decide (summand_count = summands.length)
    && decide (summand_lengths = summands.map List.length)
    && decide (longest_summand = (summands.map List.length).foldl max 0)
    && is_word sum && summands.all is_word

/-- The facts a validated call provides, as propositions. -/
structure ValidFacts (summands : List (List Char)) (summand_count : Nat)
    (summand_lengths : List Nat) (longest_summand : Nat) (sum : List Char) (base : Nat) :
    Prop where
  base_lo : 2 ≤ base
  base_hi : base ≤ MAX_BASE
  count_pos : 1 ≤ summand_count
  count_eq : summand_count = summands.length
  lengths_eq : summand_lengths = summands.map List.length
  longest_eq : longest_summand = (summands.map List.length).foldl max 0
  sum_word : is_word sum = true
  words : ∀ w ∈ summands, is_word w = true

/-! ## Specification of a solution -/

/-- The distinct letters of a puzzle. -/
def puzzle_letters (summands : List (List Char)) (sum : List Char) : List Char :=
  (sum ++ summands.flatten).dedup

/-- The base-`base` value of a word under a letter-to-digit map. -/
def word_value (base : Int) (f : Char → Int) (w : List Char) : Int :=
  w.foldl (fun acc c => acc * base + f c) 0

/-- The letter-to-digit map a state holds in `number_map`. -/
def mapping (s : State) : Char → Int := fun ch => tget s.number_map ch

/-- The search of the call stands, after `n` slot transitions, at the point
where it accepts a solution. -/
def accepts_at (u : Uninit) (n : Nat) (summands : List (List Char)) (summand_count : Nat)
    (summand_lengths : List Nat) (longest_summand : Nat) (sum : List Char) (base : Nat)
    (print just_one : Bool) : Bool :=
  match search_state u n summands summand_count summand_lengths longest_summand sum base
      print just_one with
  | some (p, s) => accepting p s
  | none => false

/-- The letter-to-digit map the search of the call holds after `n` slot
transitions. -/
def mapping_at (u : Uninit) (n : Nat) (summands : List (List Char)) (summand_count : Nat)
    (summand_lengths : List Nat) (longest_summand : Nat) (sum : List Char) (base : Nat)
    (print just_one : Bool) : Char → Int :=
  match search_state u n summands summand_count summand_lengths longest_summand sum base
      print just_one with
  | some (_, s) => mapping s
  | none => fun _ => 0

/-! ## The columns of a puzzle and the search invariant -/

/-- The summand letters of column `c` when the summands are right-justified
under a sum of `L` letters, in summand order. -/
def column_letters (summands : List (List Char)) (L c : Nat) : List Char :=
  summands.filterMap fun w => if L - c ≤ w.length then w.get? (w.length - (L - c)) else none

/-- The columns of a puzzle, most significant first. -/
def columns (summands : List (List Char)) (L : Nat) : List (List Char) :=
  (List.range L).map (column_letters summands L)

/-- The letters of the slots of the columns before column `c`. -/
def prefix_letters (sum : List Char) (cols : List (List Char)) : Nat → List Char
  | 0 => []
  | c + 1 => prefix_letters sum cols c ++ (sum.getD c '\x00' :: cols.getD c [])

/-- The carry that column `c` has to deliver to column `c - 1` under the
letter-to-digit map `f`: `0` for column 0, and
`digit(sum[c]) + base * carry(c) - (digits of column c)` for column `c + 1`. -/
def carry_of (base : Int) (sum : List Char) (cols : List (List Char)) (f : Char → Int) :
    Nat → Int
  | 0 => 0
  | c + 1 => f (sum.getD c '\x00') + base * carry_of base sum cols f c
             - ((cols.getD c []).map f).sum

/-- What is left of the target of column `c` once the letters `rest` of the
column have been given their digits. -/
def column_target (base : Int) (sum : List Char) (cols : List (List Char)) (f : Char → Int)
    (c : Nat) (rest : List Char) : Int :=
  f (sum.getD c '\x00') + base * carry_of base sum cols f c - (rest.map f).sum

/-- The static facts about a prepared puzzle that the search relies on;
`cols` are its columns. -/
structure PuzzleOK (p : Puzzle) (cols : List (List Char)) : Prop where
  sum_length : p.sum_length = p.sum.length
  sum_pos : 1 ≤ p.sum.length
  sum_le : p.sum.length ≤ MAX_LEN
  cols_length : cols.length = p.sum.length
  base_lo : 2 ≤ p.base
  base_hi : p.base ≤ MAX_BASE
  max_digit : p.max_digit = p.base - 1
  col_len : ∀ c, c < p.sum.length → iget p.column_lengths c = (cols.getD c []).length
  grid : ∀ c, c < p.sum.length → ∀ r, r < (cols.getD c []).length →
    summand_char p.reform_smnds r c = (cols.getD c []).getD r '\x00'
  last_col : cols.getD (p.sum.length - 1) [] ≠ []
  sum_letters : ∀ ch ∈ p.sum, ch ≠ '\x00' ∧ ch.toNat < 128
  col_letters : ∀ col ∈ cols, ∀ ch ∈ col, ch ≠ '\x00' ∧ ch.toNat < 128
  zos_lo : ∀ ch, 0 ≤ tget p.zero_or_one_start ch

/-- `map_count` counts the occurrences of every letter on the path `seen`. -/
def CountOK (map_count : List Int) (seen : List Char) : Prop :=
  map_count.length = 128 ∧ ∀ ch : Char, tget map_count ch = seen.count ch

/-- The letters on the path `seen` have admissible digits, and `letter_map`
is the inverse of `number_map` on them. -/
structure AsgOK (p : Puzzle) (number_map max_value : List Int) (letter_map : List Char)
    (seen : List Char) : Prop where
  len_nm : number_map.length = 128
  len_mv : max_value.length = 128
  len_lm : letter_map.length = MAX_BASE
  digit : ∀ ch ∈ seen, 0 ≤ tget number_map ch ∧ tget number_map ch ≤ p.max_digit
    ∧ tget p.zero_or_one_start ch ≤ tget number_map ch
    ∧ cget letter_map (tget number_map ch) = ch
  owner : ∀ d : Nat, d < MAX_BASE → letter_map.getD d '\x00' ≠ '\x00' →
    letter_map.getD d '\x00' ∈ seen ∧ tget number_map (letter_map.getD d '\x00') = d
  maxv : ∀ ch ∈ seen, tget max_value ch ≤ p.max_digit
  letter : ∀ ch ∈ seen, ch ≠ '\x00' ∧ ch.toNat < 128

/-- The entries of `needed_carry` up to column `c` are the carries of the
current map. -/
def CarryOK (p : Puzzle) (cols : List (List Char)) (number_map needed_carry : List Int)
    (c : Nat) : Prop :=
  needed_carry.length = MAX_LEN ∧ c < MAX_LEN ∧
  ∀ c', c' ≤ c → needed_carry.getD c' 0 = carry_of p.base p.sum cols (tget number_map) c'

/-- The letters on the current path of the search: the slots of the finished
columns, and the slots of the current column that have been passed. -/
def seen (p : Puzzle) (cols : List (List Char)) (in_summands backtrack : Bool) (c r : Nat) :
    List Char :=
  prefix_letters p.sum cols c ++
    (if in_summands then
       p.sum.getD c '\x00' :: (cols.getD c []).drop (if backtrack then r else r + 1)
     else if backtrack then [p.sum.getD c '\x00'] else [])

/-- The search invariant: the state stands at column `c` (row `r` when in the
summand loop), its tables describe the path to that slot, and `needed_carry`
and `needed_sum` are the carries and the column target of the current map. -/
structure GoodAt (p : Puzzle) (cols : List (List Char)) (s : State) (c r : Nat) : Prop where
  col_eq : s.curr_column = c
  row_eq : s.in_summands = true → s.curr_smnd_row = r
  col_le : c ≤ p.sum.length
  col_lt : s.in_summands = true ∨ s.backtrack = true → c < p.sum.length
  row_lt : s.in_summands = true → r < (cols.getD c []).length
  count : CountOK s.map_count (seen p cols s.in_summands s.backtrack c r)
  asg : AsgOK p s.number_map s.max_value s.letter_map (seen p cols s.in_summands s.backtrack c r)
  carry : CarryOK p cols s.number_map s.needed_carry c
  need_row : s.in_summands = true →
    s.needed_sum = column_target p.base p.sum cols (tget s.number_map) c
      ((cols.getD c []).drop (if s.backtrack then r else r + 1))
  need_sum : s.in_summands = false → s.backtrack = false → 1 ≤ c →
    s.needed_sum = carry_of p.base p.sum cols (tget s.number_map) c
  len_min : s.min_value.length = 128

/-- The search invariant, at some column and row. -/
def Good (p : Puzzle) (cols : List (List Char)) (s : State) : Prop :=
  ∃ c r, GoodAt p cols s c r

/-- The invariant lifted to configurations. -/
def GoodC (p : Puzzle) (cols : List (List Char)) : Config → Prop
  | .running s => Good p cols s
  | .halted _ => True

/-! ## The prepared puzzle -/

/-- The letter `ch` is the first letter of one of the words. -/
def leads (ws : List (List Char)) (ch : Char) : Prop := ∃ w ∈ ws, w.head? = some ch

/-- The layout tables after the summands `done` and the first `j` letters of
the summand `w` have been placed under a sum of `L` letters. -/
structure LayoutMid (done : List (List Char)) (w : List Char) (j L : Nat) (l : Layout) :
    Prop where
  len_cl : l.column_lengths.length = MAX_LEN + 1
  len_grid : l.reform_smnds.length = MAX_LEN * MAX_STATIC_SUMMANDS
  len_zos : l.zero_or_one_start.length = 128
  col_len : ∀ c, c < L → l.column_lengths.getD c 0
    = (((column_letters done L c).length
        + if L - w.length ≤ c ∧ c < L - w.length + j then 1 else 0 : Nat) : Int)
  grid : ∀ c, c < L → ∀ r, r < (column_letters done L c).length →
    l.reform_smnds.getD (r * 16 + c) '\x00' = (column_letters done L c).getD r '\x00'
  grid_new : ∀ c, c < L → L - w.length ≤ c → c < L - w.length + j →
    l.reform_smnds.getD ((column_letters done L c).length * 16 + c) '\x00'
      = w.getD (c - (L - w.length)) '\x00'
  zos_one : ∀ ch : Char, leads done ch ∨ (0 < j ∧ w.head? = some ch) →
    tget l.zero_or_one_start ch = 1
  zos_zero : ∀ ch : Char, ¬ (leads done ch ∨ (0 < j ∧ w.head? = some ch)) →
    tget l.zero_or_one_start ch = 0

/-- What `prepare` delivers for the puzzle `summands`, `sum`, `base`: the
static facts the search relies on, for the columns of the puzzle, and the
meaning of `zero_or_one_start`. -/
structure Prepared (summands : List (List Char)) (sum : List Char) (base : Nat)
    (print just_one : Bool) (p : Puzzle) : Prop where
  ok : PuzzleOK p (columns summands sum.length)
  sum_eq : p.sum = sum
  base_eq : p.base = base
  print_eq : p.print = print
  just_one_eq : p.just_one = just_one
  words_le : ∀ w ∈ summands, w.length ≤ sum.length
  zos_one : ∀ ch : Char, leads (sum :: summands) ch → tget p.zero_or_one_start ch = 1
  zos_zero : ∀ ch : Char, ¬ leads (sum :: summands) ch → tget p.zero_or_one_start ch = 0

/-! ## The count of distinct letters -/

/-- The tables `letter_used` and `total_letters_used` after the letters `S`
have been noted. -/
structure UsedOK (l : Layout) (S : List Char) : Prop where
  len : l.letter_used.length = 128
  used : ∀ ch : Char, tget l.letter_used ch = 0 ↔ ch ∉ S
  total : l.total_letters_used = S.dedup.length
  code : ∀ ch ∈ S, ch.toNat < 128

/-! ## The rank of a search state -/

/-- The slots of column `c` in the order the search passes them: the sum
character, then the summand rows from the last one down to row 0. -/
def col_path (sum : List Char) (cols : List (List Char)) (c : Nat) : List Char :=
  sum.getD c '\x00' :: (cols.getD c []).reverse

/-- The slots of the columns before `c`, in the order of the search. -/
def prefix_path (sum : List Char) (cols : List (List Char)) : Nat → List Char
  | 0 => []
  | c + 1 => prefix_path sum cols c ++ col_path sum cols c

/-- The slots on the current path, in the order of the search. -/
def path (p : Puzzle) (cols : List (List Char)) (in_summands backtrack : Bool) (c r : Nat) :
    List Char :=
  prefix_path p.sum cols c ++
    (if in_summands then
       p.sum.getD c '\x00' :: ((cols.getD c []).drop (if backtrack then r else r + 1)).reverse
     else if backtrack then [p.sum.getD c '\x00'] else [])

/-- The path of a state, read off its position. -/
def trail (p : Puzzle) (cols : List (List Char)) (s : State) : List Char :=
  path p cols s.in_summands s.backtrack s.curr_column.toNat s.curr_smnd_row.toNat

/-- The numeral with the digits `l` in base `B`, most significant first. -/
def enc (B : Int) (l : List Int) : Int := l.foldl (fun a e => a * B + e) 0

/-- The rank of a list of entries, padded to `M` places; a backtracking state
ranks above the forward state with the same entries. -/
def score (B : Int) (M : Nat) (es : List Int) (bt : Bool) : Int :=
  (enc B es + if bt then 1 else 0) * B ^ (M - es.length)

/-- The rank of a state: its path as a numeral of the digits chosen along
it.  Every slot transition raises it. -/
def rank (p : Puzzle) (cols : List (List Char)) (s : State) : Int :=
  score (2 * p.base + 2) (prefix_path p.sum cols p.sum.length).length
    ((trail p cols s).map fun x => 2 * (tget s.number_map x + 1)) s.backtrack

/-- A number of slot transitions within which every search on the puzzle has
ended: one more than the number of ranks. -/
def fuel_bound (summands : List (List Char)) (sum : List Char) (base : Nat) : Nat :=
  (2 * base + 2) ^ (prefix_path sum (columns summands sum.length) sum.length).length + 1

/-! ## Runs that differ only in the uninitialised storage -/

/-- Two tables agree on the entries whose `map_count` is non-zero. -/
def Agree (map_count t t' : List Int) : Prop :=
  t.length = t'.length ∧ ∀ i, map_count.getD i 0 ≠ 0 → t.getD i 0 = t'.getD i 0

/-- Two states that differ at most in `number_map`, `max_value` and
`min_value`, and there only at letters that have no digit. -/
structure Twin (s s' : State) : Prop where
  same : s' = { s with number_map := s'.number_map, max_value := s'.max_value,
                       min_value := s'.min_value }
  nm : Agree s.map_count s.number_map s'.number_map
  mv : Agree s.map_count s.max_value s'.max_value
  minv : s.min_value.length = s'.min_value.length

/-- Twin configurations: twin states, or the same outcome. -/
def TwinC : Config → Config → Prop
  | .running s, .running s' => Twin s s'
  | .halted o, .halted o' => o = o'
  | _, _ => False

/-- Two prepared puzzles that differ at most in the grid `reform_smnds`. -/
def TwinP (p p' : Puzzle) : Prop := p' = { p with reform_smnds := p'.reform_smnds }

/-- The layout without the contents of the grid. -/
def Layout.blank (l : Layout) : Layout := { l with reform_smnds := [] }

/-- A finished call reports difficulty 0 only under `just_one`, and otherwise
a difficulty from 1 to 5. -/
def HD (p : Puzzle) : Config → Prop
  | .running _ => True
  | .halted o => ∀ n d out, o = .returned n d out →
      (d = 0 ∧ p.just_one = true) ∨ (1 ≤ d ∧ d ≤ 5)

/-! ## Printed solutions: definitions -/

/-- The configuration carries the count `k` and the output `out`. -/
def Keeps (k : Nat) (out : List Line) : Config → Prop
  | .running s => s.solutions_found = k ∧ s.output = out
  | .halted o => o = .fault ∨ ∃ d, o = .returned k d out

/-- The messages `upcase_and_check_legality` prints. -/
inductive Notice where
  | not_letters
  | word_too_long
  deriving DecidableEq, Repr

/-- What `upcase_and_check_legality` leaves behind: the returned flag, the
string written back over the argument, `*string_length`, and the messages
printed. -/
structure Checked where
  result : Nat
  string : List Char
  string_length : Nat
  notices : List Notice
  deriving DecidableEq, Repr

/-- The test `c == ' ' || c == '\t'`. -/
def is_blank (c : Char) : Bool := c == ' ' || c == '\t'

/-- The C library `isalpha` in the "C" locale. -/
def isalpha (c : Char) : Bool :=
  (decide ('A' ≤ c) && decide (c ≤ 'Z')) || (decide ('a' ≤ c) && decide (c ≤ 'z'))

/-- The C library `toupper` in the "C" locale. -/
def toupper (c : Char) : Char :=
  if 'a' ≤ c ∧ c ≤ 'z' then Char.ofNat (c.toNat - 32) else c

/-- The loops `while(*ch_p == ' ' || *ch_p == '\t') ch_p++` (source lines
942-944 and 969-971): what is left of the string. -/
def skip_blanks : List Char → List Char
  | [] => []
  | c :: cs => if is_blank c then skip_blanks cs else c :: cs

/-- The copy loop (source lines 950-962): the flag, the copied characters,
the messages, and what is left of the string. -/
def copy_word (result : Nat) (new_str : List Char) (notices : List Notice) :
    List Char → Nat × List Char × List Notice × List Char
  | [] => (result, new_str, notices, [])
  | c :: cs =>
    if c ≠ '\x00' ∧ c ≠ ' ' ∧ c ≠ '\t' then
      if result ≠ 0 ∧ ¬ isalpha c then
        copy_word 0 (new_str ++ [toupper c]) (notices ++ [.not_letters]) cs
      else
        copy_word result (new_str ++ [toupper c]) notices cs
    else (result, new_str, notices, c :: cs)

/-- The function `upcase_and_check_legality` on the characters of a C string. -/
def upcase_and_check_legality (string : List Char) : Checked :=
  let ch_p := skip_blanks string
  let r := copy_word 1 [] [] ch_p
  let result := r.1
  let new_str := r.2.1
  let notices := r.2.2.1
  let ch_p := skip_blanks r.2.2.2
  let bad := decide (result ≠ 0 ∧ ch_p.headD '\x00' ≠ '\x00')
  let result := if bad then 0 else result
  let notices := if bad then notices ++ [.not_letters] else notices
  let length := new_str.length
  let long := decide (length > MAX_LEN)
  let result := if long then 0 else result
  let notices := if long then notices ++ [.word_too_long] else notices
  { result := result, string := new_str, string_length := length, notices := notices }

/-- The first run of characters other than blanks after the leading blanks
of a string. -/
def word_run (s : List Char) : List Char :=
  (s.dropWhile is_blank).takeWhile fun c => !is_blank c

/-! ## The puzzle finder: definitions -/

/-- One invocation of `solve` by the puzzle finder: the index of the sum, the
contents of `smnd_word_index`, the arguments passed, and what `solve` handed
back. -/
structure Call where
  sum_index : Nat
  indices : List Nat
  summands : List (List Char)
  summand_lengths : List Nat
  longest_summand : Nat
  solutions : Nat
  difficulty : Nat
  printed : List Line
  deriving DecidableEq, Repr

/-- A line on stdout during a search for puzzles: a line printed by `solve`,
or the line of an accepted puzzle (`solutions` is the bracketed count, printed
when `exactly_one` is clear). -/
inductive Report where
  | engine (l : Line)
  | puzzle (solutions : Option Nat) (summands : List (List Char)) (sum : List Char)
      (difficulty : Nat)
  deriving DecidableEq, Repr

/-- The arguments of `look_for_puzzles_specific_count`. -/
structure Finder where
  words : List (List Char)
  word_count : Nat
  base : Nat
  word_lengths : List Nat
  bit_count : List Nat
  letters_used : List Nat
  summand_count : Nat
  exactly_one : Bool
  disallow_rep : Bool
  first_sum_only : Bool

/-- Initial contents of the five arrays `look_for_puzzles_specific_count`
allocates and does not initialise. -/
structure Fresh where
  longest_smnd : Nat → Nat
  smnd_word_index : Nat → Nat
  smnd_word_ptrs : Nat → List Char
  smnd_word_lengths : Nat → Nat
  smnd_letter_map : Nat → Nat

/-- An all-zero choice of the fresh arrays. -/
def Fresh.zero : Fresh :=
  { longest_smnd := fun _ => 0
    smnd_word_index := fun _ => 0
    smnd_word_ptrs := fun _ => []
    smnd_word_lengths := fun _ => 0
    smnd_letter_map := fun _ => 0 }

/-- The variables of `look_for_puzzles_specific_count` that change during the
search, at the top of `while(smnd_index >= 0)`; `calls` records the
invocations of `solve` so far. -/
structure FindState where
  sum_index : Nat
  smnd_index : Int
  backtrack : Bool
  longest_smnd : List Nat
  smnd_word_index : List Nat
  smnd_word_ptrs : List (List Char)
  smnd_word_lengths : List Nat
  smnd_letter_map : List Nat
  good_puzzles : Nat
  puzzles_tried : Nat
  output : List Report
  calls : List Call

/-- What a search for puzzles hands back: the returned number of good
puzzles, the number of puzzles tried, the lines written and the invocations of
`solve`; or `fault` when the run read or wrote outside an array, or `solve`
did. -/
inductive FindOutcome where
  | returned (good_puzzles : Nat) (search_count : Nat) (output : List Report)
      (calls : List Call)
  | fault
  deriving DecidableEq, Repr

/-- A running search for puzzles or a finished one. -/
inductive FindConfig where
  | running (s : FindState)
  | halted (o : FindOutcome)

/-- The number of letters of a letter map: the sum of `bit_count` over its
three 9-bit chunks (source lines 1182-1184). -/
def total_letters (bit_count : List Nat) (letter_map : Nat) : Nat :=
  bit_count.getD (letter_map &&& 0x1ff) 0
    + bit_count.getD ((letter_map >>> 9) &&& 0x1ff) 0
    + bit_count.getD ((letter_map >>> 18) &&& 0x1ff) 0

/-- The loop `while(try_ind < index_limit)` (source lines 1158-1193): the
value of `try_ind` when the loop is left, after at most `n` passes.  With
`filters` clear the tests on the word length and the number of letters are
left out. -/
def next_candidate (f : Finder) (filters : Bool) (sum_index sum_length prev_map : Nat)
    (index_limit : Int) : Nat → Nat → Nat
  | 0, try_ind => try_ind
  | n + 1, try_ind =>
    if (try_ind : Int) < index_limit then
      if try_ind = sum_index then
        next_candidate f filters sum_index sum_length prev_map index_limit n (try_ind + 1)
      else if filters = true ∧ f.word_lengths.getD try_ind 0 > sum_length then
        next_candidate f filters sum_index sum_length prev_map index_limit n (try_ind + 1)
      else if filters = true
          ∧ total_letters f.bit_count (prev_map ||| f.letters_used.getD try_ind 0) > f.base then
        next_candidate f filters sum_index sum_length prev_map index_limit n (try_ind + 1)
      else try_ind
    else try_ind

/-- The index the inner loop starts from (source lines 1128-1144). -/
def start_index (f : Finder) (s : FindState) : Nat :=
  if s.backtrack then s.smnd_word_index.getD s.smnd_index.toNat 0 + 1
  else if s.smnd_index = 0 then 0
  else s.smnd_word_index.getD (s.smnd_index.toNat - 1) 0 + (if f.disallow_rep then 1 else 0)

/-- The bound `index_limit` of the inner loop (source lines 1152-1157). -/
def index_limit (f : Finder) (s : FindState) : Int :=
  if f.disallow_rep then (f.word_count : Int) - ((f.summand_count : Int) - s.smnd_index - 1)
  else f.word_count

/-- The letters used before the current summand place: those of the sum at
place 0, else `smnd_letter_map[smnd_index - 1]` (source lines 1178-1181). -/
def prev_letter_map (f : Finder) (s : FindState) : Nat :=
  if s.smnd_index = 0 then f.letters_used.getD s.sum_index 0
  else s.smnd_letter_map.getD (s.smnd_index.toNat - 1) 0

/-- The value of `try_ind` after the inner loop. -/
def found_index (f : Finder) (filters : Bool) (s : FindState) : Nat :=
  next_candidate f filters s.sum_index (f.word_lengths.getD s.sum_index 0) (prev_letter_map f s)
    (index_limit f s) (index_limit f s - start_index f s).toNat (start_index f s)

/-- Backtracking: `backtrack = 1; smnd_index--`. -/
def FindState.retreat (s : FindState) : FindState :=
  { s with backtrack := true, smnd_index := s.smnd_index - 1 }

/-- Going forward with the word `try_ind` in the current place (source lines
1210-1229). -/
def advance (f : Finder) (s : FindState) (try_ind : Nat) : FindState :=
  { s with
    backtrack := false
    smnd_word_index := s.smnd_word_index.set s.smnd_index.toNat try_ind
    smnd_word_ptrs := s.smnd_word_ptrs.set s.smnd_index.toNat (f.words.getD try_ind [])
    smnd_word_lengths := s.smnd_word_lengths.set s.smnd_index.toNat
      (f.word_lengths.getD try_ind 0)
    smnd_letter_map := s.smnd_letter_map.set s.smnd_index.toNat
      (prev_letter_map f s ||| f.letters_used.getD try_ind 0)
    longest_smnd := s.longest_smnd.set s.smnd_index.toNat
      (if s.smnd_index = 0 then f.word_lengths.getD try_ind 0
       else if f.word_lengths.getD try_ind 0 > s.longest_smnd.getD (s.smnd_index.toNat - 1) 0
       then f.word_lengths.getD try_ind 0
       else s.longest_smnd.getD (s.smnd_index.toNat - 1) 0)
    smnd_index := s.smnd_index + 1 }

/-- The record of the invocation of `solve` in state `s` that returned
`solutions`, `difficulty` and the lines `printed`. -/
def call_of (s : FindState) (solutions difficulty : Nat) (printed : List Line) : Call :=
  { sum_index := s.sum_index
    indices := s.smnd_word_index
    summands := s.smnd_word_ptrs
    summand_lengths := s.smnd_word_lengths
    longest_summand := s.longest_smnd.getD (s.smnd_index - 1).toNat 0
    solutions := solutions
    difficulty := difficulty
    printed := printed }

/-- After `solve` has returned on a full set of summands (source lines
1079-1124): count, print the puzzle when it is accepted, backtrack. -/
def after_solve (f : Finder) (s : FindState) (solutions difficulty : Nat)
    (printed : List Line) : FindState :=
  let good := decide (solutions = 1 ∨ (solutions > 0 ∧ f.exactly_one = false))
  { s with
    puzzles_tried := s.puzzles_tried + 1
    good_puzzles := if good then s.good_puzzles + 1 else s.good_puzzles
    output := s.output ++ printed.map Report.engine ++
      (if good then
         [.puzzle (if f.exactly_one then none else some solutions) s.smnd_word_ptrs
           (f.words.getD s.sum_index []) difficulty]
       else [])
    calls := s.calls ++ [call_of s solutions difficulty printed]
    backtrack := true
    smnd_index := s.smnd_index - 1 }

/-- One pass through the body of `while(smnd_index >= 0)` (source lines
1068-1232).  `none`: the invocation of `solve` is still running after `fuel`
slot transitions.  Reading `longest_smnd[-1]` (no summands) and writing past
the arrays are faults. -/
def find_body (u : Nat → Uninit) (fuel : Nat) (f : Finder) (filters : Bool) (s : FindState) :
    Option FindConfig :=
  if s.smnd_index = f.summand_count then
    if f.summand_count = 0 then some (.halted .fault)
    else
      match solve (u s.calls.length) fuel s.smnd_word_ptrs f.summand_count s.smnd_word_lengths
          (s.longest_smnd.getD (s.smnd_index - 1).toNat 0) (f.words.getD s.sum_index [])
          f.base false false with
      | none => none
      | some .fault => some (.halted .fault)
      | some (.returned solutions difficulty printed) =>
        some (.running (after_solve f s solutions difficulty printed))
  else if (found_index f filters s : Int) ≥ index_limit f s then
    some (.running s.retreat)
  else if s.smnd_index.toNat < f.summand_count then
    some (.running (advance f s (found_index f filters s)))
  else some (.halted .fault)

/-- The head of `for(sum_index = 0; sum_index < sum_index_limit; sum_index++)`
with the assignments before the inner loop (source lines 1053-1067), and the
return when the loop is over. -/
def enter_sum (f : Finder) (s : FindState) : FindConfig :=
  if s.sum_index < (if f.first_sum_only then 1 else f.word_count) then
    if s.sum_index < f.word_count then
      .running { s with smnd_index := 0, backtrack := false }
    else .halted .fault
  else .halted (.returned s.good_puzzles s.puzzles_tried s.output s.calls)

/-- One transition of the search for puzzles: a pass through the inner loop,
or, when `smnd_index` is negative, the step of the outer loop to the next
sum. -/
def find_step (u : Nat → Uninit) (fuel : Nat) (f : Finder) (filters : Bool) (s : FindState) :
    Option FindConfig :=
  if s.smnd_index ≥ 0 then find_body u fuel f filters s
  else some (enter_sum f { s with sum_index := s.sum_index + 1 })

/-- At most `n` transitions from `s`. -/
def find_run (u : Nat → Uninit) (fuel : Nat) (f : Finder) (filters : Bool) :
    Nat → FindState → Option FindOutcome
  | 0, _ => none
  | n + 1, s =>
    match find_step u fuel f filters s with
    | none => none
    | some (.halted o) => some o
    | some (.running s') => find_run u fuel f filters n s'

/-- The state of `look_for_puzzles_specific_count` before the outer loop. -/
def find_init (h : Fresh) (f : Finder) : FindState :=
  { sum_index := 0
    smnd_index := 0
    backtrack := false
    longest_smnd := (List.range f.summand_count).map h.longest_smnd
    smnd_word_index := (List.range f.summand_count).map h.smnd_word_index
    smnd_word_ptrs := (List.range f.summand_count).map h.smnd_word_ptrs
    smnd_word_lengths := (List.range f.summand_count).map h.smnd_word_lengths
    smnd_letter_map := (List.range f.summand_count).map h.smnd_letter_map
    good_puzzles := 0
    puzzles_tried := 0
    output := []
    calls := [] }

/-- The search for puzzles with a fixed number of summands, run for at most
`steps` transitions with at most `fuel` slot transitions in each invocation of
`solve` (`none`: still running).  With `filters` set it is the function
`look_for_puzzles_specific_count`. -/
def find_puzzles (u : Nat → Uninit) (h : Fresh) (fuel steps : Nat) (f : Finder)
    (filters : Bool) : Option FindOutcome :=
  match enter_sum f (find_init h f) with
  | .halted o => some o
  | .running s => find_run u fuel f filters steps s

/-- The function `look_for_puzzles_specific_count`. -/
def look_for_puzzles_specific_count (u : Nat → Uninit) (h : Fresh) (fuel steps : Nat)
    (f : Finder) : Option FindOutcome :=
  find_puzzles u h fuel steps f true

/-- The table `bit_count` (source lines 1288-1294). -/
def bit_count_table : List Nat :=
  (List.range 512).map fun i => ((List.range 9).map fun j => (i >>> j) &&& 1).sum

/-- The letter map of a word (source lines 1300-1303). -/
def word_letter_map (word : List Char) (length : Nat) : Nat :=
  (List.range length).foldl
    (fun m j => m ||| (1 <<< ((word.getD j '\x00').toNat - ('A' : Char).toNat))) 0

/-- The array `letters_used` (source lines 1298-1304). -/
def letters_used_table (words : List (List Char)) (word_count : Nat) (word_lengths : List Nat) :
    List Nat :=
  (List.range word_count).map fun i => word_letter_map (words.getD i []) (word_lengths.getD i 0)

/-- The loop over the summand counts in `look_for_puzzles` (source lines
1308-1321), for `n` more counts from `summand_count` on. -/
def count_loop (u : Nat → Nat → Uninit) (h : Nat → Fresh) (fuel steps : Nat) (f : Finder)
    (filters : Bool) : Nat → Nat → Nat → Nat → List Report → List Call → Option FindOutcome
  | 0, _, number_found, total_searched, output, calls =>
    some (.returned number_found total_searched output calls)
  | n + 1, summand_count, number_found, total_searched, output, calls =>
    match find_puzzles (u summand_count) (h summand_count) fuel steps
        { f with summand_count := summand_count } filters with
    | none => none
    | some .fault => some .fault
    | some (.returned good search_count out cs) =>
      count_loop u h fuel steps f filters n (summand_count + 1) (number_found + good)
        (total_searched + search_count) (output ++ out) (calls ++ cs)

/-- The search for puzzles over a range of summand counts; with `filters` set
it is the function `look_for_puzzles`. -/
def find_all (u : Nat → Nat → Uninit) (h : Nat → Fresh) (fuel steps : Nat)
    (words : List (List Char)) (word_count : Nat) (word_lengths : List Nat) (base : Nat)
    (low_summand_count high_summand_count : Nat)
    (exactly_one disallow_rep first_sum_only : Bool) (filters : Bool) : Option FindOutcome :=
  count_loop u h fuel steps
    { words := words
      word_count := word_count
      base := base
      word_lengths := word_lengths
      bit_count := bit_count_table
      letters_used := letters_used_table words word_count word_lengths
      summand_count := low_summand_count
      exactly_one := exactly_one
      disallow_rep := disallow_rep
      first_sum_only := first_sum_only } filters
    (high_summand_count + 1 - low_summand_count) low_summand_count 0 0 [] []

/-- The function `look_for_puzzles`. -/
def look_for_puzzles (u : Nat → Nat → Uninit) (h : Nat → Fresh) (fuel steps : Nat)
    (words : List (List Char)) (word_count : Nat) (word_lengths : List Nat) (base : Nat)
    (low_summand_count high_summand_count : Nat)
    (exactly_one disallow_rep first_sum_only : Bool) : Option FindOutcome :=
  find_all u h fuel steps words word_count word_lengths base low_summand_count
    high_summand_count exactly_one disallow_rep first_sum_only true

/-- The acceptance policy in words: exactly one solution when `exactly_one`
is set, at least one when it is clear. -/
def acceptance (exactly_one : Bool) (solutions : Nat) : Bool :=
  if exactly_one then decide (solutions = 1) else decide (solutions ≥ 1)

/-- The lines written for one invocation of `solve`: what `solve` printed,
then the line of the puzzle when it is accepted. -/
def report_of (f : Finder) (c : Call) : List Report :=
  c.printed.map Report.engine ++
    (if acceptance f.exactly_one c.solutions then
       [.puzzle (if f.exactly_one then none else some c.solutions) c.summands
         (f.words.getD c.sum_index []) c.difficulty]
     else [])

/-- The puzzle of a line, when the line reports one: its summands and sum. -/
def Report.puzzle_of : Report → Option (List (List Char) × List Char)
  | .engine _ => none
  | .puzzle _ summands sum _ => some (summands, sum)

/-- The step between neighbouring summand indices: 1 when words may not
repeat, 0 when they may. -/
def Finder.inc (f : Finder) : Nat := if f.disallow_rep then 1 else 0

/-- A candidate word index passes the tests of the inner loop for the sum
`sum_index` and the letters `prev_map` used so far. -/
def word_ok (f : Finder) (filters : Bool) (sum_index prev_map try_ind : Nat) : Bool :=
  decide (try_ind < f.word_count) && decide (try_ind ≠ sum_index)
    && (!filters
        || (decide (f.word_lengths.getD try_ind 0 ≤ f.word_lengths.getD sum_index 0)
            && decide (total_letters f.bit_count (prev_map ||| f.letters_used.getD try_ind 0)
                ≤ f.base)))

/-- Every index of the list passes the tests in its place: it is at least
`lo`, passes `word_ok` for the letters used before it, and the rest continues
from it. -/
def chain_ok (f : Finder) (filters : Bool) (sum_index : Nat) : Nat → Nat → List Nat → Bool
  | _, _, [] => true
  | lo, prev_map, t :: ts =>
    decide (lo ≤ t) && word_ok f filters sum_index prev_map t
      && chain_ok f filters sum_index (t + f.inc) (prev_map ||| f.letters_used.getD t 0) ts

/-- The letter map after the sum and the summands with the given indices. -/
def letter_map_of (f : Finder) (sum_index : Nat) (l : List Nat) : Nat :=
  l.foldl (fun m t => m ||| f.letters_used.getD t 0) (f.letters_used.getD sum_index 0)

/-- The longest length among the words with the given indices. -/
def longest_of (f : Finder) (l : List Nat) : Nat :=
  (l.map fun t => f.word_lengths.getD t 0).foldl max 0

/-- A tuple of summand indices the search has to try for the sum
`sum_index`. -/
def valid_tuple (f : Finder) (filters : Bool) (sum_index : Nat) (t : List Nat) : Bool :=
  decide (sum_index < (if f.first_sum_only then 1 else f.word_count))
    && decide (sum_index < f.word_count)
    && decide (t.length = f.summand_count)
    && chain_ok f filters sum_index 0 (f.letters_used.getD sum_index 0) t

/-- The number of summand places filled in a state. -/
def FindState.depth (s : FindState) : Nat :=
  (if s.backtrack then s.smnd_index + 1 else s.smnd_index).toNat

/-- The summand indices chosen in a state. -/
def FindState.chosen (s : FindState) : List Nat := s.smnd_word_index.take s.depth

/-! ## The search for puzzles: definitions -/

/-- The record `c` of the `i`-th invocation holds what `solve` returned on
the recorded arguments, with `print` and `just_one` clear. -/
def call_result (u : Nat → Uninit) (fuel : Nat) (f : Finder) (i : Nat) (c : Call) : Prop :=
  solve (u i) fuel c.summands f.summand_count c.summand_lengths c.longest_summand
    (f.words.getD c.sum_index []) f.base false false
    = some (.returned c.solutions c.difficulty c.printed)

/-- The counters and the output agree with the recorded invocations. -/
structure Logged (u : Nat → Uninit) (fuel : Nat) (f : Finder) (good tried : Nat)
    (output : List Report) (calls : List Call) : Prop where
  tried_eq : tried = calls.length
  good_eq : good = (calls.filter fun c => acceptance f.exactly_one c.solutions).length
  output_eq : output = calls.flatMap (report_of f)
  results : ∀ i c, calls[i]? = some c → call_result u fuel f i c

/-- The invariant `Logged` for a configuration. -/
def LoggedC (u : Nat → Uninit) (fuel : Nat) (f : Finder) : FindConfig → Prop
  | .running s => Logged u fuel f s.good_puzzles s.puzzles_tried s.output s.calls
  | .halted (.returned g t o c) => Logged u fuel f g t o c
  | .halted .fault => True

/-- The invariant `Logged` for the result of a transition. -/
def LoggedO (u : Nat → Uninit) (fuel : Nat) (f : Finder) : Option FindConfig → Prop
  | none => True
  | some c => LoggedC u fuel f c

/-- The puzzles reported in a list of lines. -/
def puzzles (output : List Report) : List (List (List Char) × List Char) :=
  output.filterMap Report.puzzle_of

/-- The least index allowed after the indices `l`, when `lo` is the least
index allowed at the start. -/
def next_lo (f : Finder) (lo : Nat) (l : List Nat) : Nat :=
  match l.getLast? with
  | none => lo
  | some x => x + f.inc

/-- The letter map after the indices `l`, starting from the map `m`. -/
def letters_after (f : Finder) (m : Nat) (l : List Nat) : Nat :=
  l.foldl (fun m t => m ||| f.letters_used.getD t 0) m

/-- The tests of the inner loop on a candidate, apart from the bound
`index_limit`. -/
def passes (f : Finder) (filters : Bool) (sum_index prev_map try_ind : Nat) : Bool :=
  decide (try_ind ≠ sum_index)
    && (!filters
        || (decide (f.word_lengths.getD try_ind 0 ≤ f.word_lengths.getD sum_index 0)
            && decide (total_letters f.bit_count (prev_map ||| f.letters_used.getD try_ind 0)
                ≤ f.base)))

/-- The invariant of the search for puzzles on the place in the search and on
the arrays: the indices chosen so far pass the tests in their places and the
other arrays describe the words chosen. -/
structure Shape (f : Finder) (filters : Bool) (s : FindState) : Prop where
  si_lt : s.sum_index < f.word_count
  si_lim : s.sum_index < (if f.first_sum_only then 1 else f.word_count)
  lo : -1 ≤ s.smnd_index
  hi : s.smnd_index ≤ f.summand_count
  bt_hi : s.backtrack = true → s.smnd_index < f.summand_count
  bt_lo : s.backtrack = false → 0 ≤ s.smnd_index
  len_index : s.smnd_word_index.length = f.summand_count
  len_ptrs : s.smnd_word_ptrs.length = f.summand_count
  len_lengths : s.smnd_word_lengths.length = f.summand_count
  len_map : s.smnd_letter_map.length = f.summand_count
  len_longest : s.longest_smnd.length = f.summand_count
  chain : chain_ok f filters s.sum_index 0 (f.letters_used.getD s.sum_index 0) s.chosen = true
  maps : ∀ m, m < s.depth →
    s.smnd_letter_map.getD m 0 = letter_map_of f s.sum_index (s.smnd_word_index.take (m + 1))
    ∧ s.smnd_word_lengths.getD m 0 = f.word_lengths.getD (s.smnd_word_index.getD m 0) 0
    ∧ s.smnd_word_ptrs.getD m [] = f.words.getD (s.smnd_word_index.getD m 0) []
    ∧ s.longest_smnd.getD m 0 = longest_of f (s.smnd_word_index.take (m + 1))

/-- The invariant `Shape` for the result of a transition. -/
def ShapeO (f : Finder) (filters : Bool) : Option FindConfig → Prop
  | some (.running s) => Shape f filters s
  | _ => True

/-- The lengths of the five arrays. -/
structure Lens (f : Finder) (s : FindState) : Prop where
  len_index : s.smnd_word_index.length = f.summand_count
  len_ptrs : s.smnd_word_ptrs.length = f.summand_count
  len_lengths : s.smnd_word_lengths.length = f.summand_count
  len_map : s.smnd_letter_map.length = f.summand_count
  len_longest : s.longest_smnd.length = f.summand_count

/-- The lexicographic order on lists of indices: a proper initial segment
comes first. -/
def lex_lt : List Nat → List Nat → Bool
  | _, [] => false
  | [], _ :: _ => true
  | a :: as, b :: bs => decide (a < b) || (decide (a = b) && lex_lt as bs)

/-- The key of an invocation: the index of the sum, then the summand
indices. -/
def Call.key (c : Call) : List Nat := c.sum_index :: c.indices

/-- The place of a state in the search: the index of the sum, then the
summand indices chosen. -/
def FindState.cursor (s : FindState) : List Nat := s.sum_index :: s.chosen

/-- The keys the search has dealt with in state `s`: those before the
cursor and, when backtracking, those that start with it. -/
def Before (s : FindState) (key : List Nat) : Prop :=
  lex_lt key s.cursor = true ∨ (s.backtrack = true ∧ s.cursor <+: key)

/-- The keys before `l`, or starting with `l` followed by an index below
`i`. -/
def Reach (l : List Nat) (i : Nat) (key : List Nat) : Prop :=
  lex_lt key l = true ∨ ∃ x rest, key = l ++ x :: rest ∧ x < i

/-- The arguments recorded for an invocation are the words with the recorded
indices, their lengths and the longest of these. -/
def call_args (f : Finder) (c : Call) : Prop :=
  c.summands = c.indices.map (fun t => f.words.getD t [])
    ∧ c.summand_lengths = c.indices.map (fun t => f.word_lengths.getD t 0)
    ∧ c.longest_summand = longest_of f c.indices

/-- The invariant of the search for puzzles on the invocations of `solve`:
their keys are in increasing order, and they are the tuples to try that the
search has dealt with. -/
structure Traced (f : Finder) (filters : Bool) (s : FindState) : Prop where
  sorted : (s.calls.map Call.key).Pairwise (fun a b => lex_lt a b = true)
  mem : ∀ si t, (si :: t) ∈ s.calls.map Call.key ↔
    (valid_tuple f filters si t = true ∧ Before s (si :: t))
  args : ∀ c ∈ s.calls, call_args f c

/-- The invocations of a finished search: their keys are in increasing order
and they are the tuples to try. -/
structure Complete (f : Finder) (filters : Bool) (calls : List Call) : Prop where
  sorted : (calls.map Call.key).Pairwise (fun a b => lex_lt a b = true)
  mem : ∀ si t, (si :: t) ∈ calls.map Call.key ↔ valid_tuple f filters si t = true
  args : ∀ c ∈ calls, call_args f c

/-- The invariant `Traced` for the result of a transition. -/
def TracedO (f : Finder) (filters : Bool) : Option FindConfig → Prop
  | some (.running s) => Traced f filters s
  | some (.halted (.returned _ _ _ calls)) => Complete f filters calls
  | _ => True

/-- The rank of a state of the search for puzzles: its cursor as a numeral.
Every transition raises it. -/
def find_rank (f : Finder) (s : FindState) : Int :=
  score (2 * (f.word_count : Int) + 2) (f.summand_count + 1)
    (s.cursor.map fun (x : Nat) => 2 * ((x : Int) + 1)) s.backtrack

/-- A number of transitions within which every search for puzzles has
ended. -/
def find_bound (f : Finder) : Nat := (2 * f.word_count + 2) ^ (f.summand_count + 1) + 1

/-- The rank `find_rank` rises from `s` to the state of the configuration. -/
def RisesO (f : Finder) (s : FindState) : Option FindConfig → Prop
  | some (.running s') => find_rank f s < find_rank f s'
  | _ => True

/-- What `solve` answers on invocation number `i` for the sum `si` and the
summand indices `t`, with `print` and `just_one` clear. -/
def engine (u : Nat → Uninit) (fuel : Nat) (f : Finder) (i si : Nat) (t : List Nat) :
    Option Outcome :=
  solve (u i) fuel (t.map fun x => f.words.getD x []) f.summand_count
    (t.map fun x => f.word_lengths.getD x 0) (longest_of f t) (f.words.getD si []) f.base
    false false

/-- Outcomes other than a fault. -/
def no_fault : Option FindConfig → Prop
  | some (.halted .fault) => False
  | _ => True

/-- A result is at hand. -/
def answered : Option FindConfig → Prop
  | none => False
  | _ => True

/-- The letter map of a list of letters: bit `c - 'A'` is set for every
letter `c` of the list. -/
def letter_bits (l : List Char) : Nat :=
  l.foldl (fun m c => m ||| (1 <<< (c.toNat - ('A' : Char).toNat))) 0

/-- The number of bits set among the lowest 27 of a number. -/
def low_bits (m : Nat) : Nat := ((List.range 27).filter fun i => m.testBit i).length

/-- All characters of the list are upper-case letters. -/
def upper (l : List Char) : Prop := ∀ c ∈ l, 'A' ≤ c ∧ c ≤ 'Z'

/-- The arguments of `look_for_puzzles_specific_count` as `look_for_puzzles`
passes them for a validated word list: counts and lengths describe the words,
the two tables are the computed ones, and every word is validated. -/
structure FinderOK (f : Finder) : Prop where
  count_eq : f.word_count = f.words.length
  lengths_eq : f.word_lengths = f.words.map List.length
  bits_eq : f.bit_count = bit_count_table
  letters_eq : f.letters_used = letters_used_table f.words f.word_count f.word_lengths
  words_ok : ∀ w ∈ f.words, is_word w = true

/-- The tuples of summand indices to try for the sum `si`, in the words of
the specification: `summand_count` indices below `word_count`, increasing
(strictly when words may not repeat), none of them the index of the sum, no
word longer than the sum, and at most `base` distinct letters in the sum and
the summands together. -/
def tuple_to_try (f : Finder) (si : Nat) (t : List Nat) : Prop :=
  si < (if f.first_sum_only then 1 else f.word_count) ∧ si < f.word_count
    ∧ t.length = f.summand_count
    ∧ t.Chain' (fun a b => a + f.inc ≤ b)
    ∧ (∀ x ∈ t, x < f.word_count ∧ x ≠ si
        ∧ (f.words.getD x []).length ≤ (f.words.getD si []).length)
    ∧ (puzzle_letters (t.map fun x => f.words.getD x []) (f.words.getD si [])).length ≤ f.base

/-- A number of slot transitions within which every invocation of `solve` by
the search for puzzles has ended. -/
def engine_fuel (f : Finder) : Nat :=
  (2 * f.base + 2) ^ (MAX_LEN * (f.summand_count + 1)) + 1

/-- The configuration after at most `n` transitions from `s`: the first
halted one, or the running state reached. -/
def find_iterate (u : Nat → Uninit) (fuel : Nat) (f : Finder) (filters : Bool) :
    Nat → FindState → Option FindConfig
  | 0, s => some (.running s)
  | n + 1, s =>
    match find_step u fuel f filters s with
    | some (.running s') => find_iterate u fuel f filters n s'
    | r => r

/-- The search for puzzles with a fixed number of summands after at most `n`
transitions. -/
def find_after (u : Nat → Uninit) (h : Fresh) (fuel : Nat) (f : Finder) (filters : Bool)
    (n : Nat) : Option FindConfig :=
  match enter_sum f (find_init h f) with
  | .running s => find_iterate u fuel f filters n s
  | c => some c

/-- The order of two invocations: by the index of the sum, then
lexicographically by the summand indices. -/
def call_lt (a b : Call) : Prop :=
  a.sum_index < b.sum_index
    ∨ (a.sum_index = b.sum_index ∧ List.Lex (· < ·) a.indices b.indices)

/-- The recorded invocations come in strictly increasing order, none twice,
and each tuple of summand indices leaves out the index of the sum and is
increasing (strictly when words may not repeat). -/
def ordered_calls (f : Finder) (calls : List Call) : Prop :=
  calls.Pairwise call_lt
    ∧ (calls.map fun x => (x.sum_index, x.indices)).Nodup
    ∧ ∀ x ∈ calls, x.sum_index ∉ x.indices
        ∧ x.indices.Chain' (fun a b => a + f.inc ≤ b)

/-- A state that is about to invoke `solve` holds a tuple of summand indices
that leaves out the index of the sum, is increasing, and comes after every
recorded invocation. -/
def about_to_call (f : Finder) (s : FindState) : Prop :=
  s.smnd_index = f.summand_count →
    s.sum_index ∉ s.smnd_word_index
      ∧ s.smnd_word_index.Chain' (fun a b => a + f.inc ≤ b)
      ∧ ∀ x ∈ s.calls, x.sum_index < s.sum_index
          ∨ (x.sum_index = s.sum_index ∧ List.Lex (· < ·) x.indices s.smnd_word_index)

/-- The order of the invocations in a configuration of the search. -/
def OrderedC (f : Finder) : Option FindConfig → Prop
  | some (.running s) => ordered_calls f s.calls ∧ about_to_call f s
  | some (.halted (.returned _ _ _ calls)) => ordered_calls f calls
  | _ => True

/-- The search over the words AB, A, B with AB as the sum, seven summands and
repetition allowed, in base 10. -/
def seven_finder : Finder :=
  { words := ["AB".toList, "A".toList, "B".toList]
    word_count := 3
    base := 10
    word_lengths := [2, 1, 1]
    bit_count := bit_count_table
    letters_used := letters_used_table ["AB".toList, "A".toList, "B".toList] 3 [2, 1, 1]
    summand_count := 7
    exactly_one := true
    disallow_rep := false
    first_sum_only := true }

/-- The search with two summands over the words SEND, MORE, MONEY, MOST,
EARNS in base 10 with the exactly-one policy and every word tried as the sum,
as `look_for_puzzles` sets it up. -/
def money_finder (disallow_rep : Bool) : Finder :=
  { words := ["SEND".toList, "MORE".toList, "MONEY".toList, "MOST".toList, "EARNS".toList]
    word_count := 5
    base := 10
    word_lengths := [4, 4, 5, 4, 5]
    bit_count := bit_count_table
    letters_used := letters_used_table
      ["SEND".toList, "MORE".toList, "MONEY".toList, "MOST".toList, "EARNS".toList] 5
      [4, 4, 5, 4, 5]
    summand_count := 2
    exactly_one := true
    disallow_rep := disallow_rep
    first_sum_only := false }

/-- The search over the words HIJK, A, B, C, D, E, F, G with HIJK as the sum,
seven summands and no repetition, in base 10. -/
def eleven_finder : Finder :=
  { words := ["HIJK".toList, "A".toList, "B".toList, "C".toList, "D".toList, "E".toList,
      "F".toList, "G".toList]
    word_count := 8
    base := 10
    word_lengths := [4, 1, 1, 1, 1, 1, 1, 1]
    bit_count := bit_count_table
    letters_used := letters_used_table
      ["HIJK".toList, "A".toList, "B".toList, "C".toList, "D".toList, "E".toList,
        "F".toList, "G".toList] 8 [4, 1, 1, 1, 1, 1, 1, 1]
    summand_count := 7
    exactly_one := true
    disallow_rep := true
    first_sum_only := true }

/-- The verdict of the acceptance policy on the tuple with the given key,
from what `solve` answers on it. -/
def verdict (fuel : Nat) (f : Finder) (key : List Nat) : Bool :=
  match engine (fun _ => Uninit.zero) fuel f 0 (key.headD 0) key.tail with
  | some (.returned n _ _) => acceptance f.exactly_one n
  | _ => false

/-- The puzzle of the tuple with the given key: its summands and its sum. -/
def puzzle_of_key (f : Finder) (key : List Nat) : List (List Char) × List Char :=
  (key.tail.map fun x => f.words.getD x [], f.words.getD (key.headD 0) [])

/-! ## The search without the carry-bound test, in exact integers: definitions -/

/-- The sum-character part of the variant of `solve` in which the forward test
`needed_carry[curr_column] > max_carry[curr_column]` (source lines 528-539) is
removed, in exact integers: `step_sum` without that branch, everything else
unchanged.  An idealisation: the variant on `int`s is `step_sum_unpruned32`. -/
def step_sum_unpruned_exact (p : Puzzle) (s : State) : Config :=
  if s.curr_column = p.sum_length then
    if iget s.needed_carry s.curr_column = 0 then
      let solutions_found := s.solutions_found + 1
      let output :=
        if p.print then s.output ++ [print_solution s.number_map s.map_count] else s.output
      if p.just_one then .halted (.returned 1 0 output)
      else
        enter_summands { s with solutions_found := solutions_found, output := output,
                                curr_column := s.curr_column - 1, curr_smnd_row := 0,
                                backtrack := true }
    else
      enter_summands { s with curr_column := s.curr_column - 1, curr_smnd_row := 0,
                              backtrack := true }
  else
    let curr_char := cget p.sum s.curr_column
    if s.backtrack then
      if tget s.map_count curr_char = 1 then
        let value := tget s.number_map curr_char
        let letter_map := s.letter_map.set value.toNat '\x00'
        let value := first_free letter_map (tget s.max_value curr_char) (value + 1)
        if value > tget s.max_value curr_char then
          after_sum_char p { s with value := value, letter_map := letter_map,
                                    backtrack := true,
                                    backtrack_count := s.backtrack_count + 1,
                                    map_count := tset s.map_count curr_char
                                      (tget s.map_count curr_char - 1) }
        else
          after_sum_char p { s with value := value, backtrack := false,
                                    letter_map := letter_map.set value.toNat curr_char,
                                    number_map := tset s.number_map curr_char value }
      else
        after_sum_char p { s with backtrack := true,
                                  backtrack_count := s.backtrack_count + 1,
                                  map_count := tset s.map_count curr_char
                                    (tget s.map_count curr_char - 1) }
    else
      if tget s.map_count curr_char ≠ 0 then
        after_sum_char p { s with value := tget s.number_map curr_char,
                                  map_count := tset s.map_count curr_char
                                    (tget s.map_count curr_char + 1) }
      else
        let min_value := tset s.min_value curr_char (tget p.zero_or_one_start curr_char)
        let max_possible := iget p.max_carry (s.curr_column + 1)
                            + p.max_digit * iget p.column_lengths s.curr_column
                            - iget s.needed_carry s.curr_column * p.base
        let max_value := tset s.max_value curr_char (min_of_two p.max_digit max_possible)
        let value := first_free s.letter_map (tget max_value curr_char)
                       (tget min_value curr_char)
        if value > tget max_value curr_char then
          after_sum_char p { s with min_value := min_value, max_value := max_value,
                                    value := value, backtrack := true,
                                    backtrack_count := s.backtrack_count + 1 }
        else
          after_sum_char p { s with min_value := min_value, max_value := max_value,
                                    value := value, backtrack := false,
                                    map_count := tset s.map_count curr_char
                                      (tget s.map_count curr_char + 1),
                                    letter_map := s.letter_map.set value.toNat curr_char,
                                    number_map := tset s.number_map curr_char value }

/-- One slot transition of the variant without the carry-bound test, in exact
integers. -/
def step_unpruned_exact (p : Puzzle) (s : State) : Config :=
  if s.in_summands then step_summand p s else step_sum_unpruned_exact p s

/-- The search loop of the variant in exact integers, cut off after `fuel`
slot transitions. -/
def run_unpruned_exact (p : Puzzle) : Nat → State → Option Outcome
  | 0, _ => none
  | fuel + 1, s =>
    match step_unpruned_exact p s with
    | .halted o => some o
    | .running s' => run_unpruned_exact p fuel s'

/-- The variant of `solve` without the carry-bound test, in exact integers:
the same initialisation, then the search loop of the variant.  The variant on
`int`s is `solve_unpruned32`. -/
def solve_unpruned_exact (u : Uninit) (fuel : Nat) (summands : List (List Char))
    (summand_count : Nat) (summand_lengths : List Nat) (longest_summand : Nat)
    (sum : List Char) (base : Nat) (print just_one : Bool) : Option Outcome :=
  match prepare u summands summand_count summand_lengths longest_summand sum base
      print just_one with
  | .error o => some o
  | .ok p => run_unpruned_exact p fuel (initial_state u)

/-- The configuration of the variant in exact integers after `n` slot
transitions from `s`. -/
def iterate_unpruned_exact (p : Puzzle) : Nat → State → Config
  | 0, s => .running s
  | n + 1, s =>
    match step_unpruned_exact p s with
    | .halted o => .halted o
    | .running s' => iterate_unpruned_exact p n s'

/-- The table `max_carry` with the entry of the current column of `s` replaced
by the carry the state needs there; with it the carry-bound test of `step_sum`
fails at `s`. -/
def relaxed (max_carry : List Int) (s : State) : List Int :=
  (List.range (MAX_LEN + 1)).map fun (i : Nat) =>
    if (i : Int) = s.curr_column then iget s.needed_carry s.curr_column
    else max_carry.getD i 0

/-- The table `max_carry` as `solve` fills it (source lines 353-357): 0 in
the place after the last column, and in column `c` the quotient of the
largest column total, `max_digit` times the number of summand letters of the
column plus the bound of the next column, by the base. -/
structure CarryBounds (p : Puzzle) (cols : List (List Char)) : Prop where
  last : iget p.max_carry p.sum.length = 0
  col : ∀ c : Nat, c < p.sum.length →
    iget p.max_carry c
      = Int.tdiv (p.max_digit * ((cols.getD c []).length : Int) + iget p.max_carry (c + 1 : Nat))
          p.base

/-- The letter of the slot a state stands on: `sum[curr_column]` at the top of
`while(1)`, `summand_char(curr_smnd_row, curr_column)` in the summand loop. -/
def slot_letter (p : Puzzle) (s : State) : Char :=
  if s.in_summands then summand_char p.reform_smnds s.curr_smnd_row s.curr_column
  else cget p.sum s.curr_column

/-- The state stands at the test `curr_column == sum_length` at the top of
`while(1)`, where a solution is accepted or not, and not on a slot. -/
def at_check (p : Puzzle) (s : State) : Bool :=
  !s.in_summands && decide (s.curr_column = p.sum_length)

/-- What one transition from the state `s` does to `number_map`, `letter_map`,
`map_count`, `backtrack` and `backtrack_count`, branch by branch; the five
indices are the values after the transition. -/
inductive SlotEffect (p : Puzzle) (s : State) :
    List Int → List Char → List Int → Bool → Nat → Prop where
  | check (hat : at_check p s = true) :
    SlotEffect p s s.number_map s.letter_map s.map_count true s.backtrack_count
  | release (hat : at_check p s = false) (hb : s.backtrack = true)
      (h1 : tget s.map_count (slot_letter p s) = 1) :
    SlotEffect p s s.number_map
      (s.letter_map.set (tget s.number_map (slot_letter p s)).toNat '\x00')
      (tset s.map_count (slot_letter p s) (tget s.map_count (slot_letter p s) - 1))
      true (s.backtrack_count + 1)
  | reassign (v : Int) (hat : at_check p s = false) (hb : s.backtrack = true)
      (h1 : tget s.map_count (slot_letter p s) = 1) :
    SlotEffect p s (tset s.number_map (slot_letter p s) v)
      ((s.letter_map.set (tget s.number_map (slot_letter p s)).toNat '\x00').set v.toNat
        (slot_letter p s))
      s.map_count false s.backtrack_count
  | unwind_sum (hat : at_check p s = false) (hin : s.in_summands = false)
      (hb : s.backtrack = true) (h1 : tget s.map_count (slot_letter p s) ≠ 1) :
    SlotEffect p s s.number_map s.letter_map
      (tset s.map_count (slot_letter p s) (tget s.map_count (slot_letter p s) - 1))
      true (s.backtrack_count + 1)
  | unwind_summand (hat : at_check p s = false) (hin : s.in_summands = true)
      (hb : s.backtrack = true) (h1 : tget s.map_count (slot_letter p s) ≠ 1) :
    SlotEffect p s s.number_map s.letter_map
      (tset s.map_count (slot_letter p s) (tget s.map_count (slot_letter p s) - 1))
      true s.backtrack_count
  | fail (hat : at_check p s = false) (hb : s.backtrack = false) :
    SlotEffect p s s.number_map s.letter_map s.map_count true (s.backtrack_count + 1)
  | reuse (hat : at_check p s = false) (hb : s.backtrack = false)
      (h0 : tget s.map_count (slot_letter p s) ≠ 0) :
    SlotEffect p s s.number_map s.letter_map
      (tset s.map_count (slot_letter p s) (tget s.map_count (slot_letter p s) + 1))
      false s.backtrack_count
  | assign (v : Int) (hat : at_check p s = false) (hb : s.backtrack = false)
      (h0 : tget s.map_count (slot_letter p s) = 0) :
    SlotEffect p s (tset s.number_map (slot_letter p s) v)
      (s.letter_map.set v.toNat (slot_letter p s))
      (tset s.map_count (slot_letter p s) (tget s.map_count (slot_letter p s) + 1))
      false s.backtrack_count

/-! ## Carries of the addition, ranges of digits, and the state at the exit: definitions -/

/-- The carry that the addition of the summands in base `base` produces out of
column `c`, when `k` columns remain from `c` to the last one: nothing comes
from beyond the last column, and a column hands on the quotient by `base` of
its digits plus the carry it receives. -/
def addition_carry_from (base : Int) (cols : List (List Char)) (f : Char → Int) :
    Nat → Nat → Int
  | 0, _ => 0
  | k + 1, c =>
    (((cols.getD c []).map f).sum + addition_carry_from base cols f k (c + 1)) / base

/-- The carry out of column `c` (into column `c - 1`) of the addition of the
summands of a sum with `L` columns, under the letter-to-digit map `f`. -/
def addition_carry (base : Int) (cols : List (List Char)) (f : Char → Int) (L c : Nat) : Int :=
  addition_carry_from base cols f (L - c) c

/-- The sum-character part of a pass through `while(1)` (source lines
455-616): the state after the decision taken at the sum slot of the current
column, before the code that moves on (source lines 618-662). -/
def sum_char_part (p : Puzzle) (s : State) : State :=
  let curr_char := cget p.sum s.curr_column
  if s.backtrack then
    if tget s.map_count curr_char = 1 then
      let value := tget s.number_map curr_char
      let letter_map := s.letter_map.set value.toNat '\x00'
      let value := first_free letter_map (tget s.max_value curr_char) (value + 1)
      if value > tget s.max_value curr_char then
        { s with value := value, letter_map := letter_map,
                 backtrack := true,
                 backtrack_count := s.backtrack_count + 1,
                 map_count := tset s.map_count curr_char
                   (tget s.map_count curr_char - 1) }
      else
        { s with value := value, backtrack := false,
                 letter_map := letter_map.set value.toNat curr_char,
                 number_map := tset s.number_map curr_char value }
    else
      { s with backtrack := true,
               backtrack_count := s.backtrack_count + 1,
               map_count := tset s.map_count curr_char
                 (tget s.map_count curr_char - 1) }
  else
    if iget s.needed_carry s.curr_column > iget p.max_carry s.curr_column then
      { s with backtrack := true,
               backtrack_count := s.backtrack_count + 1 }
    else if tget s.map_count curr_char ≠ 0 then
      { s with value := tget s.number_map curr_char,
               map_count := tset s.map_count curr_char
                 (tget s.map_count curr_char + 1) }
    else
      let min_value := tset s.min_value curr_char (tget p.zero_or_one_start curr_char)
      let max_possible := iget p.max_carry (s.curr_column + 1)
                          + p.max_digit * iget p.column_lengths s.curr_column
                          - iget s.needed_carry s.curr_column * p.base
      let max_value := tset s.max_value curr_char (min_of_two p.max_digit max_possible)
      let value := first_free s.letter_map (tget max_value curr_char)
                     (tget min_value curr_char)
      if value > tget max_value curr_char then
        { s with min_value := min_value, max_value := max_value,
                 value := value, backtrack := true,
                 backtrack_count := s.backtrack_count + 1 }
      else
        { s with min_value := min_value, max_value := max_value,
                 value := value, backtrack := false,
                 map_count := tset s.map_count curr_char
                   (tget s.map_count curr_char + 1),
                 letter_map := s.letter_map.set value.toNat curr_char,
                 number_map := tset s.number_map curr_char value }

/-! ## The search without the carry-bound test, on machine integers: definitions

Without the test of source lines 528-539 nothing bounds `needed_carry`, so in
this variant the result of every addition, subtraction and multiplication that
feeds `needed_sum`, `needed_carry`, `max_possible` and `min_possible` is
reduced to the range of a 32-bit `int`.  The digits, the column and row
indices and the reference counts stay small in any case and are computed as in
`step`. -/

/-- The value an `int` holds after a result `x` has been stored in it: `x`
reduced to the 32-bit two's-complement range. -/
def wrap32 (x : Int) : Int := (x + 2147483648) % 4294967296 - 2147483648

/-- Addition of two `int`s. -/
def add32 (x y : Int) : Int := wrap32 (x + y)

/-- Subtraction of two `int`s. -/
def sub32 (x y : Int) : Int := wrap32 (x - y)

/-- Multiplication of two `int`s. -/
def mul32 (x y : Int) : Int := wrap32 (x * y)

/-- The tail of the sum-character part (source lines 618-662) with the
arithmetic of line 642 carried out on `int`s. -/
def after_sum_char32 (p : Puzzle) (s : State) : Config :=
  if s.backtrack then
    let needed_sum := iget s.needed_carry s.curr_column
    let curr_column := s.curr_column - 1
    let curr_smnd_row : Int :=
      if curr_column = -1 ∨ iget p.column_lengths curr_column = 0 then -1 else 0
    enter_summands { s with needed_sum := needed_sum, curr_column := curr_column,
                            curr_smnd_row := curr_smnd_row }
  else
    let curr_smnd_row := iget p.column_lengths s.curr_column - 1
    let needed_sum := add32 s.value (mul32 p.base (iget s.needed_carry s.curr_column))
    if curr_smnd_row < 0 then
      let curr_column := s.curr_column + 1
      match set_carry s.needed_carry curr_column needed_sum with
      | none => .halted .fault
      | some nc =>
        .running { s with in_summands := false, curr_smnd_row := curr_smnd_row,
                          needed_sum := needed_sum, curr_column := curr_column,
                          needed_carry := nc }
    else
      enter_summands { s with curr_smnd_row := curr_smnd_row, needed_sum := needed_sum }

/-- The sum-character part of the variant of `solve` in which the forward test
`needed_carry[curr_column] > max_carry[curr_column]` (source lines 528-539) is
removed, with the arithmetic on `needed_sum`, `needed_carry` and `max_possible`
carried out on `int`s. -/
def step_sum_unpruned32 (p : Puzzle) (s : State) : Config :=
  if s.curr_column = p.sum_length then
    if iget s.needed_carry s.curr_column = 0 then
      let solutions_found := s.solutions_found + 1
      let output :=
        if p.print then s.output ++ [print_solution s.number_map s.map_count] else s.output
      if p.just_one then .halted (.returned 1 0 output)
      else
        enter_summands { s with solutions_found := solutions_found, output := output,
                                curr_column := s.curr_column - 1, curr_smnd_row := 0,
                                backtrack := true }
    else
      enter_summands { s with curr_column := s.curr_column - 1, curr_smnd_row := 0,
                              backtrack := true }
  else
    let curr_char := cget p.sum s.curr_column
    if s.backtrack then
      if tget s.map_count curr_char = 1 then
        let value := tget s.number_map curr_char
        let letter_map := s.letter_map.set value.toNat '\x00'
        let value := first_free letter_map (tget s.max_value curr_char) (value + 1)
        if value > tget s.max_value curr_char then
          after_sum_char32 p { s with value := value, letter_map := letter_map,
                                      backtrack := true,
                                      backtrack_count := s.backtrack_count + 1,
                                      map_count := tset s.map_count curr_char
                                        (tget s.map_count curr_char - 1) }
        else
          after_sum_char32 p { s with value := value, backtrack := false,
                                      letter_map := letter_map.set value.toNat curr_char,
                                      number_map := tset s.number_map curr_char value }
      else
        after_sum_char32 p { s with backtrack := true,
                                    backtrack_count := s.backtrack_count + 1,
                                    map_count := tset s.map_count curr_char
                                      (tget s.map_count curr_char - 1) }
    else
      if tget s.map_count curr_char ≠ 0 then
        after_sum_char32 p { s with value := tget s.number_map curr_char,
                                    map_count := tset s.map_count curr_char
                                      (tget s.map_count curr_char + 1) }
      else
        let min_value := tset s.min_value curr_char (tget p.zero_or_one_start curr_char)
        let max_possible :=
          sub32 (add32 (iget p.max_carry (s.curr_column + 1))
                       (mul32 p.max_digit (iget p.column_lengths s.curr_column)))
                (mul32 (iget s.needed_carry s.curr_column) p.base)
        let max_value := tset s.max_value curr_char (min_of_two p.max_digit max_possible)
        let value := first_free s.letter_map (tget max_value curr_char)
                       (tget min_value curr_char)
        if value > tget max_value curr_char then
          after_sum_char32 p { s with min_value := min_value, max_value := max_value,
                                      value := value, backtrack := true,
                                      backtrack_count := s.backtrack_count + 1 }
        else
          after_sum_char32 p { s with min_value := min_value, max_value := max_value,
                                      value := value, backtrack := false,
                                      map_count := tset s.map_count curr_char
                                        (tget s.map_count curr_char + 1),
                                      letter_map := s.letter_map.set value.toNat curr_char,
                                      number_map := tset s.number_map curr_char value }

/-- The tail of one iteration of the summand loop (source lines 846-896) with
the subtraction `needed_sum -= value` carried out on `int`s. -/
def after_summand32 (p : Puzzle) (s : State) : Config :=
  if s.backtrack then
    if s.curr_smnd_row = iget p.column_lengths s.curr_column - 1 then
      .running { s with in_summands := false }
    else
      summand_loop_test { s with curr_smnd_row := s.curr_smnd_row + 1 }
  else
    if s.curr_smnd_row = 0 then
      let curr_column := s.curr_column + 1
      let needed_sum := sub32 s.needed_sum s.value
      match set_carry s.needed_carry curr_column needed_sum with
      | none => .halted .fault
      | some nc =>
        .running { s with in_summands := false, curr_column := curr_column,
                          needed_sum := needed_sum, needed_carry := nc }
    else
      summand_loop_test { s with curr_smnd_row := s.curr_smnd_row - 1,
                                 needed_sum := sub32 s.needed_sum s.value }

/-- One iteration of `while(curr_smnd_row >= 0)` (source lines 683-897) with
the arithmetic on `needed_sum` and `min_possible` carried out on `int`s. -/
def step_summand32 (p : Puzzle) (s : State) : Config :=
  let curr_char := summand_char p.reform_smnds s.curr_smnd_row s.curr_column
  if s.backtrack then
    if tget s.map_count curr_char = 1 then
      let value := tget s.number_map curr_char
      let needed_sum := add32 s.needed_sum value
      let letter_map := s.letter_map.set value.toNat '\x00'
      let value := first_free letter_map (tget s.max_value curr_char) (value + 1)
      if value > tget s.max_value curr_char then
        after_summand32 p { s with value := value, needed_sum := needed_sum,
                                   letter_map := letter_map, backtrack := true,
                                   backtrack_count := s.backtrack_count + 1,
                                   map_count := tset s.map_count curr_char
                                     (tget s.map_count curr_char - 1) }
      else
        after_summand32 p { s with value := value, needed_sum := needed_sum,
                                   backtrack := false,
                                   letter_map := letter_map.set value.toNat curr_char,
                                   number_map := tset s.number_map curr_char value }
    else
      after_summand32 p { s with backtrack := true,
                                 map_count := tset s.map_count curr_char
                                   (tget s.map_count curr_char - 1),
                                 needed_sum :=
                                   add32 s.needed_sum (tget s.number_map curr_char) }
  else
    if tget s.map_count curr_char ≠ 0 then
      let value := tget s.number_map curr_char
      if value > s.needed_sum then
        after_summand32 p { s with value := value, backtrack := true,
                                   backtrack_count := s.backtrack_count + 1 }
      else
        after_summand32 p { s with value := value, backtrack := false,
                                   map_count := tset s.map_count curr_char
                                     (tget s.map_count curr_char + 1) }
    else
      let min_possible :=
        sub32 (sub32 s.needed_sum (mul32 p.max_digit s.curr_smnd_row))
              (iget p.max_carry (s.curr_column + 1))
      let min_value := tset s.min_value curr_char
                         (max_of_two min_possible (tget p.zero_or_one_start curr_char))
      let max_value := tset s.max_value curr_char (min_of_two p.max_digit s.needed_sum)
      let value := first_free s.letter_map (tget max_value curr_char)
                     (tget min_value curr_char)
      if value > tget max_value curr_char then
        after_summand32 p { s with min_value := min_value, max_value := max_value,
                                   value := value, backtrack := true,
                                   backtrack_count := s.backtrack_count + 1 }
      else
        after_summand32 p { s with min_value := min_value, max_value := max_value,
                                   value := value, backtrack := false,
                                   map_count := tset s.map_count curr_char
                                     (tget s.map_count curr_char + 1),
                                   letter_map := s.letter_map.set value.toNat curr_char,
                                   number_map := tset s.number_map curr_char value }

/-- One slot transition of the variant without the carry-bound test, on
`int`s. -/
def step_unpruned32 (p : Puzzle) (s : State) : Config :=
  if s.in_summands then step_summand32 p s else step_sum_unpruned32 p s

/-- The search loop of the variant on `int`s, cut off after `fuel` slot
transitions. -/
def run_unpruned32 (p : Puzzle) : Nat → State → Option Outcome
  | 0, _ => none
  | fuel + 1, s =>
    match step_unpruned32 p s with
    | .halted o => some o
    | .running s' => run_unpruned32 p fuel s'

/-- The variant of `solve` without the carry-bound test, on `int`s: the same
initialisation, then the search loop of the variant. -/
def solve_unpruned32 (u : Uninit) (fuel : Nat) (summands : List (List Char))
    (summand_count : Nat) (summand_lengths : List Nat) (longest_summand : Nat)
    (sum : List Char) (base : Nat) (print just_one : Bool) : Option Outcome :=
  match prepare u summands summand_count summand_lengths longest_summand sum base
      print just_one with
  | .error o => some o
  | .ok p => run_unpruned32 p fuel (initial_state u)

/-! ## The lines written and the run of letters: definitions -/

/-- The run of alphabetic characters after the leading blanks of a string,
in the words of the specification of `upcase_and_check_legality`. -/
def alpha_run (s : List Char) : List Char :=
  (s.dropWhile is_blank).takeWhile isalpha

/-! ## Difficulty rating -/

/-- C8: `difficulty_conv` maps a backtrack count `n` to 1 when `n <= 100`, 2
when `100 < n <= 600`, 3 when `600 < n <= 4000`, 4 when `4000 < n <= 20000`
and 5 when `n > 20000`. -/
theorem difficulty_conv_thresholds (n : Nat) :
    (n ≤ 100 → difficulty_conv n = 1) ∧
    (100 < n ∧ n ≤ 600 → difficulty_conv n = 2) ∧
    (600 < n ∧ n ≤ 4000 → difficulty_conv n = 3) ∧
    (4000 < n ∧ n ≤ 20000 → difficulty_conv n = 4) ∧
    (20000 < n → difficulty_conv n = 5) := by
  unfold difficulty_conv
  refine ⟨?_, ?_, ?_, ?_, ?_⟩ <;> intro h <;> split_ifs <;> omega

/-- C10: the difficulty rating is monotone in the number of backtracks:
`m <= n` gives `difficulty_conv m <= difficulty_conv n`. -/
theorem difficulty_conv_mono (m n : Nat) (h : m ≤ n) :
    difficulty_conv m ≤ difficulty_conv n := by
  unfold difficulty_conv
  split_ifs <;> omega

/-- Witness for `difficulty_conv_mono`: 100 and 101 backtracks. -/
theorem difficulty_conv_mono_witness :
    (100 : Nat) ≤ 101 ∧ difficulty_conv 100 ≤ difficulty_conv 101 :=
  ⟨by decide, difficulty_conv_mono 100 101 (by decide)⟩

/-! ## Tables, carries and the search invariant -/

theorem char_toNat_inj {a b : Char} (h : a.toNat = b.toNat) : a = b := by
  apply Char.ext
  apply UInt32.ext
  exact h

theorem tget_tset_same {α : Type} [Inhabited α] (t : List α) (c : Char) (v : α)
    (h : c.toNat < t.length) : tget (tset t c v) c = v := by
  simp [tget, tset, List.getD_eq_getElem?_getD, h]

theorem tget_tset_ne {α : Type} [Inhabited α] (t : List α) (c c' : Char) (v : α)
    (h : c ≠ c') : tget (tset t c v) c' = tget t c' := by
  have : c.toNat ≠ c'.toNat := fun e => h (char_toNat_inj e)
  simp [tget, tset, List.getD_eq_getElem?_getD, List.getElem?_set_ne this]

theorem length_tset {α : Type} (t : List α) (c : Char) (v : α) :
    (tset t c v).length = t.length := by
  simp [tset]

theorem cget_set_same (lm : List Char) (v : Int) (x : Char) (h0 : 0 ≤ v)
    (h : v < lm.length) : cget (lm.set v.toNat x) v = x := by
  have : v.toNat < lm.length := by omega
  simp [cget, List.getD_eq_getElem?_getD, this]

theorem cget_set_ne (lm : List Char) (v w : Int) (x : Char) (hv : 0 ≤ v) (hw : 0 ≤ w)
    (h : v ≠ w) : cget (lm.set v.toNat x) w = cget lm w := by
  have : v.toNat ≠ w.toNat := by omega
  simp [cget, List.getD_eq_getElem?_getD, List.getElem?_set_ne this]

/-! ### The counting table -/

theorem CountOK.mem_iff {mc : List Int} {S : List Char} (h : CountOK mc S) (x : Char) :
    tget mc x ≠ 0 ↔ x ∈ S := by
  rw [h.2 x]
  constructor
  · intro hx
    exact List.count_pos_iff.mp (by omega)
  · intro hx
    have := List.count_pos_iff.mpr hx
    omega

theorem CountOK.count_perm {mc : List Int} {S S' : List Char} (h : CountOK mc S)
    (hp : S.Perm S') : CountOK mc S' :=
  ⟨h.1, fun ch => by rw [h.2 ch, hp.count_eq]⟩

theorem CountOK.push {mc : List Int} {S : List Char} (h : CountOK mc S) (x : Char)
    (hx : x.toNat < 128) : CountOK (tset mc x (tget mc x + 1)) (x :: S) := by
  refine ⟨by rw [length_tset]; exact h.1, fun ch => ?_⟩
  by_cases hc : x = ch
  · subst hc
    rw [tget_tset_same _ _ _ (by rw [h.1]; exact hx), h.2 x]
    simp
  · rw [tget_tset_ne _ _ _ _ hc, h.2 ch, List.count_cons_of_ne (Ne.symm hc)]

theorem CountOK.pop {mc : List Int} {S : List Char} {x : Char} (h : CountOK mc (x :: S))
    (hx : x.toNat < 128) : CountOK (tset mc x (tget mc x - 1)) S := by
  refine ⟨by rw [length_tset]; exact h.1, fun ch => ?_⟩
  by_cases hc : x = ch
  · subst hc
    rw [tget_tset_same _ _ _ (by rw [h.1]; exact hx), h.2 x]
    simp
  · rw [tget_tset_ne _ _ _ _ hc, h.2 ch, List.count_cons_of_ne (Ne.symm hc)]

theorem CountOK.one_iff {mc : List Int} {S : List Char} {x : Char} (h : CountOK mc (x :: S)) :
    tget mc x = 1 ↔ x ∉ S := by
  rw [h.2 x]
  simp only [List.count_cons_self]
  constructor
  · intro h1 hm
    have := List.count_pos_iff.mpr hm
    omega
  · intro hm
    have := List.count_eq_zero_of_not_mem hm
    omega

/-! ### The assignment tables -/

theorem AsgOK.of_mem_iff {p : Puzzle} {nm mv : List Int} {lm : List Char} {S S' : List Char}
    (h : AsgOK p nm mv lm S) (hp : ∀ ch, ch ∈ S' ↔ ch ∈ S) : AsgOK p nm mv lm S' where
  len_nm := h.len_nm
  len_mv := h.len_mv
  len_lm := h.len_lm
  digit := fun ch hc => h.digit ch ((hp ch).mp hc)
  owner := fun d hd hne => ⟨(hp _).mpr (h.owner d hd hne).1, (h.owner d hd hne).2⟩
  maxv := fun ch hc => h.maxv ch ((hp ch).mp hc)
  letter := fun ch hc => h.letter ch ((hp ch).mp hc)

theorem AsgOK.reuse {p : Puzzle} {nm mv : List Int} {lm : List Char} {S : List Char}
    {x : Char} (h : AsgOK p nm mv lm S) (hx : x ∈ S) : AsgOK p nm mv lm (x :: S) :=
  h.of_mem_iff (fun ch => by
    constructor
    · intro hc
      rcases List.mem_cons.mp hc with e | e
      · exact e ▸ hx
      · exact e
    · intro hc
      exact List.mem_cons_of_mem _ hc)

theorem AsgOK.drop {p : Puzzle} {nm mv : List Int} {lm : List Char} {S : List Char}
    {x : Char} (h : AsgOK p nm mv lm (x :: S)) (hx : x ∈ S) : AsgOK p nm mv lm S :=
  h.of_mem_iff (fun ch => by
    constructor
    · intro hc
      exact List.mem_cons_of_mem _ hc
    · intro hc
      rcases List.mem_cons.mp hc with e | e
      · exact e ▸ hx
      · exact e)

theorem AsgOK.set_max {p : Puzzle} {nm mv : List Int} {lm : List Char} {S : List Char}
    (h : AsgOK p nm mv lm S) (x : Char) (hi : Int) (hx : x ∉ S) :
    AsgOK p nm (tset mv x hi) lm S where
  len_nm := h.len_nm
  len_mv := by rw [length_tset]; exact h.len_mv
  len_lm := h.len_lm
  digit := h.digit
  owner := h.owner
  maxv := fun ch hc => by
    have : x ≠ ch := fun e => hx (e ▸ hc)
    rw [tget_tset_ne _ _ _ _ this]
    exact h.maxv ch hc
  letter := h.letter

theorem AsgOK.digit_ne {p : Puzzle} {nm mv : List Int} {lm : List Char} {S : List Char}
    (h : AsgOK p nm mv lm S) {a b : Char} (ha : a ∈ S) (hb : b ∈ S) (hab : a ≠ b) :
    tget nm a ≠ tget nm b := by
  intro e
  have h1 := (h.digit a ha).2.2.2
  have h2 := (h.digit b hb).2.2.2
  rw [e, h2] at h1
  exact hab h1.symm

theorem AsgOK.fresh {p : Puzzle} {nm mv : List Int} {lm : List Char} {S : List Char}
    (h : AsgOK p nm mv lm S) (x : Char) (v : Int) (hmd : p.max_digit < MAX_BASE)
    (hx : x ∉ S) (hx0 : x ≠ '\x00') (hx1 : x.toNat < 128) (hv0 : 0 ≤ v)
    (hv1 : v ≤ p.max_digit) (hz : tget p.zero_or_one_start x ≤ v)
    (hfree : cget lm v = '\x00') (hmv : tget mv x ≤ p.max_digit) :
    AsgOK p (tset nm x v) mv (lm.set v.toNat x) (x :: S) where
  len_nm := by rw [length_tset]; exact h.len_nm
  len_mv := h.len_mv
  len_lm := by rw [List.length_set]; exact h.len_lm
  digit := by
    intro ch hc
    have hvl : v < (lm.length : Int) := by rw [h.len_lm]; omega
    rcases List.mem_cons.mp hc with e | e
    · subst e
      rw [tget_tset_same _ _ _ (by rw [h.len_nm]; exact hx1)]
      exact ⟨hv0, hv1, hz, cget_set_same lm v ch hv0 hvl⟩
    · have hne : x ≠ ch := fun e' => hx (e' ▸ e)
      rw [tget_tset_ne _ _ _ _ hne]
      obtain ⟨d0, d1, d2, d3⟩ := h.digit ch e
      refine ⟨d0, d1, d2, ?_⟩
      have : v ≠ tget nm ch := by
        intro e'
        rw [← e', hfree] at d3
        exact (h.letter ch e).1 d3.symm
      rw [cget_set_ne lm v _ x hv0 d0 this]
      exact d3
  owner := by
    intro d hd hne
    by_cases hdv : d = v.toNat
    · subst hdv
      have hvl : v.toNat < lm.length := by rw [h.len_lm]; omega
      have e1 : (lm.set v.toNat x).getD v.toNat '\x00' = x := by
        simp [List.getD_eq_getElem?_getD, hvl]
      rw [e1]
      refine ⟨List.mem_cons_self _ _, ?_⟩
      rw [tget_tset_same _ _ _ (by rw [h.len_nm]; exact hx1)]
      omega
    · have e1 : (lm.set v.toNat x).getD d '\x00' = lm.getD d '\x00' := by
        simp [List.getD_eq_getElem?_getD, List.getElem?_set_ne (Ne.symm hdv)]
      rw [e1] at hne ⊢
      obtain ⟨o1, o2⟩ := h.owner d hd hne
      refine ⟨List.mem_cons_of_mem _ o1, ?_⟩
      have hne' : x ≠ lm.getD d '\x00' := fun e' => hx (e' ▸ o1)
      rw [tget_tset_ne _ _ _ _ hne']
      exact o2
  maxv := by
    intro ch hc
    rcases List.mem_cons.mp hc with e | e
    · subst e; exact hmv
    · exact h.maxv ch e
  letter := by
    intro ch hc
    rcases List.mem_cons.mp hc with e | e
    · subst e; exact ⟨hx0, hx1⟩
    · exact h.letter ch e

theorem AsgOK.release {p : Puzzle} {nm mv : List Int} {lm : List Char} {S : List Char}
    {x : Char} (h : AsgOK p nm mv lm (x :: S)) (hx : x ∉ S) :
    AsgOK p nm mv (lm.set (tget nm x).toNat '\x00') S where
  len_nm := h.len_nm
  len_mv := h.len_mv
  len_lm := by rw [List.length_set]; exact h.len_lm
  digit := by
    intro ch hc
    obtain ⟨d0, d1, d2, d3⟩ := h.digit ch (List.mem_cons_of_mem _ hc)
    refine ⟨d0, d1, d2, ?_⟩
    have hne : x ≠ ch := fun e' => hx (e' ▸ hc)
    have := h.digit_ne (List.mem_cons_self _ _) (List.mem_cons_of_mem _ hc) hne
    rw [cget_set_ne lm _ _ _ (h.digit x (List.mem_cons_self _ _)).1 d0 this]
    exact d3
  owner := by
    intro d hd hne
    have hx0 := (h.digit x (List.mem_cons_self _ _)).1
    by_cases hdv : d = (tget nm x).toNat
    · subst hdv
      exfalso
      apply hne
      have hvl : (tget nm x).toNat < lm.length := by
        rw [h.len_lm]
        have := (h.digit x (List.mem_cons_self _ _)).2.2.2
        by_contra hc
        have hz : cget lm (tget nm x) = '\x00' := by
          simp only [cget]
          rw [List.getD_eq_default]
          omega
        rw [hz] at this
        exact (h.letter x (List.mem_cons_self _ _)).1 this.symm
      simp [List.getD_eq_getElem?_getD, hvl]
    · have e1 : (lm.set (tget nm x).toNat '\x00').getD d '\x00' = lm.getD d '\x00' := by
        simp [List.getD_eq_getElem?_getD, List.getElem?_set_ne (Ne.symm hdv)]
      rw [e1] at hne ⊢
      obtain ⟨o1, o2⟩ := h.owner d hd hne
      refine ⟨?_, o2⟩
      rcases List.mem_cons.mp o1 with e | e
      · exfalso
        rw [e] at o2
        omega
      · exact e
  maxv := fun ch hc => h.maxv ch (List.mem_cons_of_mem _ hc)
  letter := fun ch hc => h.letter ch (List.mem_cons_of_mem _ hc)

/-! ### Carries -/

theorem carry_of_congr (base : Int) (sum : List Char) (cols : List (List Char))
    (f g : Char → Int) (c : Nat) (h : ∀ ch ∈ prefix_letters sum cols c, f ch = g ch) :
    carry_of base sum cols f c = carry_of base sum cols g c := by
  induction c with
  | zero => rfl
  | succ c ih =>
    simp only [carry_of]
    have h1 : ∀ ch ∈ prefix_letters sum cols c, f ch = g ch := fun ch hc =>
      h ch (by simp only [prefix_letters]; exact List.mem_append_left _ hc)
    have h2 : f (sum.getD c '\x00') = g (sum.getD c '\x00') :=
      h _ (by simp only [prefix_letters]; exact List.mem_append_right _ (List.mem_cons_self _ _))
    have h3 : (cols.getD c []).map f = (cols.getD c []).map g := by
      apply List.map_congr_left
      intro ch hc
      exact h ch (by simp only [prefix_letters]
                     exact List.mem_append_right _ (List.mem_cons_of_mem _ hc))
    rw [ih h1, h2, h3]

theorem column_target_congr (base : Int) (sum : List Char) (cols : List (List Char))
    (f g : Char → Int) (c : Nat) (rest : List Char)
    (h : ∀ ch ∈ prefix_letters sum cols c ++ sum.getD c '\x00' :: rest, f ch = g ch) :
    column_target base sum cols f c rest = column_target base sum cols g c rest := by
  simp only [column_target]
  have h1 := carry_of_congr base sum cols f g c
    (fun ch hc => h ch (List.mem_append_left _ hc))
  have h2 : f (sum.getD c '\x00') = g (sum.getD c '\x00') :=
    h _ (List.mem_append_right _ (List.mem_cons_self _ _))
  have h3 : rest.map f = rest.map g := by
    apply List.map_congr_left
    intro ch hc
    exact h ch (List.mem_append_right _ (List.mem_cons_of_mem _ hc))
  rw [h1, h2, h3]

theorem carry_of_succ (base : Int) (sum : List Char) (cols : List (List Char))
    (f : Char → Int) (c : Nat) :
    carry_of base sum cols f (c + 1) = column_target base sum cols f c (cols.getD c []) := rfl

theorem column_target_cons (base : Int) (sum : List Char) (cols : List (List Char))
    (f : Char → Int) (c : Nat) (x : Char) (rest : List Char) :
    column_target base sum cols f c (x :: rest)
      = column_target base sum cols f c rest - f x := by
  simp only [column_target, List.map_cons, List.sum_cons]
  ring

theorem CarryOK.congr {p : Puzzle} {cols : List (List Char)} {nm nm' nc : List Int} {c : Nat}
    (h : CarryOK p cols nm nc c)
    (hf : ∀ ch ∈ prefix_letters p.sum cols c, tget nm' ch = tget nm ch) :
    CarryOK p cols nm' nc c := by
  refine ⟨h.1, h.2.1, fun c' hc' => ?_⟩
  rw [h.2.2 c' hc']
  apply carry_of_congr
  intro ch hc
  have hsub : ∀ a b : Nat, a ≤ b → ∀ ch ∈ prefix_letters p.sum cols a,
      ch ∈ prefix_letters p.sum cols b := by
    intro a b hab
    induction hab with
    | refl => exact fun _ h => h
    | step _ ih =>
      intro ch hc
      simp only [prefix_letters]
      exact List.mem_append_left _ (ih ch hc)
  exact (hf ch (hsub c' c hc' ch hc)).symm

theorem CarryOK.back {p : Puzzle} {cols : List (List Char)} {nm nc : List Int} {c : Nat}
    (h : CarryOK p cols nm nc (c + 1)) : CarryOK p cols nm nc c :=
  ⟨h.1, by have := h.2.1; omega, fun c' hc' => h.2.2 c' (by omega)⟩

theorem set_carry_none {nc : List Int} {c : Nat} {v : Int}
    (h : set_carry nc ((c : Int) + 1) v = none) : MAX_LEN ≤ c + 1 := by
  unfold set_carry at h
  split_ifs at h with hc
  simp only [MAX_LEN] at hc ⊢
  omega

theorem CarryOK.advance {p : Puzzle} {cols : List (List Char)} {nm nc nc' : List Int} {c : Nat}
    {v : Int} (h : CarryOK p cols nm nc c)
    (hs : set_carry nc ((c : Int) + 1) v = some nc')
    (hv : v = carry_of p.base p.sum cols (tget nm) (c + 1)) :
    CarryOK p cols nm nc' (c + 1) := by
  unfold set_carry at hs
  split_ifs at hs with hc
  simp only [Option.some.injEq] at hs
  subst hs
  have e : ((c : Int) + 1).toNat = c + 1 := by omega
  rw [e]
  refine ⟨by rw [List.length_set]; exact h.1, by simp only [MAX_LEN] at hc ⊢; omega,
    fun c' hc' => ?_⟩
  by_cases hcc : c' = c + 1
  · subst hcc
    have : c + 1 < nc.length := by rw [h.1]; simp only [MAX_LEN] at hc ⊢; omega
    simp [List.getD_eq_getElem?_getD, this, hv]
  · have hne : c + 1 ≠ c' := Ne.symm hcc
    simp only [List.getD_eq_getElem?_getD, List.getElem?_set_ne hne]
    have := h.2.2 c' (by omega)
    simpa [List.getD_eq_getElem?_getD] using this

theorem prefix_letters_succ (sum : List Char) (cols : List (List Char)) (c : Nat) :
    prefix_letters sum cols (c + 1)
      = prefix_letters sum cols c ++ (sum.getD c '\x00' :: cols.getD c []) := rfl

/-! ### Movement between slots -/

theorem iget_natCast (t : List Int) (c : Nat) : iget t (c : Int) = t.getD c 0 := by
  simp [iget]

theorem PuzzleOK.len_eq {p : Puzzle} {cols : List (List Char)} (ok : PuzzleOK p cols)
    {c : Nat} (hc : c < p.sum.length) :
    iget p.column_lengths (c : Int) = ((cols.getD c []).length : Int) :=
  ok.col_len c hc

theorem seen_sum_fwd (p : Puzzle) (cols : List (List Char)) (c r : Nat) :
    seen p cols false false c r = prefix_letters p.sum cols c := by
  simp [seen]

theorem seen_sum_bwd (p : Puzzle) (cols : List (List Char)) (c r : Nat) :
    seen p cols false true c r = prefix_letters p.sum cols c ++ [p.sum.getD c '\x00'] := by
  simp [seen]

theorem seen_row_fwd (p : Puzzle) (cols : List (List Char)) (c r : Nat) :
    seen p cols true false c r
      = prefix_letters p.sum cols c ++ p.sum.getD c '\x00' :: (cols.getD c []).drop (r + 1) := by
  simp [seen]

theorem seen_row_bwd (p : Puzzle) (cols : List (List Char)) (c r : Nat) :
    seen p cols true true c r
      = prefix_letters p.sum cols c ++ p.sum.getD c '\x00' :: (cols.getD c []).drop r := by
  simp [seen]

theorem after_sum_char_back {p : Puzzle} {cols : List (List Char)} (ok : PuzzleOK p cols)
    (s : State) (c : Nat) (hb : s.backtrack = true) (hcol : s.curr_column = c)
    (hc : c < p.sum.length)
    (hcount : CountOK s.map_count (prefix_letters p.sum cols c))
    (hasg : AsgOK p s.number_map s.max_value s.letter_map (prefix_letters p.sum cols c))
    (hcarry : CarryOK p cols s.number_map s.needed_carry c)
    (hmin : s.min_value.length = 128) :
    GoodC p cols (after_sum_char p s) := by
  unfold after_sum_char
  simp only [hb, if_true]
  cases c with
  | zero =>
    have : s.curr_column - 1 = -1 := by rw [hcol]; rfl
    simp [enter_summands, this, GoodC]
  | succ c' =>
    have e1 : s.curr_column - 1 = (c' : Int) := by rw [hcol]; push_cast; ring
    have hc' : c' < p.sum.length := by omega
    have hne : ¬ ((c' : Int) = -1) := by omega
    simp only [e1, hne, false_or, ok.len_eq hc']
    by_cases hl : cols.getD c' [] = []
    · have hl0 : ((cols.getD c' []).length : Int) = 0 := by rw [hl]; rfl
      simp only [hl0, if_true, enter_summands, hne, if_false]
      have hneg : ¬ ((-1 : Int) ≥ 0) := by omega
      simp only [hneg, if_false, GoodC]
      have hseen : seen p cols false true c' 0 = prefix_letters p.sum cols (c' + 1) := by
        rw [seen_sum_bwd, prefix_letters_succ, hl]
      refine ⟨c', 0, ⟨?_, ?_, ?_, ?_, ?_, ?_, ?_, ?_, ?_, ?_, hmin⟩⟩
      · rfl
      · dsimp only
        intro h; simp at h
      · dsimp only
        omega
      · dsimp only
        intro _; exact hc'
      · dsimp only
        intro h; simp at h
      · dsimp only
        rw [hseen]; exact hcount
      · dsimp only
        rw [hseen]; exact hasg
      · dsimp only
        exact hcarry.back
      · dsimp only
        intro h; simp at h
      · dsimp only
        intro _ h; simp at h
    · have hl0 : ¬ (((cols.getD c' []).length : Int) = 0) := by
        intro h
        apply hl
        exact List.length_eq_zero.mp (by omega)
      simp only [hl0, if_false, enter_summands, hne]
      have hpos : ((0 : Int) ≥ 0) := le_refl _
      simp only [hpos, if_true, GoodC]
      have hseen : seen p cols true true c' 0 = prefix_letters p.sum cols (c' + 1) := by
        rw [seen_row_bwd, prefix_letters_succ, List.drop_zero]
      refine ⟨c', 0, ⟨?_, ?_, ?_, ?_, ?_, ?_, ?_, ?_, ?_, ?_, hmin⟩⟩
      · rfl
      · dsimp only
        intro _; rfl
      · dsimp only
        omega
      · dsimp only
        intro _; exact hc'
      · dsimp only
        intro _; exact List.length_pos.mpr hl
      · dsimp only
        rw [hseen]; exact hcount
      · dsimp only
        rw [hseen]; exact hasg
      · dsimp only
        exact hcarry.back
      · dsimp only
        intro _
        rw [hcol, iget_natCast, hcarry.2.2 (c' + 1) (le_refl _), carry_of_succ]
        simp
      · dsimp only
        intro h; simp at h

theorem drop_eq_getD_cons (l : List Char) (r : Nat) (h : r < l.length) :
    l.drop r = l.getD r '\x00' :: l.drop (r + 1) := by
  rw [List.drop_eq_getElem_cons h]
  simp [List.getD_eq_getElem?_getD, h]

theorem after_sum_char_fwd {p : Puzzle} {cols : List (List Char)} (ok : PuzzleOK p cols)
    (s : State) (c : Nat) (hb : s.backtrack = false) (hcol : s.curr_column = c)
    (hc : c < p.sum.length)
    (hcount : CountOK s.map_count (prefix_letters p.sum cols c ++ [p.sum.getD c '\x00']))
    (hasg : AsgOK p s.number_map s.max_value s.letter_map
      (prefix_letters p.sum cols c ++ [p.sum.getD c '\x00']))
    (hcarry : CarryOK p cols s.number_map s.needed_carry c)
    (hval : s.value = tget s.number_map (p.sum.getD c '\x00'))
    (hmin : s.min_value.length = 128) :
    GoodC p cols (after_sum_char p s) := by
  unfold after_sum_char
  simp only [hb, Bool.false_eq_true, if_false, hcol, ok.len_eq hc, iget_natCast,
    hcarry.2.2 c (le_refl _)]
  by_cases hl : cols.getD c [] = []
  · have hl0 : ((cols.getD c []).length : Int) - 1 < 0 := by rw [hl]; simp
    simp only [hl0, if_true]
    split
    · trivial
    · rename_i nc' hs
      simp only [GoodC]
      have hv : s.value + p.base * carry_of p.base p.sum cols (tget s.number_map) c
          = carry_of p.base p.sum cols (tget s.number_map) (c + 1) := by
        rw [carry_of_succ, hl, hval]
        simp [column_target]
      have hadv := hcarry.advance hs hv
      have hseen : seen p cols false false (c + 1) 0
          = prefix_letters p.sum cols c ++ [p.sum.getD c '\x00'] := by
        rw [seen_sum_fwd, prefix_letters_succ, hl]
      refine ⟨c + 1, 0, ⟨?_, ?_, ?_, ?_, ?_, ?_, ?_, ?_, ?_, ?_, hmin⟩⟩
      · first | rfl | exact hcol | (dsimp only; push_cast; rfl)
      · dsimp only
        intro h; simp at h
      · dsimp only
        omega
      · dsimp only
        intro h; simp at h
      · dsimp only
        intro h; simp at h
      · dsimp only
        rw [hseen]; exact hcount
      · dsimp only
        rw [hseen]; exact hasg
      · dsimp only
        exact hadv
      · dsimp only
        intro h; simp at h
      · dsimp only
        intro _ _ _; exact hv
  · have hpos : 0 < (cols.getD c []).length := List.length_pos.mpr hl
    have hl0 : ¬ (((cols.getD c []).length : Int) - 1 < 0) := by omega
    have hne : ¬ ((c : Int) = -1) := by omega
    have hge : ((cols.getD c []).length : Int) - 1 ≥ 0 := by omega
    simp only [hl0, if_false, enter_summands, hne, hge, if_true, GoodC]
    have hseen : seen p cols true false c ((cols.getD c []).length - 1)
        = prefix_letters p.sum cols c ++ [p.sum.getD c '\x00'] := by
      rw [seen_row_fwd]
      have : (cols.getD c []).length - 1 + 1 = (cols.getD c []).length := by omega
      rw [this, List.drop_length]
    refine ⟨c, (cols.getD c []).length - 1, ⟨?_, ?_, ?_, ?_, ?_, ?_, ?_, ?_, ?_, ?_, hmin⟩⟩
    · first | rfl | exact hcol | (dsimp only; push_cast; rfl)
    · dsimp only
      intro _; omega
    · dsimp only
      omega
    · dsimp only
      intro _; exact hc
    · dsimp only
      intro _; omega
    · dsimp only
      rw [hseen]; exact hcount
    · dsimp only
      rw [hseen]; exact hasg
    · dsimp only
      exact hcarry
    · dsimp only
      intro _
      have : (cols.getD c []).length - 1 + 1 = (cols.getD c []).length := by omega
      simp only [Bool.false_eq_true, if_false, this, List.drop_length, column_target, hval]
      simp
    · dsimp only
      intro h; simp at h

theorem after_summand_back {p : Puzzle} {cols : List (List Char)} (ok : PuzzleOK p cols)
    (s : State) (c r : Nat) (hb : s.backtrack = true) (hcol : s.curr_column = c)
    (hrow : s.curr_smnd_row = r) (hc : c < p.sum.length) (hr : r < (cols.getD c []).length)
    (hcount : CountOK s.map_count (seen p cols true false c r))
    (hasg : AsgOK p s.number_map s.max_value s.letter_map (seen p cols true false c r))
    (hcarry : CarryOK p cols s.number_map s.needed_carry c)
    (hneed : s.needed_sum = column_target p.base p.sum cols (tget s.number_map) c
      ((cols.getD c []).drop (r + 1)))
    (hmin : s.min_value.length = 128) :
    GoodC p cols (after_summand p s) := by
  unfold after_summand
  simp only [hb, if_true, hcol, hrow, ok.len_eq hc]
  by_cases hlast : r + 1 = (cols.getD c []).length
  · have e : (r : Int) = ((cols.getD c []).length : Int) - 1 := by omega
    simp only [e, if_true, GoodC]
    have hseen : seen p cols false true c 0 = seen p cols true false c r := by
      rw [seen_sum_bwd, seen_row_fwd, hlast, List.drop_length]
    refine ⟨c, 0, ⟨?_, ?_, ?_, ?_, ?_, ?_, ?_, ?_, ?_, ?_, hmin⟩⟩
    · first | rfl | exact hcol | (dsimp only; push_cast; rfl)
    · dsimp only
      intro h; simp at h
    · dsimp only
      omega
    · dsimp only
      intro _; exact hc
    · dsimp only
      intro h; simp at h
    · dsimp only
      rw [hseen]; exact hcount
    · dsimp only
      rw [hseen]; exact hasg
    · dsimp only
      exact hcarry
    · dsimp only
      intro h; simp at h
    · dsimp only
      intro _ h; simp at h
  · have e : ¬ ((r : Int) = ((cols.getD c []).length : Int) - 1) := by omega
    have hd : decide ((r : Int) + 1 ≥ 0) = true := by
      simp only [ge_iff_le, decide_eq_true_eq]; omega
    simp only [e, if_false, summand_loop_test, GoodC, hd]
    have hseen : seen p cols true true c (r + 1) = seen p cols true false c r := by
      rw [seen_row_bwd, seen_row_fwd]
    refine ⟨c, r + 1, ⟨?_, ?_, ?_, ?_, ?_, ?_, ?_, ?_, ?_, ?_, hmin⟩⟩
    · rfl
    · intro _; dsimp only; push_cast; rfl
    · omega
    · intro _; exact hc
    · intro _; omega
    · dsimp only; rw [hseen]; exact hcount
    · dsimp only; rw [hseen]; exact hasg
    · exact hcarry
    · intro _; dsimp only; simp only [if_true]; exact hneed
    · intro h; simp at h

theorem after_summand_fwd {p : Puzzle} {cols : List (List Char)} (ok : PuzzleOK p cols)
    (s : State) (c r : Nat) (hb : s.backtrack = false) (hcol : s.curr_column = c)
    (hrow : s.curr_smnd_row = r) (hc : c < p.sum.length) (hr : r < (cols.getD c []).length)
    (hcount : CountOK s.map_count (seen p cols true true c r))
    (hasg : AsgOK p s.number_map s.max_value s.letter_map (seen p cols true true c r))
    (hcarry : CarryOK p cols s.number_map s.needed_carry c)
    (hneed : s.needed_sum = column_target p.base p.sum cols (tget s.number_map) c
      ((cols.getD c []).drop (r + 1)))
    (hval : s.value = tget s.number_map ((cols.getD c []).getD r '\x00'))
    (hmin : s.min_value.length = 128) :
    GoodC p cols (after_summand p s) := by
  unfold after_summand
  simp only [hb, Bool.false_eq_true, if_false, hcol, hrow]
  have hsub : s.needed_sum - s.value = column_target p.base p.sum cols (tget s.number_map) c
      ((cols.getD c []).drop r) := by
    rw [drop_eq_getD_cons _ r hr, column_target_cons, hneed, hval]
  cases r with
  | zero =>
    simp only [Nat.cast_zero, if_true]
    split
    · trivial
    · rename_i nc' hs
      simp only [GoodC]
      have hv : s.needed_sum - s.value
          = carry_of p.base p.sum cols (tget s.number_map) (c + 1) := by
        rw [hsub, carry_of_succ, List.drop_zero]
      have hadv := hcarry.advance hs hv
      have hseen : seen p cols false false (c + 1) 0 = seen p cols true true c 0 := by
        rw [seen_sum_fwd, seen_row_bwd, prefix_letters_succ, List.drop_zero]
      refine ⟨c + 1, 0, ⟨?_, ?_, ?_, ?_, ?_, ?_, ?_, ?_, ?_, ?_, hmin⟩⟩
      · first | rfl | exact hcol | (dsimp only; push_cast; rfl)
      · dsimp only
        intro h; simp at h
      · dsimp only
        omega
      · dsimp only
        intro h; simp at h
      · dsimp only
        intro h; simp at h
      · dsimp only
        rw [hseen]; exact hcount
      · dsimp only
        rw [hseen]; exact hasg
      · dsimp only
        exact hadv
      · dsimp only
        intro h; simp at h
      · dsimp only
        intro _ _ _; exact hv
  | succ r' =>
    have e : ¬ (((r' + 1 : Nat) : Int) = 0) := by omega
    simp only [e, if_false, summand_loop_test, GoodC]
    have hd : decide (((r' + 1 : Nat) : Int) - 1 ≥ 0) = true := by simp
    have hseen : seen p cols true false c r' = seen p cols true true c (r' + 1) := by
      rw [seen_row_bwd, seen_row_fwd]
    refine ⟨c, r', ⟨?_, ?_, ?_, ?_, ?_, ?_, ?_, ?_, ?_, ?_, hmin⟩⟩
    · first | rfl | exact hcol | (dsimp only; push_cast; rfl)
    · dsimp only
      intro _; push_cast; ring
    · dsimp only
      omega
    · dsimp only
      intro _; exact hc
    · dsimp only
      intro _; omega
    · dsimp only
      rw [hd, hseen]; exact hcount
    · dsimp only
      rw [hd, hseen]; exact hasg
    · dsimp only
      exact hcarry
    · dsimp only
      intro _; simp only [Bool.false_eq_true, if_false]; exact hsub
    · dsimp only
      intro h; rw [hd] at h; simp at h


theorem first_free_from_spec (lm : List Char) (max : Int) (n : Nat) (v : Int)
    (hn : (max + 1 - v).toNat ≤ n) :
    v ≤ first_free_from lm max n v ∧
    (∀ x, v ≤ x → x < first_free_from lm max n v → cget lm x ≠ '\x00') ∧
    (first_free_from lm max n v ≤ max → cget lm (first_free_from lm max n v) = '\x00') := by
  induction n generalizing v with
  | zero =>
    simp only [first_free_from]
    refine ⟨le_refl _, fun x h1 h2 => absurd h2 (not_lt.mpr h1), fun h => ?_⟩
    omega
  | succ n ih =>
    simp only [first_free_from]
    split_ifs with h
    · obtain ⟨h1, h2, h3⟩ := ih (v + 1) (by omega)
      refine ⟨by omega, fun x hx1 hx2 => ?_, h3⟩
      by_cases hxv : x = v
      · subst hxv; exact h.2
      · exact h2 x (by omega) hx2
    · refine ⟨le_refl _, fun x h1 h2 => absurd h2 (not_lt.mpr h1), fun hle => ?_⟩
      by_contra hc
      exact h ⟨hle, hc⟩

theorem first_free_spec (lm : List Char) (max v : Int) :
    v ≤ first_free lm max v ∧
    (∀ x, v ≤ x → x < first_free lm max v → cget lm x ≠ '\x00') ∧
    (first_free lm max v ≤ max → cget lm (first_free lm max v) = '\x00') :=
  first_free_from_spec lm max _ v (le_refl _)

/-! ### Decisions on the tables -/

theorem min_of_two_le_left (x y : Int) : min_of_two x y ≤ x := by
  unfold min_of_two; split_ifs <;> omega

theorem min_of_two_le_right (x y : Int) : min_of_two x y ≤ y := by
  unfold min_of_two; split_ifs <;> omega

theorem le_max_of_two_right (x y : Int) : y ≤ max_of_two x y := by
  unfold max_of_two; split_ifs <;> omega

theorem le_max_of_two_left (x y : Int) : x ≤ max_of_two x y := by
  unfold max_of_two; split_ifs <;> omega

theorem PuzzleOK.max_digit_lt {p : Puzzle} {cols : List (List Char)} (ok : PuzzleOK p cols) :
    p.max_digit < MAX_BASE := by
  have h1 := ok.max_digit
  have h2 := ok.base_hi
  omega

/-- A fresh letter gets the first free digit of its range. -/
theorem fresh_tables {p : Puzzle} {nm mv mc : List Int} {lm : List Char} {S : List Char}
    (hasg : AsgOK p nm mv lm S) (hcount : CountOK mc S) (hmd : p.max_digit < MAX_BASE)
    (x : Char) (hx0 : x ≠ '\x00') (hx1 : x.toNat < 128) (hfresh : ¬ tget mc x ≠ 0)
    (lo hi : Int) (hlo0 : 0 ≤ lo) (hloz : tget p.zero_or_one_start x ≤ lo)
    (hhi : hi ≤ p.max_digit) (hv : ¬ first_free lm hi lo > hi) :
    AsgOK p (tset nm x (first_free lm hi lo)) (tset mv x hi)
        (lm.set (first_free lm hi lo).toNat x) (x :: S)
      ∧ CountOK (tset mc x (tget mc x + 1)) (x :: S)
      ∧ tget (tset nm x (first_free lm hi lo)) x = first_free lm hi lo
      ∧ (∀ ch ∈ S, tget (tset nm x (first_free lm hi lo)) ch = tget nm ch) := by
  have hxS : x ∉ S := fun h => hfresh ((hcount.mem_iff x).mpr h)
  obtain ⟨f1, _, f3⟩ := first_free_spec lm hi lo
  have hvle : first_free lm hi lo ≤ hi := by omega
  have h1 := hasg.set_max x hi hxS
  have hmvx : tget (tset mv x hi) x = hi := tget_tset_same _ _ _ (by rw [hasg.len_mv]; exact hx1)
  refine ⟨h1.fresh x _ hmd hxS hx0 hx1 (by omega) (by omega) (by omega) (f3 hvle)
    (by rw [hmvx]; exact hhi), hcount.push x hx1,
    tget_tset_same _ _ _ (by rw [hasg.len_nm]; exact hx1), fun ch hc => ?_⟩
  exact tget_tset_ne _ _ _ _ (fun e => hxS (e ▸ hc))

/-- Backtracking onto the first occurrence of a letter: the range has no
further free digit. -/
theorem retry_fail_tables {p : Puzzle} {nm mv mc : List Int} {lm : List Char} {S : List Char}
    {x : Char} (hasg : AsgOK p nm mv lm (x :: S)) (hcount : CountOK mc (x :: S))
    (hone : tget mc x = 1) :
    AsgOK p nm mv (lm.set (tget nm x).toNat '\x00') S
      ∧ CountOK (tset mc x (tget mc x - 1)) S :=
  ⟨hasg.release (hcount.one_iff.mp hone), hcount.pop (hasg.letter x (List.mem_cons_self _ _)).2⟩

/-- Backtracking onto the first occurrence of a letter: the next free digit
of the range is taken. -/
theorem retry_tables {p : Puzzle} {nm mv mc : List Int} {lm : List Char} {S : List Char}
    {x : Char} (hasg : AsgOK p nm mv lm (x :: S)) (hcount : CountOK mc (x :: S))
    (hmd : p.max_digit < MAX_BASE) (hone : tget mc x = 1)
    (hv : ¬ first_free (lm.set (tget nm x).toNat '\x00') (tget mv x) (tget nm x + 1)
            > tget mv x) :
    AsgOK p
        (tset nm x (first_free (lm.set (tget nm x).toNat '\x00') (tget mv x) (tget nm x + 1)))
        mv
        ((lm.set (tget nm x).toNat '\x00').set
          (first_free (lm.set (tget nm x).toNat '\x00') (tget mv x) (tget nm x + 1)).toNat x)
        (x :: S)
      ∧ tget (tset nm x
          (first_free (lm.set (tget nm x).toNat '\x00') (tget mv x) (tget nm x + 1))) x
          = first_free (lm.set (tget nm x).toNat '\x00') (tget mv x) (tget nm x + 1)
      ∧ (∀ ch ∈ S, tget (tset nm x
          (first_free (lm.set (tget nm x).toNat '\x00') (tget mv x) (tget nm x + 1))) ch
          = tget nm ch) := by
  have hxS : x ∉ S := hcount.one_iff.mp hone
  have hx := hasg.letter x (List.mem_cons_self _ _)
  obtain ⟨d0, _, d2, _⟩ := hasg.digit x (List.mem_cons_self _ _)
  have hmv := hasg.maxv x (List.mem_cons_self _ _)
  obtain ⟨f1, _, f3⟩ :=
    first_free_spec (lm.set (tget nm x).toNat '\x00') (tget mv x) (tget nm x + 1)
  have h1 := hasg.release hxS
  refine ⟨h1.fresh x _ hmd hxS hx.1 hx.2 (by omega) (by omega) (by omega) (f3 (by omega)) hmv,
    tget_tset_same _ _ _ (by rw [hasg.len_nm]; exact hx.2), fun ch hc => ?_⟩
  exact tget_tset_ne _ _ _ _ (fun e => hxS (e ▸ hc))

/-- Backtracking onto a later occurrence of a letter. -/
theorem pop_tables {p : Puzzle} {nm mv mc : List Int} {lm : List Char} {S : List Char}
    {x : Char} (hasg : AsgOK p nm mv lm (x :: S)) (hcount : CountOK mc (x :: S))
    (hone : ¬ tget mc x = 1) :
    AsgOK p nm mv lm S ∧ CountOK (tset mc x (tget mc x - 1)) S := by
  have hxS : x ∈ S := by
    by_contra h
    exact hone (hcount.one_iff.mpr h)
  exact ⟨hasg.drop hxS, hcount.pop (hasg.letter x (List.mem_cons_self _ _)).2⟩

/-- Moving forward onto a letter that already has a digit. -/
theorem reuse_tables {p : Puzzle} {nm mv mc : List Int} {lm : List Char} {S : List Char}
    (hasg : AsgOK p nm mv lm S) (hcount : CountOK mc S) (x : Char) (hused : tget mc x ≠ 0) :
    AsgOK p nm mv lm (x :: S) ∧ CountOK (tset mc x (tget mc x + 1)) (x :: S) := by
  have hxS : x ∈ S := (hcount.mem_iff x).mp hused
  exact ⟨hasg.reuse hxS, hcount.push x (hasg.letter x hxS).2⟩

theorem AsgOK.of_perm {p : Puzzle} {nm mv : List Int} {lm : List Char} {S S' : List Char}
    (h : AsgOK p nm mv lm S) (hp : S.Perm S') : AsgOK p nm mv lm S' :=
  h.of_mem_iff (fun ch => hp.mem_iff.symm)

theorem perm_row (p : Puzzle) (cols : List (List Char)) (c r : Nat)
    (hr : r < (cols.getD c []).length) :
    ((cols.getD c []).getD r '\x00' :: seen p cols true false c r).Perm
      (seen p cols true true c r) := by
  rw [seen_row_fwd, seen_row_bwd, drop_eq_getD_cons _ r hr]
  have h1 := @List.perm_middle _ ((cols.getD c []).getD r '\x00')
    (prefix_letters p.sum cols c ++ [p.sum.getD c '\x00'])
    ((cols.getD c []).drop (r + 1))
  simp only [List.append_assoc, List.singleton_append] at h1
  exact h1.symm

theorem perm_sum (p : Puzzle) (cols : List (List Char)) (c : Nat) :
    (p.sum.getD c '\x00' :: prefix_letters p.sum cols c).Perm
      (prefix_letters p.sum cols c ++ [p.sum.getD c '\x00']) :=
  (List.perm_append_singleton _ _).symm

/-! ### The invariant is kept by every slot transition -/

theorem enter_after_solution {p : Puzzle} {cols : List (List Char)} (ok : PuzzleOK p cols)
    (s : State) (h1 : s.curr_column = (p.sum.length : Int) - 1) (h2 : s.curr_smnd_row = 0)
    (h3 : s.backtrack = true)
    (hcount : CountOK s.map_count (prefix_letters p.sum cols p.sum.length))
    (hasg : AsgOK p s.number_map s.max_value s.letter_map
      (prefix_letters p.sum cols p.sum.length))
    (hcarry : CarryOK p cols s.number_map s.needed_carry p.sum.length)
    (hneed : s.needed_sum = carry_of p.base p.sum cols (tget s.number_map) p.sum.length)
    (hmin : s.min_value.length = 128) :
    GoodC p cols (enter_summands s) := by
  obtain ⟨L', hL'⟩ : ∃ L', p.sum.length = L' + 1 := ⟨p.sum.length - 1, by have := ok.sum_pos; omega⟩
  have hlast := ok.last_col
  rw [hL'] at h1 hcount hasg hcarry hneed hlast
  simp only [Nat.add_sub_cancel] at hlast
  have hne : ¬ (s.curr_column = -1) := by rw [h1]; push_cast; omega
  have hge : s.curr_smnd_row ≥ 0 := by rw [h2]
  simp only [enter_summands, hne, if_false, hge, if_true, GoodC]
  have hseen : seen p cols true true L' 0 = prefix_letters p.sum cols (L' + 1) := by
    rw [seen_row_bwd, prefix_letters_succ, List.drop_zero]
  refine ⟨L', 0, ⟨?_, ?_, ?_, ?_, ?_, ?_, ?_, ?_, ?_, ?_, hmin⟩⟩
  · dsimp only; rw [h1]; push_cast; ring
  · intro _; dsimp only; rw [h2]; rfl
  · omega
  · intro _; omega
  · intro _; exact List.length_pos.mpr hlast
  · dsimp only; rw [h3, hseen]; exact hcount
  · dsimp only; rw [h3, hseen]; exact hasg
  · exact hcarry.back
  · intro _; dsimp only; rw [h3, hneed, carry_of_succ]; simp
  · intro h; simp at h

theorem cget_natCast (t : List Char) (c : Nat) : cget t (c : Int) = t.getD c '\x00' := by
  simp [cget]

theorem PuzzleOK.sum_letter {p : Puzzle} {cols : List (List Char)} (ok : PuzzleOK p cols)
    {c : Nat} (hc : c < p.sum.length) :
    p.sum.getD c '\x00' ≠ '\x00' ∧ (p.sum.getD c '\x00').toNat < 128 := by
  apply ok.sum_letters
  rw [List.getD_eq_getElem _ _ hc]
  exact List.getElem_mem _

theorem PuzzleOK.col_letter {p : Puzzle} {cols : List (List Char)} (ok : PuzzleOK p cols)
    {c r : Nat} (hc : c < p.sum.length) (hr : r < (cols.getD c []).length) :
    (cols.getD c []).getD r '\x00' ≠ '\x00' ∧ ((cols.getD c []).getD r '\x00').toNat < 128 := by
  have hc' : c < cols.length := by rw [ok.cols_length]; exact hc
  apply ok.col_letters (cols.getD c [])
  · rw [List.getD_eq_getElem _ _ hc']
    exact List.getElem_mem _
  · rw [List.getD_eq_getElem _ _ hr]
    exact List.getElem_mem _

theorem step_sum_fwd_good {p : Puzzle} {cols : List (List Char)} (ok : PuzzleOK p cols)
    (s : State) (c r : Nat) (G : GoodAt p cols s c r) (hin : s.in_summands = false)
    (hb : s.backtrack = false) : GoodC p cols (step_sum p s) := by
  have hcount : CountOK s.map_count (prefix_letters p.sum cols c) := by
    have := G.count; rwa [hin, hb, seen_sum_fwd] at this
  have hasg : AsgOK p s.number_map s.max_value s.letter_map (prefix_letters p.sum cols c) := by
    have := G.asg; rwa [hin, hb, seen_sum_fwd] at this
  have hcarry := G.carry
  have hcol := G.col_eq
  have hmin := G.len_min
  unfold step_sum
  by_cases hL : c = p.sum.length
  · have e : s.curr_column = p.sum_length := by rw [hcol, ok.sum_length, hL]
    have hneed := G.need_sum hin hb (by have := ok.sum_pos; omega)
    rw [hL] at hcount hasg hcarry hneed
    have e1 : p.sum_length - 1 = (p.sum.length : Int) - 1 := by rw [ok.sum_length]
    simp only [e, if_true]
    split_ifs <;>
      first
      | trivial
      | (refine enter_after_solution ok _ ?_ ?_ ?_ ?_ ?_ ?_ ?_ ?_ <;>
          first | exact e1 | rfl | exact hcount | exact hasg | exact hcarry | exact hneed
                | exact hmin)
  · have hc : c < p.sum.length := by have := G.col_le; omega
    have e : ¬ ((c : Int) = p.sum_length) := by
      rw [ok.sum_length]; omega
    have hx := ok.sum_letter hc
    simp only [hcol, e, if_false, hb, Bool.false_eq_true, cget_natCast]
    split_ifs with h1 h2 h3
    · refine after_sum_char_back ok _ c ?_ ?_ hc ?_ ?_ ?_ ?_
      · rfl
      · rfl
      · exact hcount
      · exact hasg
      · exact hcarry
      · exact hmin
    · obtain ⟨a1, a2⟩ := reuse_tables hasg hcount _ h2
      refine after_sum_char_fwd ok _ c ?_ ?_ hc ?_ ?_ ?_ ?_ ?_
      · rfl
      · rfl
      · exact a2.count_perm (perm_sum p cols c)
      · exact a1.of_perm (perm_sum p cols c)
      · exact hcarry
      · rfl
      · exact hmin
    · have hxS : p.sum.getD c '\x00' ∉ prefix_letters p.sum cols c :=
        fun h => h2 ((hcount.mem_iff _).mpr h)
      refine after_sum_char_back ok _ c ?_ ?_ hc ?_ ?_ ?_ ?_
      · rfl
      · rfl
      · exact hcount
      · exact hasg.set_max _ _ hxS
      · exact hcarry
      · show (tset s.min_value _ _).length = 128
        rw [length_tset]; exact hmin
    · have hminx : tget (tset s.min_value (p.sum.getD c '\x00')
          (tget p.zero_or_one_start (p.sum.getD c '\x00'))) (p.sum.getD c '\x00')
          = tget p.zero_or_one_start (p.sum.getD c '\x00') :=
        tget_tset_same _ _ _ (by rw [hmin]; exact hx.2)
      have hmaxx : ∀ hi, tget (tset s.max_value (p.sum.getD c '\x00') hi)
          (p.sum.getD c '\x00') = hi :=
        fun hi => tget_tset_same _ _ _ (by rw [hasg.len_mv]; exact hx.2)
      rw [hminx, hmaxx] at h3 ⊢
      obtain ⟨a1, a2, a3, a4⟩ := fresh_tables hasg hcount ok.max_digit_lt _ hx.1 hx.2 h2
        _ _ (ok.zos_lo _) (le_refl _) (min_of_two_le_left _ _) h3
      refine after_sum_char_fwd ok _ c ?_ ?_ hc ?_ ?_ ?_ ?_ ?_
      · rfl
      · rfl
      · exact a2.count_perm (perm_sum p cols c)
      · exact a1.of_perm (perm_sum p cols c)
      · exact hcarry.congr a4
      · exact a3.symm
      · show (tset s.min_value _ _).length = 128
        rw [length_tset]; exact hmin

theorem step_sum_bwd_good {p : Puzzle} {cols : List (List Char)} (ok : PuzzleOK p cols)
    (s : State) (c r : Nat) (G : GoodAt p cols s c r) (hin : s.in_summands = false)
    (hb : s.backtrack = true) : GoodC p cols (step_sum p s) := by
  have hcount0 : CountOK s.map_count (prefix_letters p.sum cols c ++ [p.sum.getD c '\x00']) := by
    have := G.count; rwa [hin, hb, seen_sum_bwd] at this
  have hasg0 : AsgOK p s.number_map s.max_value s.letter_map
      (prefix_letters p.sum cols c ++ [p.sum.getD c '\x00']) := by
    have := G.asg; rwa [hin, hb, seen_sum_bwd] at this
  have hcount := hcount0.count_perm (perm_sum p cols c).symm
  have hasg := hasg0.of_perm (perm_sum p cols c).symm
  have hcarry := G.carry
  have hcol := G.col_eq
  have hmin := G.len_min
  have hc : c < p.sum.length := G.col_lt (Or.inr hb)
  have e : ¬ ((c : Int) = p.sum_length) := by
    rw [ok.sum_length]; omega
  unfold step_sum
  simp only [hcol, e, if_false, hb, if_true, cget_natCast]
  split_ifs with h1 h2
  · obtain ⟨a1, a2⟩ := retry_fail_tables hasg hcount h1
    refine after_sum_char_back ok _ c ?_ ?_ hc ?_ ?_ ?_ ?_
    · rfl
    · rfl
    · exact a2
    · exact a1
    · exact hcarry
    · exact hmin
  · obtain ⟨a1, a3, a4⟩ := retry_tables hasg hcount ok.max_digit_lt h1 h2
    refine after_sum_char_fwd ok _ c ?_ ?_ hc ?_ ?_ ?_ ?_ ?_
    · rfl
    · rfl
    · exact hcount0
    · exact a1.of_perm (perm_sum p cols c)
    · exact hcarry.congr a4
    · exact a3.symm
    · exact hmin
  · obtain ⟨a1, a2⟩ := pop_tables hasg hcount h1
    refine after_sum_char_back ok _ c ?_ ?_ hc ?_ ?_ ?_ ?_
    · rfl
    · rfl
    · exact a2
    · exact a1
    · exact hcarry
    · exact hmin

theorem summand_char_natCast {p : Puzzle} {cols : List (List Char)} (ok : PuzzleOK p cols)
    {c r : Nat} (hc : c < p.sum.length) (hr : r < (cols.getD c []).length) :
    summand_char p.reform_smnds (r : Int) (c : Int) = (cols.getD c []).getD r '\x00' :=
  ok.grid c hc r hr

theorem step_summand_fwd_good {p : Puzzle} {cols : List (List Char)} (ok : PuzzleOK p cols)
    (s : State) (c r : Nat) (G : GoodAt p cols s c r) (hin : s.in_summands = true)
    (hb : s.backtrack = false) : GoodC p cols (step_summand p s) := by
  have hcount : CountOK s.map_count (seen p cols true false c r) := by
    have := G.count; rwa [hin, hb] at this
  have hasg : AsgOK p s.number_map s.max_value s.letter_map (seen p cols true false c r) := by
    have := G.asg; rwa [hin, hb] at this
  have hcarry := G.carry
  have hcol := G.col_eq
  have hrow := G.row_eq hin
  have hmin := G.len_min
  have hc : c < p.sum.length := G.col_lt (Or.inl hin)
  have hr := G.row_lt hin
  have hneed : s.needed_sum = column_target p.base p.sum cols (tget s.number_map) c
      ((cols.getD c []).drop (r + 1)) := by
    have := G.need_row hin; rwa [hb] at this
  have hx := ok.col_letter hc hr
  have hperm := perm_row p cols c r hr
  unfold step_summand
  simp only [hcol, hrow, hb, Bool.false_eq_true, if_false, summand_char_natCast ok hc hr]
  split_ifs with h1 h2 h3
  · refine after_summand_back ok _ c r ?_ ?_ ?_ hc hr ?_ ?_ ?_ ?_ ?_
    · rfl
    · rfl
    · rfl
    · exact hcount
    · exact hasg
    · exact hcarry
    · exact hneed
    · exact hmin
  · obtain ⟨a1, a2⟩ := reuse_tables hasg hcount _ h1
    refine after_summand_fwd ok _ c r ?_ ?_ ?_ hc hr ?_ ?_ ?_ ?_ ?_ ?_
    · rfl
    · rfl
    · rfl
    · exact a2.count_perm hperm
    · exact a1.of_perm hperm
    · exact hcarry
    · exact hneed
    · rfl
    · exact hmin
  · have hxS : (cols.getD c []).getD r '\x00' ∉ seen p cols true false c r :=
      fun h => h1 ((hcount.mem_iff _).mpr h)
    refine after_summand_back ok _ c r ?_ ?_ ?_ hc hr ?_ ?_ ?_ ?_ ?_
    · rfl
    · rfl
    · rfl
    · exact hcount
    · exact hasg.set_max _ _ hxS
    · exact hcarry
    · exact hneed
    · show (tset s.min_value _ _).length = 128
      rw [length_tset]; exact hmin
  · have hminx : ∀ lo, tget (tset s.min_value ((cols.getD c []).getD r '\x00') lo)
        ((cols.getD c []).getD r '\x00') = lo :=
      fun lo => tget_tset_same _ _ _ (by rw [hmin]; exact hx.2)
    have hmaxx : ∀ hi, tget (tset s.max_value ((cols.getD c []).getD r '\x00') hi)
        ((cols.getD c []).getD r '\x00') = hi :=
      fun hi => tget_tset_same _ _ _ (by rw [hasg.len_mv]; exact hx.2)
    rw [hminx, hmaxx] at h3 ⊢
    have hlo0 : 0 ≤ max_of_two (s.needed_sum - p.max_digit * ↑r - iget p.max_carry (↑c + 1))
        (tget p.zero_or_one_start ((cols.getD c []).getD r '\x00')) :=
      le_trans (ok.zos_lo _) (le_max_of_two_right _ _)
    obtain ⟨a1, a2, a3, a4⟩ := fresh_tables hasg hcount ok.max_digit_lt _ hx.1 hx.2 h1
      _ _ hlo0 (le_max_of_two_right _ _) (min_of_two_le_left _ _) h3
    have hfr := fun ch (hch : ch ∈ prefix_letters p.sum cols c ++
        p.sum.getD c '\x00' :: (cols.getD c []).drop (r + 1)) =>
      a4 ch (by rw [seen_row_fwd]; exact hch)
    refine after_summand_fwd ok _ c r ?_ ?_ ?_ hc hr ?_ ?_ ?_ ?_ ?_ ?_
    · rfl
    · rfl
    · rfl
    · exact a2.count_perm hperm
    · exact a1.of_perm hperm
    · exact hcarry.congr (fun ch hch => a4 ch (by
        rw [seen_row_fwd]; exact List.mem_append_left _ hch))
    · exact hneed.trans (column_target_congr _ _ _ _ _ _ _ hfr).symm
    · exact a3.symm
    · show (tset s.min_value _ _).length = 128
      rw [length_tset]; exact hmin

theorem step_summand_bwd_good {p : Puzzle} {cols : List (List Char)} (ok : PuzzleOK p cols)
    (s : State) (c r : Nat) (G : GoodAt p cols s c r) (hin : s.in_summands = true)
    (hb : s.backtrack = true) : GoodC p cols (step_summand p s) := by
  have hcount0 : CountOK s.map_count (seen p cols true true c r) := by
    have := G.count; rwa [hin, hb] at this
  have hasg0 : AsgOK p s.number_map s.max_value s.letter_map (seen p cols true true c r) := by
    have := G.asg; rwa [hin, hb] at this
  have hcarry := G.carry
  have hcol := G.col_eq
  have hrow := G.row_eq hin
  have hmin := G.len_min
  have hc : c < p.sum.length := G.col_lt (Or.inl hin)
  have hr := G.row_lt hin
  have hperm := perm_row p cols c r hr
  have hcount := hcount0.count_perm hperm.symm
  have hasg := hasg0.of_perm hperm.symm
  have hneed : s.needed_sum + tget s.number_map ((cols.getD c []).getD r '\x00')
      = column_target p.base p.sum cols (tget s.number_map) c
          ((cols.getD c []).drop (r + 1)) := by
    have := G.need_row hin
    rw [hb] at this
    simp only [if_true] at this
    rw [this, drop_eq_getD_cons _ r hr, column_target_cons]
    ring
  unfold step_summand
  simp only [hcol, hrow, hb, if_true, summand_char_natCast ok hc hr]
  split_ifs with h1 h2
  · obtain ⟨a1, a2⟩ := retry_fail_tables hasg hcount h1
    refine after_summand_back ok _ c r ?_ ?_ ?_ hc hr ?_ ?_ ?_ ?_ ?_
    · rfl
    · rfl
    · rfl
    · exact a2
    · exact a1
    · exact hcarry
    · exact hneed
    · exact hmin
  · obtain ⟨a1, a3, a4⟩ := retry_tables hasg hcount ok.max_digit_lt h1 h2
    have hfr := fun ch (hch : ch ∈ prefix_letters p.sum cols c ++
        p.sum.getD c '\x00' :: (cols.getD c []).drop (r + 1)) =>
      a4 ch (by rw [seen_row_fwd]; exact hch)
    refine after_summand_fwd ok _ c r ?_ ?_ ?_ hc hr ?_ ?_ ?_ ?_ ?_ ?_
    · rfl
    · rfl
    · rfl
    · exact hcount0
    · exact a1.of_perm hperm
    · exact hcarry.congr (fun ch hch => a4 ch (by
        rw [seen_row_fwd]; exact List.mem_append_left _ hch))
    · exact hneed.trans (column_target_congr _ _ _ _ _ _ _ hfr).symm
    · exact a3.symm
    · exact hmin
  · obtain ⟨a1, a2⟩ := pop_tables hasg hcount h1
    refine after_summand_back ok _ c r ?_ ?_ ?_ hc hr ?_ ?_ ?_ ?_ ?_
    · rfl
    · rfl
    · rfl
    · exact a2
    · exact a1
    · exact hcarry
    · exact hneed
    · exact hmin

/-- Every slot transition keeps the search invariant. -/
theorem good_step {p : Puzzle} {cols : List (List Char)} (ok : PuzzleOK p cols)
    (s : State) (G : Good p cols s) : GoodC p cols (step p s) := by
  obtain ⟨c, r, G⟩ := G
  unfold step
  cases hin : s.in_summands <;> cases hb : s.backtrack
  · simpa using step_sum_fwd_good ok s c r G hin hb
  · simpa using step_sum_bwd_good ok s c r G hin hb
  · simpa using step_summand_fwd_good ok s c r G hin hb
  · simpa using step_summand_bwd_good ok s c r G hin hb

/-- The invariant holds for every configuration of a run that starts in a
good state. -/
theorem good_iterate {p : Puzzle} {cols : List (List Char)} (ok : PuzzleOK p cols)
    (n : Nat) (s : State) (G : Good p cols s) : GoodC p cols (iterate p n s) := by
  induction n generalizing s with
  | zero => exact G
  | succ n ih =>
    simp only [iterate]
    have h := good_step ok s G
    split
    · trivial
    · rename_i s' hs
      rw [hs] at h
      exact ih s' h

/-! ### Carries and word values -/

theorem word_value_append (base : Int) (f : Char → Int) (l : List Char) (x : Char) :
    word_value base f (l ++ [x]) = word_value base f l * base + f x := by
  simp [word_value, List.foldl_append]

theorem word_value_nil (base : Int) (f : Char → Int) : word_value base f [] = 0 := rfl

theorem columns_getD (summands : List (List Char)) (L c : Nat) (hc : c < L) :
    (columns summands L).getD c [] = column_letters summands L c := by
  simp [columns, List.getD_eq_getElem?_getD, hc]

theorem columns_length (summands : List (List Char)) (L : Nat) :
    (columns summands L).length = L := by
  simp [columns]

theorem column_letters_cons_reach (w : List Char) (ws : List (List Char)) (L c : Nat)
    (hreach : L - c ≤ w.length) (hk : w.length - (L - c) < w.length) :
    column_letters (w :: ws) L c = w[w.length - (L - c)] :: column_letters ws L c := by
  simp only [column_letters, List.filterMap_cons, if_pos hreach]
  rw [List.get?_eq_getElem?, List.getElem?_eq_getElem hk]

theorem column_letters_cons_short (w : List Char) (ws : List (List Char)) (L c : Nat)
    (hreach : ¬ L - c ≤ w.length) :
    column_letters (w :: ws) L c = column_letters ws L c := by
  simp only [column_letters, List.filterMap_cons, if_neg hreach]

/-- The value of the part of the summands that lies in the first `c`
columns. -/
theorem summand_prefix_step (base : Int) (f : Char → Int) (summands : List (List Char))
    (L c : Nat) (hc : c < L) (hlen : ∀ w ∈ summands, w.length ≤ L) :
    (summands.map fun w => word_value base f (w.take (w.length - (L - (c + 1))))).sum
      = (summands.map fun w => word_value base f (w.take (w.length - (L - c)))).sum * base
        + ((column_letters summands L c).map f).sum := by
  induction summands with
  | nil => simp [column_letters]
  | cons w ws ih =>
    have ih' := ih (fun w' hw' => hlen w' (List.mem_cons_of_mem _ hw'))
    have hw := hlen w (List.mem_cons_self _ _)
    simp only [List.map_cons, List.sum_cons, ih']
    by_cases hreach : L - c ≤ w.length
    · have hk : w.length - (L - c) < w.length := by omega
      have e1 : w.length - (L - (c + 1)) = (w.length - (L - c)) + 1 := by omega
      have e2 := column_letters_cons_reach w ws L c hreach hk
      rw [e1, e2, List.take_succ, List.getElem?_eq_getElem hk]
      simp only [Option.toList_some, word_value_append, List.map_cons, List.sum_cons]
      ring
    · have e1 : w.length - (L - (c + 1)) = 0 := by omega
      have e0 : w.length - (L - c) = 0 := by omega
      have e2 := column_letters_cons_short w ws L c hreach
      rw [e1, e0, e2]
      simp only [List.take_zero, word_value_nil]
      ring

theorem sum_prefix_step (base : Int) (f : Char → Int) (sum : List Char) (c : Nat)
    (hc : c < sum.length) :
    word_value base f (sum.take (c + 1))
      = word_value base f (sum.take c) * base + f (sum.getD c '\x00') := by
  rw [List.take_succ, List.getElem?_eq_getElem hc]
  simp only [Option.toList_some, word_value_append]
  rw [List.getD_eq_getElem _ _ hc]

theorem carry_of_eq_take (base : Int) (f : Char → Int) (summands : List (List Char))
    (sum : List Char) (hlen : ∀ w ∈ summands, w.length ≤ sum.length) (c : Nat)
    (hc : c ≤ sum.length) :
    carry_of base sum (columns summands sum.length) f c
      = word_value base f (sum.take c)
        - (summands.map fun w =>
            word_value base f (w.take (w.length - (sum.length - c)))).sum := by
  induction c with
  | zero =>
    simp only [carry_of, List.take_zero, word_value_nil, Nat.sub_zero, zero_sub]
    have : (summands.map fun w => word_value base f (w.take (w.length - sum.length)))
        = summands.map fun _ => (0 : Int) := by
      apply List.map_congr_left
      intro w hw
      have := hlen w hw
      have e : w.length - sum.length = 0 := by omega
      rw [e, List.take_zero, word_value_nil]
    rw [this]
    simp
  | succ c ih =>
    have hc' : c < sum.length := by omega
    rw [carry_of, ih (by omega), columns_getD _ _ _ hc', sum_prefix_step _ _ _ _ hc',
      summand_prefix_step base f summands sum.length c hc' hlen]
    ring

/-- The carry asked of the column past the last one is the difference between
the value of the sum and the total of the summands. -/
theorem carry_of_eq (base : Int) (f : Char → Int) (summands : List (List Char))
    (sum : List Char) (hlen : ∀ w ∈ summands, w.length ≤ sum.length) :
    carry_of base sum (columns summands sum.length) f sum.length
      = word_value base f sum - (summands.map (word_value base f)).sum := by
  rw [carry_of_eq_take base f summands sum hlen sum.length (le_refl _)]
  simp

/-! ### The reformatting loops -/

theorem foldl_bind_none {α : Type} (f : Nat → α → Option α) (l : List Nat) :
    l.foldl (fun acc j => acc.bind (f j)) none = none := by
  induction l with
  | nil => rfl
  | cons a l ih => simpa using ih

/-- Invariant rule for a counted loop whose body may fail. -/
theorem foldl_bind_range {α : Type} (f : Nat → α → Option α) (P : Nat → α → Prop) (n : Nat)
    (a : α) (h0 : P 0 a)
    (hstep : ∀ j x y, j < n → P j x → f j x = some y → P (j + 1) y) (r : α)
    (hr : (List.range n).foldl (fun acc j => acc.bind (f j)) (some a) = some r) : P n r := by
  induction n generalizing r with
  | zero =>
    simp only [List.range_zero, List.foldl_nil, Option.some.injEq] at hr
    exact hr ▸ h0
  | succ n ih =>
    rw [List.range_succ, List.foldl_append] at hr
    simp only [List.foldl_cons, List.foldl_nil] at hr
    cases hm : (List.range n).foldl (fun acc j => acc.bind (f j)) (some a) with
    | none => rw [hm] at hr; simp at hr
    | some m =>
      rw [hm] at hr
      simp only [Option.some_bind] at hr
      have hPm := ih (fun j x y hj => hstep j x y (by omega)) m hm
      exact hstep n m r (by omega) hPm hr

theorem note_letter_column_lengths (l : Layout) (ch : Char) :
    (note_letter l ch).column_lengths = l.column_lengths := by
  unfold note_letter; split_ifs <;> rfl

theorem note_letter_reform_smnds (l : Layout) (ch : Char) :
    (note_letter l ch).reform_smnds = l.reform_smnds := by
  unfold note_letter; split_ifs <;> rfl

theorem note_letter_zero_or_one_start (l : Layout) (ch : Char) :
    (note_letter l ch).zero_or_one_start = l.zero_or_one_start := by
  unfold note_letter; split_ifs <;> rfl

theorem grid_index_ne (r r' c c' : Nat) (hc : c < 16) (hc' : c' < 16)
    (h : r ≠ r' ∨ c ≠ c') : r * 16 + c ≠ r' * 16 + c' := by
  omega

theorem place_char_some {summands : List (List Char)} {summand_lengths : List Nat}
    {sum_length : Int} {i j : Nat} {l l' : Layout}
    (hp : place_char summands summand_lengths sum_length i j l = some l') :
    (0 ≤ summand_index (iget l.column_lengths
          (sum_length - ((summand_lengths.getD i 0 : Int) - (j : Int))))
          (sum_length - ((summand_lengths.getD i 0 : Int) - (j : Int)))
      ∧ summand_index (iget l.column_lengths
          (sum_length - ((summand_lengths.getD i 0 : Int) - (j : Int))))
          (sum_length - ((summand_lengths.getD i 0 : Int) - (j : Int)))
        < (MAX_LEN * MAX_STATIC_SUMMANDS : Nat))
    ∧ l'.reform_smnds = l.reform_smnds.set
        (summand_index (iget l.column_lengths
          (sum_length - ((summand_lengths.getD i 0 : Int) - (j : Int))))
          (sum_length - ((summand_lengths.getD i 0 : Int) - (j : Int)))).toNat
        ((summands.getD i []).getD j '\x00')
    ∧ l'.column_lengths = l.column_lengths.set
        (sum_length - ((summand_lengths.getD i 0 : Int) - (j : Int))).toNat
        (iget l.column_lengths (sum_length - ((summand_lengths.getD i 0 : Int) - (j : Int))) + 1)
    ∧ l'.zero_or_one_start
        = if j = 0 then tset l.zero_or_one_start ((summands.getD i []).getD j '\x00') 1
          else l.zero_or_one_start := by
  unfold place_char at hp
  simp only at hp
  split_ifs at hp with hidx hj0
  · simp only [Option.some.injEq] at hp
    subst hp
    refine ⟨hidx, ?_, ?_, ?_⟩
    · simp only [note_letter_reform_smnds]
    · simp only [note_letter_column_lengths]
    · simp only [note_letter_zero_or_one_start, if_pos hj0]
  · simp only [Option.some.injEq] at hp
    subst hp
    refine ⟨hidx, ?_, ?_, ?_⟩
    · simp only [note_letter_reform_smnds]
    · simp only [note_letter_column_lengths]
    · simp only [note_letter_zero_or_one_start, if_neg hj0]

theorem getD_set_same {α : Type} (l : List α) (i : Nat) (v d : α) (h : i < l.length) :
    (l.set i v).getD i d = v := by
  simp [List.getD_eq_getElem?_getD, h]

theorem getD_set_ne {α : Type} (l : List α) (i k : Nat) (v d : α) (h : i ≠ k) :
    (l.set i v).getD k d = l.getD k d := by
  simp [List.getD_eq_getElem?_getD, List.getElem?_set_ne h]

theorem LayoutMid.place {summands : List (List Char)} {summand_lengths : List Nat}
    {done : List (List Char)} {w : List Char} {i j L : Nat} {l l' : Layout}
    (h : LayoutMid done w j L l) (hw : summands.getD i [] = w)
    (hlen : summand_lengths.getD i 0 = w.length) (hj : j < w.length) (hwL : w.length ≤ L)
    (hL : L ≤ 16) (hcode : (w.getD 0 '\x00').toNat < 128)
    (hp : place_char summands summand_lengths (L : Int) i j l = some l') :
    LayoutMid done w (j + 1) L l' := by
  have hcolN : (L : Int) - ((w.length : Int) - (j : Int)) = ((L - w.length + j : Nat) : Int) := by
    omega
  have hcolL : L - w.length + j < L := by omega
  have hcnt := h.col_len (L - w.length + j) hcolL
  have hnot : ¬ (L - w.length ≤ L - w.length + j ∧ L - w.length + j < L - w.length + j) := by
    omega
  rw [if_neg hnot, Nat.add_zero] at hcnt
  obtain ⟨hidx, hgrid, hcl, hzos⟩ := place_char_some hp
  simp only [hlen, hw, hcolN, iget_natCast, hcnt, summand_index, MAX_LEN_SHIFT,
    Int.toNat_ofNat] at hidx hgrid hcl hzos
  have hidxN : ((((column_letters done L (L - w.length + j)).length : Nat) : Int) * 2 ^ 4
      + ((L - w.length + j : Nat) : Int)).toNat
      = (column_letters done L (L - w.length + j)).length * 16 + (L - w.length + j) := by
    omega
  rw [hidxN] at hgrid
  have hidxlt : (column_letters done L (L - w.length + j)).length * 16 + (L - w.length + j)
      < l.reform_smnds.length := by
    rw [h.len_grid]
    have := hidx.2
    omega
  refine ⟨?_, ?_, ?_, ?_, ?_, ?_, ?_, ?_⟩
  · rw [hcl, List.length_set]; exact h.len_cl
  · rw [hgrid, List.length_set]; exact h.len_grid
  · rw [hzos]; split_ifs
    · rw [length_tset]; exact h.len_zos
    · exact h.len_zos
  · intro c hc
    rw [hcl]
    by_cases hcc : c = L - w.length + j
    · subst hcc
      rw [getD_set_same _ _ _ _ (by rw [h.len_cl]; simp only [MAX_LEN]; omega)]
      have : (L - w.length ≤ L - w.length + j ∧ L - w.length + j < L - w.length + (j + 1)) := by
        omega
      rw [if_pos this]
      push_cast
      ring
    · rw [getD_set_ne _ _ _ _ _ (Ne.symm hcc), h.col_len c hc]
      have : (L - w.length ≤ c ∧ c < L - w.length + j)
          ↔ (L - w.length ≤ c ∧ c < L - w.length + (j + 1)) := by omega
      simp only [this]
  · intro c hc r hr
    rw [hgrid, getD_set_ne _ _ _ _ _ (grid_index_ne _ _ _ _ (by omega) (by omega) ?_)]
    · exact h.grid c hc r hr
    · by_cases hcc : c = L - w.length + j
      · left; subst hcc; omega
      · right; exact Ne.symm hcc
  · intro c hc h1 h2
    rw [hgrid]
    by_cases hcc : c = L - w.length + j
    · subst hcc
      rw [getD_set_same _ _ _ _ hidxlt]
      congr 1
      omega
    · rw [getD_set_ne _ _ _ _ _ (grid_index_ne _ _ _ _ (by omega) (by omega)
        (Or.inr (Ne.symm hcc)))]
      exact h.grid_new c hc h1 (by omega)
  · intro ch hch
    rw [hzos]
    by_cases hj0 : j = 0
    · subst hj0
      rw [if_pos rfl]
      by_cases hx : w.getD 0 '\x00' = ch
      · subst hx
        exact tget_tset_same _ _ _ (by rw [h.len_zos]; exact hcode)
      · rw [tget_tset_ne _ _ _ _ hx]
        apply h.zos_one
        rcases hch with hch | hch
        · exact Or.inl hch
        · exfalso
          apply hx
          have := hch.2
          cases w with
          | nil => simp at this
          | cons a w' =>
            simp only [List.head?_cons, Option.some.injEq] at this
            simp [this]
    · rw [if_neg hj0]
      apply h.zos_one
      rcases hch with hch | hch
      · exact Or.inl hch
      · exact Or.inr ⟨by omega, hch.2⟩
  · intro ch hch
    rw [hzos]
    have hne : ¬ leads done ch := fun hh => hch (Or.inl hh)
    have hhead : ¬ w.head? = some ch := fun hh => hch (Or.inr ⟨by omega, hh⟩)
    by_cases hj0 : j = 0
    · subst hj0
      rw [if_pos rfl]
      have hx : w.getD 0 '\x00' ≠ ch := by
        intro hx
        apply hhead
        cases w with
        | nil => simp at hj
        | cons a w' =>
          simp only [List.head?_cons, Option.some.injEq]
          simpa using hx
      rw [tget_tset_ne _ _ _ _ hx]
      exact h.zos_zero ch (by
        intro hh
        rcases hh with hh | hh
        · exact hne hh
        · exact hhead hh.2)
    · rw [if_neg hj0]
      exact h.zos_zero ch (by
        intro hh
        rcases hh with hh | hh
        · exact hne hh
        · exact hhead hh.2)

theorem column_letters_append (done : List (List Char)) (w : List Char) (L c : Nat) :
    column_letters (done ++ [w]) L c
      = column_letters done L c
        ++ (if L - c ≤ w.length ∧ w.length - (L - c) < w.length
            then [w.getD (w.length - (L - c)) '\x00'] else []) := by
  simp only [column_letters, List.filterMap_append, List.filterMap_cons, List.filterMap_nil]
  congr 1
  by_cases hreach : L - c ≤ w.length
  · rw [if_pos hreach, List.get?_eq_getElem?]
    by_cases hk : w.length - (L - c) < w.length
    · rw [if_pos ⟨hreach, hk⟩, List.getElem?_eq_getElem hk, List.getD_eq_getElem _ _ hk]
    · rw [if_neg (fun h => hk h.2), List.getElem?_eq_none (by omega)]
  · rw [if_neg hreach, if_neg (fun h => hreach h.1)]

theorem leads_append (done : List (List Char)) (w : List Char) (ch : Char) :
    leads (done ++ [w]) ch ↔ leads done ch ∨ w.head? = some ch := by
  simp only [leads, List.mem_append, List.mem_singleton]
  constructor
  · rintro ⟨w', hw' | hw', hh⟩
    · exact Or.inl ⟨w', hw', hh⟩
    · exact Or.inr (hw' ▸ hh)
  · rintro (⟨w', hw', hh⟩ | hh)
    · exact ⟨w', Or.inl hw', hh⟩
    · exact ⟨w, Or.inr rfl, hh⟩

theorem LayoutMid.finish {done : List (List Char)} {w w' : List Char} {L : Nat} {l : Layout}
    (h : LayoutMid done w w.length L l) (hw : w ≠ []) (hwL : w.length ≤ L) :
    LayoutMid (done ++ [w]) w' 0 L l := by
  have hpos : 0 < w.length := List.length_pos.mpr hw
  refine ⟨h.len_cl, h.len_grid, h.len_zos, ?_, ?_, ?_, ?_, ?_⟩
  · intro c hc
    rw [h.col_len c hc, column_letters_append]
    have hno : ¬ (L - w'.length ≤ c ∧ c < L - w'.length + 0) := by omega
    rw [if_neg hno]
    by_cases hreach : L - w.length ≤ c ∧ c < L - w.length + w.length
    · rw [if_pos hreach, if_pos (by omega)]
      simp
    · rw [if_neg hreach, if_neg (by omega)]
      simp
  · intro c hc r hr
    rw [column_letters_append] at hr ⊢
    by_cases hr' : r < (column_letters done L c).length
    · rw [List.getD_append _ _ _ _ hr']
      exact h.grid c hc r hr'
    · have hreach : L - c ≤ w.length ∧ w.length - (L - c) < w.length := by
        by_contra hn
        rw [if_neg hn] at hr
        simp at hr
        omega
      rw [if_pos hreach] at hr ⊢
      simp only [List.length_append, List.length_singleton] at hr
      have hre : r = (column_letters done L c).length := by omega
      subst hre
      rw [List.getD_append_right _ _ _ _ (le_refl _)]
      simp only [Nat.sub_self, List.getD_cons_zero]
      rw [h.grid_new c hc (by omega) (by omega)]
      congr 1
      omega
  · intro c hc h1 h2
    omega
  · intro ch hch
    apply h.zos_one
    rcases hch with hch | hch
    · rcases (leads_append done w ch).mp hch with h1 | h1
      · exact Or.inl h1
      · exact Or.inr ⟨hpos, h1⟩
    · omega
  · intro ch hch
    apply h.zos_zero
    intro hh
    apply hch
    left
    rcases hh with h1 | h1
    · exact (leads_append done w ch).mpr (Or.inl h1)
    · exact (leads_append done w ch).mpr (Or.inr h1.2)

theorem LayoutMid.restart {done : List (List Char)} {w w' : List Char} {L : Nat} {l : Layout}
    (h : LayoutMid done w 0 L l) : LayoutMid done w' 0 L l := by
  refine ⟨h.len_cl, h.len_grid, h.len_zos, ?_, h.grid, ?_, ?_, ?_⟩
  · intro c hc
    rw [h.col_len c hc]
    have h1 : ¬ (L - w.length ≤ c ∧ c < L - w.length + 0) := by omega
    have h2 : ¬ (L - w'.length ≤ c ∧ c < L - w'.length + 0) := by omega
    rw [if_neg h1, if_neg h2]
  · intro c hc h1 h2; omega
  · intro ch hch
    apply h.zos_one
    rcases hch with hch | hch
    · exact Or.inl hch
    · omega
  · intro ch hch
    apply h.zos_zero
    intro hh
    apply hch
    rcases hh with h1 | h1
    · exact Or.inl h1
    · omega

/-- The inner reformatting loop places one summand. -/
theorem LayoutMid.word {summands : List (List Char)} {summand_lengths : List Nat}
    {done : List (List Char)} {w : List Char} {i L : Nat} {l l' : Layout}
    (h : LayoutMid done w 0 L l) (hw : summands.getD i [] = w)
    (hlen : summand_lengths.getD i 0 = w.length) (hne : w ≠ []) (hwL : w.length ≤ L)
    (hL : L ≤ 16) (hcode : (w.getD 0 '\x00').toNat < 128)
    (hp : (List.range (summand_lengths.getD i 0)).foldl
      (fun acc j => acc.bind (place_char summands summand_lengths (L : Int) i j)) (some l)
        = some l') :
    LayoutMid (done ++ [w]) [] 0 L l' := by
  rw [hlen] at hp
  have := foldl_bind_range (fun j => place_char summands summand_lengths (L : Int) i j)
    (fun j x => LayoutMid done w j L x) w.length l h
    (fun j x y hj hx hy => hx.place hw hlen hj hwL hL hcode hy) l' hp
  exact this.finish hne hwL

theorem reformat_eq_bind (summands : List (List Char)) (summand_count : Nat)
    (summand_lengths : List Nat) (sum_length : Int) (l : Layout) :
    reformat summands summand_count summand_lengths sum_length l
      = (List.range summand_count).foldl
          (fun acc i => acc.bind (fun x =>
            (List.range (summand_lengths.getD i 0)).foldl
              (fun acc j => acc.bind (place_char summands summand_lengths sum_length i j))
              (some x)))
          (some l) := by
  unfold reformat
  congr 1
  funext acc i
  cases acc with
  | none => simp only [Option.none_bind]; exact foldl_bind_none _ _
  | some x => rfl

/-- The reformatting loops lay out all the summands. -/
theorem reformat_ok {summands : List (List Char)} {summand_count : Nat}
    {summand_lengths : List Nat} {L : Nat} {l l' : Layout}
    (hcount : summand_count = summands.length)
    (hlens : summand_lengths = summands.map List.length)
    (hw : ∀ w ∈ summands, w ≠ [] ∧ w.length ≤ L ∧ (w.getD 0 '\x00').toNat < 128)
    (hL : L ≤ 16) (h0 : LayoutMid [] [] 0 L l)
    (hr : reformat summands summand_count summand_lengths (L : Int) l = some l') :
    LayoutMid summands [] 0 L l' := by
  rw [reformat_eq_bind] at hr
  have := foldl_bind_range
    (fun i x => (List.range (summand_lengths.getD i 0)).foldl
      (fun acc j => acc.bind (place_char summands summand_lengths (L : Int) i j)) (some x))
    (fun i x => LayoutMid (summands.take i) [] 0 L x) summand_count l
    (by simpa using h0) ?_ l' hr
  · rw [hcount, List.take_length] at this
    exact this
  · intro i x y hi hx hy
    rw [hcount] at hi
    have hmem : summands[i] ∈ summands := List.getElem_mem _
    obtain ⟨w1, w2, w3⟩ := hw _ hmem
    have e1 : summands.getD i [] = summands[i] := List.getD_eq_getElem _ _ hi
    have e2 : summand_lengths.getD i 0 = (summands[i]).length := by
      rw [hlens, List.getD_eq_getElem _ _ (by simpa using hi)]
      simp
    have e3 : summands.take (i + 1) = summands.take i ++ [summands[i]] := by
      rw [List.take_succ, List.getElem?_eq_getElem hi]
      rfl
    rw [e3]
    exact (@LayoutMid.restart _ _ summands[i] _ _ hx).word e1 e2 w1 w2 hL w3 hy

theorem foldl_note_letter_tables (sum : List Char) (l : Layout) :
    (sum.foldl note_letter l).column_lengths = l.column_lengths
      ∧ (sum.foldl note_letter l).reform_smnds = l.reform_smnds
      ∧ (sum.foldl note_letter l).zero_or_one_start = l.zero_or_one_start := by
  induction sum generalizing l with
  | nil => exact ⟨rfl, rfl, rfl⟩
  | cons a sum ih =>
    simp only [List.foldl_cons]
    obtain ⟨h1, h2, h3⟩ := ih (note_letter l a)
    rw [h1, h2, h3]
    exact ⟨note_letter_column_lengths l a, note_letter_reform_smnds l a,
      note_letter_zero_or_one_start l a⟩

theorem tget_replicate {α : Type} [Inhabited α] (n : Nat) (ch : Char) :
    tget (List.replicate n (default : α)) ch = default := by
  simp only [tget, List.getD_eq_getElem?_getD]
  by_cases h : ch.toNat < n
  · simp [List.getElem?_replicate, h]
  · simp [List.getElem?_replicate, h]

theorem layout_initial (u : Uninit) (sum : List Char) (L : Nat) :
    LayoutMid [] [] 0 L (sum.foldl note_letter
      { letter_used := List.replicate 128 0
        total_letters_used := 0
        column_lengths := List.replicate (MAX_LEN + 1) 0
        reform_smnds := (List.range (MAX_LEN * MAX_STATIC_SUMMANDS)).map u.static_summands
        zero_or_one_start := List.replicate 128 0 }) := by
  obtain ⟨h1, h2, h3⟩ := foldl_note_letter_tables sum
    { letter_used := List.replicate 128 0
      total_letters_used := 0
      column_lengths := List.replicate (MAX_LEN + 1) 0
      reform_smnds := (List.range (MAX_LEN * MAX_STATIC_SUMMANDS)).map u.static_summands
      zero_or_one_start := List.replicate 128 0 }
  refine ⟨?_, ?_, ?_, ?_, ?_, ?_, ?_, ?_⟩
  · rw [h1]; simp
  · rw [h2]; simp
  · rw [h3]; simp
  · intro c hc
    rw [h1]
    have hno : ¬ (L - ([] : List Char).length ≤ c ∧ c < L - ([] : List Char).length + 0) := by
      simp only [List.length_nil]; omega
    rw [if_neg hno]
    have hz : (List.replicate (MAX_LEN + 1) (0 : Int)).getD c 0 = 0 := by
      simp only [List.getD_eq_getElem?_getD, List.getElem?_replicate]
      split_ifs <;> rfl
    simp only [hz, column_letters, List.filterMap_nil, List.length_nil, Nat.add_zero,
      Nat.cast_zero]
  · intro c hc r hr
    simp [column_letters] at hr
  · intro c hc h1 h2
    omega
  · intro ch hch
    rcases hch with hch | hch
    · obtain ⟨w, hw, _⟩ := hch
      simp at hw
    · omega
  · intro ch _
    rw [h3]
    exact @tget_replicate Int _ 128 ch

/-! ### Validated input and the prepared puzzle -/

theorem upper_letter {c : Char} (h : 'A' ≤ c ∧ c ≤ 'Z') : c ≠ '\x00' ∧ c.toNat < 128 := by
  obtain ⟨h1, h2⟩ := h
  have h1' : ('A' : Char).toNat ≤ c.toNat := h1
  have h2' : c.toNat ≤ ('Z' : Char).toNat := h2
  have eA : ('A' : Char).toNat = 65 := rfl
  have eZ : ('Z' : Char).toNat = 90 := rfl
  refine ⟨?_, by omega⟩
  intro e
  rw [e] at h1'
  have e0 : ('\x00' : Char).toNat = 0 := rfl
  omega

theorem is_word_spec {w : List Char} (h : is_word w = true) :
    w ≠ [] ∧ w.length ≤ MAX_LEN ∧ ∀ c ∈ w, c ≠ '\x00' ∧ c.toNat < 128 := by
  simp only [is_word, Bool.and_eq_true, decide_eq_true_eq, List.all_eq_true] at h
  exact ⟨h.1.1, h.1.2, fun c hc => upper_letter (h.2 c hc)⟩

theorem le_foldl_max (l : List Nat) (a : Nat) : a ≤ l.foldl max a ∧ ∀ x ∈ l, x ≤ l.foldl max a := by
  induction l generalizing a with
  | nil => exact ⟨le_refl _, fun x hx => by simp at hx⟩
  | cons b l ih =>
    simp only [List.foldl_cons]
    obtain ⟨h1, h2⟩ := ih (max a b)
    refine ⟨le_trans (le_max_left a b) h1, fun x hx => ?_⟩
    rcases List.mem_cons.mp hx with e | e
    · subst e; exact le_trans (le_max_right a x) h1
    · exact h2 x e

theorem valid_instance_facts {summands : List (List Char)} {summand_count : Nat}
    {summand_lengths : List Nat} {longest_summand : Nat} {sum : List Char} {base : Nat}
    (h : valid_instance summands summand_count summand_lengths longest_summand sum base
      = true) :
    ValidFacts summands summand_count summand_lengths longest_summand sum base := by
  simp only [valid_instance, Bool.and_eq_true, decide_eq_true_eq, List.all_eq_true] at h
  obtain ⟨⟨⟨⟨⟨⟨⟨h1, h2⟩, h3⟩, h4⟩, h5⟩, h6⟩, h7⟩, h8⟩ := h
  exact ⟨h1, h2, h3, h4, h5, h6, h7, h8⟩


theorem mem_column_letters {summands : List (List Char)} {L c : Nat} {ch : Char}
    (h : ch ∈ column_letters summands L c) : ∃ w ∈ summands, ch ∈ w := by
  simp only [column_letters, List.mem_filterMap] at h
  obtain ⟨w, hw, hch⟩ := h
  refine ⟨w, hw, ?_⟩
  split_ifs at hch
  exact List.get?_mem hch

theorem getD_zero_of_head {w : List Char} {ch : Char} (h : w.head? = some ch) :
    w.getD 0 '\x00' = ch := by
  cases w with
  | nil => simp at h
  | cons a w => simpa using h

theorem head_of_getD_zero {w : List Char} (hw : w ≠ []) : w.head? = some (w.getD 0 '\x00') := by
  cases w with
  | nil => exact absurd rfl hw
  | cons a w => simp

/-- For validated input, a successful `prepare` delivers a puzzle with the
static facts the search relies on. -/
theorem prepare_ok {summands : List (List Char)} {summand_count : Nat}
    {summand_lengths : List Nat} {longest_summand : Nat} {sum : List Char} {base : Nat}
    {print just_one : Bool} {u : Uninit} {p : Puzzle}
    (hv : valid_instance summands summand_count summand_lengths longest_summand sum base
      = true)
    (hp : prepare u summands summand_count summand_lengths longest_summand sum base print
      just_one = .ok p) :
    Prepared summands sum base print just_one p := by
  have V := valid_instance_facts hv
  obtain ⟨s1, s2, s3⟩ := is_word_spec V.sum_word
  unfold prepare at hp
  simp only at hp
  split_ifs at hp with h1 h2
  split at hp
  · cases hp
  · rename_i l2 hl2
    split_ifs at hp with h3
    simp only [Except.ok.injEq] at hp
    have hlongest : ∀ w ∈ summands, w.length ≤ sum.length := by
      intro w hw
      have := (le_foldl_max (summands.map List.length) 0).2 w.length
        (List.mem_map_of_mem _ hw)
      rw [← V.longest_eq] at this
      omega
    have hL16 : sum.length ≤ 16 := by simpa [MAX_LEN] using s2
    have hwords : ∀ w ∈ summands, w ≠ [] ∧ w.length ≤ sum.length
        ∧ (w.getD 0 '\x00').toNat < 128 := by
      intro w hw
      obtain ⟨w1, _, w3⟩ := is_word_spec (V.words w hw)
      refine ⟨w1, hlongest w hw, ?_⟩
      have : w.getD 0 '\x00' ∈ w := by
        rw [List.getD_eq_getElem _ _ (List.length_pos.mpr w1)]
        exact List.getElem_mem _
      exact (w3 _ this).2
    have hlay := reformat_ok V.count_eq V.lengths_eq hwords hL16 (layout_initial u sum sum.length)
      hl2
    have hsum0 : sum.getD 0 '\x00' ∈ sum := by
      rw [List.getD_eq_getElem _ _ (List.length_pos.mpr s1)]
      exact List.getElem_mem _
    have hzos1 : ∀ ch : Char, leads (sum :: summands) ch →
        tget (tset l2.zero_or_one_start (sum.getD 0 '\x00') 1) ch = 1 := by
      intro ch hch
      by_cases hx : sum.getD 0 '\x00' = ch
      · subst hx
        exact tget_tset_same _ _ _ (by rw [hlay.len_zos]; exact (s3 _ hsum0).2)
      · rw [tget_tset_ne _ _ _ _ hx]
        apply hlay.zos_one
        left
        obtain ⟨w, hw, hh⟩ := hch
        rcases List.mem_cons.mp hw with e | e
        · subst e
          exact absurd (getD_zero_of_head hh) hx
        · exact ⟨w, e, hh⟩
    have hzos0 : ∀ ch : Char, ¬ leads (sum :: summands) ch →
        tget (tset l2.zero_or_one_start (sum.getD 0 '\x00') 1) ch = 0 := by
      intro ch hch
      have hx : sum.getD 0 '\x00' ≠ ch := by
        intro hx
        apply hch
        exact ⟨sum, List.mem_cons_self _ _, hx ▸ head_of_getD_zero s1⟩
      rw [tget_tset_ne _ _ _ _ hx]
      apply hlay.zos_zero
      rintro (⟨w, hw, hh⟩ | hh)
      · exact hch ⟨w, List.mem_cons_of_mem _ hw, hh⟩
      · omega
    subst hp
    refine ⟨⟨?_, ?_, ?_, ?_, ?_, ?_, ?_, ?_, ?_, ?_, ?_, ?_, ?_⟩, rfl, rfl, rfl, rfl, hlongest,
      hzos1, hzos0⟩
    · rfl
    · exact List.length_pos.mpr s1
    · exact s2
    · exact columns_length _ _
    · show (2 : Int) ≤ (base : Int)
      have := V.base_lo; omega
    · show (base : Int) ≤ (MAX_BASE : Int)
      have := V.base_hi; omega
    · rfl
    · intro c hc
      show iget l2.column_lengths (c : Int) = _
      rw [iget_natCast, hlay.col_len c hc, columns_getD _ _ _ hc]
      have hno : ¬ (sum.length - ([] : List Char).length ≤ c
          ∧ c < sum.length - ([] : List Char).length + 0) := by
        simp only [List.length_nil]; omega
      rw [if_neg hno, Nat.add_zero]
    · intro c hc r hr
      show summand_char l2.reform_smnds (r : Int) (c : Int) = _
      rw [columns_getD _ _ _ hc] at hr ⊢
      have e : ((r : Int) * 2 ^ MAX_LEN_SHIFT + (c : Int)).toNat = r * 16 + c := by
        simp only [MAX_LEN_SHIFT]; omega
      simp only [summand_char, summand_index, cget, e]
      exact hlay.grid c hc r hr
    · show (columns summands sum.length).getD (sum.length - 1) [] ≠ []
      have hpos := List.length_pos.mpr s1
      rw [columns_getD _ _ _ (by omega)]
      cases hs : summands with
      | nil =>
        have := V.count_pos
        rw [V.count_eq, hs] at this
        simp at this
      | cons w ws =>
        have hw1 := (hwords w (by rw [hs]; exact List.mem_cons_self _ _)).1
        have hwpos := List.length_pos.mpr hw1
        rw [column_letters_cons_reach w ws _ _ (by omega) (by omega)]
        exact List.cons_ne_nil _ _
    · exact s3
    · intro col hcol ch hch
      simp only [columns, List.mem_map, List.mem_range] at hcol
      obtain ⟨c, _, rfl⟩ := hcol
      obtain ⟨w, hw, hcw⟩ := mem_column_letters hch
      exact (is_word_spec (V.words w hw)).2.2 ch hcw
    · intro ch
      show 0 ≤ tget (tset l2.zero_or_one_start (sum.getD 0 '\x00') 1) ch
      by_cases hl : leads (sum :: summands) ch
      · rw [hzos1 ch hl]; omega
      · rw [hzos0 ch hl]

/-! ### Accepted solutions -/

theorem good_init {p : Puzzle} {cols : List (List Char)} (u : Uninit) :
    Good p cols (initial_state u) := by
  refine ⟨0, 0, ⟨rfl, ?_, Nat.zero_le _, ?_, ?_, ?_, ?_, ?_, ?_, ?_, ?_⟩⟩
  · intro h; simp [initial_state] at h
  · intro h; simp [initial_state] at h
  · intro h; simp [initial_state] at h
  · simp only [initial_state, seen_sum_fwd, prefix_letters]
    exact ⟨by simp, fun ch => by
      have := @tget_replicate Int _ 128 ch
      simpa using this⟩
  · simp only [initial_state, seen_sum_fwd, prefix_letters]
    refine ⟨by simp, by simp, by simp, ?_, ?_, ?_, ?_⟩
    · intro ch hch; simp at hch
    · intro d hd hne
      exfalso
      apply hne
      simp only [List.getD_eq_getElem?_getD, List.getElem?_replicate]
      split_ifs <;> rfl
    · intro ch hch; simp at hch
    · intro ch hch; simp at hch
  · refine ⟨by simp [initial_state], by simp [MAX_LEN], ?_⟩
    intro c' hc'
    have : c' = 0 := by omega
    subst this
    simp [initial_state, carry_of, MAX_LEN]
  · intro h; simp [initial_state] at h
  · intro _ _ h; omega
  · simp [initial_state]

theorem mem_prefix_of_sum (sum : List Char) (cols : List (List Char)) (L c : Nat)
    (hc : c < L) : sum.getD c '\x00' ∈ prefix_letters sum cols L := by
  induction L with
  | zero => omega
  | succ L ih =>
    rw [prefix_letters_succ]
    by_cases h : c = L
    · subst h
      exact List.mem_append_right _ (List.mem_cons_self _ _)
    · exact List.mem_append_left _ (ih (by omega))

theorem mem_prefix_of_col (sum : List Char) (cols : List (List Char)) (L c : Nat)
    (hc : c < L) (x : Char) (hx : x ∈ cols.getD c []) : x ∈ prefix_letters sum cols L := by
  induction L with
  | zero => omega
  | succ L ih =>
    rw [prefix_letters_succ]
    by_cases h : c = L
    · subst h
      exact List.mem_append_right _ (List.mem_cons_of_mem _ hx)
    · exact List.mem_append_left _ (ih (by omega))

theorem mem_column_of_word {summands : List (List Char)} {w : List Char} {L j : Nat}
    (hw : w ∈ summands) (hwL : w.length ≤ L) (hj : j < w.length) :
    w[j] ∈ column_letters summands L (L - w.length + j) := by
  simp only [column_letters, List.mem_filterMap]
  refine ⟨w, hw, ?_⟩
  have h1 : L - (L - w.length + j) ≤ w.length := by omega
  have h2 : w.length - (L - (L - w.length + j)) = j := by omega
  rw [if_pos h1, h2, List.get?_eq_getElem?, List.getElem?_eq_getElem hj]

/-- Every letter of the puzzle lies on the path once all columns are done. -/
theorem puzzle_letters_on_path {summands : List (List Char)} {sum : List Char}
    (hlen : ∀ w ∈ summands, w.length ≤ sum.length) {a : Char}
    (ha : a ∈ puzzle_letters summands sum) :
    a ∈ prefix_letters sum (columns summands sum.length) sum.length := by
  simp only [puzzle_letters, List.mem_dedup, List.mem_append, List.mem_flatten] at ha
  rcases ha with ha | ⟨w, hw, ha⟩
  · obtain ⟨i, hi, rfl⟩ := List.getElem_of_mem ha
    have := mem_prefix_of_sum sum (columns summands sum.length) sum.length i hi
    rwa [List.getD_eq_getElem _ _ hi] at this
  · obtain ⟨j, hj, rfl⟩ := List.getElem_of_mem ha
    have hwL := hlen w hw
    have hc : sum.length - w.length + j < sum.length := by omega
    apply mem_prefix_of_col sum _ sum.length _ hc
    rw [columns_getD _ _ _ hc]
    exact mem_column_of_word hw hwL hj

/-- What the invariant gives at the point where a solution is accepted. -/
theorem accepted_state {summands : List (List Char)} {summand_count : Nat}
    {summand_lengths : List Nat} {longest_summand : Nat} {sum : List Char} {base : Nat}
    {print just_one : Bool} {u : Uninit} {n : Nat}
    (hv : valid_instance summands summand_count summand_lengths longest_summand sum base
      = true)
    (hacc : accepts_at u n summands summand_count summand_lengths longest_summand sum base
      print just_one = true) :
    ∃ p s, Prepared summands sum base print just_one p
      ∧ mapping_at u n summands summand_count summand_lengths longest_summand sum base
          print just_one = mapping s
      ∧ AsgOK p s.number_map s.max_value s.letter_map
          (prefix_letters sum (columns summands sum.length) sum.length)
      ∧ carry_of base sum (columns summands sum.length) (mapping s) sum.length = 0 := by
  unfold accepts_at at hacc
  unfold mapping_at
  cases hs : search_state u n summands summand_count summand_lengths longest_summand sum base
      print just_one with
  | none => rw [hs] at hacc; simp at hacc
  | some ps =>
    obtain ⟨p, s⟩ := ps
    rw [hs] at hacc
    simp only at hacc
    unfold search_state at hs
    cases hp : prepare u summands summand_count summand_lengths longest_summand sum base
        print just_one with
    | error o => rw [hp] at hs; simp at hs
    | ok p' =>
      rw [hp] at hs
      simp only at hs
      cases hit : iterate p' n (initial_state u) with
      | halted o => rw [hit] at hs; simp at hs
      | running s' =>
        rw [hit] at hs
        simp only [Option.some.injEq, Prod.mk.injEq] at hs
        obtain ⟨rfl, rfl⟩ := hs
        have P := prepare_ok hv hp
        have G := good_iterate P.ok n (initial_state u) (good_init u)
        rw [hit] at G
        obtain ⟨c, r, G⟩ := G
        simp only [accepting, Bool.and_eq_true, Bool.not_eq_true', decide_eq_true_eq] at hacc
        obtain ⟨⟨hin, hcol⟩, hnc⟩ := hacc
        have hcL : c = p'.sum.length := by
          have h1 := G.col_eq
          have h2 := P.ok.sum_length
          rw [hcol, h2] at h1
          exact_mod_cast h1.symm
        have hb : s'.backtrack = false := by
          cases hb : s'.backtrack with
          | false => rfl
          | true =>
            have := G.col_lt (Or.inr hb)
            omega
        have hseen := G.asg
        rw [hin, hb, seen_sum_fwd, hcL, P.sum_eq] at hseen
        refine ⟨p', s', P, rfl, hseen, ?_⟩
        have hcar := G.carry.2.2 c (le_refl _)
        rw [G.col_eq, iget_natCast] at hnc
        rw [hnc, hcL, P.sum_eq, P.base_eq] at hcar
        exact hcar.symm

theorem mem_puzzle_letters_of_word {summands : List (List Char)} {sum w : List Char}
    (hw : w ∈ sum :: summands) {ch : Char} (hch : ch ∈ w) :
    ch ∈ puzzle_letters summands sum := by
  simp only [puzzle_letters, List.mem_dedup, List.mem_append, List.mem_flatten]
  rcases List.mem_cons.mp hw with e | e
  · left; exact e ▸ hch
  · right; exact ⟨w, e, hch⟩

/-- C2 (uniqueness property): whenever the search of a validated call stands
at the point where it accepts a solution, the letter-to-digit map it holds is
injective on the letters of the puzzle, gives every letter a digit in
`0..base-1`, and gives the first letter of the sum and of every summand a
non-zero digit. -/
theorem accepted_mapping_injective (u : Uninit) (n : Nat) (summands : List (List Char))
    (summand_count : Nat) (summand_lengths : List Nat) (longest_summand : Nat)
    (sum : List Char) (base : Nat) (print just_one : Bool)
    (hv : valid_instance summands summand_count summand_lengths longest_summand sum base
      = true)
    (hacc : accepts_at u n summands summand_count summand_lengths longest_summand sum base
      print just_one = true) :
    (∀ a ∈ puzzle_letters summands sum, ∀ b ∈ puzzle_letters summands sum, a ≠ b →
        mapping_at u n summands summand_count summand_lengths longest_summand sum base
          print just_one a
        ≠ mapping_at u n summands summand_count summand_lengths longest_summand sum base
          print just_one b)
    ∧ (∀ a ∈ puzzle_letters summands sum,
        0 ≤ mapping_at u n summands summand_count summand_lengths longest_summand sum base
          print just_one a
        ∧ mapping_at u n summands summand_count summand_lengths longest_summand sum base
          print just_one a ≤ (base : Int) - 1)
    ∧ (∀ w ∈ sum :: summands, ∀ ch, w.head? = some ch →
        mapping_at u n summands summand_count summand_lengths longest_summand sum base
          print just_one ch ≠ 0) := by
  obtain ⟨p, s, P, hmap, hasg, _⟩ := accepted_state hv hacc
  rw [hmap]
  have hon := fun a (ha : a ∈ puzzle_letters summands sum) =>
    puzzle_letters_on_path P.words_le ha
  refine ⟨fun a ha b hb hab => hasg.digit_ne (hon a ha) (hon b hb) hab, fun a ha => ?_,
    fun w hw ch hch => ?_⟩
  · obtain ⟨d0, d1, _, _⟩ := hasg.digit a (hon a ha)
    have h1 := P.ok.max_digit
    rw [P.base_eq] at h1
    exact ⟨d0, by simp only [mapping]; omega⟩
  · have hmem : ch ∈ w := by
      cases w with
      | nil => simp at hch
      | cons x w' =>
        simp only [List.head?_cons, Option.some.injEq] at hch
        exact hch ▸ List.mem_cons_self _ _
    obtain ⟨_, _, d2, _⟩ := hasg.digit ch (hon ch (mem_puzzle_letters_of_word hw hmem))
    have hz := P.zos_one ch ⟨w, hw, hch⟩
    simp only [mapping]
    omega

/-- Witness for `accepted_mapping_injective`: `I + BB = ILL` in base 10 stands
at an accepted solution after 6 slot transitions. -/
theorem accepted_mapping_injective_witness :
    valid_instance ["I".toList, "BB".toList] 2 [1, 2] 2 "ILL".toList 10 = true
    ∧ accepts_at Uninit.zero 6 ["I".toList, "BB".toList] 2 [1, 2] 2 "ILL".toList 10
        true false = true
    ∧ ((∀ a ∈ puzzle_letters ["I".toList, "BB".toList] "ILL".toList,
        ∀ b ∈ puzzle_letters ["I".toList, "BB".toList] "ILL".toList, a ≠ b →
        mapping_at Uninit.zero 6 ["I".toList, "BB".toList] 2 [1, 2] 2 "ILL".toList 10
          true false a
        ≠ mapping_at Uninit.zero 6 ["I".toList, "BB".toList] 2 [1, 2] 2 "ILL".toList 10
          true false b)
      ∧ (∀ a ∈ puzzle_letters ["I".toList, "BB".toList] "ILL".toList,
        0 ≤ mapping_at Uninit.zero 6 ["I".toList, "BB".toList] 2 [1, 2] 2 "ILL".toList 10
          true false a
        ∧ mapping_at Uninit.zero 6 ["I".toList, "BB".toList] 2 [1, 2] 2 "ILL".toList 10
          true false a ≤ ((10 : Nat) : Int) - 1)
      ∧ (∀ w ∈ "ILL".toList :: ["I".toList, "BB".toList], ∀ ch, w.head? = some ch →
        mapping_at Uninit.zero 6 ["I".toList, "BB".toList] 2 [1, 2] 2 "ILL".toList 10
          true false ch ≠ 0)) :=
  ⟨by decide!, by decide!,
    accepted_mapping_injective Uninit.zero 6 ["I".toList, "BB".toList] 2 [1, 2] 2
      "ILL".toList 10 true false (by decide!) (by decide!)⟩

/-- C3 (carry closure): whenever the search of a validated call stands at the
point where it accepts a solution, replacing each letter by its digit makes
the base-`base` values of the summands add up to the value of the sum. -/
theorem accepted_sum_correct (u : Uninit) (n : Nat) (summands : List (List Char))
    (summand_count : Nat) (summand_lengths : List Nat) (longest_summand : Nat)
    (sum : List Char) (base : Nat) (print just_one : Bool)
    (hv : valid_instance summands summand_count summand_lengths longest_summand sum base
      = true)
    (hacc : accepts_at u n summands summand_count summand_lengths longest_summand sum base
      print just_one = true) :
    (summands.map (word_value base
        (mapping_at u n summands summand_count summand_lengths longest_summand sum base
          print just_one))).sum
      = word_value base
        (mapping_at u n summands summand_count summand_lengths longest_summand sum base
          print just_one) sum := by
  obtain ⟨p, s, P, hmap, _, hcar⟩ := accepted_state hv hacc
  rw [hmap]
  rw [carry_of_eq (base : Int) (mapping s) summands sum P.words_le] at hcar
  omega

/-- Witness for `accepted_sum_correct`: `I + BB = ILL` in base 10 after 6
slot transitions. -/
theorem accepted_sum_correct_witness :
    valid_instance ["I".toList, "BB".toList] 2 [1, 2] 2 "ILL".toList 10 = true
    ∧ accepts_at Uninit.zero 6 ["I".toList, "BB".toList] 2 [1, 2] 2 "ILL".toList 10
        true false = true
    ∧ (["I".toList, "BB".toList].map (word_value ((10 : Nat) : Int)
        (mapping_at Uninit.zero 6 ["I".toList, "BB".toList] 2 [1, 2] 2 "ILL".toList 10
          true false))).sum
      = word_value ((10 : Nat) : Int)
        (mapping_at Uninit.zero 6 ["I".toList, "BB".toList] 2 [1, 2] 2 "ILL".toList 10
          true false) "ILL".toList :=
  ⟨by decide!, by decide!,
    accepted_sum_correct Uninit.zero 6 ["I".toList, "BB".toList] 2 [1, 2] 2
      "ILL".toList 10 true false (by decide!) (by decide!)⟩

/-! ## Stop at the first solution -/

theorem difficulty_conv_range (n : Nat) : 1 ≤ difficulty_conv n ∧ difficulty_conv n ≤ 5 := by
  unfold difficulty_conv
  split_ifs <;> omega

theorem enter_summands_hd (p : Puzzle) (s : State) : HD p (enter_summands s) := by
  unfold enter_summands
  split_ifs
  · intro n d out h
    simp only [Config.halted.injEq, Outcome.returned.injEq] at h
    obtain ⟨_, rfl, _⟩ := h
    exact Or.inr (difficulty_conv_range _)
  · trivial
  · trivial

theorem set_carry_hd (p : Puzzle) (nc : List Int) (i v : Int) (f : List Int → State) :
    HD p (match set_carry nc i v with
      | none => Config.halted Outcome.fault
      | some x => Config.running (f x)) := by
  cases set_carry nc i v with
  | none => intro n d out h; cases h
  | some x => trivial

theorem after_sum_char_hd (p : Puzzle) (s : State) : HD p (after_sum_char p s) := by
  unfold after_sum_char
  dsimp only
  split_ifs <;>
    first
    | exact enter_summands_hd p _
    | exact set_carry_hd p _ _ _ _

theorem after_summand_hd (p : Puzzle) (s : State) : HD p (after_summand p s) := by
  unfold after_summand summand_loop_test
  dsimp only
  split_ifs <;>
    first
    | trivial
    | exact set_carry_hd p _ _ _ _

theorem step_hd (p : Puzzle) (s : State) : HD p (step p s) := by
  unfold step
  split_ifs
  · unfold step_summand
    dsimp only
    split_ifs <;> exact after_summand_hd p _
  · unfold step_sum
    dsimp only
    split_ifs with h1 h2 h3 <;>
      first
      | exact enter_summands_hd p _
      | exact after_sum_char_hd p _
      | (intro n d out h
         simp only [Outcome.returned.injEq] at h
         exact Or.inl ⟨h.2.1.symm, h3⟩)

theorem run_hd (p : Puzzle) (fuel : Nat) (s : State) (n d : Nat) (out : List Line)
    (h : run p fuel s = some (.returned n d out)) :
    (d = 0 ∧ p.just_one = true) ∨ (1 ≤ d ∧ d ≤ 5) := by
  induction fuel generalizing s with
  | zero => simp [run] at h
  | succ fuel ih =>
    simp only [run] at h
    have hs := step_hd p s
    cases hc : step p s with
    | halted o =>
      rw [hc] at h hs
      simp only [Option.some.injEq] at h
      exact hs n d out h
    | running s' =>
      rw [hc] at h
      exact ih s' h

theorem prepare_just_one_eq {u : Uninit} {summands : List (List Char)}
    {summand_count : Nat} {summand_lengths : List Nat} {longest_summand : Nat}
    {sum : List Char} {base : Nat} {print just_one : Bool} {p : Puzzle}
    (h : prepare u summands summand_count summand_lengths longest_summand sum base print
      just_one = .ok p) : p.just_one = just_one := by
  unfold prepare at h
  dsimp only at h
  split_ifs at h
  split at h
  · cases h
  · split_ifs at h
    simp only [Except.ok.injEq] at h
    rw [← h]

/-- The difficulty a returning call reports is at most 5, and it is 0 only
when the call returned from a pre-check or at the first solution under
`just_one`. -/
theorem difficulty_of_return (u : Uninit) (fuel : Nat) (summands : List (List Char))
    (summand_count : Nat) (summand_lengths : List Nat) (longest_summand : Nat)
    (sum : List Char) (base : Nat) (print just_one : Bool) (n d : Nat) (out : List Line)
    (h : solve u fuel summands summand_count summand_lengths longest_summand sum base
      print just_one = some (.returned n d out)) :
    d ≤ 5 ∧ (d = 0 → just_one = true
      ∨ prepare u summands summand_count summand_lengths longest_summand sum base print
          just_one = .error (.returned n d out)) := by
  unfold solve at h
  cases hp : prepare u summands summand_count summand_lengths longest_summand sum base
      print just_one with
  | error o =>
    rw [hp] at h
    simp only [Option.some.injEq] at h
    subst h
    refine ⟨?_, fun _ => Or.inr rfl⟩
    unfold prepare at hp
    dsimp only at hp
    split_ifs at hp
    · simp only [Except.error.injEq, Outcome.returned.injEq] at hp
      omega
    · simp only [Except.error.injEq, Outcome.returned.injEq] at hp
      omega
    · split at hp
      · simp at hp
      · split_ifs at hp
        simp only [Except.error.injEq, Outcome.returned.injEq] at hp
        omega
  | ok p =>
    rw [hp] at h
    simp only at h
    have hj := prepare_just_one_eq hp
    rcases run_hd p fuel (initial_state u) n d out h with ⟨h1, h2⟩ | ⟨h1, h2⟩
    · exact ⟨by omega, fun _ => Or.inl (hj ▸ h2)⟩
    · exact ⟨h2, fun h0 => by omega⟩

/-- C9 (counterexample): for summands `AB`, `C` and sum `D` in base 10 `solve`
returns from the pre-check with difficulty 0, which is not one of 1, ..., 5. -/
theorem difficulty_zero_on_precheck :
    solve Uninit.zero 100 ["AB".toList, "C".toList] 2 [2, 1] 2 "D".toList 10 false false
      = some (.returned 0 0 [])
    ∧ ¬ (1 ≤ (0 : Nat) ∧ (0 : Nat) ≤ 5) :=
  ⟨by decide!, by decide⟩

/-! ## Independence of the uninitialised storage -/

theorem Agree.set_both {mc mc1 a a' : List Int} (h : Agree mc a a') (k : Nat) (v : Int)
    (hmc : ∀ i, i ≠ k → mc1.getD i 0 = mc.getD i 0) :
    Agree mc1 (a.set k v) (a'.set k v) := by
  refine ⟨by simp [h.1], fun i hi => ?_⟩
  by_cases hik : k = i
  · subst hik
    by_cases hl : k < a.length
    · rw [getD_set_same _ _ _ _ hl, getD_set_same _ _ _ _ (h.1 ▸ hl)]
    · have hl' : ¬ k < a'.length := h.1 ▸ hl
      rw [List.set_eq_of_length_le (by omega), List.set_eq_of_length_le (by omega),
        List.getD_eq_default _ _ (by omega), List.getD_eq_default _ _ (by omega)]
  · rw [getD_set_ne _ _ _ _ _ hik, getD_set_ne _ _ _ _ _ hik]
    exact h.2 i (by rwa [hmc i (Ne.symm hik)] at hi)

theorem Agree.mono {mc mc1 a a' : List Int} (h : Agree mc a a')
    (hmc : ∀ i, mc1.getD i 0 ≠ 0 → mc.getD i 0 ≠ 0) : Agree mc1 a a' :=
  ⟨h.1, fun i hi => h.2 i (hmc i hi)⟩

theorem Agree.read {mc a a' : List Int} (h : Agree mc a a') (x : Char)
    (hx : tget mc x ≠ 0) : tget a' x = tget a x :=
  (h.2 x.toNat hx).symm

theorem Agree.tset_both {mc a a' : List Int} (h : Agree mc a a') (x : Char) (v : Int) :
    Agree mc (tset a x v) (tset a' x v) :=
  h.set_both x.toNat v (fun _ _ => rfl)

theorem Agree.tset_all {mc a a' : List Int} (h : Agree mc a a') (x : Char) (v m : Int) :
    Agree (tset mc x m) (tset a x v) (tset a' x v) :=
  h.set_both x.toNat v (fun i hi => getD_set_ne _ _ _ _ _ (Ne.symm hi))

theorem Agree.tset_count {mc a a' : List Int} (h : Agree mc a a') (x : Char) (m : Int)
    (hx : tget mc x ≠ 0) : Agree (tset mc x m) a a' :=
  h.mono (fun i hi => by
    by_cases hik : x.toNat = i
    · subst hik; exact hx
    · rwa [tset, getD_set_ne _ _ _ _ _ hik] at hi)

theorem print_solution_agree {mc a a' : List Int} (h : Agree mc a a') :
    print_solution a' mc = print_solution a mc := by
  unfold print_solution
  congr 1
  apply List.filterMap_congr
  intro i _
  by_cases hi : mc.getD i 0 ≠ 0
  · simp only [hi, if_true, h.2 i hi, ne_eq, not_false_eq_true]
  · simp only [hi, if_false]

theorem twin_enter_summands {t t' : State} (T : Twin t t') :
    TwinC (enter_summands t) (enter_summands t') := by
  obtain ⟨same, anm, amv, amin⟩ := T
  obtain ⟨a, b, c, hs⟩ : ∃ a b c, t' =
      { t with number_map := a, max_value := b, min_value := c } := ⟨_, _, _, same⟩
  subst hs
  unfold enter_summands
  dsimp only
  split_ifs
  · exact rfl
  · exact ⟨rfl, anm, amv, amin⟩
  · exact ⟨rfl, anm, amv, amin⟩

theorem twin_after_sum_char {p p' : Puzzle} (hp : TwinP p p') {t t' : State}
    (T : Twin t t') : TwinC (after_sum_char p t) (after_sum_char p' t') := by
  obtain ⟨same, anm, amv, amin⟩ := T
  obtain ⟨a, b, c, hs⟩ : ∃ a b c, t' =
      { t with number_map := a, max_value := b, min_value := c } := ⟨_, _, _, same⟩
  subst hs
  obtain ⟨g, hg⟩ : ∃ g, p' = { p with reform_smnds := g } := ⟨_, hp⟩
  subst hg
  unfold after_sum_char
  dsimp only
  split_ifs <;>
    first
    | exact twin_enter_summands ⟨rfl, anm, amv, amin⟩
    | (cases set_carry t.needed_carry (t.curr_column + 1)
          (t.value + p.base * iget t.needed_carry t.curr_column) with
        | none => exact rfl
        | some nc => exact ⟨rfl, anm, amv, amin⟩)

theorem twin_after_summand {p p' : Puzzle} (hp : TwinP p p') {t t' : State}
    (T : Twin t t') : TwinC (after_summand p t) (after_summand p' t') := by
  obtain ⟨same, anm, amv, amin⟩ := T
  obtain ⟨a, b, c, hs⟩ : ∃ a b c, t' =
      { t with number_map := a, max_value := b, min_value := c } := ⟨_, _, _, same⟩
  subst hs
  obtain ⟨g, hg⟩ : ∃ g, p' = { p with reform_smnds := g } := ⟨_, hp⟩
  subst hg
  unfold after_summand summand_loop_test
  dsimp only
  split_ifs <;>
    first
    | exact ⟨rfl, anm, amv, amin⟩
    | (cases set_carry t.needed_carry (t.curr_column + 1) (t.needed_sum - t.value) with
        | none => exact rfl
        | some nc => exact ⟨rfl, anm, amv, amin⟩)


theorem twin_step_sum {p p' : Puzzle} {cols : List (List Char)} (ok : PuzzleOK p cols)
    (hp : TwinP p p') {s s' : State} {c r : Nat} (G : GoodAt p cols s c r)
    (hin : s.in_summands = false) (T : Twin s s') :
    TwinC (step_sum p s) (step_sum p' s') := by
  obtain ⟨same, anm, amv, amin⟩ := T
  obtain ⟨a, b, m, hs⟩ : ∃ a b m, s' =
      { s with number_map := a, max_value := b, min_value := m } := ⟨_, _, _, same⟩
  subst hs
  obtain ⟨g, hg⟩ : ∃ g, p' = { p with reform_smnds := g } := ⟨_, hp⟩
  subst hg
  clear same
  dsimp only at anm amv amin
  have hcol := G.col_eq
  have hmin := G.len_min
  have lmv : s.max_value.length = 128 := G.asg.len_mv
  unfold step_sum
  dsimp only
  by_cases hL : s.curr_column = p.sum_length
  · simp only [hL, if_true]
    rw [print_solution_agree anm]
    split_ifs <;> first | exact rfl | exact twin_enter_summands ⟨rfl, anm, amv, amin⟩
  · simp only [hL, if_false]
    have hc : c < p.sum.length := by
      have := G.col_le
      rw [hcol, ok.sum_length] at hL
      omega
    have hx := (ok.sum_letter hc).2
    have hmem : s.backtrack = true → tget s.map_count (p.sum.getD c '\x00') ≠ 0 := by
      intro hb
      have hcount := G.count
      rw [hin, hb, seen_sum_bwd] at hcount
      exact (hcount.mem_iff _).mpr (List.mem_append_right _ (List.mem_singleton_self _))
    rw [← cget_natCast, ← hcol] at hx hmem
    generalize cget p.sum s.curr_column = x at hx hmem ⊢
    cases hb : s.backtrack
    · simp only [Bool.false_eq_true, if_false]
      by_cases h1 : iget s.needed_carry s.curr_column > iget p.max_carry s.curr_column
      · simp only [if_pos h1]
        refine twin_after_sum_char hp ?_
        exact ⟨rfl, anm, amv, amin⟩
      · simp only [if_neg h1]
        by_cases h2 : tget s.map_count x ≠ 0
        · simp only [if_pos h2, anm.read x h2]
          refine twin_after_sum_char hp ?_
          exact ⟨rfl, anm.tset_count x _ h2, amv.tset_count x _ h2, amin⟩
        · simp only [if_neg h2]
          rw [tget_tset_same s.max_value x _ (by rw [lmv]; exact hx),
            tget_tset_same b x _ (by rw [← amv.1, lmv]; exact hx),
            tget_tset_same s.min_value x _ (by rw [hmin]; exact hx),
            tget_tset_same m x _ (by rw [← amin, hmin]; exact hx)]
          have lmin : ∀ v, (tset s.min_value x v).length = (tset m x v).length := fun v => by
            simp only [length_tset]; exact amin
          split_ifs
          · refine twin_after_sum_char hp ?_
            exact ⟨rfl, anm, amv.tset_both x _, lmin _⟩
          · refine twin_after_sum_char hp ?_
            exact ⟨rfl, anm.tset_all x _ _, amv.tset_all x _ _, lmin _⟩
    · simp only [if_true]
      have hmc : tget s.map_count x ≠ 0 := hmem hb
      simp only [anm.read x hmc, amv.read x hmc]
      split_ifs
      · refine twin_after_sum_char hp ?_
        exact ⟨rfl, anm.tset_count x _ hmc, amv.tset_count x _ hmc, amin⟩
      · refine twin_after_sum_char hp ?_
        exact ⟨rfl, anm.tset_both x _, amv, amin⟩
      · refine twin_after_sum_char hp ?_
        exact ⟨rfl, anm.tset_count x _ hmc, amv.tset_count x _ hmc, amin⟩


theorem twin_step_summand {p p' : Puzzle} {cols : List (List Char)} (ok : PuzzleOK p cols)
    (ok' : PuzzleOK p' cols) (hp : TwinP p p') {s s' : State} {c r : Nat}
    (G : GoodAt p cols s c r) (hin : s.in_summands = true) (T : Twin s s') :
    TwinC (step_summand p s) (step_summand p' s') := by
  obtain ⟨same, anm, amv, amin⟩ := T
  obtain ⟨a, b, m, hs⟩ : ∃ a b m, s' =
      { s with number_map := a, max_value := b, min_value := m } := ⟨_, _, _, same⟩
  subst hs
  obtain ⟨g, hg⟩ : ∃ g, p' = { p with reform_smnds := g } := ⟨_, hp⟩
  subst hg
  clear same
  dsimp only at anm amv amin
  have hcol := G.col_eq
  have hrow := G.row_eq hin
  have hmin := G.len_min
  have lmv : s.max_value.length = 128 := G.asg.len_mv
  have hc : c < p.sum.length := G.col_lt (Or.inl hin)
  have hr := G.row_lt hin
  have hx := (ok.col_letter hc hr).2
  have hmem : s.backtrack = true →
      tget s.map_count ((cols.getD c []).getD r '\x00') ≠ 0 := by
    intro hb
    have hcount := G.count
    rw [hin, hb, seen_row_bwd, drop_eq_getD_cons _ r hr] at hcount
    exact (hcount.mem_iff _).mpr (List.mem_append_right _
      (List.mem_cons_of_mem _ (List.mem_cons_self _ _)))
  have e' : summand_char g (r : Int) (c : Int) = (cols.getD c []).getD r '\x00' :=
    ok'.grid c hc r hr
  unfold step_summand
  dsimp only
  simp only [hcol, hrow, summand_char_natCast ok hc hr, e']
  generalize (cols.getD c []).getD r '\x00' = x at hx hmem ⊢
  cases hb : s.backtrack
  · simp only [Bool.false_eq_true, if_false]
    by_cases h1 : tget s.map_count x ≠ 0
    · simp only [if_pos h1, anm.read x h1]
      split_ifs
      · refine twin_after_summand hp ?_
        exact ⟨rfl, anm, amv, amin⟩
      · refine twin_after_summand hp ?_
        exact ⟨rfl, anm.tset_count x _ h1, amv.tset_count x _ h1, amin⟩
    · simp only [if_neg h1]
      rw [tget_tset_same s.max_value x _ (by rw [lmv]; exact hx),
        tget_tset_same b x _ (by rw [← amv.1, lmv]; exact hx),
        tget_tset_same s.min_value x _ (by rw [hmin]; exact hx),
        tget_tset_same m x _ (by rw [← amin, hmin]; exact hx)]
      have lmin : ∀ v, (tset s.min_value x v).length = (tset m x v).length := fun v => by
        simp only [length_tset]; exact amin
      split_ifs
      · refine twin_after_summand hp ?_
        exact ⟨rfl, anm, amv.tset_both x _, lmin _⟩
      · refine twin_after_summand hp ?_
        exact ⟨rfl, anm.tset_all x _ _, amv.tset_all x _ _, lmin _⟩
  · simp only [if_true]
    have hmc : tget s.map_count x ≠ 0 := hmem hb
    simp only [anm.read x hmc, amv.read x hmc]
    split_ifs
    · refine twin_after_summand hp ?_
      exact ⟨rfl, anm.tset_count x _ hmc, amv.tset_count x _ hmc, amin⟩
    · refine twin_after_summand hp ?_
      exact ⟨rfl, anm.tset_both x _, amv, amin⟩
    · refine twin_after_summand hp ?_
      exact ⟨rfl, anm.tset_count x _ hmc, amv.tset_count x _ hmc, amin⟩

/-- Twin states make twin slot transitions. -/
theorem twin_step {p p' : Puzzle} {cols : List (List Char)} (ok : PuzzleOK p cols)
    (ok' : PuzzleOK p' cols) (hp : TwinP p p') {s s' : State} (G : Good p cols s)
    (T : Twin s s') : TwinC (step p s) (step p' s') := by
  obtain ⟨c, r, G⟩ := G
  have hin' : s'.in_summands = s.in_summands := by rw [T.same]
  unfold step
  rw [hin']
  cases hin : s.in_summands
  · simpa using twin_step_sum ok hp G hin T
  · simpa using twin_step_summand ok ok' hp G hin T

/-- Twin states run to the same outcome. -/
theorem twin_run {p p' : Puzzle} {cols : List (List Char)} (ok : PuzzleOK p cols)
    (ok' : PuzzleOK p' cols) (hp : TwinP p p') (fuel : Nat) (s s' : State)
    (G : Good p cols s) (T : Twin s s') : run p fuel s = run p' fuel s' := by
  induction fuel generalizing s s' with
  | zero => rfl
  | succ n ih =>
    have h := twin_step ok ok' hp G T
    have hg := good_step ok s G
    simp only [run]
    cases h1 : step p s with
    | halted o =>
      cases h2 : step p' s' with
      | halted o' => rw [h1, h2] at h; exact congrArg some h
      | running t' => rw [h1, h2] at h; exact h.elim
    | running t =>
      cases h2 : step p' s' with
      | halted o' => rw [h1, h2] at h; exact h.elim
      | running t' =>
        rw [h1, h2] at h
        rw [h1] at hg
        exact ih t t' hg h


theorem enter_summands_exit (s : State) (h : s.curr_column = -1) :
    enter_summands s
      = .halted (.returned s.solutions_found (difficulty_conv s.backtrack_count) s.output) := by
  unfold enter_summands
  rw [if_pos h]

/-- The first slot transition does not read the three uninitialised locals. -/
theorem step_initial {p : Puzzle} {cols : List (List Char)} (ok : PuzzleOK p cols)
    (u : Uninit) :
    step p (initial_state u)
      = step p (initial_state { u with value := 0, needed_sum := 0, curr_smnd_row := 0 }) := by
  have hL : ¬ ((0 : Int) = p.sum_length) := by
    rw [ok.sum_length]; have := ok.sum_pos; omega
  have hmc : ∀ x, tget (List.replicate 128 (0 : Int)) x = 0 := fun x =>
    @tget_replicate Int _ 128 x
  unfold step step_sum
  simp only [initial_state, Bool.false_eq_true, if_false, hL, hmc, ne_eq, not_true_eq_false]
  split_ifs <;> unfold after_sum_char <;>
    simp only [Bool.false_eq_true, if_false, if_true] <;>
    first
    | rfl
    | (rw [enter_summands_exit _ (by simp), enter_summands_exit _ (by simp)])


theorem note_letter_blank (l : Layout) (ch : Char) :
    (note_letter l ch).blank = note_letter l.blank ch := by
  unfold note_letter Layout.blank
  dsimp only
  split_ifs <;> rfl

theorem foldl_note_letter_blank (sum : List Char) (l : Layout) :
    (sum.foldl note_letter l).blank = sum.foldl note_letter l.blank := by
  induction sum generalizing l with
  | nil => rfl
  | cons ch sum ih => simp only [List.foldl_cons]; rw [ih, note_letter_blank]

theorem place_char_blank (summands : List (List Char)) (summand_lengths : List Nat)
    (sum_length : Int) (i j : Nat) (l : Layout) :
    (place_char summands summand_lengths sum_length i j l).map Layout.blank
      = (place_char summands summand_lengths sum_length i j l.blank).map Layout.blank := by
  obtain ⟨lu, tl, cl, g, z⟩ := l
  unfold place_char note_letter Layout.blank
  dsimp only
  split_ifs <;> rfl

theorem foldl_bind_blank {α : Type} (er : α → α) (f : Nat → α → Option α)
    (hf : ∀ j x, (f j x).map er = (f j (er x)).map er) (l : List Nat) (a a' : Option α)
    (h : a.map er = a'.map er) :
    (l.foldl (fun acc j => acc.bind (f j)) a).map er
      = (l.foldl (fun acc j => acc.bind (f j)) a').map er := by
  induction l generalizing a a' with
  | nil => exact h
  | cons j l ih =>
    simp only [List.foldl_cons]
    apply ih
    cases a with
    | none =>
      cases a' with
      | none => rfl
      | some x' => simp at h
    | some x =>
      cases a' with
      | none => simp at h
      | some x' =>
        simp only [Option.map_some', Option.some.injEq] at h
        simp only [Option.some_bind]
        rw [hf j x, hf j x', h]

theorem reformat_blank (summands : List (List Char)) (summand_count : Nat)
    (summand_lengths : List Nat) (sum_length : Int) (l l' : Layout)
    (h : l.blank = l'.blank) :
    (reformat summands summand_count summand_lengths sum_length l).map Layout.blank
      = (reformat summands summand_count summand_lengths sum_length l').map Layout.blank := by
  rw [reformat_eq_bind, reformat_eq_bind]
  apply foldl_bind_blank
  · intro i x
    apply foldl_bind_blank
    · intro j y
      exact place_char_blank _ _ _ _ _ _
    · rfl
  · simp only [Option.map_some', h]

/-- The initialisation does not depend on the uninitialised storage, except
for the unused cells of the grid. -/
theorem prepare_twin (u u' : Uninit) (summands : List (List Char)) (summand_count : Nat)
    (summand_lengths : List Nat) (longest_summand : Nat) (sum : List Char) (base : Nat)
    (print just_one : Bool) :
    (∃ o, prepare u summands summand_count summand_lengths longest_summand sum base print
            just_one = .error o
        ∧ prepare u' summands summand_count summand_lengths longest_summand sum base print
            just_one = .error o)
    ∨ (∃ p p', prepare u summands summand_count summand_lengths longest_summand sum base print
            just_one = .ok p
        ∧ prepare u' summands summand_count summand_lengths longest_summand sum base print
            just_one = .ok p' ∧ TwinP p p') := by
  have hl : ∀ v : Uninit,
      (reformat summands summand_count summand_lengths (sum.length : Int)
        (sum.foldl note_letter
          { letter_used := List.replicate 128 0
            total_letters_used := 0
            column_lengths := List.replicate (MAX_LEN + 1) 0
            reform_smnds := (List.range (MAX_LEN * MAX_STATIC_SUMMANDS)).map v.static_summands
            zero_or_one_start := List.replicate 128 0 })).map Layout.blank
      = (reformat summands summand_count summand_lengths (sum.length : Int)
        (sum.foldl note_letter
          { letter_used := List.replicate 128 0
            total_letters_used := 0
            column_lengths := List.replicate (MAX_LEN + 1) 0
            reform_smnds := []
            zero_or_one_start := List.replicate 128 0 })).map Layout.blank := by
    intro v
    apply reformat_blank
    rw [foldl_note_letter_blank, foldl_note_letter_blank]
    rfl
  have h := (hl u).trans (hl u').symm
  unfold prepare
  dsimp only
  split_ifs with h1 h2
  · exact Or.inl ⟨_, rfl, rfl⟩
  · exact Or.inl ⟨_, rfl, rfl⟩
  · revert h
    generalize reformat summands summand_count summand_lengths (sum.length : Int) _ = o
    generalize reformat summands summand_count summand_lengths (sum.length : Int) _ = o'
    intro h
    cases o with
    | none =>
      cases o' with
      | none => exact Or.inl ⟨_, rfl, rfl⟩
      | some x' => simp at h
    | some x =>
      cases o' with
      | none => simp at h
      | some x' =>
        simp only [Option.map_some', Option.some.injEq] at h
        have e1 : x'.total_letters_used = x.total_letters_used :=
          (congrArg Layout.total_letters_used h).symm
        have e2 : x'.column_lengths = x.column_lengths :=
          (congrArg Layout.column_lengths h).symm
        have e3 : x'.zero_or_one_start = x.zero_or_one_start :=
          (congrArg Layout.zero_or_one_start h).symm
        dsimp only
        rw [e1, e2, e3]
        split_ifs
        · exact Or.inl ⟨_, rfl, rfl⟩
        · exact Or.inr ⟨_, _, rfl, rfl, rfl⟩



theorem agree_initial (t t' : List Int) (h : t.length = t'.length) :
    Agree (List.replicate 128 0) t t' := by
  refine ⟨h, fun i hi => ?_⟩
  exfalso
  apply hi
  simp only [List.getD_eq_getElem?_getD, List.getElem?_replicate]
  split_ifs <;> rfl

/-- The result of `solve` on a validated instance does not depend on the
contents of the storage it does not initialise. -/
theorem solve_uninit (u u' : Uninit) (fuel : Nat) (summands : List (List Char))
    (summand_count : Nat) (summand_lengths : List Nat) (longest_summand : Nat)
    (sum : List Char) (base : Nat) (print just_one : Bool)
    (hv : valid_instance summands summand_count summand_lengths longest_summand sum base
      = true) :
    solve u fuel summands summand_count summand_lengths longest_summand sum base print just_one
      = solve u' fuel summands summand_count summand_lengths longest_summand sum base print
          just_one := by
  unfold solve
  rcases prepare_twin u u' summands summand_count summand_lengths longest_summand sum base
    print just_one with ⟨o, h1, h2⟩ | ⟨p, p', h1, h2, hp⟩
  · rw [h1, h2]
  · rw [h1, h2]
    dsimp only
    have ok := (prepare_ok hv h1).ok
    have ok' := (prepare_ok hv h2).ok
    cases fuel with
    | zero => rfl
    | succ n =>
      have e1 : run p (n + 1) (initial_state u)
          = run p (n + 1)
              (initial_state { u with value := 0, needed_sum := 0, curr_smnd_row := 0 }) := by
        simp only [run]
        rw [step_initial ok u]
      have e2 : run p' (n + 1) (initial_state u')
          = run p' (n + 1)
              (initial_state { u' with value := 0, needed_sum := 0, curr_smnd_row := 0 }) := by
        simp only [run]
        rw [step_initial ok' u']
      rw [e1, e2]
      refine twin_run ok ok' hp (n + 1) _ _ (good_init _) ⟨rfl, ?_, ?_, ?_⟩
      · exact agree_initial _ _ (by simp [initial_state])
      · exact agree_initial _ _ (by simp [initial_state])
      · simp [initial_state]

theorem run_mono (p : Puzzle) (fuel k : Nat) (s : State) (o : Outcome)
    (h : run p fuel s = some o) : run p (fuel + k) s = some o := by
  induction fuel generalizing s with
  | zero => simp [run] at h
  | succ n ih =>
    rw [Nat.add_right_comm]
    simp only [run] at h ⊢
    cases hs : step p s with
    | halted o' => rw [hs] at h; exact h
    | running t => rw [hs] at h; exact ih t h

/-- More fuel does not change a result. -/
theorem solve_mono (u : Uninit) (fuel k : Nat) (summands : List (List Char))
    (summand_count : Nat) (summand_lengths : List Nat) (longest_summand : Nat)
    (sum : List Char) (base : Nat) (print just_one : Bool) (o : Outcome)
    (h : solve u fuel summands summand_count summand_lengths longest_summand sum base print
      just_one = some o) :
    solve u (fuel + k) summands summand_count summand_lengths longest_summand sum base print
      just_one = some o := by
  unfold solve at h ⊢
  cases hp : prepare u summands summand_count summand_lengths longest_summand sum base print
    just_one with
  | error e => rw [hp] at h; exact h
  | ok p => rw [hp] at h; exact run_mono p fuel k _ o h

/-! ## Termination -/

theorem enc_append (B : Int) (l : List Int) (e : Int) : enc B (l ++ [e]) = enc B l * B + e := by
  simp [enc, List.foldl_append]

theorem enc_bound (B : Int) (hB : 0 < B) (l : List Int) (h : ∀ e ∈ l, 0 ≤ e ∧ e < B) :
    0 ≤ enc B l ∧ enc B l + 1 ≤ B ^ l.length := by
  induction l using List.reverseRecOn with
  | nil => simp [enc]
  | append_singleton l e ih =>
    have ih := ih (fun x hx => h x (List.mem_append_left _ hx))
    have he := h e (List.mem_append_right _ (List.mem_singleton_self _))
    rw [enc_append, List.length_append, List.length_singleton, pow_succ]
    constructor
    · have := mul_nonneg ih.1 hB.le
      omega
    · nlinarith [ih.1, ih.2, he.1, he.2]

theorem score_ext (B : Int) (hB : 0 < B) (M : Nat) (es : List Int) (e : Int) (b : Bool)
    (h : es.length + 1 ≤ M) (he : 1 ≤ e) :
    score B M es false < score B M (es ++ [e]) b := by
  unfold score
  rw [enc_append, List.length_append, List.length_singleton]
  have hw : M - es.length = (M - (es.length + 1)) + 1 := by omega
  rw [hw, pow_succ]
  have hpos : 0 < B ^ (M - (es.length + 1)) := pow_pos hB _
  have hb : (0 : Int) ≤ if b = true then 1 else 0 := by split_ifs <;> omega
  simp only [Bool.false_eq_true, if_false, add_zero]
  nlinarith

theorem score_fail (B : Int) (hB : 0 < B) (M : Nat) (es : List Int) :
    score B M es false < score B M es true := by
  unfold score
  have hpos : 0 < B ^ (M - es.length) := pow_pos hB _
  simp only [Bool.false_eq_true, if_false, add_zero, if_true]
  nlinarith

theorem score_retry (B : Int) (hB : 0 < B) (M : Nat) (l : List Int) (e e' : Int)
    (h : e + 1 < e') : score B M (l ++ [e]) true < score B M (l ++ [e']) false := by
  unfold score
  rw [enc_append, enc_append, List.length_append, List.length_append]
  have hpos : 0 < B ^ (M - (l.length + [e].length)) := pow_pos hB _
  simp only [Bool.false_eq_true, if_false, add_zero, if_true, List.length_singleton] at hpos ⊢
  nlinarith

theorem score_pop (B : Int) (hB : 0 < B) (M : Nat) (l : List Int) (e : Int)
    (h : l.length + 1 ≤ M) (he : e + 1 < B) :
    score B M (l ++ [e]) true < score B M l true := by
  unfold score
  rw [enc_append, List.length_append, List.length_singleton]
  have hw : M - l.length = (M - (l.length + 1)) + 1 := by omega
  rw [hw, pow_succ]
  have hpos : 0 < B ^ (M - (l.length + 1)) := pow_pos hB _
  simp only [if_true]
  nlinarith

theorem score_bound (B : Int) (hB : 0 < B) (M : Nat) (es : List Int) (b : Bool)
    (h : ∀ e ∈ es, 0 ≤ e ∧ e < B) (hl : es.length ≤ M) :
    0 ≤ score B M es b ∧ score B M es b ≤ B ^ M := by
  unfold score
  obtain ⟨h0, h1⟩ := enc_bound B hB es h
  have hpos : 0 < B ^ (M - es.length) := pow_pos hB _
  have hb : (0 : Int) ≤ (if b = true then 1 else 0) ∧ (if b = true then (1 : Int) else 0) ≤ 1 := by
    split_ifs <;> omega
  have hM : B ^ M = B ^ es.length * B ^ (M - es.length) := by
    rw [← pow_add]; congr 1; omega
  constructor
  · exact mul_nonneg (by omega) hpos.le
  · rw [hM]
    exact mul_le_mul_of_nonneg_right (by omega) hpos.le

theorem prefix_path_succ (sum : List Char) (cols : List (List Char)) (c : Nat) :
    prefix_path sum cols (c + 1) = prefix_path sum cols c ++ col_path sum cols c := rfl

theorem prefix_path_perm (sum : List Char) (cols : List (List Char)) (c : Nat) :
    (prefix_path sum cols c).Perm (prefix_letters sum cols c) := by
  induction c with
  | zero => exact List.Perm.refl _
  | succ c ih =>
    rw [prefix_path_succ, prefix_letters_succ]
    exact ih.append ((List.reverse_perm _).cons _)

theorem path_perm (p : Puzzle) (cols : List (List Char)) (i b : Bool) (c r : Nat) :
    (path p cols i b c r).Perm (seen p cols i b c r) := by
  unfold path seen
  apply (prefix_path_perm _ _ _).append
  split_ifs
  · exact (List.reverse_perm _).cons _
  · exact (List.reverse_perm _).cons _
  · exact List.Perm.refl _
  · exact List.Perm.refl _

theorem prefix_path_length_mono (sum : List Char) (cols : List (List Char)) (c c' : Nat)
    (h : c ≤ c') : (prefix_path sum cols c).length ≤ (prefix_path sum cols c').length := by
  induction c' with
  | zero =>
    have : c = 0 := by omega
    subst this; exact le_refl _
  | succ n ih =>
    by_cases hc : c = n + 1
    · subst hc; exact le_refl _
    · have := ih (by omega)
      rw [prefix_path_succ, List.length_append]
      omega

theorem path_length_le (p : Puzzle) (cols : List (List Char)) (i b : Bool) (c r : Nat)
    (hc : c ≤ p.sum.length) (hlt : i = true ∨ b = true → c < p.sum.length) :
    (path p cols i b c r).length ≤ (prefix_path p.sum cols p.sum.length).length := by
  by_cases h : i = true ∨ b = true
  · have hc' := hlt h
    refine le_trans ?_ (prefix_path_length_mono p.sum cols (c + 1) _ hc')
    unfold path
    rw [prefix_path_succ, List.length_append, List.length_append]
    apply Nat.add_le_add_left
    unfold col_path
    split_ifs <;> simp
  · have hi : i = false := by cases i <;> simp_all
    have hb : b = false := by cases b <;> simp_all
    subst hi hb
    simp only [path, Bool.false_eq_true, if_false, List.append_nil]
    exact prefix_path_length_mono _ _ _ _ hc

theorem trail_eq {p : Puzzle} {cols : List (List Char)} {s : State} {c r : Nat}
    (G : GoodAt p cols s c r) :
    trail p cols s = path p cols s.in_summands s.backtrack c r := by
  unfold trail
  rw [G.col_eq, Int.toNat_natCast]
  cases hin : s.in_summands
  · simp [path]
  · rw [G.row_eq hin, Int.toNat_natCast]

theorem after_sum_char_bt_trail {p : Puzzle} {cols : List (List Char)} (ok : PuzzleOK p cols)
    {s s' : State} (h : after_sum_char p s = .running s') (c : Nat)
    (hb : s.backtrack = true) (hcol : s.curr_column = c) (hc : c < p.sum.length) :
    s'.backtrack = true ∧ s'.number_map = s.number_map
      ∧ trail p cols s' = prefix_path p.sum cols c := by
  unfold after_sum_char at h
  simp only [hb, if_true] at h
  cases c with
  | zero =>
    have : s.curr_column - 1 = -1 := by rw [hcol]; rfl
    simp [enter_summands, this] at h
  | succ c' =>
    have e1 : s.curr_column - 1 = (c' : Int) := by rw [hcol]; push_cast; ring
    have hc' : c' < p.sum.length := by omega
    have hne : ¬ ((c' : Int) = -1) := by omega
    simp only [e1, hne, false_or, ok.len_eq hc'] at h
    by_cases hl : cols.getD c' [] = []
    · have hl0 : ((cols.getD c' []).length : Int) = 0 := by rw [hl]; rfl
      simp only [hl0, if_true, enter_summands, hne, if_false] at h
      have hneg : ¬ ((-1 : Int) ≥ 0) := by omega
      simp only [hneg, if_false, Config.running.injEq] at h
      subst h
      refine ⟨rfl, rfl, ?_⟩
      simp only [trail, path, hb, Bool.false_eq_true, if_false, if_true, Int.toNat_natCast,
        prefix_path_succ, col_path, hl, List.reverse_nil]
    · have hl0 : ¬ (((cols.getD c' []).length : Int) = 0) := by
        intro h
        apply hl
        exact List.length_eq_zero.mp (by omega)
      simp only [hl0, if_false, enter_summands, hne] at h
      have hpos : ((0 : Int) ≥ 0) := le_refl _
      simp only [hpos, if_true, Config.running.injEq] at h
      subst h
      refine ⟨rfl, rfl, ?_⟩
      simp only [trail, path, hb, if_true, Int.toNat_natCast, Int.toNat_zero,
        prefix_path_succ, col_path, List.drop_zero]

theorem after_sum_char_fwd_trail {p : Puzzle} {cols : List (List Char)} (ok : PuzzleOK p cols)
    {s s' : State} (h : after_sum_char p s = .running s') (c : Nat)
    (hb : s.backtrack = false) (hcol : s.curr_column = c) (hc : c < p.sum.length) :
    s'.backtrack = false ∧ s'.number_map = s.number_map
      ∧ trail p cols s' = prefix_path p.sum cols c ++ [p.sum.getD c '\x00'] := by
  unfold after_sum_char at h
  simp only [hb, Bool.false_eq_true, if_false, hcol, ok.len_eq hc] at h
  by_cases hl : cols.getD c [] = []
  · have hl0 : ((cols.getD c []).length : Int) - 1 < 0 := by rw [hl]; simp
    simp only [hl0, if_true] at h
    split at h
    · cases h
    · simp only [Config.running.injEq] at h
      subst h
      refine ⟨rfl, rfl, ?_⟩
      have e : ((c : Int) + 1).toNat = c + 1 := by omega
      simp only [trail, path, hb, Bool.false_eq_true, if_false, e, List.append_nil,
        prefix_path_succ, col_path, hl, List.reverse_nil]
  · have hpos : 0 < (cols.getD c []).length := List.length_pos.mpr hl
    have hl0 : ¬ (((cols.getD c []).length : Int) - 1 < 0) := by omega
    have hne : ¬ ((c : Int) = -1) := by omega
    have hge : ((cols.getD c []).length : Int) - 1 ≥ 0 := by omega
    simp only [hl0, if_false, enter_summands, hcol, hne, hge, if_true,
      Config.running.injEq] at h
    subst h
    refine ⟨rfl, rfl, ?_⟩
    have e : (((cols.getD c []).length : Int) - 1).toNat + 1 = (cols.getD c []).length := by
      omega
    simp only [trail, path, hb, Bool.false_eq_true, if_false, if_true, hcol,
      Int.toNat_natCast, e, List.drop_length, List.reverse_nil]

theorem after_summand_bt_trail {p : Puzzle} {cols : List (List Char)} (ok : PuzzleOK p cols)
    {s s' : State} (h : after_summand p s = .running s') (c r : Nat)
    (hb : s.backtrack = true) (hcol : s.curr_column = c)
    (hrow : s.curr_smnd_row = r) (hc : c < p.sum.length) (hr : r < (cols.getD c []).length) :
    s'.backtrack = true ∧ s'.number_map = s.number_map
      ∧ trail p cols s' = prefix_path p.sum cols c
          ++ p.sum.getD c '\x00' :: ((cols.getD c []).drop (r + 1)).reverse := by
  unfold after_summand summand_loop_test at h
  simp only [hb, if_true, hcol, hrow, ok.len_eq hc] at h
  by_cases hl : (r : Int) = ((cols.getD c []).length : Int) - 1
  · simp only [hl, if_true, Config.running.injEq] at h
    subst h
    refine ⟨rfl, rfl, ?_⟩
    have e : r + 1 = (cols.getD c []).length := by omega
    simp only [trail, path, hb, Bool.false_eq_true, if_false, if_true, hcol,
      Int.toNat_natCast, e, List.drop_length, List.reverse_nil]
  · simp only [hl, if_false, Config.running.injEq] at h
    subst h
    refine ⟨rfl, rfl, ?_⟩
    have hge : ((r : Int) + 1 ≥ 0) := by omega
    have e : ((r : Int) + 1).toNat = r + 1 := by omega
    simp only [trail, path, hb, hge, decide_True, if_true, hcol, Int.toNat_natCast, e]

theorem after_summand_fwd_trail {p : Puzzle} {cols : List (List Char)} (ok : PuzzleOK p cols)
    {s s' : State} (h : after_summand p s = .running s') (c r : Nat)
    (hb : s.backtrack = false) (hcol : s.curr_column = c)
    (hrow : s.curr_smnd_row = r) (hc : c < p.sum.length) (hr : r < (cols.getD c []).length) :
    s'.backtrack = false ∧ s'.number_map = s.number_map
      ∧ trail p cols s' = prefix_path p.sum cols c
          ++ p.sum.getD c '\x00' :: ((cols.getD c []).drop r).reverse := by
  unfold after_summand summand_loop_test at h
  simp only [hb, Bool.false_eq_true, if_false, hcol, hrow] at h
  by_cases hl : (r : Int) = 0
  · simp only [hl, if_true] at h
    have hr0 : r = 0 := by omega
    subst hr0
    split at h
    · cases h
    · simp only [Config.running.injEq] at h
      subst h
      refine ⟨rfl, rfl, ?_⟩
      have e : ((c : Int) + 1).toNat = c + 1 := by omega
      simp only [trail, path, hb, Bool.false_eq_true, if_false, e, List.append_nil,
        prefix_path_succ, col_path, List.drop_zero]
  · simp only [hl, if_false, Config.running.injEq] at h
    subst h
    refine ⟨rfl, rfl, ?_⟩
    have hge : ((r : Int) - 1 ≥ 0) := by omega
    have e : ((r : Int) - 1).toNat + 1 = r := by omega
    simp only [trail, path, hb, Bool.false_eq_true, hge, decide_True, if_true, if_false, hcol,
      Int.toNat_natCast, e]

theorem enter_after_solution_trail {p : Puzzle} {cols : List (List Char)}
    (ok : PuzzleOK p cols) {s s' : State} (h : enter_summands s = .running s')
    (hb : s.backtrack = true)
    (hcol : s.curr_column = (p.sum.length : Int) - 1) (hrow : s.curr_smnd_row = 0) :
    s'.backtrack = true ∧ s'.number_map = s.number_map
      ∧ trail p cols s' = prefix_path p.sum cols p.sum.length := by
  have hpos := ok.sum_pos
  obtain ⟨n, hn⟩ : ∃ n, p.sum.length = n + 1 := ⟨p.sum.length - 1, by omega⟩
  have hne : ¬ (s.curr_column = -1) := by rw [hcol]; omega
  have hge : s.curr_smnd_row ≥ 0 := by rw [hrow]
  unfold enter_summands at h
  simp only [hne, if_false, hge, if_true, Config.running.injEq] at h
  subst h
  refine ⟨hb, rfl, ?_⟩
  have e : ((p.sum.length : Int) - 1).toNat = n := by omega
  simp only [trail, path, hb, if_true, hcol, hrow, e, Int.toNat_zero, List.drop_zero]
  rw [hn, prefix_path_succ]
  rfl

theorem good_trail {p : Puzzle} {cols : List (List Char)} {s : State} (G : Good p cols s) :
    (trail p cols s).length ≤ (prefix_path p.sum cols p.sum.length).length
      ∧ ∀ y ∈ trail p cols s, 0 ≤ tget s.number_map y ∧ tget s.number_map y ≤ p.max_digit := by
  obtain ⟨c, r, G⟩ := G
  rw [trail_eq G]
  refine ⟨path_length_le p cols _ _ c r G.col_le G.col_lt, fun y hy => ?_⟩
  obtain ⟨d0, d1, _, _⟩ := G.asg.digit y ((path_perm p cols _ _ c r).mem_iff.mp hy)
  exact ⟨d0, d1⟩

theorem rank_base_pos {p : Puzzle} {cols : List (List Char)} (ok : PuzzleOK p cols) :
    0 < 2 * p.base + 2 := by
  have := ok.base_lo
  omega

theorem map_key_congr (nm nm' : List Int) (l : List Char)
    (h : ∀ y ∈ l, tget nm' y = tget nm y) :
    l.map (fun x => 2 * (tget nm' x + 1)) = l.map (fun x => 2 * (tget nm x + 1)) :=
  List.map_congr_left (fun y hy => by rw [h y hy])

theorem rank_ext {p : Puzzle} {cols : List (List Char)} (ok : PuzzleOK p cols) {s s' : State}
    (G' : Good p cols s') (hb : s.backtrack = false) (x : Char)
    (ht : trail p cols s' = trail p cols s ++ [x])
    (hnm : ∀ y ∈ trail p cols s, tget s'.number_map y = tget s.number_map y) :
    rank p cols s < rank p cols s' := by
  obtain ⟨hlen, hdig⟩ := good_trail G'
  unfold rank
  rw [ht, List.map_append, List.map_singleton, map_key_congr _ _ _ hnm, hb]
  rw [ht, List.length_append, List.length_singleton] at hlen
  apply score_ext _ (rank_base_pos ok) _ _ _ _ (by rw [List.length_map]; exact hlen)
  have := (hdig x (by rw [ht]; exact List.mem_append_right _ (List.mem_singleton_self _))).1
  omega

theorem rank_fail {p : Puzzle} {cols : List (List Char)} (ok : PuzzleOK p cols) {s s' : State}
    (hb : s.backtrack = false) (hb' : s'.backtrack = true)
    (ht : trail p cols s' = trail p cols s) (hnm : s'.number_map = s.number_map) :
    rank p cols s < rank p cols s' := by
  unfold rank
  rw [ht, hnm, hb, hb']
  exact score_fail _ (rank_base_pos ok) _ _

theorem rank_retry {p : Puzzle} {cols : List (List Char)} (ok : PuzzleOK p cols)
    {s s' : State} (hb : s.backtrack = true) (hb' : s'.backtrack = false) (l : List Char)
    (x : Char) (ht : trail p cols s = l ++ [x]) (ht' : trail p cols s' = l ++ [x])
    (hnm : ∀ y ∈ l, tget s'.number_map y = tget s.number_map y)
    (hx : tget s.number_map x + 1 ≤ tget s'.number_map x) :
    rank p cols s < rank p cols s' := by
  unfold rank
  rw [ht, ht', List.map_append, List.map_append, List.map_singleton, List.map_singleton,
    map_key_congr _ _ _ hnm, hb, hb']
  apply score_retry _ (rank_base_pos ok)
  omega

theorem rank_pop {p : Puzzle} {cols : List (List Char)} (ok : PuzzleOK p cols)
    {s s' : State} (G : Good p cols s) (hb : s.backtrack = true) (hb' : s'.backtrack = true)
    (l : List Char) (x : Char) (ht : trail p cols s = l ++ [x]) (ht' : trail p cols s' = l)
    (hnm : s'.number_map = s.number_map) :
    rank p cols s < rank p cols s' := by
  obtain ⟨hlen, hdig⟩ := good_trail G
  unfold rank
  rw [ht, ht', List.map_append, List.map_singleton, hnm, hb, hb']
  rw [ht, List.length_append, List.length_singleton] at hlen
  apply score_pop _ (rank_base_pos ok) _ _ _ (by rw [List.length_map]; exact hlen)
  have := (hdig x (by rw [ht]; exact List.mem_append_right _ (List.mem_singleton_self _))).2
  have := ok.max_digit
  omega

theorem rank_step_sum_fwd {p : Puzzle} {cols : List (List Char)} (ok : PuzzleOK p cols)
    (s : State) (c r : Nat) (G : GoodAt p cols s c r) (hin : s.in_summands = false)
    (hb : s.backtrack = false) (s' : State) (h : step_sum p s = .running s')
    (G' : Good p cols s') : rank p cols s < rank p cols s' := by
  have hcount : CountOK s.map_count (prefix_letters p.sum cols c) := by
    have := G.count; rwa [hin, hb, seen_sum_fwd] at this
  have hcol := G.col_eq
  have htr : trail p cols s = prefix_path p.sum cols c := by
    rw [trail_eq G, hin, hb]; simp [path]
  unfold step_sum at h
  by_cases hL : c = p.sum.length
  · have e : s.curr_column = p.sum_length := by rw [hcol, ok.sum_length, hL]
    have e1 : p.sum_length - 1 = (p.sum.length : Int) - 1 := by rw [ok.sum_length]
    simp only [e, if_true] at h
    rw [hL] at htr
    split_ifs at h <;>
      first
      | cases h
      | (obtain ⟨a1, a2, a3⟩ := enter_after_solution_trail ok h rfl e1 rfl
         exact rank_fail ok hb a1 (a3.trans htr.symm) a2)
  · have hc : c < p.sum.length := by have := G.col_le; omega
    have e : ¬ ((c : Int) = p.sum_length) := by
      rw [ok.sum_length]; omega
    have hx := ok.sum_letter hc
    simp only [hcol, e, if_false, hb, Bool.false_eq_true, cget_natCast] at h
    split_ifs at h with h1 h2 h3
    · obtain ⟨a1, a2, a3⟩ := after_sum_char_bt_trail ok h c rfl rfl hc
      exact rank_fail ok hb a1 (a3.trans htr.symm) a2
    · obtain ⟨a1, a2, a3⟩ := after_sum_char_fwd_trail ok h c rfl rfl hc
      exact rank_ext ok G' hb _ (by rw [a3, htr]) (fun y _ => by rw [a2])
    · obtain ⟨a1, a2, a3⟩ := after_sum_char_bt_trail ok h c rfl rfl hc
      exact rank_fail ok hb a1 (a3.trans htr.symm) a2
    · obtain ⟨a1, a2, a3⟩ := after_sum_char_fwd_trail ok h c rfl rfl hc
      refine rank_ext ok G' hb _ (by rw [a3, htr]) (fun y hy => ?_)
      rw [a2]
      have hxS : p.sum.getD c '\x00' ∉ prefix_letters p.sum cols c :=
        fun h => h2 ((hcount.mem_iff _).mpr h)
      rw [htr] at hy
      exact tget_tset_ne _ _ _ _
        (fun e => hxS (e ▸ (prefix_path_perm _ _ _).mem_iff.mp hy))

theorem first_free_ge (lm : List Char) (max v : Int) : v ≤ first_free lm max v :=
  (first_free_spec lm max v).1

theorem rank_step_sum_bwd {p : Puzzle} {cols : List (List Char)} (ok : PuzzleOK p cols)
    (s : State) (c r : Nat) (G : GoodAt p cols s c r) (hin : s.in_summands = false)
    (hb : s.backtrack = true) (s' : State) (h : step_sum p s = .running s') :
    rank p cols s < rank p cols s' := by
  have hcount0 : CountOK s.map_count (prefix_letters p.sum cols c ++ [p.sum.getD c '\x00']) := by
    have := G.count; rwa [hin, hb, seen_sum_bwd] at this
  have hcount := hcount0.count_perm (perm_sum p cols c).symm
  have hcol := G.col_eq
  have hc : c < p.sum.length := G.col_lt (Or.inr hb)
  have e : ¬ ((c : Int) = p.sum_length) := by
    rw [ok.sum_length]; omega
  have hx := ok.sum_letter hc
  have htr : trail p cols s = prefix_path p.sum cols c ++ [p.sum.getD c '\x00'] := by
    rw [trail_eq G, hin, hb]; simp [path]
  unfold step_sum at h
  simp only [hcol, e, if_false, hb, if_true, cget_natCast] at h
  split_ifs at h with h1 h2
  · obtain ⟨a1, a2, a3⟩ := after_sum_char_bt_trail ok h c rfl rfl hc
    exact rank_pop ok ⟨c, r, G⟩ hb a1 _ _ htr a3 a2
  · obtain ⟨a1, a2, a3⟩ := after_sum_char_fwd_trail ok h c rfl rfl hc
    have hxS : p.sum.getD c '\x00' ∉ prefix_letters p.sum cols c := hcount.one_iff.mp h1
    refine rank_retry ok hb a1 _ _ htr a3 (fun y hy => ?_) ?_
    · rw [a2]
      exact tget_tset_ne _ _ _ _
        (fun e => hxS (e ▸ (prefix_path_perm _ _ _).mem_iff.mp hy))
    · rw [a2]
      dsimp only
      rw [tget_tset_same _ _ _ (by rw [G.asg.len_nm]; exact hx.2)]
      exact first_free_ge _ _ _
  · obtain ⟨a1, a2, a3⟩ := after_sum_char_bt_trail ok h c rfl rfl hc
    exact rank_pop ok ⟨c, r, G⟩ hb a1 _ _ htr a3 a2

theorem reverse_drop_snoc (l : List Char) (r : Nat) (h : r < l.length) :
    (l.drop r).reverse = (l.drop (r + 1)).reverse ++ [l.getD r '\x00'] := by
  rw [drop_eq_getD_cons l r h, List.reverse_cons]

theorem rank_step_summand_fwd {p : Puzzle} {cols : List (List Char)} (ok : PuzzleOK p cols)
    (s : State) (c r : Nat) (G : GoodAt p cols s c r) (hin : s.in_summands = true)
    (hb : s.backtrack = false) (s' : State) (h : step_summand p s = .running s')
    (G' : Good p cols s') : rank p cols s < rank p cols s' := by
  have hcount : CountOK s.map_count (seen p cols true false c r) := by
    have := G.count; rwa [hin, hb] at this
  have hcol := G.col_eq
  have hrow := G.row_eq hin
  have hc : c < p.sum.length := G.col_lt (Or.inl hin)
  have hr := G.row_lt hin
  have hx := ok.col_letter hc hr
  have htr : trail p cols s = path p cols true false c r := by
    rw [trail_eq G, hin, hb]
  have hsnoc : prefix_path p.sum cols c
        ++ p.sum.getD c '\x00' :: ((cols.getD c []).drop r).reverse
      = path p cols true false c r ++ [(cols.getD c []).getD r '\x00'] := by
    rw [reverse_drop_snoc _ r hr]
    simp [path]
  have hsame : prefix_path p.sum cols c
        ++ p.sum.getD c '\x00' :: ((cols.getD c []).drop (r + 1)).reverse
      = path p cols true false c r := by
    simp [path]
  unfold step_summand at h
  simp only [hcol, hrow, hb, Bool.false_eq_true, if_false, summand_char_natCast ok hc hr] at h
  split_ifs at h with h1 h2 h3
  · obtain ⟨a1, a2, a3⟩ := after_summand_bt_trail ok h c r rfl rfl rfl hc hr
    exact rank_fail ok hb a1 (by rw [a3, hsame, htr]) a2
  · obtain ⟨a1, a2, a3⟩ := after_summand_fwd_trail ok h c r rfl rfl rfl hc hr
    exact rank_ext ok G' hb _ (by rw [a3, hsnoc, htr]) (fun y _ => by rw [a2])
  · obtain ⟨a1, a2, a3⟩ := after_summand_bt_trail ok h c r rfl rfl rfl hc hr
    exact rank_fail ok hb a1 (by rw [a3, hsame, htr]) a2
  · obtain ⟨a1, a2, a3⟩ := after_summand_fwd_trail ok h c r rfl rfl rfl hc hr
    refine rank_ext ok G' hb _ (by rw [a3, hsnoc, htr]) (fun y hy => ?_)
    rw [a2]
    have hxS : (cols.getD c []).getD r '\x00' ∉ seen p cols true false c r :=
      fun h => h1 ((hcount.mem_iff _).mpr h)
    rw [htr] at hy
    exact tget_tset_ne _ _ _ _
      (fun e => hxS (e ▸ (path_perm _ _ _ _ _ _).mem_iff.mp hy))

theorem rank_step_summand_bwd {p : Puzzle} {cols : List (List Char)} (ok : PuzzleOK p cols)
    (s : State) (c r : Nat) (G : GoodAt p cols s c r) (hin : s.in_summands = true)
    (hb : s.backtrack = true) (s' : State) (h : step_summand p s = .running s') :
    rank p cols s < rank p cols s' := by
  have hcount0 : CountOK s.map_count (seen p cols true true c r) := by
    have := G.count; rwa [hin, hb] at this
  have hcol := G.col_eq
  have hrow := G.row_eq hin
  have hc : c < p.sum.length := G.col_lt (Or.inl hin)
  have hr := G.row_lt hin
  have hx := ok.col_letter hc hr
  have hperm := perm_row p cols c r hr
  have hcount := hcount0.count_perm hperm.symm
  have hsame : prefix_path p.sum cols c
        ++ p.sum.getD c '\x00' :: ((cols.getD c []).drop (r + 1)).reverse
      = path p cols true false c r := by
    simp [path]
  have hsnoc : prefix_path p.sum cols c
        ++ p.sum.getD c '\x00' :: ((cols.getD c []).drop r).reverse
      = path p cols true false c r ++ [(cols.getD c []).getD r '\x00'] := by
    rw [reverse_drop_snoc _ r hr]
    simp [path]
  have htr : trail p cols s = path p cols true false c r ++ [(cols.getD c []).getD r '\x00'] := by
    rw [trail_eq G, hin, hb, ← hsnoc]
    simp [path]
  unfold step_summand at h
  simp only [hcol, hrow, hb, if_true, summand_char_natCast ok hc hr] at h
  split_ifs at h with h1 h2
  · obtain ⟨a1, a2, a3⟩ := after_summand_bt_trail ok h c r rfl rfl rfl hc hr
    exact rank_pop ok ⟨c, r, G⟩ hb a1 _ _ htr (a3.trans hsame) a2
  · obtain ⟨a1, a2, a3⟩ := after_summand_fwd_trail ok h c r rfl rfl rfl hc hr
    have hxS : (cols.getD c []).getD r '\x00' ∉ seen p cols true false c r :=
      hcount.one_iff.mp h1
    refine rank_retry ok hb a1 _ _ htr (a3.trans hsnoc) (fun y hy => ?_) ?_
    · rw [a2]
      exact tget_tset_ne _ _ _ _
        (fun e => hxS (e ▸ (path_perm _ _ _ _ _ _).mem_iff.mp hy))
    · rw [a2]
      dsimp only
      rw [tget_tset_same _ _ _ (by rw [G.asg.len_nm]; exact hx.2)]
      exact first_free_ge _ _ _
  · obtain ⟨a1, a2, a3⟩ := after_summand_bt_trail ok h c r rfl rfl rfl hc hr
    exact rank_pop ok ⟨c, r, G⟩ hb a1 _ _ htr (a3.trans hsame) a2

/-- Every slot transition that keeps the search running raises the rank. -/

theorem rank_step {p : Puzzle} {cols : List (List Char)} (ok : PuzzleOK p cols)
    (s s' : State) (G : Good p cols s) (h : step p s = .running s') :
    rank p cols s < rank p cols s' := by
  have G' : Good p cols s' := by
    have := good_step ok s G
    rwa [h] at this
  obtain ⟨c, r, G⟩ := G
  unfold step at h
  cases hin : s.in_summands <;> cases hb : s.backtrack <;>
    simp only [hin, Bool.false_eq_true, if_false, if_true] at h
  · exact rank_step_sum_fwd ok s c r G hin hb s' h G'
  · exact rank_step_sum_bwd ok s c r G hin hb s' h
  · exact rank_step_summand_fwd ok s c r G hin hb s' h G'
  · exact rank_step_summand_bwd ok s c r G hin hb s' h

theorem rank_bound {p : Puzzle} {cols : List (List Char)} (ok : PuzzleOK p cols) {s : State}
    (G : Good p cols s) :
    0 ≤ rank p cols s
      ∧ rank p cols s ≤ (2 * p.base + 2) ^ (prefix_path p.sum cols p.sum.length).length := by
  obtain ⟨hlen, hdig⟩ := good_trail G
  unfold rank
  apply score_bound _ (rank_base_pos ok)
  · intro e he
    obtain ⟨y, hy, rfl⟩ := List.mem_map.mp he
    have := hdig y hy
    have := ok.max_digit
    constructor <;> omega
  · rw [List.length_map]; exact hlen

/-- A search that starts in a good state ends within the number of ranks
above its state. -/

theorem run_terminates {p : Puzzle} {cols : List (List Char)} (ok : PuzzleOK p cols)
    (fuel : Nat) (s : State) (G : Good p cols s)
    (h : (2 * p.base + 2) ^ (prefix_path p.sum cols p.sum.length).length - rank p cols s
      < (fuel : Int)) :
    ∃ o, run p fuel s = some o := by
  induction fuel generalizing s with
  | zero =>
    have := (rank_bound ok G).2
    simp only [Nat.cast_zero] at h
    omega
  | succ n ih =>
    simp only [run]
    cases hs : step p s with
    | halted o => exact ⟨o, rfl⟩
    | running s' =>
      have G' : Good p cols s' := by
        have := good_step ok s G
        rwa [hs] at this
      have hlt := rank_step ok s s' G hs
      exact ih s' G' (by push_cast at h; omega)

/-- Termination: on a validated instance `solve` ends within `fuel_bound`
slot transitions, whatever the uninitialised storage holds. -/

theorem solve_terminates (u : Uninit) (summands : List (List Char)) (summand_count : Nat)
    (summand_lengths : List Nat) (longest_summand : Nat) (sum : List Char) (base : Nat)
    (print just_one : Bool)
    (hv : valid_instance summands summand_count summand_lengths longest_summand sum base
      = true) :
    ∃ o, solve u (fuel_bound summands sum base) summands summand_count summand_lengths
      longest_summand sum base print just_one = some o := by
  unfold solve
  cases hp : prepare u summands summand_count summand_lengths longest_summand sum base print
    just_one with
  | error e => exact ⟨e, rfl⟩
  | ok p =>
    have P := prepare_ok hv hp
    dsimp only
    apply run_terminates P.ok _ _ (good_init u)
    have h0 := (rank_bound P.ok (@good_init p (columns summands sum.length) u)).1
    rw [P.sum_eq, P.base_eq]
    unfold fuel_bound
    push_cast
    omega

/-! ## No write outside the arrays on small instances -/

theorem set_carry_some (nc : List Int) (i v : Int) (h0 : 0 ≤ i) (h1 : i < MAX_LEN) :
    set_carry nc i v = some (nc.set i.toNat v) := by
  unfold set_carry
  rw [if_pos ⟨h0, h1⟩]

theorem enter_summands_no_fault (s : State) : enter_summands s ≠ .halted .fault := by
  unfold enter_summands
  split_ifs <;> simp

theorem after_sum_char_no_fault (p : Puzzle) (s : State) (c : Nat) (hcol : s.curr_column = c)
    (hc : c + 1 < MAX_LEN) : after_sum_char p s ≠ .halted .fault := by
  unfold after_sum_char
  have h1 : (0 : Int) ≤ s.curr_column + 1 := by omega
  have h2 : s.curr_column + 1 < MAX_LEN := by omega
  dsimp only
  split_ifs <;>
    first
    | exact enter_summands_no_fault _
    | (rw [set_carry_some _ _ _ h1 h2]; simp)

theorem after_summand_no_fault (p : Puzzle) (s : State) (c : Nat) (hcol : s.curr_column = c)
    (hc : c + 1 < MAX_LEN) : after_summand p s ≠ .halted .fault := by
  unfold after_summand summand_loop_test
  have h1 : (0 : Int) ≤ s.curr_column + 1 := by omega
  have h2 : s.curr_column + 1 < MAX_LEN := by omega
  dsimp only
  split_ifs <;>
    first
    | (rw [set_carry_some _ _ _ h1 h2]; simp)
    | simp

/-- A sum of fewer than `MAX_LEN` letters keeps every write to `needed_carry`
inside the array. -/
theorem step_no_fault {p : Puzzle} {cols : List (List Char)} (ok : PuzzleOK p cols)
    (s : State) (G : Good p cols s) (hL : p.sum.length < MAX_LEN) :
    step p s ≠ .halted .fault := by
  obtain ⟨c, r, G⟩ := G
  have hcol := G.col_eq
  unfold step
  split_ifs with hin
  · have hc : c < p.sum.length := G.col_lt (Or.inl hin)
    unfold step_summand
    dsimp only
    split_ifs <;> exact after_summand_no_fault p _ c hcol (by omega)
  · unfold step_sum
    by_cases h : s.curr_column = p.sum_length
    · simp only [h, if_true]
      split_ifs <;> first | exact enter_summands_no_fault _ | simp
    · have hc : c < p.sum.length := by
        have := G.col_le
        rw [hcol, ok.sum_length] at h
        omega
      simp only [h, if_false]
      split_ifs <;> exact after_sum_char_no_fault p _ c hcol (by omega)

theorem run_no_fault {p : Puzzle} {cols : List (List Char)} (ok : PuzzleOK p cols)
    (hL : p.sum.length < MAX_LEN) (fuel : Nat) (s : State) (G : Good p cols s) :
    run p fuel s ≠ some .fault := by
  induction fuel generalizing s with
  | zero => simp [run]
  | succ n ih =>
    simp only [run]
    have h1 := step_no_fault ok s G hL
    have hg := good_step ok s G
    cases hs : step p s with
    | halted o =>
      rw [hs] at h1
      intro h
      simp only [Option.some.injEq] at h
      exact h1 (by rw [h])
    | running s' =>
      rw [hs] at hg
      exact ih s' hg

theorem column_letters_length_le (done : List (List Char)) (L c : Nat) :
    (column_letters done L c).length ≤ done.length :=
  List.length_filterMap_le _ _

theorem place_char_total {summands : List (List Char)} {summand_lengths : List Nat}
    {done : List (List Char)} {w : List Char} {i j L : Nat} {l : Layout}
    (h : LayoutMid done w j L l) (hlen : summand_lengths.getD i 0 = w.length)
    (hj : j < w.length) (hwL : w.length ≤ L) (hL : L ≤ 16)
    (hdone : done.length < MAX_STATIC_SUMMANDS) :
    ∃ l', place_char summands summand_lengths (L : Int) i j l = some l' := by
  have hcolN : (L : Int) - ((w.length : Int) - (j : Int)) = ((L - w.length + j : Nat) : Int) := by
    omega
  have hcolL : L - w.length + j < L := by omega
  have hcnt := h.col_len (L - w.length + j) hcolL
  have hnot : ¬ (L - w.length ≤ L - w.length + j ∧ L - w.length + j < L - w.length + j) := by
    omega
  rw [if_neg hnot, Nat.add_zero] at hcnt
  have hle := column_letters_length_le done L (L - w.length + j)
  unfold place_char
  simp only [hlen, hcolN, iget_natCast, hcnt, summand_index, MAX_LEN_SHIFT]
  have hidx : (0 : Int) ≤ ((column_letters done L (L - w.length + j)).length : Int) * 2 ^ 4
        + ((L - w.length + j : Nat) : Int)
      ∧ ((column_letters done L (L - w.length + j)).length : Int) * 2 ^ 4
        + ((L - w.length + j : Nat) : Int) < ((MAX_LEN * MAX_STATIC_SUMMANDS : Nat) : Int) := by
    simp only [MAX_LEN, MAX_STATIC_SUMMANDS] at hdone ⊢
    omega
  rw [if_pos hidx]
  exact ⟨_, rfl⟩

/-- Invariant rule for a counted loop whose body does not fail. -/
theorem foldl_bind_range_total {α : Type} (f : Nat → α → Option α) (P : Nat → α → Prop)
    (n : Nat) (a : α) (h0 : P 0 a)
    (hstep : ∀ j x, j < n → P j x → ∃ y, f j x = some y ∧ P (j + 1) y) :
    ∃ r, (List.range n).foldl (fun acc j => acc.bind (f j)) (some a) = some r ∧ P n r := by
  induction n with
  | zero => exact ⟨a, rfl, h0⟩
  | succ n ih =>
    obtain ⟨m, hm, hPm⟩ := ih (fun j x hj => hstep j x (by omega))
    obtain ⟨y, hy, hPy⟩ := hstep n m (by omega) hPm
    refine ⟨y, ?_, hPy⟩
    rw [List.range_succ, List.foldl_append, hm]
    simpa using hy

theorem reformat_total {summands : List (List Char)} {summand_count : Nat}
    {summand_lengths : List Nat} {L : Nat} {l : Layout}
    (hcount : summand_count = summands.length)
    (hlens : summand_lengths = summands.map List.length)
    (hw : ∀ w ∈ summands, w ≠ [] ∧ w.length ≤ L ∧ (w.getD 0 '\x00').toNat < 128)
    (hL : L ≤ 16) (h0 : LayoutMid [] [] 0 L l)
    (hsix : summand_count ≤ MAX_STATIC_SUMMANDS) :
    ∃ l', reformat summands summand_count summand_lengths (L : Int) l = some l' := by
  rw [reformat_eq_bind]
  have hstep : ∀ i x, i < summand_count → LayoutMid (summands.take i) [] 0 L x →
      ∃ y, (List.range (summand_lengths.getD i 0)).foldl
          (fun acc j => acc.bind (place_char summands summand_lengths (L : Int) i j)) (some x)
            = some y
        ∧ LayoutMid (summands.take (i + 1)) [] 0 L y := by
    intro i x hi hx
    rw [hcount] at hi
    have hmem : summands[i] ∈ summands := List.getElem_mem _
    obtain ⟨w1, w2, w3⟩ := hw _ hmem
    have e1 : summands.getD i [] = summands[i] := List.getD_eq_getElem _ _ hi
    have e2 : summand_lengths.getD i 0 = (summands[i]).length := by
      rw [hlens, List.getD_eq_getElem _ _ (by simpa using hi)]
      simp
    have e3 : summands.take (i + 1) = summands.take i ++ [summands[i]] := by
      rw [List.take_succ, List.getElem?_eq_getElem hi]
      rfl
    have hdone : (summands.take i).length < MAX_STATIC_SUMMANDS := by
      rw [List.length_take]
      omega
    have hx0 := @LayoutMid.restart _ _ summands[i] _ _ hx
    obtain ⟨y, hy, _⟩ := foldl_bind_range_total
      (fun j => place_char summands summand_lengths (L : Int) i j)
      (fun j x => LayoutMid (summands.take i) summands[i] j L x) (summands[i]).length x hx0
      (fun j z hj hz => by
        obtain ⟨z', hz'⟩ := @place_char_total summands _ _ _ _ _ _ _ hz e2 hj w2 hL hdone
        exact ⟨z', hz', hz.place e1 e2 hj w2 hL w3 hz'⟩)
    rw [e2]
    refine ⟨y, hy, ?_⟩
    rw [e3]
    exact hx0.word e1 e2 w1 w2 hL w3 (by rw [e2]; exact hy)
  obtain ⟨r, hr, _⟩ := foldl_bind_range_total
    (fun i x => (List.range (summand_lengths.getD i 0)).foldl
      (fun acc j => acc.bind (place_char summands summand_lengths (L : Int) i j)) (some x))
    (fun i x => LayoutMid (summands.take i) [] 0 L x) summand_count l
    (by simpa using h0) hstep
  exact ⟨r, hr⟩

theorem prepare_no_fault {summands : List (List Char)} {summand_count : Nat}
    {summand_lengths : List Nat} {longest_summand : Nat} {sum : List Char} {base : Nat}
    (u : Uninit) (print just_one : Bool)
    (hv : valid_instance summands summand_count summand_lengths longest_summand sum base
      = true)
    (hsix : summand_count ≤ MAX_STATIC_SUMMANDS) :
    prepare u summands summand_count summand_lengths longest_summand sum base print just_one
      ≠ .error .fault := by
  have V := valid_instance_facts hv
  obtain ⟨s1, s2, s3⟩ := is_word_spec V.sum_word
  unfold prepare
  simp only
  split_ifs with h1 h2
  · simp
  · simp
  · have hlongest : ∀ w ∈ summands, w.length ≤ sum.length := by
      intro w hw
      have := (le_foldl_max (summands.map List.length) 0).2 w.length
        (List.mem_map_of_mem _ hw)
      rw [← V.longest_eq] at this
      omega
    have hL16 : sum.length ≤ 16 := by simpa [MAX_LEN] using s2
    have hwords : ∀ w ∈ summands, w ≠ [] ∧ w.length ≤ sum.length
        ∧ (w.getD 0 '\x00').toNat < 128 := by
      intro w hw
      obtain ⟨w1, _, w3⟩ := is_word_spec (V.words w hw)
      refine ⟨w1, hlongest w hw, ?_⟩
      have : w.getD 0 '\x00' ∈ w := by
        rw [List.getD_eq_getElem _ _ (List.length_pos.mpr w1)]
        exact List.getElem_mem _
      exact (w3 _ this).2
    obtain ⟨l', hl'⟩ := reformat_total V.count_eq V.lengths_eq hwords hL16
      (layout_initial u sum sum.length) hsix
    rw [hl']
    dsimp only
    split_ifs <;> simp

/-- Total termination inside the array bounds: on a validated instance with a
sum of fewer than `MAX_LEN` letters and at most `MAX_STATIC_SUMMANDS`
summands, `solve` returns a count and a difficulty within `fuel_bound` slot
transitions, whatever the uninitialised storage holds. -/
theorem solve_returns (u : Uninit) (summands : List (List Char)) (summand_count : Nat)
    (summand_lengths : List Nat) (longest_summand : Nat) (sum : List Char) (base : Nat)
    (print just_one : Bool)
    (hv : valid_instance summands summand_count summand_lengths longest_summand sum base
      = true)
    (hL : sum.length < MAX_LEN) (hsix : summand_count ≤ MAX_STATIC_SUMMANDS) :
    ∃ n d out, solve u (fuel_bound summands sum base) summands summand_count summand_lengths
      longest_summand sum base print just_one = some (.returned n d out) := by
  obtain ⟨o, ho⟩ := solve_terminates u summands summand_count summand_lengths longest_summand
    sum base print just_one hv
  cases o with
  | returned n d out => exact ⟨n, d, out, ho⟩
  | fault =>
    exfalso
    unfold solve at ho
    cases hp : prepare u summands summand_count summand_lengths longest_summand sum base
        print just_one with
    | error e =>
      rw [hp] at ho
      simp only [Option.some.injEq] at ho
      exact prepare_no_fault u print just_one hv hsix (by rw [hp, ho])
    | ok p =>
      rw [hp] at ho
      have P := prepare_ok hv hp
      exact run_no_fault P.ok (by rw [P.sum_eq]; exact hL) _ _ (good_init u) ho

/-! ## The pre-check on the number of letters -/

theorem dedup_length_snoc_new (S : List Char) (ch : Char) (h : ch ∉ S) :
    (S ++ [ch]).dedup.length = S.dedup.length + 1 := by
  rw [← List.card_toFinset, ← List.card_toFinset, List.toFinset_append]
  simp only [List.toFinset_cons, List.toFinset_nil, insert_emptyc_eq]
  rw [Finset.union_comm, ← Finset.insert_eq, Finset.card_insert_of_not_mem (by simpa using h)]

theorem dedup_length_snoc_old (S : List Char) (ch : Char) (h : ch ∈ S) :
    (S ++ [ch]).dedup.length = S.dedup.length := by
  rw [← List.card_toFinset, ← List.card_toFinset, List.toFinset_append]
  simp only [List.toFinset_cons, List.toFinset_nil, insert_emptyc_eq]
  rw [Finset.union_comm, ← Finset.insert_eq, Finset.insert_eq_of_mem (by simpa using h)]

theorem UsedOK.note_one {l : Layout} {S : List Char} (h : UsedOK l S) (ch : Char)
    (hch : ch.toNat < 128) : UsedOK (note_letter l ch) (S ++ [ch]) := by
  have hcode : ∀ x ∈ S ++ [ch], x.toNat < 128 := by
    intro x hx
    rcases List.mem_append.mp hx with hx | hx
    · exact h.code x hx
    · rw [List.mem_singleton.mp hx]; exact hch
  unfold note_letter
  split_ifs with h0
  · have hnot : ch ∉ S := (h.used ch).mp h0
    refine ⟨by simp only [length_tset]; exact h.len, fun x => ?_, ?_, hcode⟩
    · by_cases hx : x = ch
      · subst hx
        rw [tget_tset_same _ _ _ (by rw [h.len]; exact hch)]
        simp
      · rw [tget_tset_ne _ _ _ _ (Ne.symm hx), h.used x]
        simp [hx]
    · show l.total_letters_used + 1 = _
      rw [h.total, dedup_length_snoc_new S ch hnot]
  · have hin : ch ∈ S := by
      by_contra hc
      exact h0 ((h.used ch).mpr hc)
    refine ⟨h.len, fun x => ?_, ?_, hcode⟩
    · rw [h.used x]
      by_cases hx : x = ch
      · subst hx; simp [hin]
      · simp [hx]
    · rw [h.total, dedup_length_snoc_old S ch hin]

theorem UsedOK.note_word {l : Layout} {S : List Char} (h : UsedOK l S) (w : List Char)
    (hw : ∀ ch ∈ w, ch.toNat < 128) : UsedOK (w.foldl note_letter l) (S ++ w) := by
  induction w generalizing l S with
  | nil => simpa using h
  | cons a w ih =>
    simp only [List.foldl_cons]
    have := ih (h.note_one a (hw a (List.mem_cons_self _ _)))
      (fun ch hch => hw ch (List.mem_cons_of_mem _ hch))
    simpa using this

theorem UsedOK.place_letter {summands : List (List Char)} {summand_lengths : List Nat}
    {sum_length : Int} {i j : Nat} {l l' : Layout} {S : List Char} (h : UsedOK l S)
    (hch : ((summands.getD i []).getD j '\x00').toNat < 128)
    (hp : place_char summands summand_lengths sum_length i j l = some l') :
    UsedOK l' (S ++ [(summands.getD i []).getD j '\x00']) := by
  unfold place_char at hp
  simp only at hp
  have h1 : UsedOK { l with
      reform_smnds := l.reform_smnds.set
        (summand_index (iget l.column_lengths
          (sum_length - ((summand_lengths.getD i 0 : Int) - (j : Int))))
          (sum_length - ((summand_lengths.getD i 0 : Int) - (j : Int)))).toNat
        ((summands.getD i []).getD j '\x00'),
      column_lengths := l.column_lengths.set
        (sum_length - ((summand_lengths.getD i 0 : Int) - (j : Int))).toNat
        (iget l.column_lengths (sum_length - ((summand_lengths.getD i 0 : Int) - (j : Int)))
          + 1) } S := ⟨h.len, h.used, h.total, h.code⟩
  have h2 := h1.note_one _ hch
  split_ifs at hp with hidx hj0
  · simp only [Option.some.injEq] at hp
    subst hp
    exact ⟨h2.len, h2.used, h2.total, h2.code⟩
  · simp only [Option.some.injEq] at hp
    subst hp
    exact h2

theorem UsedOK.summand_letters {summands : List (List Char)} {summand_lengths : List Nat}
    {sum_length : Int} {i : Nat} {l l' : Layout} {S w : List Char} (h : UsedOK l S)
    (hw : summands.getD i [] = w) (hlen : summand_lengths.getD i 0 = w.length)
    (hcode : ∀ ch ∈ w, ch.toNat < 128)
    (hp : (List.range (summand_lengths.getD i 0)).foldl
      (fun acc j => acc.bind (place_char summands summand_lengths sum_length i j)) (some l)
        = some l') :
    UsedOK l' (S ++ w) := by
  rw [hlen] at hp
  have := foldl_bind_range (fun j => place_char summands summand_lengths sum_length i j)
    (fun j x => UsedOK x (S ++ w.take j)) w.length l (by simpa using h)
    (fun j x y hj hx hy => by
      have hget : (summands.getD i []).getD j '\x00' = w[j] := by
        rw [hw, List.getD_eq_getElem _ _ hj]
      have hc : ((summands.getD i []).getD j '\x00').toNat < 128 := by
        rw [hget]; exact hcode _ (List.getElem_mem _)
      have := hx.place_letter hc hy
      rw [hget, List.append_assoc] at this
      show UsedOK y (S ++ List.take (j + 1) w)
      rw [List.take_succ, List.getElem?_eq_getElem hj]
      exact this) l' hp
  have this : UsedOK l' (S ++ List.take w.length w) := this
  rwa [List.take_length] at this

theorem UsedOK.reformat_letters {summands : List (List Char)} {summand_count : Nat}
    {summand_lengths : List Nat} {sum_length : Int} {l l' : Layout} {S : List Char}
    (h : UsedOK l S) (hcount : summand_count = summands.length)
    (hlens : summand_lengths = summands.map List.length)
    (hcode : ∀ w ∈ summands, ∀ ch ∈ w, ch.toNat < 128)
    (hr : reformat summands summand_count summand_lengths sum_length l = some l') :
    UsedOK l' (S ++ summands.flatten) := by
  rw [reformat_eq_bind] at hr
  have := foldl_bind_range
    (fun i x => (List.range (summand_lengths.getD i 0)).foldl
      (fun acc j => acc.bind (place_char summands summand_lengths sum_length i j)) (some x))
    (fun i x => UsedOK x (S ++ (summands.take i).flatten)) summand_count l
    (by simpa using h)
    (fun i x y hi hx hy => by
      rw [hcount] at hi
      have e1 : summands.getD i [] = summands[i] := List.getD_eq_getElem _ _ hi
      have e2 : summand_lengths.getD i 0 = (summands[i]).length := by
        rw [hlens, List.getD_eq_getElem _ _ (by simpa using hi)]
        simp
      have e3 : summands.take (i + 1) = summands.take i ++ [summands[i]] := by
        rw [List.take_succ, List.getElem?_eq_getElem hi]
        rfl
      have := hx.summand_letters e1 e2 (hcode _ (List.getElem_mem _)) hy
      show UsedOK y (S ++ (summands.take (i + 1)).flatten)
      rw [e3, List.flatten_append, ← List.append_assoc]
      simpa using this) l' hr
  have this : UsedOK l' (S ++ (summands.take summand_count).flatten) := this
  rwa [hcount, List.take_length] at this

/-- A validated call with at most `MAX_STATIC_SUMMANDS` summands and more
distinct letters than the base returns 0 from the pre-checks, before any slot
transition (whatever `fuel` is). -/
theorem many_letters_returns_zero (u : Uninit) (fuel : Nat) (summands : List (List Char))
    (summand_count : Nat) (summand_lengths : List Nat) (longest_summand : Nat)
    (sum : List Char) (base : Nat) (print just_one : Bool)
    (hv : valid_instance summands summand_count summand_lengths longest_summand sum base
      = true)
    (hsix : summand_count ≤ MAX_STATIC_SUMMANDS)
    (h : base < (puzzle_letters summands sum).length) :
    ∃ out, solve u fuel summands summand_count summand_lengths longest_summand sum base
      print just_one = some (.returned 0 0 out) := by
  have V := valid_instance_facts hv
  obtain ⟨s1, s2, s3⟩ := is_word_spec V.sum_word
  unfold solve prepare
  simp only
  split_ifs with h1 h2
  · exact ⟨_, rfl⟩
  · exact ⟨_, rfl⟩
  · have hlongest : ∀ w ∈ summands, w.length ≤ sum.length := by
      intro w hw
      have := (le_foldl_max (summands.map List.length) 0).2 w.length
        (List.mem_map_of_mem _ hw)
      rw [← V.longest_eq] at this
      omega
    have hL16 : sum.length ≤ 16 := by simpa [MAX_LEN] using s2
    have hwords : ∀ w ∈ summands, w ≠ [] ∧ w.length ≤ sum.length
        ∧ (w.getD 0 '\x00').toNat < 128 := by
      intro w hw
      obtain ⟨w1, _, w3⟩ := is_word_spec (V.words w hw)
      refine ⟨w1, hlongest w hw, ?_⟩
      have : w.getD 0 '\x00' ∈ w := by
        rw [List.getD_eq_getElem _ _ (List.length_pos.mpr w1)]
        exact List.getElem_mem _
      exact (w3 _ this).2
    obtain ⟨l', hl'⟩ := reformat_total V.count_eq V.lengths_eq hwords hL16
      (layout_initial u sum sum.length) hsix
    have h0 : UsedOK
        { letter_used := List.replicate 128 0
          total_letters_used := 0
          column_lengths := List.replicate (MAX_LEN + 1) 0
          reform_smnds := (List.range (MAX_LEN * MAX_STATIC_SUMMANDS)).map u.static_summands
          zero_or_one_start := List.replicate 128 0 } [] :=
      ⟨by simp, fun ch => by
        have := @tget_replicate Int _ 128 ch
        simpa using this, rfl, fun ch hch => by simp at hch⟩
    have h1 := h0.note_word sum (fun ch hch => (s3 ch hch).2)
    rw [List.nil_append] at h1
    have h2 := h1.reformat_letters V.count_eq V.lengths_eq
      (fun w hw ch hch => ((is_word_spec (V.words w hw)).2.2 ch hch).2) hl'
    have htot : l'.total_letters_used > base := by
      rw [h2.total]
      exact h
    rw [hl']
    dsimp only
    rw [if_pos htot]
    exact ⟨_, rfl⟩

/-! ## Concrete instances -/

/-- C4: on SEND + MORE = MONEY in base 10, whatever the uninitialised storage
holds, `solve` run to exhaustion (265 slot transitions, and any larger
budget) returns 1, with or without printing, and the one solution it accepts
and prints is D=7, E=5, M=1, N=6, O=0, R=8, S=9, Y=2. -/
theorem send_more_money (u : Uninit) (k : Nat) :
    solve u (265 + k) ["SEND".toList, "MORE".toList] 2 [4, 4] 4 "MONEY".toList 10 true false
      = some (.returned 1 1
          [.solution [('D', 7), ('E', 5), ('M', 1), ('N', 6), ('O', 0), ('R', 8), ('S', 9),
            ('Y', 2)]])
    ∧ solve u (265 + k) ["SEND".toList, "MORE".toList] 2 [4, 4] 4 "MONEY".toList 10 false false
      = some (.returned 1 1 []) := by
  constructor
  · rw [solve_uninit u Uninit.zero _ _ _ _ _ _ _ _ _ (by decide!)]
    exact solve_mono _ _ _ _ _ _ _ _ _ _ _ _ (by decide!)
  · rw [solve_uninit u Uninit.zero _ _ _ _ _ _ _ _ _ (by decide!)]
    exact solve_mono _ _ _ _ _ _ _ _ _ _ _ _ (by decide!)

/-- C5: on I + BB = ILL in base 10, whatever the uninitialised storage holds,
`solve` run to exhaustion (13 slot transitions, and any larger budget)
returns 1 with difficulty 1, with or without printing, and the one solution
it accepts and prints is B=9, I=1, L=0. -/
theorem i_bb_ill (u : Uninit) (k : Nat) :
    solve u (13 + k) ["I".toList, "BB".toList] 2 [1, 2] 2 "ILL".toList 10 true false
      = some (.returned 1 1 [.solution [('B', 9), ('I', 1), ('L', 0)]])
    ∧ solve u (13 + k) ["I".toList, "BB".toList] 2 [1, 2] 2 "ILL".toList 10 false false
      = some (.returned 1 1 []) := by
  constructor
  · rw [solve_uninit u Uninit.zero _ _ _ _ _ _ _ _ _ (by decide!)]
    exact solve_mono _ _ _ _ _ _ _ _ _ _ _ _ (by decide!)
  · rw [solve_uninit u Uninit.zero _ _ _ _ _ _ _ _ _ (by decide!)]
    exact solve_mono _ _ _ _ _ _ _ _ _ _ _ _ (by decide!)

/-- C1 (failing input): on the validated instance
AAAAAAAAAAAAAAAA + AAAAAAAAAAAAAAAA = BBBBBBBBBBBBBBBB in base 10, which has
the four solutions A=1..4, B=2A, `solve` does not return a count: after 50 slot
transitions it writes `needed_carry[16]`, outside the 16 cells of the
array. -/
theorem long_sum_faults (u : Uninit) (k : Nat) :
    solve u (50 + k) ["AAAAAAAAAAAAAAAA".toList, "AAAAAAAAAAAAAAAA".toList] 2 [16, 16] 16
      "BBBBBBBBBBBBBBBB".toList 10 false false = some .fault := by
  rw [solve_uninit u Uninit.zero _ _ _ _ _ _ _ _ _ (by decide!)]
  exact solve_mono _ _ _ _ _ _ _ _ _ _ _ _ (by decide!)

/-- A call whose longest summand is longer than the sum returns 0 from the
pre-checks, before any slot transition (whatever `fuel` is). -/
theorem short_sum_returns_zero (u : Uninit) (fuel : Nat) (summands : List (List Char))
    (summand_count : Nat) (summand_lengths : List Nat) (longest_summand : Nat)
    (sum : List Char) (base : Nat) (print just_one : Bool)
    (h : sum.length < longest_summand) :
    ∃ out, solve u fuel summands summand_count summand_lengths longest_summand sum base
      print just_one = some (.returned 0 0 out) := by
  unfold solve prepare
  dsimp only
  split_ifs
  · exact ⟨_, rfl⟩
  · exact ⟨_, rfl⟩

/-- C7 (failing input): on the validated instance A + B + C + D + E + F + G =
HIJK in base 10, with 11 distinct letters, `solve` does not return 0: placing
the seventh summand writes cell 99 of the grid, outside the 96 cells of
`static_summands`, before the letters are compared with the base. -/
theorem seven_summands_fault (u : Uninit) (fuel : Nat) :
    solve u fuel ["A".toList, "B".toList, "C".toList, "D".toList, "E".toList, "F".toList,
        "G".toList] 7 [1, 1, 1, 1, 1, 1, 1] 1 "HIJK".toList 10 false false = some .fault := by
  rw [solve_uninit u Uninit.zero _ _ _ _ _ _ _ _ _ (by decide!)]
  have h : solve Uninit.zero 0 ["A".toList, "B".toList, "C".toList, "D".toList, "E".toList,
      "F".toList, "G".toList] 7 [1, 1, 1, 1, 1, 1, 1] 1 "HIJK".toList 10 false false
      = some .fault := by decide!
  have := solve_mono _ 0 fuel _ _ _ _ _ _ _ _ _ h
  rwa [Nat.zero_add] at this

/-! ## How the search loop ends -/

theorem enter_summands_halt (s : State) (o : Outcome) (h : enter_summands s = .halted o) :
    s.curr_column = -1
      ∧ o = .returned s.solutions_found (difficulty_conv s.backtrack_count) s.output := by
  unfold enter_summands at h
  split_ifs at h with h1
  simp only [Config.halted.injEq] at h
  exact ⟨h1, h.symm⟩

theorem after_sum_char_halt {p : Puzzle} {s : State} {o : Outcome}
    (h : after_sum_char p s = .halted o) (c : Nat) (hcol : s.curr_column = c)
    (hc : c + 1 < MAX_LEN) :
    s.curr_column = 0
      ∧ o = .returned s.solutions_found (difficulty_conv s.backtrack_count) s.output := by
  unfold after_sum_char at h
  have h1 : (0 : Int) ≤ s.curr_column + 1 := by omega
  have h2 : s.curr_column + 1 < MAX_LEN := by omega
  dsimp only at h
  split_ifs at h
  · obtain ⟨a, b⟩ := enter_summands_halt _ o h
    exact ⟨by dsimp only at a; omega, b⟩
  · obtain ⟨a, b⟩ := enter_summands_halt _ o h
    exact ⟨by dsimp only at a; omega, b⟩
  · rw [set_carry_some _ _ _ h1 h2] at h
    simp at h
  · obtain ⟨a, b⟩ := enter_summands_halt _ o h
    dsimp only at a
    omega

theorem after_summand_running {p : Puzzle} {s : State} {o : Outcome}
    (h : after_summand p s = .halted o) (c : Nat) (hcol : s.curr_column = c)
    (hc : c + 1 < MAX_LEN) : False := by
  revert h
  unfold after_summand summand_loop_test
  have h1 : (0 : Int) ≤ s.curr_column + 1 := by omega
  have h2 : s.curr_column + 1 < MAX_LEN := by omega
  dsimp only
  split_ifs <;>
    first
    | (rw [set_carry_some _ _ _ h1 h2]; simp)
    | simp

/-- The two ways the search loop ends when no write leaves the arrays: at the
first accepted solution under `just_one`, or from the sum slot of column 0,
when `curr_column` is decremented to -1. -/
theorem step_halt_kinds {p : Puzzle} {cols : List (List Char)} (ok : PuzzleOK p cols)
    (s : State) (G : Good p cols s) (hL : p.sum.length < MAX_LEN) (o : Outcome)
    (h : step p s = .halted o) :
    (accepting p s = true ∧ p.just_one = true ∧ ∃ out, o = .returned 1 0 out)
    ∨ (s.in_summands = false ∧ s.curr_column = 0
        ∧ ∃ b, o = .returned s.solutions_found (difficulty_conv b) s.output) := by
  obtain ⟨c, r, G⟩ := G
  have hcol := G.col_eq
  unfold step at h
  split_ifs at h with hin
  · have hc : c < p.sum.length := G.col_lt (Or.inl hin)
    unfold step_summand at h
    dsimp only at h
    split_ifs at h <;> exact (after_summand_running h c hcol (by omega)).elim
  · have hin' : s.in_summands = false := by simpa using hin
    unfold step_sum at h
    by_cases hc0 : s.curr_column = p.sum_length
    · simp only [hc0, if_true] at h
      have hne : ¬ (p.sum_length - 1 = -1) := by
        rw [ok.sum_length]; have := ok.sum_pos; omega
      split_ifs at h with h1 h2 <;>
        first
        | exact absurd (enter_summands_halt _ o h).1 hne
        | (left
           simp only [Config.halted.injEq] at h
           refine ⟨?_, h2, _, h.symm⟩
           simp [accepting, hin', hc0, h1])
    · have hc : c < p.sum.length := by
        have := G.col_le
        rw [hcol, ok.sum_length] at hc0
        omega
      simp only [hc0, if_false] at h
      right
      split_ifs at h <;>
        (obtain ⟨a, b⟩ := after_sum_char_halt h c hcol (by omega)
         exact ⟨hin', a, _, b⟩)

/-- On a validated instance inside the array bounds the search loop ends
within `fuel_bound` slot transitions, and it ends in one of two ways: at the
first accepted solution under `just_one`, or from the sum slot of column 0
when `curr_column` becomes -1.  (A call that fails a pre-check never enters
the loop.) -/
theorem search_ends (u : Uninit) (summands : List (List Char)) (summand_count : Nat)
    (summand_lengths : List Nat) (longest_summand : Nat) (sum : List Char) (base : Nat)
    (print just_one : Bool) (p : Puzzle)
    (hv : valid_instance summands summand_count summand_lengths longest_summand sum base
      = true)
    (hL : sum.length < MAX_LEN)
    (hp : prepare u summands summand_count summand_lengths longest_summand sum base print
      just_one = .ok p) :
    ∃ k s o, k < fuel_bound summands sum base
      ∧ iterate p k (initial_state u) = .running s ∧ step p s = .halted o
      ∧ ((accepting p s = true ∧ just_one = true ∧ ∃ out, o = .returned 1 0 out)
        ∨ (s.in_summands = false ∧ s.curr_column = 0
          ∧ ∃ b, o = .returned s.solutions_found (difficulty_conv b) s.output)) := by
  have P := prepare_ok hv hp
  have hLp : p.sum.length < MAX_LEN := by rw [P.sum_eq]; exact hL
  have key : ∀ fuel (s : State), Good p (columns summands sum.length) s →
      (∃ o, run p fuel s = some o) →
      ∃ k s' o, k < fuel ∧ iterate p k s = .running s' ∧ step p s' = .halted o
        ∧ ((accepting p s' = true ∧ p.just_one = true ∧ ∃ out, o = .returned 1 0 out)
          ∨ (s'.in_summands = false ∧ s'.curr_column = 0
            ∧ ∃ b, o = .returned s'.solutions_found (difficulty_conv b) s'.output)) := by
    intro fuel
    induction fuel with
    | zero => intro s _ ⟨o, ho⟩; simp [run] at ho
    | succ n ih =>
      intro s G ⟨o, ho⟩
      simp only [run] at ho
      cases hs : step p s with
      | halted o' =>
        exact ⟨0, s, o', Nat.succ_pos _, rfl, hs, step_halt_kinds P.ok s G hLp o' hs⟩
      | running t =>
        rw [hs] at ho
        have G' : Good p (columns summands sum.length) t := by
          have := good_step P.ok s G
          rwa [hs] at this
        obtain ⟨k, s', o', hk, hit, hst, hkind⟩ := ih t G' ⟨o, ho⟩
        refine ⟨k + 1, s', o', by omega, ?_, hst, hkind⟩
        simp only [iterate, hs]
        exact hit
  have hterm : ∃ o, run p (fuel_bound summands sum base) (initial_state u) = some o := by
    obtain ⟨o, ho⟩ := solve_terminates u summands summand_count summand_lengths
      longest_summand sum base print just_one hv
    unfold solve at ho
    rw [hp] at ho
    exact ⟨o, ho⟩
  have := key _ _ (good_init u) hterm
  rw [P.just_one_eq] at this
  exact this

/-- C11 (failing input): on the validated instance
AAAAAAAAAAAAAAAA + AAAAAAAAAAAAAAAA = BBBBBBBBBBBBBBBB in base 10 with
`just_one` set, the search loop ends neither at column -1 nor at an accepted
solution: its 50th slot transition writes `needed_carry[16]`, outside the 16
cells of the array. -/
theorem long_sum_search_faults (u : Uninit) (k : Nat) :
    solve u (50 + k) ["AAAAAAAAAAAAAAAA".toList, "AAAAAAAAAAAAAAAA".toList] 2 [16, 16] 16
      "BBBBBBBBBBBBBBBB".toList 10 false true = some .fault := by
  rw [solve_uninit u Uninit.zero _ _ _ _ _ _ _ _ _ (by decide!)]
  exact solve_mono _ _ _ _ _ _ _ _ _ _ _ _ (by decide!)

/-! ## Printed solutions -/

theorem enter_summands_keeps (s : State) (k : Nat) (out : List Line)
    (h : s.solutions_found = k ∧ s.output = out) : Keeps k out (enter_summands s) := by
  unfold enter_summands
  split_ifs
  · exact Or.inr ⟨_, by rw [h.1, h.2]⟩
  · exact h
  · exact h

theorem set_carry_keeps (k : Nat) (out : List Line) (nc : List Int) (i v : Int)
    (f : List Int → State) (hf : ∀ x, (f x).solutions_found = k ∧ (f x).output = out) :
    Keeps k out (match set_carry nc i v with
      | none => Config.halted Outcome.fault
      | some x => Config.running (f x)) := by
  cases set_carry nc i v with
  | none => exact Or.inl rfl
  | some x => exact hf x

theorem after_sum_char_keeps (p : Puzzle) (s : State) (k : Nat) (out : List Line)
    (h : s.solutions_found = k ∧ s.output = out) : Keeps k out (after_sum_char p s) := by
  unfold after_sum_char
  dsimp only
  split_ifs <;>
    first
    | exact enter_summands_keeps _ _ _ h
    | exact set_carry_keeps _ _ _ _ _ _ (fun _ => h)

theorem after_summand_keeps (p : Puzzle) (s : State) (k : Nat) (out : List Line)
    (h : s.solutions_found = k ∧ s.output = out) : Keeps k out (after_summand p s) := by
  unfold after_summand summand_loop_test
  dsimp only
  split_ifs <;>
    first
    | exact h
    | exact set_carry_keeps _ _ _ _ _ _ (fun _ => h)

/-- A slot transition away from the acceptance point leaves the count and the
output as they are. -/
theorem step_keeps (p : Puzzle) (s : State) (h : accepting p s = false) :
    Keeps s.solutions_found s.output (step p s) := by
  unfold step
  cases hin : s.in_summands with
  | true =>
    simp only [if_true]
    unfold step_summand
    dsimp only
    split_ifs <;> exact after_summand_keeps p _ _ _ ⟨rfl, rfl⟩
  | false =>
    simp only [Bool.false_eq_true, if_false]
    have h' : ¬ (s.curr_column = p.sum_length ∧ iget s.needed_carry s.curr_column = 0) := by
      intro hh
      have h2 := hh.2
      simp [accepting, hin, hh.1] at h
      rw [hh.1] at h2
      exact h h2
    unfold step_sum
    dsimp only
    by_cases h1 : s.curr_column = p.sum_length
    · have h2 : ¬ iget s.needed_carry s.curr_column = 0 := fun h2 => h' ⟨h1, h2⟩
      rw [if_pos h1, if_neg h2]
      exact enter_summands_keeps _ _ _ ⟨rfl, rfl⟩
    · rw [if_neg h1]
      split_ifs <;> exact after_sum_char_keeps p _ _ _ ⟨rfl, rfl⟩

/-- The slot transition at the acceptance point counts the solution and, when
printing, adds its line. -/
theorem step_accept_keeps (p : Puzzle) (hj : p.just_one = false) (s : State)
    (h : accepting p s = true) :
    Keeps (s.solutions_found + 1)
      (if p.print then s.output ++ [print_solution s.number_map s.map_count] else s.output)
      (step p s) := by
  simp only [accepting, Bool.and_eq_true, Bool.not_eq_true', decide_eq_true_eq] at h
  obtain ⟨⟨hin, h1⟩, h2⟩ := h
  unfold step
  simp only [hin, Bool.false_eq_true, if_false]
  unfold step_sum
  dsimp only
  rw [if_pos h1, if_pos h2]
  simp only [hj, Bool.false_eq_true, if_false]
  split_ifs <;> exact enter_summands_keeps _ _ _ ⟨rfl, rfl⟩

/-- The output of a full enumeration: the count grows by the number of lines
added, and every line added is the line of a state at the acceptance point. -/
theorem run_lines (p : Puzzle) (hj : p.just_one = false) (hpr : p.print = true)
    (fuel : Nat) (s : State) (n d : Nat) (out : List Line)
    (h : run p fuel s = some (.returned n d out)) :
    ∃ ext, out = s.output ++ ext ∧ n = s.solutions_found + ext.length
      ∧ ∀ line ∈ ext, ∃ k sk, iterate p k s = .running sk ∧ accepting p sk = true
          ∧ line = print_solution sk.number_map sk.map_count := by
  induction fuel generalizing s with
  | zero => simp [run] at h
  | succ m ih =>
    simp only [run] at h
    cases hacc : accepting p s with
    | false =>
      have hk := step_keeps p s hacc
      cases hs : step p s with
      | halted o =>
        rw [hs] at h hk
        simp only [Option.some.injEq] at h
        subst h
        rcases hk with hk | ⟨d', hk⟩
        · cases hk
        · simp only [Outcome.returned.injEq] at hk
          exact ⟨[], by simp [hk.2.2], by simp [hk.1], by simp⟩
      | running t =>
        rw [hs] at h hk
        obtain ⟨ext, e1, e2, e3⟩ := ih t h
        refine ⟨ext, by rw [e1, hk.2], by rw [e2, hk.1], fun line hl => ?_⟩
        obtain ⟨k, sk, a1, a2, a3⟩ := e3 line hl
        exact ⟨k + 1, sk, by simp only [iterate, hs]; exact a1, a2, a3⟩
    | true =>
      have hk := step_accept_keeps p hj s hacc
      rw [hpr] at hk
      simp only [if_true] at hk
      cases hs : step p s with
      | halted o =>
        rw [hs] at h hk
        simp only [Option.some.injEq] at h
        subst h
        rcases hk with hk | ⟨d', hk⟩
        · cases hk
        · simp only [Outcome.returned.injEq] at hk
          refine ⟨[print_solution s.number_map s.map_count], by simp [hk.2.2],
            by simp [hk.1], fun line hl => ?_⟩
          rw [List.mem_singleton] at hl
          exact ⟨0, s, rfl, hacc, hl⟩
      | running t =>
        rw [hs] at h hk
        obtain ⟨ext, e1, e2, e3⟩ := ih t h
        refine ⟨print_solution s.number_map s.map_count :: ext, ?_, ?_, fun line hl => ?_⟩
        · rw [e1, hk.2]; simp
        · rw [e2, hk.1]; simp; omega
        · rcases List.mem_cons.mp hl with hl | hl
          · exact ⟨0, s, rfl, hacc, hl⟩
          · obtain ⟨k, sk, a1, a2, a3⟩ := e3 line hl
            exact ⟨k + 1, sk, by simp only [iterate, hs]; exact a1, a2, a3⟩

theorem ofNat_toNat_small : ∀ i, i < 128 → (Char.ofNat i).toNat = i := by
  decide

theorem skip_blanks_eq (s : List Char) : skip_blanks s = s.dropWhile is_blank := by
  induction s with
  | nil => rfl
  | cons c cs ih =>
    unfold skip_blanks
    by_cases h : is_blank c = true
    · rw [if_pos h, List.dropWhile_cons_of_pos h, ih]
    · rw [if_neg h, List.dropWhile_cons_of_neg h]

theorem copy_word_eq (s : List Char) (hs : '\x00' ∉ s) (result : Nat) (new_str : List Char)
    (notices : List Notice) :
    (copy_word result new_str notices s).1
        = (if (s.takeWhile fun c => !is_blank c).all isalpha = true then result else 0)
    ∧ (copy_word result new_str notices s).2.1
        = new_str ++ (s.takeWhile fun c => !is_blank c).map toupper
    ∧ (copy_word result new_str notices s).2.2.2 = s.dropWhile fun c => !is_blank c := by
  induction s generalizing result new_str notices with
  | nil => simp [copy_word]
  | cons c cs ih =>
    have hc : c ≠ '\x00' := fun h => hs (h ▸ List.mem_cons_self _ _)
    have hcs : '\x00' ∉ cs := fun h => hs (List.mem_cons_of_mem _ h)
    unfold copy_word
    by_cases hb : is_blank c = true
    · have hb2 : ¬ (c ≠ '\x00' ∧ c ≠ ' ' ∧ c ≠ '\t') := by
        simp only [is_blank, Bool.or_eq_true, beq_iff_eq] at hb
        tauto
      rw [if_neg hb2]
      simp [hb]
    · have hb2 : c ≠ '\x00' ∧ c ≠ ' ' ∧ c ≠ '\t' := by
        simp only [is_blank, Bool.or_eq_true, beq_iff_eq, not_or] at hb
        exact ⟨hc, hb.1, hb.2⟩
      rw [if_pos hb2]
      have hb3 : (!is_blank c) = true := by simpa using hb
      have ht : (c :: cs).takeWhile (fun c => !is_blank c)
          = c :: cs.takeWhile (fun c => !is_blank c) := by
        simp [List.takeWhile_cons, hb3]
      have hd : (c :: cs).dropWhile (fun c => !is_blank c)
          = cs.dropWhile (fun c => !is_blank c) := by
        simp [List.dropWhile_cons, hb3]
      rw [ht, hd]
      by_cases h1 : result ≠ 0 ∧ ¬ isalpha c = true
      · simp only [if_pos h1]
        obtain ⟨e1, e2, e3⟩ := ih hcs 0 (new_str ++ [toupper c]) (notices ++ [.not_letters])
        refine ⟨?_, ?_, e3⟩
        · rw [e1]; simp [h1.2]
        · rw [e2]; simp
      · simp only [if_neg h1]
        obtain ⟨e1, e2, e3⟩ := ih hcs result (new_str ++ [toupper c]) notices
        refine ⟨?_, ?_, e3⟩
        · rw [e1]
          by_cases hr : result = 0
          · simp [hr]
          · have : isalpha c = true := by
              by_contra hh
              exact h1 ⟨hr, hh⟩
            simp [this]
        · rw [e2]; simp

theorem isalpha_not_blank (c : Char) (h : isalpha c = true) : is_blank c = false := by
  cases hb : is_blank c with
  | false => rfl
  | true =>
    simp only [is_blank, Bool.or_eq_true, beq_iff_eq] at hb
    rcases hb with rfl | rfl <;> simp [isalpha] at h

theorem word_run_split (a w b : List Char) (ha : ∀ c ∈ a, is_blank c = true)
    (hw : ∀ c ∈ w, isalpha c = true) (hb : ∀ c ∈ b, is_blank c = true) :
    word_run (a ++ w ++ b) = w
    ∧ ∀ c ∈ ((a ++ w ++ b).dropWhile is_blank).dropWhile (fun c => !is_blank c),
        is_blank c = true := by
  unfold word_run
  have hw2 : ∀ c ∈ w, (!is_blank c) = true := fun c hc => by
    rw [isalpha_not_blank c (hw c hc)]; rfl
  have h1 : (a ++ w ++ b).dropWhile is_blank = (w ++ b).dropWhile is_blank := by
    rw [List.append_assoc]
    clear hw hb hw2
    induction a with
    | nil => rfl
    | cons x xs ih =>
      rw [List.cons_append, List.dropWhile_cons_of_pos (ha x (List.mem_cons_self _ _))]
      exact ih fun c hc => ha c (List.mem_cons_of_mem _ hc)
  rw [h1]
  cases w with
  | nil =>
    have h2 : ([] ++ b).dropWhile is_blank = [] := by
      rw [List.nil_append, List.dropWhile_eq_nil_iff]
      exact hb
    rw [h2]
    exact ⟨by simp, by simp⟩
  | cons x xs =>
    have hx : is_blank x = false := isalpha_not_blank x (hw x (List.mem_cons_self _ _))
    have h2 : (x :: xs ++ b).dropWhile is_blank = x :: xs ++ b := by
      rw [List.cons_append, List.dropWhile_cons_of_neg (by simp [hx])]
    rw [h2]
    have h3 : ∀ (l : List Char), (∀ c ∈ l, (!is_blank c) = true) →
        (l ++ b).takeWhile (fun c => !is_blank c) = l
        ∧ ∀ c ∈ (l ++ b).dropWhile (fun c => !is_blank c), is_blank c = true := by
      intro l hl
      induction l with
      | nil =>
        cases b with
        | nil => exact ⟨rfl, by simp⟩
        | cons y ys =>
          have hy := hb y (List.mem_cons_self _ _)
          refine ⟨by simp [List.takeWhile_cons, hy], ?_⟩
          intro c hc
          have : (([] : List Char) ++ y :: ys).dropWhile (fun c => !is_blank c) = y :: ys := by
            simp [List.dropWhile_cons, hy]
          rw [this] at hc
          exact hb c hc
      | cons z zs ih =>
        have hz := hl z (List.mem_cons_self _ _)
        obtain ⟨i1, i2⟩ := ih fun c hc => hl c (List.mem_cons_of_mem _ hc)
        constructor
        · rw [List.cons_append]
          simp only [List.takeWhile_cons, hz, if_true]
          rw [i1]
        · intro c hc
          rw [List.cons_append] at hc
          simp only [List.dropWhile_cons, hz, if_true] at hc
          exact i2 c hc
    exact h3 (x :: xs) hw2

/-- The characters `toupper` gives for letters are upper-case letters. -/
theorem toupper_upper (c : Char) (h : isalpha c = true) :
    'A' ≤ toupper c ∧ toupper c ≤ 'Z' := by
  unfold toupper
  by_cases hl : 'a' ≤ c ∧ c ≤ 'z'
  · rw [if_pos hl]
    have h1 : ('a' : Char).toNat ≤ c.toNat := hl.1
    have h2 : c.toNat ≤ ('z' : Char).toNat := hl.2
    have e1 : ('a' : Char).toNat = 97 := rfl
    have e2 : ('z' : Char).toNat = 122 := rfl
    have e := ofNat_toNat_small (c.toNat - 32) (by omega)
    constructor
    · show ('A' : Char).toNat ≤ (Char.ofNat (c.toNat - 32)).toNat
      have e3 : ('A' : Char).toNat = 65 := rfl
      omega
    · show (Char.ofNat (c.toNat - 32)).toNat ≤ ('Z' : Char).toNat
      have e3 : ('Z' : Char).toNat = 90 := rfl
      omega
  · rw [if_neg hl]
    simp only [isalpha, Bool.or_eq_true, Bool.and_eq_true, decide_eq_true_eq] at h
    rcases h with h | h
    · exact h
    · exact absurd h hl

/-- C20 (amended): `upcase_and_check_legality` returns 1 exactly when the
string is blanks (spaces or tabs), then a run of at most `MAX_LEN` letters,
then blanks up to its end; in every case the string written back is the
upper-cased first run of non-blank characters, letters or not, `*string_length`
is the length of that run, and when 1 is returned that run is the run of
letters, turned into upper-case letters. -/
theorem upcase_and_check_legality_spec (s : List Char) (hs : '\x00' ∉ s) :
    ((upcase_and_check_legality s).result = 1 ↔
      ∃ a w b, s = a ++ w ++ b ∧ (∀ c ∈ a, c = ' ' ∨ c = '\t')
        ∧ (∀ c ∈ w, isalpha c = true) ∧ w.length ≤ MAX_LEN
        ∧ (∀ c ∈ b, c = ' ' ∨ c = '\t'))
    ∧ ((upcase_and_check_legality s).result = 1 ∨ (upcase_and_check_legality s).result = 0)
    ∧ (upcase_and_check_legality s).string = (word_run s).map toupper
    ∧ (upcase_and_check_legality s).string_length = (word_run s).length
    ∧ (∀ a w b, s = a ++ w ++ b → (∀ c ∈ a, c = ' ' ∨ c = '\t')
        → (∀ c ∈ w, isalpha c = true) → (∀ c ∈ b, c = ' ' ∨ c = '\t')
        → word_run s = w
          ∧ ∀ c ∈ (upcase_and_check_legality s).string, 'A' ≤ c ∧ c ≤ 'Z') := by
  have hbl : ∀ l : List Char, (∀ c ∈ l, c = ' ' ∨ c = '\t') ↔ ∀ c ∈ l, is_blank c = true := by
    intro l
    simp only [is_blank, Bool.or_eq_true, beq_iff_eq]
  have hsd : '\x00' ∉ s.dropWhile is_blank := fun h =>
    hs ((List.dropWhile_suffix is_blank).subset h)
  obtain ⟨e1, e2, e3⟩ := copy_word_eq (s.dropWhile is_blank) hsd 1 [] []
  have hstr : (upcase_and_check_legality s).string = (word_run s).map toupper := by
    unfold upcase_and_check_legality word_run
    simp only [skip_blanks_eq]
    rw [e2]; rfl
  have hlen : (upcase_and_check_legality s).string_length = (word_run s).length := by
    unfold upcase_and_check_legality word_run
    simp only [skip_blanks_eq]
    rw [e2]; simp
  have hres : (upcase_and_check_legality s).result
      = if (word_run s).all isalpha = true
          ∧ ((s.dropWhile is_blank).dropWhile fun c => !is_blank c).dropWhile is_blank = []
          ∧ (word_run s).length ≤ MAX_LEN then 1 else 0 := by
    unfold upcase_and_check_legality word_run
    simp only [skip_blanks_eq]
    rw [e1, e2, e3]
    simp only [List.nil_append, List.length_map]
    by_cases ha : (List.takeWhile (fun c => !is_blank c) (List.dropWhile is_blank s)).all isalpha
        = true
    · simp only [ha, if_true, true_and]
      by_cases hr : List.dropWhile is_blank (List.dropWhile (fun c => !is_blank c)
          (List.dropWhile is_blank s)) = []
      · simp only [hr, List.headD_nil, ne_eq, not_true_eq_false, and_false, decide_False,
          Bool.false_eq_true, if_false, true_and, gt_iff_lt, decide_eq_true_eq]
        split_ifs <;> first | rfl | omega
      · have hh : (List.dropWhile is_blank (List.dropWhile (fun c => !is_blank c)
            (List.dropWhile is_blank s))).headD '\x00' ≠ '\x00' := by
          intro h0
          cases hl : List.dropWhile is_blank (List.dropWhile (fun c => !is_blank c)
            (List.dropWhile is_blank s)) with
          | nil => exact hr hl
          | cons y ys =>
            rw [hl] at h0
            have hy : y = '\x00' := h0
            have : y ∈ s := by
              have m1 : y ∈ List.dropWhile is_blank (List.dropWhile (fun c => !is_blank c)
                (List.dropWhile is_blank s)) := by rw [hl]; exact List.mem_cons_self _ _
              exact (List.dropWhile_suffix is_blank).subset
                ((List.dropWhile_suffix _).subset ((List.dropWhile_suffix is_blank).subset m1))
            exact hs (hy ▸ this)
        have hh2 : decide (1 ≠ 0 ∧ (List.dropWhile is_blank (List.dropWhile
            (fun c => !is_blank c) (List.dropWhile is_blank s))).headD '\x00' ≠ '\x00')
            = true := decide_eq_true ⟨by decide, hh⟩
        rw [hh2]
        simp only [if_true, hr, false_and, if_false]
        split_ifs <;> rfl
    · simp [ha]
  have hbin : (upcase_and_check_legality s).result = 1
      ∨ (upcase_and_check_legality s).result = 0 := by
    rw [hres]; split_ifs <;> simp
  have hsplit : ∀ a w b, s = a ++ w ++ b → (∀ c ∈ a, c = ' ' ∨ c = '\t')
        → (∀ c ∈ w, isalpha c = true) → (∀ c ∈ b, c = ' ' ∨ c = '\t')
        → word_run s = w
          ∧ ∀ c ∈ ((s.dropWhile is_blank).dropWhile fun c => !is_blank c), is_blank c = true := by
    intro a w b hs ha hw hb
    rw [hs]
    exact word_run_split a w b ((hbl a).1 ha) hw ((hbl b).1 hb)
  refine ⟨?_, hbin, hstr, hlen, ?_⟩
  · rw [hres]
    constructor
    · intro h
      split_ifs at h with hc
      · obtain ⟨h1, h2, h3⟩ := hc
        refine ⟨s.takeWhile is_blank, word_run s,
          (s.dropWhile is_blank).dropWhile (fun c => !is_blank c), ?_, ?_, ?_, h3, ?_⟩
        · unfold word_run
          rw [List.append_assoc, List.takeWhile_append_dropWhile,
            List.takeWhile_append_dropWhile]
        · rw [hbl]
          intro c hc
          exact List.mem_takeWhile_imp hc
        · intro c hc
          exact List.all_eq_true.1 h1 c hc
        · rw [hbl]
          exact List.dropWhile_eq_nil_iff.1 h2
    · rintro ⟨a, w, b, hs, ha, hw, hl, hb⟩
      obtain ⟨k1, k2⟩ := hsplit a w b hs ha hw hb
      rw [if_pos]
      refine ⟨?_, ?_, ?_⟩
      · rw [k1]; exact List.all_eq_true.2 hw
      · exact List.dropWhile_eq_nil_iff.2 k2
      · rw [k1]; exact hl
  · intro a w b hs ha hw hb
    obtain ⟨k1, _⟩ := hsplit a w b hs ha hw hb
    refine ⟨k1, ?_⟩
    rw [hstr, k1]
    intro c hc
    obtain ⟨x, hx, rfl⟩ := List.mem_map.1 hc
    exact toupper_upper x (hw x hx)

/-- Witness for `upcase_and_check_legality_spec`: the string " send". -/
theorem upcase_and_check_legality_spec_witness :
    '\x00' ∉ " send".toList
    ∧ (upcase_and_check_legality " send".toList).result = 1
    ∧ (upcase_and_check_legality " send".toList).string = "SEND".toList
    ∧ (upcase_and_check_legality " send".toList).string_length = 4 := by
  have h := upcase_and_check_legality_spec " send".toList (by decide)
  refine ⟨by decide, ?_, ?_, ?_⟩
  · exact h.1.2 ⟨[' '], "send".toList, [], rfl, by decide, by decide, by decide, by decide⟩
  · rw [h.2.2.1]; decide
  · rw [h.2.2.2.1]; decide

/-! ## The search for puzzles -/

theorem acceptance_eq (exactly_one : Bool) (n : Nat) :
    decide (n = 1 ∨ (n > 0 ∧ exactly_one = false)) = acceptance exactly_one n := by
  cases exactly_one
  · simp only [acceptance, Bool.false_eq_true, if_false, and_true]
    exact decide_eq_decide.2 (by omega)
  · simp only [acceptance, if_true]
    exact decide_eq_decide.2 (by simp)

/-- The cases of one transition of the search for puzzles. -/
theorem find_step_elim {u : Nat → Uninit} {fuel : Nat} {f : Finder} {filters : Bool}
    {s : FindState} {motive : Option FindConfig → Prop}
    (next_sum : s.smnd_index < 0 →
      motive (some (enter_sum f { s with sum_index := s.sum_index + 1 })))
    (no_summands : s.smnd_index = f.summand_count → f.summand_count = 0 →
      motive (some (.halted .fault)))
    (pending : s.smnd_index = f.summand_count → f.summand_count ≠ 0 →
      solve (u s.calls.length) fuel s.smnd_word_ptrs f.summand_count s.smnd_word_lengths
        (s.longest_smnd.getD (s.smnd_index - 1).toNat 0) (f.words.getD s.sum_index [])
        f.base false false = none → motive none)
    (engine_fault : s.smnd_index = f.summand_count → f.summand_count ≠ 0 →
      solve (u s.calls.length) fuel s.smnd_word_ptrs f.summand_count s.smnd_word_lengths
        (s.longest_smnd.getD (s.smnd_index - 1).toNat 0) (f.words.getD s.sum_index [])
        f.base false false = some .fault → motive (some (.halted .fault)))
    (solved : ∀ n d pr, s.smnd_index = f.summand_count → f.summand_count ≠ 0 →
      solve (u s.calls.length) fuel s.smnd_word_ptrs f.summand_count s.smnd_word_lengths
        (s.longest_smnd.getD (s.smnd_index - 1).toNat 0) (f.words.getD s.sum_index [])
        f.base false false = some (.returned n d pr) →
      motive (some (.running (after_solve f s n d pr))))
    (back : 0 ≤ s.smnd_index → s.smnd_index ≠ f.summand_count →
      index_limit f s ≤ found_index f filters s → motive (some (.running s.retreat)))
    (forward : 0 ≤ s.smnd_index → s.smnd_index ≠ f.summand_count →
      (found_index f filters s : Int) < index_limit f s →
      s.smnd_index.toNat < f.summand_count →
      motive (some (.running (advance f s (found_index f filters s)))))
    (overrun : 0 ≤ s.smnd_index → s.smnd_index ≠ f.summand_count →
      (found_index f filters s : Int) < index_limit f s →
      ¬ s.smnd_index.toNat < f.summand_count → motive (some (.halted .fault))) :
    motive (find_step u fuel f filters s) := by
  unfold find_step
  by_cases h0 : s.smnd_index ≥ 0
  · rw [if_pos h0]
    unfold find_body
    by_cases h1 : s.smnd_index = f.summand_count
    · rw [if_pos h1]
      by_cases h2 : f.summand_count = 0
      · rw [if_pos h2]; exact no_summands h1 h2
      · rw [if_neg h2]
        cases hr : solve (u s.calls.length) fuel s.smnd_word_ptrs f.summand_count
            s.smnd_word_lengths (s.longest_smnd.getD (s.smnd_index - 1).toNat 0)
            (f.words.getD s.sum_index []) f.base false false with
        | none => exact pending h1 h2 hr
        | some o =>
          cases o with
          | fault => exact engine_fault h1 h2 hr
          | returned n d pr => exact solved n d pr h1 h2 hr
    · rw [if_neg h1]
      by_cases h2 : (found_index f filters s : Int) ≥ index_limit f s
      · rw [if_pos h2]; exact back h0 h1 h2
      · rw [if_neg h2]
        by_cases h3 : s.smnd_index.toNat < f.summand_count
        · rw [if_pos h3]; exact forward h0 h1 (not_le.1 h2) h3
        · rw [if_neg h3]; exact overrun h0 h1 (not_le.1 h2) h3
  · rw [if_neg h0]
    exact next_sum (not_le.1 h0)

theorem enter_sum_logged {u : Nat → Uninit} {fuel : Nat} {f : Finder} {s : FindState}
    (h : Logged u fuel f s.good_puzzles s.puzzles_tried s.output s.calls) :
    LoggedC u fuel f (enter_sum f s) := by
  unfold enter_sum
  by_cases h1 : s.sum_index < (if f.first_sum_only then 1 else f.word_count)
  · rw [if_pos h1]
    by_cases h2 : s.sum_index < f.word_count
    · rw [if_pos h2]; exact h
    · rw [if_neg h2]; trivial
  · rw [if_neg h1]; exact h

theorem after_solve_logged {u : Nat → Uninit} {fuel : Nat} {f : Finder} {s : FindState}
    (h : Logged u fuel f s.good_puzzles s.puzzles_tried s.output s.calls)
    (n d : Nat) (pr : List Line)
    (hr : solve (u s.calls.length) fuel s.smnd_word_ptrs f.summand_count s.smnd_word_lengths
        (s.longest_smnd.getD (s.smnd_index - 1).toNat 0) (f.words.getD s.sum_index [])
        f.base false false = some (.returned n d pr)) :
    Logged u fuel f (after_solve f s n d pr).good_puzzles (after_solve f s n d pr).puzzles_tried
      (after_solve f s n d pr).output (after_solve f s n d pr).calls := by
  simp only [after_solve, acceptance_eq]
  refine ⟨?_, ?_, ?_, ?_⟩
  · rw [List.length_append, List.length_singleton, h.tried_eq]
  · rw [List.filter_append, List.length_append, ← h.good_eq]
    by_cases ha : acceptance f.exactly_one n = true
    · simp [List.filter, ha, call_of]
    · simp [List.filter, ha, call_of]
  · rw [List.flatMap_append, ← h.output_eq]
    simp only [List.flatMap_cons, List.flatMap_nil, List.append_nil, report_of,
      List.append_assoc, call_of]
  · intro i c hc
    by_cases hi : i < s.calls.length
    · rw [List.getElem?_append_left hi] at hc
      exact h.results i c hc
    · have hge : s.calls.length ≤ i := Nat.le_of_not_lt hi
      rw [List.getElem?_append_right hge] at hc
      have hi0 : i - s.calls.length = 0 := by
        by_contra hne
        have : 1 ≤ i - s.calls.length := Nat.one_le_iff_ne_zero.2 hne
        rw [List.getElem?_eq_none (by simpa using this)] at hc
        cases hc
      rw [hi0] at hc
      simp only [List.getElem?_cons_zero, Option.some.injEq] at hc
      subst hc
      have : i = s.calls.length := by omega
      subst this
      exact hr

theorem find_step_logged {u : Nat → Uninit} {fuel : Nat} {f : Finder} {filters : Bool}
    {s : FindState}
    (h : Logged u fuel f s.good_puzzles s.puzzles_tried s.output s.calls) :
    LoggedO u fuel f (find_step u fuel f filters s) := by
  refine find_step_elim (motive := LoggedO u fuel f) ?_ ?_ ?_ ?_ ?_ ?_ ?_ ?_
  · intro _; exact enter_sum_logged h
  · intro _ _; trivial
  · intro _ _ _; trivial
  · intro _ _ _; trivial
  · intro n d pr _ _ hr; exact after_solve_logged h n d pr hr
  · intro _ _ _; exact h
  · intro _ _ _ _; exact h
  · intro _ _ _ _; trivial

theorem find_run_logged {u : Nat → Uninit} {fuel : Nat} {f : Finder} {filters : Bool}
    (n : Nat) (s : FindState) (o : FindOutcome)
    (h : Logged u fuel f s.good_puzzles s.puzzles_tried s.output s.calls)
    (hr : find_run u fuel f filters n s = some o) : LoggedC u fuel f (.halted o) := by
  induction n generalizing s with
  | zero => cases hr
  | succ n ih =>
    unfold find_run at hr
    have hc := @find_step_logged u fuel f filters s h
    cases hs : find_step u fuel f filters s with
    | none => rw [hs] at hr; cases hr
    | some c =>
      rw [hs] at hr hc
      cases c with
      | halted o' =>
        simp only [Option.some.injEq] at hr
        subst hr
        exact hc
      | running s' => exact ih s' hc hr

theorem find_puzzles_logged {u : Nat → Uninit} {h : Fresh} {fuel steps : Nat} {f : Finder}
    {filters : Bool} {o : FindOutcome} (hr : find_puzzles u h fuel steps f filters = some o) :
    LoggedC u fuel f (.halted o) := by
  unfold find_puzzles at hr
  have h0 : Logged u fuel f (find_init h f).good_puzzles (find_init h f).puzzles_tried
      (find_init h f).output (find_init h f).calls :=
    ⟨rfl, rfl, rfl, fun i c hc => by simp [find_init] at hc⟩
  have h1 := @enter_sum_logged u fuel f _ h0
  cases he : enter_sum f (find_init h f) with
  | halted o' =>
    rw [he] at hr h1
    simp only [Option.some.injEq] at hr
    subst hr
    exact h1
  | running s =>
    rw [he] at hr h1
    exact find_run_logged steps s o h1 hr

theorem puzzles_append (a b : List Report) : puzzles (a ++ b) = puzzles a ++ puzzles b := by
  simp [puzzles, List.filterMap_append]

theorem puzzles_engine (pr : List Line) : puzzles (pr.map Report.engine) = [] := by
  induction pr with
  | nil => rfl
  | cons x xs ih =>
    simp only [puzzles, List.map_cons, List.filterMap_cons, Report.puzzle_of] at ih ⊢
    exact ih

theorem word_ok_eq (f : Finder) (filters : Bool) (si m t : Nat) :
    word_ok f filters si m t = (decide (t < f.word_count) && passes f filters si m t) := by
  simp only [word_ok, passes, Bool.and_assoc]

theorem next_lo_append (f : Finder) (lo : Nat) (l : List Nat) (t : Nat) :
    next_lo f lo (l ++ [t]) = t + f.inc := by
  simp [next_lo]

theorem chain_ok_append (f : Finder) (filters : Bool) (si : Nat) (l : List Nat) (t lo m : Nat) :
    chain_ok f filters si lo m (l ++ [t])
      = (chain_ok f filters si lo m l && decide (next_lo f lo l ≤ t)
          && word_ok f filters si (letters_after f m l) t) := by
  induction l generalizing lo m with
  | nil => simp [chain_ok, next_lo, letters_after]
  | cons x xs ih =>
    rw [List.cons_append]
    simp only [chain_ok, ih, letters_after, List.foldl_cons]
    have : next_lo f lo (x :: xs) = next_lo f (x + f.inc) xs := by
      cases xs with
      | nil => simp [next_lo]
      | cons y ys =>
        have e : (x :: y :: ys).getLast? = (y :: ys).getLast? := List.getLast?_cons_cons
        simp only [next_lo, e]
        cases hl : (y :: ys).getLast? with
        | none => simp at hl
        | some z => rfl
    rw [this]
    simp only [Bool.and_assoc]

theorem chain_ok_take (f : Finder) (filters : Bool) (si : Nat) (l : List Nat) (lo m n : Nat)
    (h : chain_ok f filters si lo m l = true) : chain_ok f filters si lo m (l.take n) = true := by
  induction l generalizing lo m n with
  | nil => simp [chain_ok]
  | cons x xs ih =>
    cases n with
    | zero => simp [chain_ok]
    | succ n =>
      simp only [chain_ok, List.take_succ_cons, Bool.and_eq_true] at h ⊢
      exact ⟨h.1, ih _ _ _ h.2⟩

/-- What the inner loop leaves in `try_ind`: every index passed over is
below the bound and fails a test, and the index reached is at the bound or
passes the tests. -/
theorem next_candidate_spec (f : Finder) (filters : Bool) (si pm : Nat) (lim : Int)
    (n i : Nat) (hn : (lim - i).toNat ≤ n) :
    i ≤ next_candidate f filters si (f.word_lengths.getD si 0) pm lim n i
    ∧ (∀ x, i ≤ x → x < next_candidate f filters si (f.word_lengths.getD si 0) pm lim n i →
        (x : Int) < lim ∧ passes f filters si pm x = false)
    ∧ (lim ≤ (next_candidate f filters si (f.word_lengths.getD si 0) pm lim n i : Int)
        ∨ passes f filters si pm
            (next_candidate f filters si (f.word_lengths.getD si 0) pm lim n i) = true) := by
  induction n generalizing i with
  | zero =>
    unfold next_candidate
    refine ⟨le_refl _, fun x h1 h2 => absurd h1 (by omega), Or.inl ?_⟩
    omega
  | succ n ih =>
    unfold next_candidate
    by_cases h1 : (i : Int) < lim
    · rw [if_pos h1]
      have hn' : (lim - ((i + 1 : Nat) : Int)).toNat ≤ n := by omega
      obtain ⟨a1, a2, a3⟩ := ih (i + 1) hn'
      have skip : passes f filters si pm i = false →
          i ≤ next_candidate f filters si (f.word_lengths.getD si 0) pm lim n (i + 1)
          ∧ (∀ x, i ≤ x →
              x < next_candidate f filters si (f.word_lengths.getD si 0) pm lim n (i + 1) →
              (x : Int) < lim ∧ passes f filters si pm x = false)
          ∧ (lim ≤ (next_candidate f filters si (f.word_lengths.getD si 0) pm lim n (i + 1) : Int)
              ∨ passes f filters si pm
                  (next_candidate f filters si (f.word_lengths.getD si 0) pm lim n (i + 1))
                  = true) := by
        intro hp
        refine ⟨by omega, ?_, a3⟩
        intro x hx1 hx2
        by_cases hxi : x = i
        · subst hxi; exact ⟨h1, hp⟩
        · exact a2 x (by omega) hx2
      by_cases h2 : i = si
      · rw [if_pos h2]
        exact skip (by simp [passes, h2])
      · rw [if_neg h2]
        by_cases h3 : filters = true ∧ f.word_lengths.getD i 0 > f.word_lengths.getD si 0
        · rw [if_pos h3]
          apply skip
          have : ¬ f.word_lengths.getD i 0 ≤ f.word_lengths.getD si 0 := by omega
          simp only [passes, h3.1, Bool.not_true, Bool.false_or, decide_eq_false this,
            Bool.false_and, Bool.and_false]
        · rw [if_neg h3]
          by_cases h4 : filters = true
              ∧ total_letters f.bit_count (pm ||| f.letters_used.getD i 0) > f.base
          · rw [if_pos h4]
            apply skip
            have : ¬ total_letters f.bit_count (pm ||| f.letters_used.getD i 0) ≤ f.base := by
              omega
            simp only [passes, h4.1, Bool.not_true, Bool.false_or, decide_eq_false this,
              Bool.and_false]
          · rw [if_neg h4]
            refine ⟨le_refl _, fun x h1 h2 => absurd h1 (by omega), Or.inr ?_⟩
            cases filters with
            | false => simp [passes, h2]
            | true =>
              have k3 : f.word_lengths.getD i 0 ≤ f.word_lengths.getD si 0 := by
                by_contra hh; exact h3 ⟨rfl, by omega⟩
              have k4 : total_letters f.bit_count (pm ||| f.letters_used.getD i 0) ≤ f.base := by
                by_contra hh; exact h4 ⟨rfl, by omega⟩
              unfold passes
              rw [decide_eq_true (show i ≠ si from h2), decide_eq_true k3, decide_eq_true k4]
              rfl
    · rw [if_neg h1]
      refine ⟨le_refl _, fun x h1 h2 => absurd h1 (by omega), Or.inl ?_⟩
      omega

theorem take_getLast (l : List Nat) (j : Nat) (h : j + 1 ≤ l.length) :
    l.take (j + 1) = l.take j ++ [l.getD j 0] := by
  rw [List.take_succ]
  congr 1
  rw [List.getD_eq_getElem?_getD, List.getElem?_eq_getElem (by omega)]
  rfl

theorem next_lo_take (f : Finder) (l : List Nat) (j : Nat) (h : j ≤ l.length) :
    next_lo f 0 (l.take j) = if j = 0 then 0 else l.getD (j - 1) 0 + f.inc := by
  cases j with
  | zero => simp [next_lo]
  | succ j =>
    rw [take_getLast l j h, next_lo_append]
    simp

theorem letter_map_of_eq (f : Finder) (si : Nat) (l : List Nat) :
    letter_map_of f si l = letters_after f (f.letters_used.getD si 0) l := rfl

theorem letters_after_append (f : Finder) (m : Nat) (l : List Nat) (t : Nat) :
    letters_after f m (l ++ [t]) = letters_after f m l ||| f.letters_used.getD t 0 := by
  simp [letters_after, List.foldl_append]

theorem foldl_max_append (l : List Nat) (x : Nat) :
    (l ++ [x]).foldl max 0 = max (l.foldl max 0) x := by
  simp [List.foldl_append]

theorem longest_of_append (f : Finder) (l : List Nat) (t : Nat) :
    longest_of f (l ++ [t]) = max (longest_of f l) (f.word_lengths.getD t 0) := by
  unfold longest_of
  rw [List.map_append, List.map_singleton, foldl_max_append]

theorem Shape.lens {f : Finder} {filters : Bool} {s : FindState} (h : Shape f filters s) :
    Lens f s :=
  ⟨h.len_index, h.len_ptrs, h.len_lengths, h.len_map, h.len_longest⟩

theorem find_init_lens (h : Fresh) (f : Finder) : Lens f (find_init h f) := by
  constructor <;> simp [find_init]

theorem shape_enter_sum {f : Finder} {filters : Bool} {s : FindState} (h : Lens f s) :
    ShapeO f filters (some (enter_sum f s)) := by
  unfold enter_sum
  by_cases h1 : s.sum_index < (if f.first_sum_only then 1 else f.word_count)
  · rw [if_pos h1]
    by_cases h2 : s.sum_index < f.word_count
    · rw [if_pos h2]
      exact
        { si_lt := h2
          si_lim := h1
          lo := by simp
          hi := by simp
          bt_hi := by simp
          bt_lo := by simp
          len_index := h.len_index
          len_ptrs := h.len_ptrs
          len_lengths := h.len_lengths
          len_map := h.len_map
          len_longest := h.len_longest
          chain := by simp [FindState.chosen, FindState.depth, chain_ok]
          maps := by simp [FindState.depth] }
    · rw [if_neg h2]; trivial
  · rw [if_neg h1]; trivial

theorem depth_forward {s : FindState} {j : Nat} (hj : s.smnd_index = j)
    (hb : s.backtrack = false) : s.depth = j := by
  simp [FindState.depth, hj, hb]

theorem depth_backtrack {s : FindState} {j : Nat} (hj : s.smnd_index = j)
    (hb : s.backtrack = true) : s.depth = j + 1 := by
  simp only [FindState.depth, hj, hb, if_true]
  omega

theorem shape_after_solve {f : Finder} {filters : Bool} {s : FindState}
    (h : Shape f filters s) (hk : s.smnd_index = f.summand_count) (h0 : f.summand_count ≠ 0)
    (n d : Nat) (pr : List Line) : Shape f filters (after_solve f s n d pr) := by
  have hb : s.backtrack = false := by
    cases hb : s.backtrack with
    | false => rfl
    | true => have := h.bt_hi hb; omega
  have hd : s.depth = f.summand_count := depth_forward hk hb
  have hd' : (after_solve f s n d pr).depth = f.summand_count := by
    simp only [after_solve, FindState.depth, hk, if_true]
    omega
  exact
    { si_lt := h.si_lt
      si_lim := h.si_lim
      lo := by simp only [after_solve, hk]; omega
      hi := by simp only [after_solve, hk]; omega
      bt_hi := by intro _; simp only [after_solve, hk]; omega
      bt_lo := by intro hh; simp [after_solve] at hh
      len_index := h.len_index
      len_ptrs := h.len_ptrs
      len_lengths := h.len_lengths
      len_map := h.len_map
      len_longest := h.len_longest
      chain := by
        have := h.chain
        unfold FindState.chosen at this ⊢
        rw [hd'] 
        rw [hd] at this
        exact this
      maps := by
        intro m hm
        rw [hd'] at hm
        exact h.maps m (by rw [hd]; exact hm) }

theorem shape_retreat {f : Finder} {filters : Bool} {s : FindState}
    (h : Shape f filters s) (h0 : 0 ≤ s.smnd_index) (hk : s.smnd_index ≠ f.summand_count) :
    Shape f filters s.retreat := by
  obtain ⟨j, hj⟩ := Int.eq_ofNat_of_zero_le h0
  have hhi := h.hi
  have hd' : s.retreat.depth = j := by
    simp only [FindState.retreat, FindState.depth, hj, if_true]
    omega
  have hd : j ≤ s.depth := by
    cases hb : s.backtrack with
    | false => rw [depth_forward hj hb]
    | true => rw [depth_backtrack hj hb]; omega
  exact
    { si_lt := h.si_lt
      si_lim := h.si_lim
      lo := by simp only [FindState.retreat, hj]; omega
      hi := by simp only [FindState.retreat, hj]; omega
      bt_hi := by intro _; simp only [FindState.retreat, hj]; omega
      bt_lo := by intro hh; simp [FindState.retreat] at hh
      len_index := h.len_index
      len_ptrs := h.len_ptrs
      len_lengths := h.len_lengths
      len_map := h.len_map
      len_longest := h.len_longest
      chain := by
        have := chain_ok_take f filters s.sum_index s.chosen 0 _ j h.chain
        unfold FindState.chosen at this ⊢
        rw [hd']
        rw [List.take_take, min_eq_left hd] at this
        exact this
      maps := by
        intro m hm
        rw [hd'] at hm
        exact h.maps m (by omega) }

theorem chosen_forward {s : FindState} {j : Nat} (hj : s.smnd_index = j)
    (hb : s.backtrack = false) : s.chosen = s.smnd_word_index.take j := by
  unfold FindState.chosen
  rw [depth_forward hj hb]

theorem chosen_backtrack {f : Finder} {filters : Bool} {s : FindState} {j : Nat}
    (h : Shape f filters s) (hj : s.smnd_index = j) (hb : s.backtrack = true) :
    s.chosen = s.smnd_word_index.take j ++ [s.smnd_word_index.getD j 0] := by
  unfold FindState.chosen
  rw [depth_backtrack hj hb]
  apply take_getLast
  have := h.bt_hi hb
  rw [h.len_index]
  omega

theorem le_depth {s : FindState} {j : Nat} (hj : s.smnd_index = j) : j ≤ s.depth := by
  cases hb : s.backtrack with
  | false => rw [depth_forward hj hb]
  | true => rw [depth_backtrack hj hb]; omega

/-- The indices before the current place pass the tests in their places. -/
theorem chain_before {f : Finder} {filters : Bool} {s : FindState} {j : Nat}
    (h : Shape f filters s) (hj : s.smnd_index = j) :
    chain_ok f filters s.sum_index 0 (f.letters_used.getD s.sum_index 0)
      (s.smnd_word_index.take j) = true := by
  have := chain_ok_take f filters s.sum_index s.chosen 0 _ j h.chain
  unfold FindState.chosen at this
  rw [List.take_take, min_eq_left (le_depth hj)] at this
  exact this

/-- The letters used before the current place, as the tests read them. -/
theorem prev_letter_map_eq {f : Finder} {filters : Bool} {s : FindState} {j : Nat}
    (h : Shape f filters s) (hj : s.smnd_index = j) :
    prev_letter_map f s = letter_map_of f s.sum_index (s.smnd_word_index.take j) := by
  unfold prev_letter_map
  cases j with
  | zero =>
    rw [if_pos (by simpa using hj)]
    rfl
  | succ j =>
    rw [if_neg (by rw [hj]; simp; omega)]
    have hm := (h.maps j (by have := le_depth hj; omega)).1
    rw [hj]
    simp only [Int.toNat_ofNat, Nat.add_sub_cancel]
    exact hm

/-- The inner loop starts at or above the least index allowed in the current
place. -/
theorem start_index_ge {f : Finder} {filters : Bool} {s : FindState} {j : Nat}
    (h : Shape f filters s) (hj : s.smnd_index = j) (hlt : j < f.summand_count) :
    next_lo f 0 (s.smnd_word_index.take j) ≤ start_index f s := by
  have hlen : j ≤ s.smnd_word_index.length := by rw [h.len_index]; omega
  rw [next_lo_take f _ j hlen]
  unfold start_index
  cases hb : s.backtrack with
  | true =>
    rw [if_pos rfl]
    have hc := h.chain
    rw [chosen_backtrack h hj hb, chain_ok_append, next_lo_take f _ j hlen] at hc
    simp only [Bool.and_eq_true, decide_eq_true_eq] at hc
    rw [hj]
    simp only [Int.toNat_ofNat]
    omega
  | false =>
    simp only [Bool.false_eq_true, if_false]
    cases j with
    | zero => simp
    | succ j =>
      rw [if_neg (by omega), if_neg (by rw [hj]; simp; omega), hj]
      simp only [Int.toNat_ofNat, Nat.add_sub_cancel, Finder.inc]
      exact le_refl _

theorem index_limit_le {f : Finder} {s : FindState} {j : Nat}
    (hj : s.smnd_index = j) (hlt : j < f.summand_count) :
    index_limit f s ≤ f.word_count := by
  unfold index_limit
  split_ifs
  · rw [hj]; omega
  · exact le_refl _

/-- What the inner loop finds, in terms of the state. -/
theorem found_index_spec (f : Finder) (filters : Bool) (s : FindState) :
    start_index f s ≤ found_index f filters s
    ∧ (∀ x, start_index f s ≤ x → x < found_index f filters s →
        (x : Int) < index_limit f s
          ∧ passes f filters s.sum_index (prev_letter_map f s) x = false)
    ∧ (index_limit f s ≤ (found_index f filters s : Int)
        ∨ passes f filters s.sum_index (prev_letter_map f s) (found_index f filters s)
            = true) := by
  unfold found_index
  exact next_candidate_spec f filters s.sum_index (prev_letter_map f s) (index_limit f s)
    _ (start_index f s) (le_refl _)

theorem take_set_lt (l : List Nat) (j m t : Nat) (h : m ≤ j) :
    (l.set j t).take m = l.take m := by
  apply List.ext_getElem?
  intro i
  by_cases hi : i < m
  · rw [List.getElem?_take_of_lt hi, List.getElem?_take_of_lt hi,
      List.getElem?_set_ne (by omega)]
  · rw [List.getElem?_take_eq_none (by omega), List.getElem?_take_eq_none (by omega)]

theorem take_set_succ (l : List Nat) (j t : Nat) (h : j < l.length) :
    (l.set j t).take (j + 1) = l.take j ++ [t] := by
  rw [take_getLast _ j (by rw [List.length_set]; omega), take_set_lt l j j t (le_refl _),
    getD_set_same l j t 0 h]

theorem shape_advance {f : Finder} {filters : Bool} {s : FindState}
    (h : Shape f filters s) (h0 : 0 ≤ s.smnd_index)
    (hf : (found_index f filters s : Int) < index_limit f s)
    (hlt : s.smnd_index.toNat < f.summand_count) :
    Shape f filters (advance f s (found_index f filters s)) := by
  obtain ⟨j, hj⟩ := Int.eq_ofNat_of_zero_le h0
  have hjk : j < f.summand_count := by rw [hj] at hlt; simpa using hlt
  have hlen : j < s.smnd_word_index.length := by rw [h.len_index]; exact hjk
  obtain ⟨s1, s2, s3⟩ := found_index_spec f filters s
  have hpass : passes f filters s.sum_index (prev_letter_map f s) (found_index f filters s)
      = true := by
    rcases s3 with s3 | s3
    · omega
    · exact s3
  have hW : found_index f filters s < f.word_count := by
    have := @index_limit_le f s j hj hjk
    omega
  have hd' : (advance f s (found_index f filters s)).depth = j + 1 := by
    simp only [advance, FindState.depth, hj, Bool.false_eq_true, if_false]
    omega
  have htn : s.smnd_index.toNat = j := by rw [hj]; rfl
  have hch : (advance f s (found_index f filters s)).chosen
      = s.smnd_word_index.take j ++ [found_index f filters s] := by
    unfold FindState.chosen
    rw [hd']
    simp only [advance, htn]
    exact take_set_succ _ _ _ hlen
  exact
    { si_lt := h.si_lt
      si_lim := h.si_lim
      lo := by simp only [advance, hj]; omega
      hi := by simp only [advance, hj]; omega
      bt_hi := by intro hh; simp [advance] at hh
      bt_lo := by intro _; simp only [advance, hj]; omega
      len_index := by simp only [advance, List.length_set]; exact h.len_index
      len_ptrs := by simp only [advance, List.length_set]; exact h.len_ptrs
      len_lengths := by simp only [advance, List.length_set]; exact h.len_lengths
      len_map := by simp only [advance, List.length_set]; exact h.len_map
      len_longest := by simp only [advance, List.length_set]; exact h.len_longest
      chain := by
        have h1 := start_index_ge h hj hjk
        have e : (advance f s (found_index f filters s)).sum_index = s.sum_index := rfl
        rw [hch, chain_ok_append, e, chain_before h hj, word_ok_eq,
          ← letter_map_of_eq, ← prev_letter_map_eq h hj, hpass]
        simp only [Bool.true_and, Bool.and_true, Bool.and_eq_true, decide_eq_true_eq]
        exact ⟨by omega, hW⟩
      maps := by
        intro m hm
        rw [hd'] at hm
        have e : (advance f s (found_index f filters s)).sum_index = s.sum_index := rfl
        rw [e]
        by_cases hmj : m = j
        · subst hmj
          simp only [advance, htn]
          rw [getD_set_same s.smnd_letter_map _ _ _ (by rw [h.len_map]; exact hjk),
            getD_set_same s.smnd_word_lengths _ _ _ (by rw [h.len_lengths]; exact hjk),
            getD_set_same s.smnd_word_ptrs _ _ _ (by rw [h.len_ptrs]; exact hjk),
            getD_set_same s.longest_smnd _ _ _ (by rw [h.len_longest]; exact hjk),
            getD_set_same s.smnd_word_index _ _ _ hlen, take_set_succ _ _ _ hlen]
          refine ⟨?_, rfl, rfl, ?_⟩
          · rw [letter_map_of_eq, letters_after_append, ← letter_map_of_eq,
              prev_letter_map_eq h hj]
          · rw [longest_of_append]
            cases m with
            | zero =>
              rw [if_pos (by simpa using hj)]
              simp [longest_of]
            | succ m =>
              rw [if_neg (by rw [hj]; simp; omega)]
              have hm' := (h.maps m (by have := le_depth hj; omega)).2.2.2
              simp only [Nat.add_sub_cancel]
              rw [hm']
              split_ifs with hc
              · rw [max_eq_right (by omega)]
              · rw [max_eq_left (by omega)]
        · have hmlt : m < j := by omega
          have hm' := h.maps m (by have := le_depth hj; omega)
          simp only [advance, htn]
          have hjm : j ≠ m := Ne.symm hmj
          rw [getD_set_ne s.smnd_letter_map _ _ _ _ hjm, getD_set_ne s.smnd_word_lengths _ _ _ _ hjm,
            getD_set_ne s.smnd_word_ptrs _ _ _ _ hjm, getD_set_ne s.longest_smnd _ _ _ _ hjm,
            getD_set_ne s.smnd_word_index _ _ _ _ hjm,
            take_set_lt _ _ _ _ (by omega)]
          exact hm' }

theorem find_step_shape {u : Nat → Uninit} {fuel : Nat} {f : Finder} {filters : Bool}
    {s : FindState} (h : Shape f filters s) :
    ShapeO f filters (find_step u fuel f filters s) := by
  refine find_step_elim (motive := ShapeO f filters) ?_ ?_ ?_ ?_ ?_ ?_ ?_ ?_
  · intro _
    exact shape_enter_sum
      ⟨h.len_index, h.len_ptrs, h.len_lengths, h.len_map, h.len_longest⟩
  · intro _ _; trivial
  · intro _ _ _; trivial
  · intro _ _ _; trivial
  · intro n d pr hk h0 _; exact shape_after_solve h hk h0 n d pr
  · intro h0 hk _; exact shape_retreat h h0 hk
  · intro h0 _ hf hlt; exact shape_advance h h0 hf hlt
  · intro _ _ _ _; trivial

/-- With `Shape`, no transition writes past the arrays. -/
theorem shape_no_overrun {f : Finder} {filters : Bool} {s : FindState}
    (h : Shape f filters s) (h0 : 0 ≤ s.smnd_index) (hk : s.smnd_index ≠ f.summand_count) :
    s.smnd_index.toNat < f.summand_count := by
  have := h.hi
  omega

theorem lex_lt_irrefl (l : List Nat) : lex_lt l l = false := by
  induction l with
  | nil => rfl
  | cons a as ih => simp [lex_lt, ih]

theorem lex_lt_iff_lex (a b : List Nat) : lex_lt a b = true ↔ List.Lex (· < ·) a b := by
  induction a generalizing b with
  | nil =>
    cases b with
    | nil => simp [lex_lt]
    | cons y ys => simp [lex_lt, List.Lex.nil]
  | cons x xs ih =>
    cases b with
    | nil => simp [lex_lt]
    | cons y ys =>
      simp only [lex_lt, Bool.or_eq_true, Bool.and_eq_true, decide_eq_true_eq, ih]
      constructor
      · rintro (h | ⟨rfl, h⟩)
        · exact List.Lex.rel h
        · exact List.Lex.cons h
      · intro h
        cases h with
        | rel h => exact Or.inl h
        | cons h => exact Or.inr ⟨rfl, h⟩

theorem lex_lt_append_single (l key : List Nat) (t : Nat) (h : l.length < key.length) :
    lex_lt key (l ++ [t]) = true ↔ Reach l t key := by
  induction l generalizing key with
  | nil =>
    cases key with
    | nil => simp at h
    | cons x xs =>
      simp only [List.nil_append, lex_lt, Reach, Bool.or_eq_true, Bool.and_eq_true,
        decide_eq_true_eq, Bool.false_eq_true, and_false, or_false, false_or, List.cons.injEq]
      constructor
      · intro hx; exact ⟨x, xs, ⟨rfl, rfl⟩, hx⟩
      · rintro ⟨y, r, ⟨rfl, _⟩, hy⟩; exact hy
  | cons a as ih =>
    cases key with
    | nil => simp at h
    | cons x xs =>
      have h' : as.length < xs.length := by simpa using h
      have e1 : lex_lt (x :: xs) (a :: as ++ [t])
          = (decide (x < a) || (decide (x = a) && lex_lt xs (as ++ [t]))) := rfl
      have e2 : lex_lt (x :: xs) (a :: as)
          = (decide (x < a) || (decide (x = a) && lex_lt xs as)) := rfl
      unfold Reach
      rw [e1, e2]
      simp only [Bool.or_eq_true, Bool.and_eq_true,
        decide_eq_true_eq, ih xs h', Reach, List.cons_append, List.cons.injEq]
      constructor
      · rintro (h1 | ⟨h1, h2 | ⟨y, r, h3, h4⟩⟩)
        · exact Or.inl (Or.inl h1)
        · exact Or.inl (Or.inr ⟨h1, h2⟩)
        · exact Or.inr ⟨y, r, ⟨h1, h3⟩, h4⟩
      · rintro ((h1 | ⟨h1, h2⟩) | ⟨y, r, ⟨h1, h3⟩, h4⟩)
        · exact Or.inl h1
        · exact Or.inr ⟨h1, Or.inl h2⟩
        · exact Or.inr ⟨h1, Or.inr ⟨y, r, h3, h4⟩⟩

theorem prefix_iff_split (l key : List Nat) (h : l.length < key.length) :
    l <+: key ↔ ∃ x rest, key = l ++ x :: rest := by
  constructor
  · rintro ⟨r, hr⟩
    cases r with
    | nil => rw [List.append_nil] at hr; rw [hr] at h; omega
    | cons x rest => exact ⟨x, rest, hr.symm⟩
  · rintro ⟨x, rest, hr⟩
    exact ⟨x :: rest, hr.symm⟩

theorem lex_lt_append_cons (l rest : List Nat) (x t : Nat) :
    lex_lt (l ++ x :: rest) (l ++ [t]) = decide (x < t) := by
  induction l with
  | nil => 
    simp only [List.nil_append, lex_lt, Bool.and_false, Bool.or_false]
  | cons a as ih =>
    have e1 : lex_lt (a :: as ++ x :: rest) (a :: as ++ [t])
        = (decide (a < a) || (decide (a = a) && lex_lt (as ++ x :: rest) (as ++ [t]))) := rfl
    rw [e1, ih]
    simp

theorem lex_lt_append_self (l rest : List Nat) (x : Nat) :
    lex_lt (l ++ x :: rest) l = false := by
  induction l with
  | nil => rfl
  | cons a as ih => simp [lex_lt, ih]

/-- The keys dealt with when backtracking from the index `o` after `l`. -/
theorem before_backtrack_iff (l key : List Nat) (o : Nat) (h : l.length < key.length) :
    (lex_lt key (l ++ [o]) = true ∨ (l ++ [o]) <+: key) ↔ Reach l (o + 1) key := by
  rw [lex_lt_append_single l key o h]
  constructor
  · rintro (h1 | ⟨r, hr⟩)
    · rcases h1 with h1 | ⟨x, rest, h2, h3⟩
      · exact Or.inl h1
      · exact Or.inr ⟨x, rest, h2, by omega⟩
    · refine Or.inr ⟨o, r, ?_, by omega⟩
      rw [← hr, List.append_assoc]
      rfl
  · rintro (h1 | ⟨x, rest, h2, h3⟩)
    · exact Or.inl (Or.inl h1)
    · by_cases hx : x < o
      · exact Or.inl (Or.inr ⟨x, rest, h2, hx⟩)
      · have : x = o := by omega
        subst this
        refine Or.inr ⟨rest, ?_⟩
        rw [h2, List.append_assoc]
        rfl

theorem next_lo_cons (f : Finder) (lo x : Nat) (l : List Nat) :
    next_lo f lo (x :: l) = next_lo f (x + f.inc) l := by
  cases l with
  | nil => simp [next_lo]
  | cons y ys =>
    have e : (x :: y :: ys).getLast? = (y :: ys).getLast? := List.getLast?_cons_cons
    simp only [next_lo, e]
    cases hl : (y :: ys).getLast? with
    | none => simp at hl
    | some z => rfl

theorem chain_ok_drop (f : Finder) (filters : Bool) (si : Nat) (P Q : List Nat) (lo m : Nat) :
    chain_ok f filters si lo m (P ++ Q)
      = (chain_ok f filters si lo m P
          && chain_ok f filters si (next_lo f lo P) (letters_after f m P) Q) := by
  induction P generalizing lo m with
  | nil => simp [chain_ok, next_lo, letters_after]
  | cons x xs ih =>
    rw [List.cons_append]
    simp only [chain_ok, ih, next_lo_cons, letters_after, List.foldl_cons, Bool.and_assoc]

theorem chain_bound (f : Finder) (filters : Bool) (si : Nat) (rest : List Nat) (x lo m : Nat)
    (h : chain_ok f filters si lo m (x :: rest) = true) :
    x + f.inc * rest.length < f.word_count := by
  induction rest generalizing x lo m with
  | nil =>
    simp only [chain_ok, word_ok, Bool.and_eq_true, decide_eq_true_eq] at h
    simpa using h.1.2.1.1
  | cons y ys ih =>
    have h2 : chain_ok f filters si (x + f.inc) (m ||| f.letters_used.getD x 0) (y :: ys)
        = true := by
      simp only [chain_ok, Bool.and_eq_true] at h ⊢
      exact h.2
    have := ih y _ _ h2
    have hy : x + f.inc ≤ y := by
      simp only [chain_ok, Bool.and_eq_true, decide_eq_true_eq] at h2
      exact h2.1.1
    rw [List.length_cons, Nat.mul_succ]
    omega

/-- In a tuple to try that starts with the indices `P`, the next index is at
least the least index allowed after `P`, passes the tests, and leaves room
below `word_count` for the rest. -/
theorem chain_ok_next (f : Finder) (filters : Bool) (si : Nat) (P rest : List Nat) (x lo m : Nat)
    (h : chain_ok f filters si lo m (P ++ x :: rest) = true) :
    next_lo f lo P ≤ x ∧ passes f filters si (letters_after f m P) x = true
      ∧ x + f.inc * rest.length < f.word_count := by
  rw [chain_ok_drop, Bool.and_eq_true] at h
  have hb := chain_bound f filters si rest x _ _ h.2
  have h2 := h.2
  simp only [chain_ok, word_ok_eq, Bool.and_eq_true, decide_eq_true_eq] at h2
  exact ⟨h2.1.1, h2.1.2.2, hb⟩

theorem valid_tuple_facts {f : Finder} {filters : Bool} {si : Nat} {t : List Nat}
    (h : valid_tuple f filters si t = true) :
    si < (if f.first_sum_only then 1 else f.word_count) ∧ si < f.word_count
      ∧ t.length = f.summand_count
      ∧ chain_ok f filters si 0 (f.letters_used.getD si 0) t = true := by
  simp only [valid_tuple, Bool.and_eq_true, decide_eq_true_eq] at h
  exact ⟨h.1.1.1, h.1.1.2, h.1.2, h.2⟩

theorem cursor_length {f : Finder} {filters : Bool} {s : FindState} (h : Shape f filters s) :
    s.cursor.length = s.depth + 1 := by
  unfold FindState.cursor FindState.chosen
  rw [List.length_cons, List.length_take, h.len_index]
  have : s.depth ≤ f.summand_count := by
    unfold FindState.depth
    have := h.hi
    have := h.lo
    cases hb : s.backtrack with
    | false => simp only [Bool.false_eq_true, if_false]; omega
    | true => have := h.bt_hi hb; simp only [if_true]; omega
  omega

/-- A tuple to try that starts with the cursor (sum and indices before the
current place) continues with an index that passes the tests. -/
theorem valid_next {f : Finder} {filters : Bool} {s : FindState} {j : Nat}
    (h : Shape f filters s) (hj : s.smnd_index = j) {si : Nat} {t : List Nat}
    (hv : valid_tuple f filters si t = true) {x : Nat} {rest : List Nat}
    (hk : si :: t = (s.sum_index :: s.smnd_word_index.take j) ++ x :: rest) :
    next_lo f 0 (s.smnd_word_index.take j) ≤ x
      ∧ passes f filters s.sum_index (prev_letter_map f s) x = true
      ∧ x + f.inc * rest.length < f.word_count
      ∧ rest.length + j + 1 = f.summand_count := by
  obtain ⟨_, _, v3, v4⟩ := valid_tuple_facts hv
  rw [List.cons_append, List.cons.injEq] at hk
  obtain ⟨rfl, rfl⟩ := hk
  obtain ⟨a, b, c⟩ := chain_ok_next f filters _ _ _ _ _ _ v4
  rw [prev_letter_map_eq h hj, letter_map_of_eq]
  refine ⟨a, b, c, ?_⟩
  have hlen : j ≤ s.smnd_word_index.length := by
    rw [h.len_index]; have := h.hi; omega
  rw [List.length_append, List.length_take, min_eq_left hlen, List.length_cons] at v3
  omega

theorem start_index_forward {f : Finder} {s : FindState} {j : Nat}
    (hj : s.smnd_index = j) (hlen : j ≤ s.smnd_word_index.length)
    (hb : s.backtrack = false) :
    start_index f s = next_lo f 0 (s.smnd_word_index.take j) := by
  rw [next_lo_take f _ j hlen]
  unfold start_index
  simp only [hb, Bool.false_eq_true, if_false]
  cases j with
  | zero => simp [hj]
  | succ j =>
    have h1 : ¬ s.smnd_index = 0 := by rw [hj]; omega
    have h2 : ¬ j + 1 = 0 := by omega
    rw [if_neg h1, if_neg h2, hj]
    simp only [Int.toNat_ofNat, Nat.add_sub_cancel, Finder.inc]

theorem start_index_backtrack {f : Finder} {s : FindState} {j : Nat}
    (hj : s.smnd_index = j) (hb : s.backtrack = true) :
    start_index f s = s.smnd_word_index.getD j 0 + 1 := by
  unfold start_index
  rw [if_pos hb, hj]
  rfl

theorem valid_key_length {f : Finder} {filters : Bool} {si : Nat} {t : List Nat}
    (hv : valid_tuple f filters si t = true) : (si :: t).length = f.summand_count + 1 := by
  rw [List.length_cons, (valid_tuple_facts hv).2.2.1]

/-- The keys dealt with, in terms of the index the inner loop starts from. -/
theorem before_iff_reach {f : Finder} {filters : Bool} {s : FindState} {j : Nat}
    (h : Shape f filters s) (hj : s.smnd_index = j) (hjk : j < f.summand_count)
    {si : Nat} {t : List Nat} (hv : valid_tuple f filters si t = true) :
    Before s (si :: t) ↔
      Reach (s.sum_index :: s.smnd_word_index.take j) (start_index f s) (si :: t) := by
  have hlen : j ≤ s.smnd_word_index.length := by rw [h.len_index]; omega
  have hkl := valid_key_length hv
  cases hb : s.backtrack with
  | false =>
    unfold Before FindState.cursor
    rw [chosen_forward hj hb, hb]
    simp only [Bool.false_eq_true, false_and, or_false]
    unfold Reach
    constructor
    · intro h1; exact Or.inl h1
    · rintro (h1 | ⟨x, rest, hk, hx⟩)
      · exact h1
      · have := (valid_next h hj hv hk).1
        rw [start_index_forward hj hlen hb] at hx
        omega
  | true =>
    unfold Before FindState.cursor
    rw [chosen_backtrack h hj hb, hb, start_index_backtrack hj hb]
    simp only [true_and]
    rw [← List.cons_append]
    apply before_backtrack_iff
    rw [hkl, List.length_cons, List.length_take, min_eq_left hlen]
    omega

/-- The inner loop passes over no tuple to try. -/
theorem reach_found {f : Finder} {filters : Bool} {s : FindState} {j : Nat}
    (h : Shape f filters s) (hj : s.smnd_index = j)
    {si : Nat} {t : List Nat} (hv : valid_tuple f filters si t = true) :
    Reach (s.sum_index :: s.smnd_word_index.take j) (start_index f s) (si :: t) ↔
      Reach (s.sum_index :: s.smnd_word_index.take j) (found_index f filters s) (si :: t) := by
  obtain ⟨s1, s2, _⟩ := found_index_spec f filters s
  unfold Reach
  constructor
  · rintro (h1 | ⟨x, rest, hk, hx⟩)
    · exact Or.inl h1
    · exact Or.inr ⟨x, rest, hk, by omega⟩
  · rintro (h1 | ⟨x, rest, hk, hx⟩)
    · exact Or.inl h1
    · by_cases hx0 : x < start_index f s
      · exact Or.inr ⟨x, rest, hk, hx0⟩
      · have hp := (valid_next h hj hv hk).2.1
        have := (s2 x (by omega) hx).2
        rw [hp] at this
        cases this

theorem advance_cursor {f : Finder} {filters : Bool} {s : FindState} {j : Nat}
    (h : Shape f filters s) (hj : s.smnd_index = j) (hjk : j < f.summand_count) (t : Nat) :
    (advance f s t).cursor = (s.sum_index :: s.smnd_word_index.take j) ++ [t] := by
  have hlen : j < s.smnd_word_index.length := by rw [h.len_index]; exact hjk
  have hd' : (advance f s t).depth = j + 1 := by
    simp only [advance, FindState.depth, hj, Bool.false_eq_true, if_false]
    omega
  have htn : s.smnd_index.toNat = j := by rw [hj]; rfl
  unfold FindState.cursor FindState.chosen
  rw [hd']
  simp only [advance, htn, List.cons_append]
  rw [take_set_succ _ _ _ hlen]

theorem retreat_cursor {s : FindState} {j : Nat} (hj : s.smnd_index = j) :
    s.retreat.cursor = s.sum_index :: s.smnd_word_index.take j := by
  have hd' : s.retreat.depth = j := by
    simp only [FindState.retreat, FindState.depth, hj, if_true]
    omega
  unfold FindState.cursor FindState.chosen
  rw [hd']
  rfl

theorem traced_advance {f : Finder} {filters : Bool} {s : FindState}
    (h : Shape f filters s) (T : Traced f filters s) (h0 : 0 ≤ s.smnd_index)
    (hlt : s.smnd_index.toNat < f.summand_count) :
    Traced f filters (advance f s (found_index f filters s)) := by
  obtain ⟨j, hj⟩ := Int.eq_ofNat_of_zero_le h0
  have hjk : j < f.summand_count := by rw [hj] at hlt; simpa using hlt
  have hlen : j ≤ s.smnd_word_index.length := by rw [h.len_index]; omega
  refine ⟨T.sorted, ?_, T.args⟩
  intro si t
  have e : (advance f s (found_index f filters s)).calls = s.calls := rfl
  rw [e, T.mem si t]
  constructor
  · rintro ⟨hv, hb⟩
    refine ⟨hv, Or.inl ?_⟩
    rw [advance_cursor h hj hjk, lex_lt_append_single _ _ _
      (by rw [valid_key_length hv, List.length_cons, List.length_take, min_eq_left hlen]; omega)]
    exact (reach_found h hj hv).1 ((before_iff_reach h hj hjk hv).1 hb)
  · rintro ⟨hv, hb⟩
    refine ⟨hv, ?_⟩
    rcases hb with hb | ⟨hb, _⟩
    · rw [advance_cursor h hj hjk, lex_lt_append_single _ _ _
        (by rw [valid_key_length hv, List.length_cons, List.length_take, min_eq_left hlen]; omega)]
        at hb
      exact (before_iff_reach h hj hjk hv).2 ((reach_found h hj hv).2 hb)
    · simp [advance] at hb

theorem traced_retreat {f : Finder} {filters : Bool} {s : FindState}
    (h : Shape f filters s) (T : Traced f filters s) (h0 : 0 ≤ s.smnd_index)
    (hk : s.smnd_index ≠ f.summand_count)
    (hf : index_limit f s ≤ found_index f filters s) :
    Traced f filters s.retreat := by
  obtain ⟨j, hj⟩ := Int.eq_ofNat_of_zero_le h0
  have hjk : j < f.summand_count := by have := h.hi; omega
  have hlen : j ≤ s.smnd_word_index.length := by rw [h.len_index]; omega
  refine ⟨T.sorted, ?_, T.args⟩
  intro si t
  have e : s.retreat.calls = s.calls := rfl
  rw [e, T.mem si t]
  have hiff : valid_tuple f filters si t = true →
      (Reach (s.sum_index :: s.smnd_word_index.take j) (found_index f filters s) (si :: t)
        ↔ Before s.retreat (si :: t)) := by
    intro hv
    have hl : (s.sum_index :: s.smnd_word_index.take j).length < (si :: t).length := by
      rw [valid_key_length hv, List.length_cons, List.length_take, min_eq_left hlen]; omega
    unfold Before
    rw [retreat_cursor hj]
    have hbt : s.retreat.backtrack = true := rfl
    rw [hbt]
    simp only [true_and]
    rw [prefix_iff_split _ _ hl]
    unfold Reach
    constructor
    · rintro (h1 | ⟨x, rest, hk, _⟩)
      · exact Or.inl h1
      · exact Or.inr ⟨x, rest, hk⟩
    · rintro (h1 | ⟨x, rest, hk⟩)
      · exact Or.inl h1
      · refine Or.inr ⟨x, rest, hk, ?_⟩
        obtain ⟨_, _, hb, hr⟩ := valid_next h hj hv hk
        unfold index_limit at hf
        unfold Finder.inc at hb
        cases hd : f.disallow_rep with
        | true =>
          rw [hd] at hf hb
          simp only [if_true] at hf hb
          rw [hj] at hf
          omega
        | false =>
          rw [hd] at hf hb
          simp only [Bool.false_eq_true, if_false] at hf hb
          omega
  constructor
  · rintro ⟨hv, hb⟩
    exact ⟨hv, (hiff hv).1 ((reach_found h hj hv).1 ((before_iff_reach h hj hjk hv).1 hb))⟩
  · rintro ⟨hv, hb⟩
    exact ⟨hv, (before_iff_reach h hj hjk hv).2 ((reach_found h hj hv).2 ((hiff hv).2 hb))⟩

theorem lex_lt_single (si' si : Nat) (t : List Nat) :
    lex_lt (si' :: t) [si] = decide (si' < si) := by
  cases t <;> simp [lex_lt]

theorem single_head (si' si : Nat) (t : List Nat) : [si] <+: si' :: t ↔ si = si' := by
  constructor
  · rintro ⟨r, hr⟩
    simp only [List.singleton_append, List.cons.injEq] at hr
    exact hr.1
  · rintro rfl
    exact ⟨t, rfl⟩

theorem backtrack_of_neg {f : Finder} {filters : Bool} {s : FindState}
    (h : Shape f filters s) (hn : s.smnd_index < 0) :
    s.backtrack = true ∧ s.cursor = [s.sum_index] := by
  have hb : s.backtrack = true := by
    cases hb : s.backtrack with
    | true => rfl
    | false => have := h.bt_lo hb; omega
  refine ⟨hb, ?_⟩
  have hl := h.lo
  have : s.smnd_index = -1 := by omega
  unfold FindState.cursor FindState.chosen FindState.depth
  rw [hb, this]
  rfl

theorem traced_enter_sum {f : Finder} {filters : Bool} {s : FindState}
    (h : Shape f filters s) (T : Traced f filters s) (hn : s.smnd_index < 0) :
    TracedO f filters (some (enter_sum f { s with sum_index := s.sum_index + 1 })) := by
  obtain ⟨hb, hc⟩ := backtrack_of_neg h hn
  have hbefore : ∀ si t, Before s (si :: t) ↔ si ≤ s.sum_index := by
    intro si t
    unfold Before
    rw [hc, hb, lex_lt_single, single_head]
    simp only [decide_eq_true_eq, true_and]
    omega
  unfold enter_sum
  dsimp only
  by_cases h1 : s.sum_index + 1 < (if f.first_sum_only then 1 else f.word_count)
  · rw [if_pos h1]
    by_cases h2 : s.sum_index + 1 < f.word_count
    · rw [if_pos h2]
      refine ⟨T.sorted, ?_, T.args⟩
      intro si t
      show (si :: t) ∈ s.calls.map Call.key ↔ _
      rw [T.mem si t, hbefore]
      unfold Before FindState.cursor FindState.chosen FindState.depth
      simp only [Bool.false_eq_true, if_false, Int.toNat_zero, List.take_zero, false_and,
        or_false, lex_lt_single, decide_eq_true_eq]
      constructor
      · rintro ⟨hv, hle⟩; exact ⟨hv, by omega⟩
      · rintro ⟨hv, hle⟩; exact ⟨hv, by omega⟩
    · rw [if_neg h2]; trivial
  · rw [if_neg h1]
    refine ⟨T.sorted, ?_, T.args⟩
    intro si t
    rw [T.mem si t, hbefore]
    constructor
    · rintro ⟨hv, _⟩; exact hv
    · intro hv
      refine ⟨hv, ?_⟩
      have := (valid_tuple_facts hv).1
      omega

theorem words_of_shape {f : Finder} {filters : Bool} {s : FindState}
    (h : Shape f filters s) (hk : s.smnd_index = f.summand_count) (h0 : f.summand_count ≠ 0)
    (n d : Nat) (pr : List Line) : call_args f (call_of s n d pr) := by
  have hb : s.backtrack = false := by
    cases hb : s.backtrack with
    | false => rfl
    | true => have := h.bt_hi hb; omega
  have hd : s.depth = f.summand_count := depth_forward hk hb
  refine ⟨?_, ?_, ?_⟩
  · apply List.ext_getElem
    · simp only [call_of, List.length_map]
      rw [h.len_ptrs, h.len_index]
    · intro i h1 h2
      have hi : i < f.summand_count := by
        simp only [call_of] at h1; rw [h.len_ptrs] at h1; exact h1
      have hm := (h.maps i (by rw [hd]; exact hi)).2.2.1
      simp only [call_of, List.getElem_map]
      have hi1 : i < s.smnd_word_ptrs.length := by rw [h.len_ptrs]; exact hi
      have hi2 : i < s.smnd_word_index.length := by rw [h.len_index]; exact hi
      have e1 : s.smnd_word_ptrs.getD i [] = s.smnd_word_ptrs[i] := List.getD_eq_getElem _ _ hi1
      have e2 : s.smnd_word_index.getD i 0 = s.smnd_word_index[i] :=
        List.getD_eq_getElem _ _ hi2
      rw [← e1, hm, e2]
  · apply List.ext_getElem
    · simp only [call_of, List.length_map]
      rw [h.len_lengths, h.len_index]
    · intro i h1 h2
      have hi : i < f.summand_count := by
        simp only [call_of] at h1; rw [h.len_lengths] at h1; exact h1
      have hm := (h.maps i (by rw [hd]; exact hi)).2.1
      simp only [call_of, List.getElem_map]
      have hi1 : i < s.smnd_word_lengths.length := by rw [h.len_lengths]; exact hi
      have hi2 : i < s.smnd_word_index.length := by rw [h.len_index]; exact hi
      have e1 : s.smnd_word_lengths.getD i 0 = s.smnd_word_lengths[i] := List.getD_eq_getElem _ _ hi1
      have e2 : s.smnd_word_index.getD i 0 = s.smnd_word_index[i] :=
        List.getD_eq_getElem _ _ hi2
      rw [← e1, hm, e2]
  · have hm := (h.maps (f.summand_count - 1) (by rw [hd]; omega)).2.2.2
    simp only [call_of]
    have e1 : (s.smnd_index - 1).toNat = f.summand_count - 1 := by rw [hk]; omega
    have e2 : f.summand_count - 1 + 1 = f.summand_count := by omega
    rw [e1, hm, e2, List.take_of_length_le (by rw [h.len_index])]

theorem traced_after_solve {f : Finder} {filters : Bool} {s : FindState}
    (h : Shape f filters s) (T : Traced f filters s) (hk : s.smnd_index = f.summand_count)
    (h0 : f.summand_count ≠ 0) (n d : Nat) (pr : List Line) :
    Traced f filters (after_solve f s n d pr) := by
  have hb : s.backtrack = false := by
    cases hb : s.backtrack with
    | false => rfl
    | true => have := h.bt_hi hb; omega
  have hd : s.depth = f.summand_count := depth_forward hk hb
  have hch : s.chosen = s.smnd_word_index := by
    unfold FindState.chosen
    rw [hd, List.take_of_length_le (by rw [h.len_index])]
  have hcur : s.cursor = s.sum_index :: s.smnd_word_index := by
    unfold FindState.cursor; rw [hch]
  have hcur' : (after_solve f s n d pr).cursor = s.sum_index :: s.smnd_word_index := by
    have hd' : (after_solve f s n d pr).depth = f.summand_count := by
      simp only [after_solve, FindState.depth, hk, if_true]
      omega
    unfold FindState.cursor FindState.chosen
    rw [hd']
    simp only [after_solve]
    rw [List.take_of_length_le (by rw [h.len_index])]
  have hvalid : valid_tuple f filters s.sum_index s.smnd_word_index = true := by
    have hc := h.chain
    rw [hch] at hc
    simp only [valid_tuple, Bool.and_eq_true, decide_eq_true_eq]
    exact ⟨⟨⟨h.si_lim, h.si_lt⟩, h.len_index⟩, hc⟩
  have hkey : (call_of s n d pr).key = s.sum_index :: s.smnd_word_index := rfl
  have hcalls : (after_solve f s n d pr).calls.map Call.key
      = s.calls.map Call.key ++ [s.sum_index :: s.smnd_word_index] := by
    simp only [after_solve, List.map_append, List.map_cons, List.map_nil, hkey]
  refine ⟨?_, ?_, ?_⟩
  · rw [hcalls, List.pairwise_append]
    refine ⟨T.sorted, List.pairwise_singleton _ _, ?_⟩
    intro a ha b hb'
    rw [List.mem_singleton] at hb'
    subst hb'
    obtain ⟨c, hc, rfl⟩ := List.mem_map.1 ha
    have hm := (T.mem c.sum_index c.indices).1 (List.mem_map.2 ⟨c, hc, rfl⟩)
    rcases hm.2 with h1 | ⟨h1, _⟩
    · rw [hcur] at h1; exact h1
    · rw [hb] at h1; cases h1
  · intro si t
    rw [hcalls, List.mem_append, List.mem_singleton, T.mem si t]
    unfold Before
    rw [hcur, hcur', hb]
    have hbt : (after_solve f s n d pr).backtrack = true := rfl
    rw [hbt]
    simp only [Bool.false_eq_true, false_and, or_false, true_and]
    constructor
    · rintro (⟨hv, hl⟩ | he)
      · exact ⟨hv, Or.inl hl⟩
      · obtain ⟨e1, e2⟩ := List.cons.inj he
        subst e1 e2
        exact ⟨hvalid, Or.inr (List.prefix_refl _)⟩
    · rintro ⟨hv, hl | hp⟩
      · exact Or.inl ⟨hv, hl⟩
      · right
        have hlen : (s.sum_index :: s.smnd_word_index).length = (si :: t).length := by
          rw [valid_key_length hv, List.length_cons, h.len_index]
        exact (List.IsPrefix.eq_of_length hp hlen).symm
  · intro c hc
    simp only [after_solve, List.mem_append, List.mem_singleton] at hc
    rcases hc with hc | rfl
    · exact T.args c hc
    · exact words_of_shape h hk h0 n d pr

theorem find_step_traced {u : Nat → Uninit} {fuel : Nat} {f : Finder} {filters : Bool}
    {s : FindState} (h : Shape f filters s) (T : Traced f filters s) :
    TracedO f filters (find_step u fuel f filters s) := by
  refine find_step_elim (motive := TracedO f filters) ?_ ?_ ?_ ?_ ?_ ?_ ?_ ?_
  · intro hn; exact traced_enter_sum h T hn
  · intro _ _; trivial
  · intro _ _ _; trivial
  · intro _ _ _; trivial
  · intro n d pr hk h0 _; exact traced_after_solve h T hk h0 n d pr
  · intro h0 hk hf; exact traced_retreat h T h0 hk hf
  · intro h0 _ _ hlt; exact traced_advance h T h0 hlt
  · intro _ _ _ _; trivial

theorem find_run_traced {u : Nat → Uninit} {fuel : Nat} {f : Finder} {filters : Bool}
    (n : Nat) (s : FindState) (o : FindOutcome) (h : Shape f filters s)
    (T : Traced f filters s) (hr : find_run u fuel f filters n s = some o) :
    TracedO f filters (some (.halted o)) := by
  induction n generalizing s with
  | zero => cases hr
  | succ n ih =>
    unfold find_run at hr
    have h1 := @find_step_shape u fuel f filters s h
    have h2 := @find_step_traced u fuel f filters s h T
    cases hs : find_step u fuel f filters s with
    | none => rw [hs] at hr; cases hr
    | some c =>
      rw [hs] at hr h1 h2
      cases c with
      | halted o' =>
        simp only [Option.some.injEq] at hr
        subst hr
        exact h2
      | running s' => exact ih s' h1 h2 hr

theorem traced_init (h : Fresh) (f : Finder) (filters : Bool) :
    TracedO f filters (some (enter_sum f (find_init h f))) := by
  unfold enter_sum
  by_cases h1 : (find_init h f).sum_index < (if f.first_sum_only then 1 else f.word_count)
  · rw [if_pos h1]
    by_cases h2 : (find_init h f).sum_index < f.word_count
    · rw [if_pos h2]
      refine ⟨List.Pairwise.nil, ?_, ?_⟩
      · intro si t
        unfold Before FindState.cursor FindState.chosen FindState.depth
        simp only [find_init, List.map_nil, List.not_mem_nil, Bool.false_eq_true, if_false,
          Int.toNat_zero, List.take_zero, false_and, or_false, lex_lt_single,
          decide_eq_true_eq, false_iff, not_and]
        intro _; omega
      · intro c hc; simp [find_init] at hc
    · rw [if_neg h2]; trivial
  · rw [if_neg h1]
    refine ⟨List.Pairwise.nil, ?_, ?_⟩
    · intro si t
      simp only [find_init, List.map_nil, List.not_mem_nil, false_iff]
      intro hv
      have := (valid_tuple_facts hv).1
      simp only [find_init] at h1
      omega
    · intro c hc; simp [find_init] at hc

/-- The invocations of a finished search for puzzles are the tuples to try,
each once, in increasing order. -/
theorem find_puzzles_complete {u : Nat → Uninit} {h : Fresh} {fuel steps : Nat} {f : Finder}
    {filters : Bool} {g t : Nat} {o : List Report} {c : List Call}
    (hr : find_puzzles u h fuel steps f filters = some (.returned g t o c)) :
    Complete f filters c := by
  unfold find_puzzles at hr
  have h1 := @shape_enter_sum f filters _ (find_init_lens h f)
  have h2 := traced_init h f filters
  cases he : enter_sum f (find_init h f) with
  | halted o' =>
    rw [he] at hr h2
    simp only [Option.some.injEq] at hr
    subst hr
    exact h2
  | running s =>
    rw [he] at hr h1 h2
    exact find_run_traced steps s _ h1 h2 hr

theorem chain_ok_lt (f : Finder) (filters : Bool) (si : Nat) (l : List Nat) (lo m : Nat)
    (h : chain_ok f filters si lo m l = true) : ∀ x ∈ l, x < f.word_count := by
  induction l generalizing lo m with
  | nil => intro x hx; cases hx
  | cons y ys ih =>
    simp only [chain_ok, word_ok, Bool.and_eq_true, decide_eq_true_eq] at h
    intro x hx
    rcases List.mem_cons.1 hx with rfl | hx
    · exact h.1.2.1.1
    · exact ih _ _ h.2 x hx

theorem cursor_lt {f : Finder} {filters : Bool} {s : FindState} (h : Shape f filters s) :
    ∀ x ∈ s.cursor, x < f.word_count := by
  intro x hx
  rcases List.mem_cons.1 hx with rfl | hx
  · exact h.si_lt
  · exact chain_ok_lt f filters _ _ _ _ h.chain x hx

theorem find_rank_bound {f : Finder} {filters : Bool} {s : FindState} (h : Shape f filters s) :
    0 ≤ find_rank f s ∧ find_rank f s ≤ (2 * (f.word_count : Int) + 2) ^ (f.summand_count + 1) := by
  unfold find_rank
  apply score_bound _ (by omega)
  · intro e he
    obtain ⟨x, hx, rfl⟩ := List.mem_map.1 he
    have := cursor_lt h x hx
    omega
  · rw [List.length_map, cursor_length h]
    have : s.depth ≤ f.summand_count := by
      unfold FindState.depth
      have := h.hi
      have := h.lo
      cases hb : s.backtrack with
      | false => simp only [Bool.false_eq_true, if_false]; omega
      | true => have := h.bt_hi hb; simp only [if_true]; omega
    omega

theorem cursor_split {f : Finder} {filters : Bool} {s : FindState} {j : Nat}
    (h : Shape f filters s) (hj : s.smnd_index = j) :
    s.cursor = (s.sum_index :: s.smnd_word_index.take j)
      ++ (if s.backtrack then [s.smnd_word_index.getD j 0] else []) := by
  unfold FindState.cursor
  cases hb : s.backtrack with
  | false => rw [chosen_forward hj hb]; simp
  | true => rw [chosen_backtrack h hj hb]; simp

theorem rises_retreat {f : Finder} {filters : Bool} {s : FindState}
    (h : Shape f filters s) (h0 : 0 ≤ s.smnd_index) (hk : s.smnd_index ≠ f.summand_count) :
    find_rank f s < find_rank f s.retreat := by
  obtain ⟨j, hj⟩ := Int.eq_ofNat_of_zero_le h0
  have hjk : j < f.summand_count := by have := h.hi; omega
  have hlen : j ≤ s.smnd_word_index.length := by rw [h.len_index]; omega
  unfold find_rank
  rw [retreat_cursor hj, cursor_split h hj]
  have hbt : s.retreat.backtrack = true := rfl
  rw [hbt]
  cases hb : s.backtrack with
  | false =>
    simp only [Bool.false_eq_true, if_false, List.append_nil]
    exact score_fail _ (by omega) _ _
  | true =>
    simp only [if_true, List.map_append, List.map_cons, List.map_nil]
    apply score_pop _ (by omega)
    · rw [List.length_cons, List.length_map, List.length_take, min_eq_left hlen]
      omega
    · have := cursor_lt h (s.smnd_word_index.getD j 0) (by
        rw [cursor_split h hj, hb]
        simp)
      omega

theorem rises_advance {f : Finder} {filters : Bool} {s : FindState}
    (h : Shape f filters s) (h0 : 0 ≤ s.smnd_index)
    (hlt : s.smnd_index.toNat < f.summand_count) :
    find_rank f s < find_rank f (advance f s (found_index f filters s)) := by
  obtain ⟨j, hj⟩ := Int.eq_ofNat_of_zero_le h0
  have hjk : j < f.summand_count := by rw [hj] at hlt; simpa using hlt
  have hlen : j ≤ s.smnd_word_index.length := by rw [h.len_index]; omega
  obtain ⟨s1, _, _⟩ := found_index_spec f filters s
  unfold find_rank
  rw [advance_cursor h hj hjk, cursor_split h hj]
  have hbt : (advance f s (found_index f filters s)).backtrack = false := rfl
  rw [hbt]
  cases hb : s.backtrack with
  | false =>
    simp only [Bool.false_eq_true, if_false, List.append_nil, List.map_append, List.map_cons,
      List.map_nil]
    apply score_ext _ (by omega)
    · rw [List.length_cons, List.length_map, List.length_take, min_eq_left hlen]
      omega
    · omega
  | true =>
    simp only [if_true, List.map_append, List.map_cons, List.map_nil]
    apply score_retry _ (by omega)
    rw [start_index_backtrack hj hb] at s1
    omega

theorem rises_after_solve {f : Finder} {filters : Bool} {s : FindState}
    (h : Shape f filters s) (hk : s.smnd_index = f.summand_count) (n d : Nat)
    (pr : List Line) : find_rank f s < find_rank f (after_solve f s n d pr) := by
  have hb : s.backtrack = false := by
    cases hb : s.backtrack with
    | false => rfl
    | true => have := h.bt_hi hb; omega
  have hd : s.depth = f.summand_count := depth_forward hk hb
  have hcur' : (after_solve f s n d pr).cursor = s.cursor := by
    have hd' : (after_solve f s n d pr).depth = f.summand_count := by
      simp only [after_solve, FindState.depth, hk, if_true]
      omega
    unfold FindState.cursor FindState.chosen
    rw [hd', hd]
    rfl
  unfold find_rank
  have hbt : (after_solve f s n d pr).backtrack = true := rfl
  rw [hcur', hbt, hb]
  exact score_fail _ (by omega) _ _

theorem rises_enter_sum {f : Finder} {filters : Bool} {s : FindState}
    (h : Shape f filters s) (hn : s.smnd_index < 0) :
    RisesO f s (some (enter_sum f { s with sum_index := s.sum_index + 1 })) := by
  obtain ⟨hb, hc⟩ := backtrack_of_neg h hn
  unfold enter_sum
  dsimp only
  by_cases h1 : s.sum_index + 1 < (if f.first_sum_only then 1 else f.word_count)
  · rw [if_pos h1]
    by_cases h2 : s.sum_index + 1 < f.word_count
    · rw [if_pos h2]
      show find_rank f s < find_rank f _
      unfold find_rank
      rw [hc, hb]
      have e : ({ s with sum_index := s.sum_index + 1, smnd_index := 0, backtrack := false }
          : FindState).cursor = [s.sum_index + 1] := by
        simp [FindState.cursor, FindState.chosen, FindState.depth]
      rw [e]
      have := score_retry (2 * (f.word_count : Int) + 2) (by omega) (f.summand_count + 1) []
        (2 * ((s.sum_index : Int) + 1)) (2 * (((s.sum_index + 1 : Nat) : Int) + 1))
        (by push_cast; omega)
      simpa using this
    · rw [if_neg h2]; trivial
  · rw [if_neg h1]; trivial

theorem find_step_rises {u : Nat → Uninit} {fuel : Nat} {f : Finder} {filters : Bool}
    {s : FindState} (h : Shape f filters s) :
    RisesO f s (find_step u fuel f filters s) := by
  refine find_step_elim (motive := RisesO f s) ?_ ?_ ?_ ?_ ?_ ?_ ?_ ?_
  · intro hn; exact rises_enter_sum h hn
  · intro _ _; trivial
  · intro _ _ _; trivial
  · intro _ _ _; trivial
  · intro n d pr hk _ _; exact rises_after_solve h hk n d pr
  · intro h0 hk _; exact rises_retreat h h0 hk
  · intro h0 _ _ hlt; exact rises_advance h h0 hlt
  · intro _ _ _ _; trivial

theorem valid_of_shape {f : Finder} {filters : Bool} {s : FindState}
    (h : Shape f filters s) (hk : s.smnd_index = f.summand_count) :
    valid_tuple f filters s.sum_index s.smnd_word_index = true := by
  have hb : s.backtrack = false := by
    cases hb : s.backtrack with
    | false => rfl
    | true => have := h.bt_hi hb; omega
  have hd : s.depth = f.summand_count := depth_forward hk hb
  have hch : s.chosen = s.smnd_word_index := by
    unfold FindState.chosen
    rw [hd, List.take_of_length_le (by rw [h.len_index])]
  have hc := h.chain
  rw [hch] at hc
  simp only [valid_tuple, Bool.and_eq_true, decide_eq_true_eq]
  exact ⟨⟨⟨h.si_lim, h.si_lt⟩, h.len_index⟩, hc⟩

/-- The invocation in a state with all places filled is the engine on the
indices chosen. -/
theorem solve_eq_engine {u : Nat → Uninit} {fuel : Nat} {f : Finder} {filters : Bool}
    {s : FindState} (h : Shape f filters s) (hk : s.smnd_index = f.summand_count)
    (h0 : f.summand_count ≠ 0) :
    solve (u s.calls.length) fuel s.smnd_word_ptrs f.summand_count s.smnd_word_lengths
        (s.longest_smnd.getD (s.smnd_index - 1).toNat 0) (f.words.getD s.sum_index [])
        f.base false false
      = engine u fuel f s.calls.length s.sum_index s.smnd_word_index := by
  obtain ⟨a1, a2, a3⟩ := words_of_shape h hk h0 0 0 []
  simp only [call_of] at a1 a2 a3
  unfold engine
  rw [← a1, ← a2, ← a3]

theorem enter_sum_no_fault {f : Finder} {s : FindState}
    (h : s.sum_index < (if f.first_sum_only then 1 else f.word_count) →
      s.sum_index < f.word_count) :
    no_fault (some (enter_sum f s)) := by
  unfold enter_sum
  by_cases h1 : s.sum_index < (if f.first_sum_only then 1 else f.word_count)
  · rw [if_pos h1, if_pos (h h1)]; trivial
  · rw [if_neg h1]; trivial

theorem limit_le (f : Finder) (hW : 1 ≤ f.word_count) (x : Nat)
    (h : x < (if f.first_sum_only then 1 else f.word_count)) : x < f.word_count := by
  split_ifs at h <;> omega

theorem find_step_no_fault {u : Nat → Uninit} {fuel : Nat} {f : Finder} {filters : Bool}
    {s : FindState} (h : Shape f filters s) (hk1 : 1 ≤ f.summand_count)
    (H : ∀ i si t, valid_tuple f filters si t = true → engine u fuel f i si t ≠ some .fault) :
    no_fault (find_step u fuel f filters s) := by
  refine find_step_elim (motive := no_fault) ?_ ?_ ?_ ?_ ?_ ?_ ?_ ?_
  · intro _
    have hW : 1 ≤ f.word_count := by have := h.si_lt; omega
    exact enter_sum_no_fault (limit_le f hW _)
  · intro _ h0; omega
  · intro _ _ _; trivial
  · intro hk h0 hr
    rw [solve_eq_engine h hk h0] at hr
    exact H _ _ _ (valid_of_shape h hk) hr
  · intro _ _ _ _ _ _; trivial
  · intro _ _ _; trivial
  · intro _ _ _ _; trivial
  · intro h0 hk _ hn; exact hn (shape_no_overrun h h0 hk)

theorem find_step_answered {u : Nat → Uninit} {fuel : Nat} {f : Finder} {filters : Bool}
    {s : FindState} (h : Shape f filters s)
    (H : ∀ i si t, valid_tuple f filters si t = true → engine u fuel f i si t ≠ none) :
    answered (find_step u fuel f filters s) := by
  refine find_step_elim (motive := answered) ?_ ?_ ?_ ?_ ?_ ?_ ?_ ?_
  · intro _; trivial
  · intro _ _; trivial
  · intro hk h0 hr
    rw [solve_eq_engine h hk h0] at hr
    exact H _ _ _ (valid_of_shape h hk) hr
  · intro _ _ _; trivial
  · intro _ _ _ _ _ _; trivial
  · intro _ _ _; trivial
  · intro _ _ _ _; trivial
  · intro _ _ _ _; trivial

/-- Termination of the search for puzzles: when every invocation of `solve`
on a tuple to try ends within `fuel` slot transitions, the search ends within
the number of ranks left. -/
theorem find_run_ends {u : Nat → Uninit} {fuel : Nat} {f : Finder} {filters : Bool}
    (H : ∀ i si t, valid_tuple f filters si t = true → engine u fuel f i si t ≠ none)
    (n : Nat) (s : FindState) (h : Shape f filters s)
    (hn : ((2 * (f.word_count : Int) + 2) ^ (f.summand_count + 1) - find_rank f s).toNat < n) :
    ∃ o, find_run u fuel f filters n s = some o := by
  induction n generalizing s with
  | zero => omega
  | succ n ih =>
    unfold find_run
    have h1 := @find_step_shape u fuel f filters s h
    have h2 := @find_step_rises u fuel f filters s h
    have h3 := @find_step_answered u fuel f filters s h H
    cases hs : find_step u fuel f filters s with
    | none => rw [hs] at h3; exact h3.elim
    | some c =>
      rw [hs] at h1 h2
      cases c with
      | halted o => exact ⟨o, rfl⟩
      | running s' =>
        have hb := (find_rank_bound h1).2
        have h2' : find_rank f s < find_rank f s' := h2
        exact ih s' h1 (by omega)

theorem find_run_no_fault {u : Nat → Uninit} {fuel : Nat} {f : Finder} {filters : Bool}
    (hk1 : 1 ≤ f.summand_count)
    (H : ∀ i si t, valid_tuple f filters si t = true → engine u fuel f i si t ≠ some .fault)
    (n : Nat) (s : FindState) (h : Shape f filters s) :
    find_run u fuel f filters n s ≠ some .fault := by
  induction n generalizing s with
  | zero => intro hh; cases hh
  | succ n ih =>
    unfold find_run
    have h1 := @find_step_shape u fuel f filters s h
    have h3 := @find_step_no_fault u fuel f filters s h hk1 H
    cases hs : find_step u fuel f filters s with
    | none => intro hh; cases hh
    | some c =>
      rw [hs] at h1 h3
      cases c with
      | halted o =>
        cases o with
        | fault => exact h3.elim
        | returned _ _ _ _ => intro hh; cases hh
      | running s' => exact ih s' h1

theorem find_bound_cast (f : Finder) :
    ((find_bound f : Nat) : Int) = (2 * (f.word_count : Int) + 2) ^ (f.summand_count + 1) + 1 := by
  unfold find_bound
  push_cast
  rfl

theorem find_run_more {u : Nat → Uninit} {fuel : Nat} {f : Finder} {filters : Bool}
    (n k : Nat) (s : FindState) (o : FindOutcome)
    (h : find_run u fuel f filters n s = some o) :
    find_run u fuel f filters (n + k) s = some o := by
  induction n generalizing s with
  | zero => cases h
  | succ n ih =>
    rw [Nat.add_right_comm]
    unfold find_run at h ⊢
    cases hs : find_step u fuel f filters s with
    | none => rw [hs] at h; cases h
    | some c =>
      rw [hs] at h
      cases c with
      | halted o' => exact h
      | running s' => exact ih s' h

/-- The search for puzzles ends, in a fault or with its counts, within
`find_bound` transitions when every invocation of `solve` on a tuple to try
ends within `fuel` slot transitions. -/
theorem find_puzzles_ends {u : Nat → Uninit} {h : Fresh} {fuel : Nat} {f : Finder}
    {filters : Bool}
    (H : ∀ i si t, valid_tuple f filters si t = true → engine u fuel f i si t ≠ none)
    (steps : Nat) (hs : find_bound f ≤ steps) :
    ∃ o, find_puzzles u h fuel steps f filters = some o := by
  unfold find_puzzles
  have h1 := @shape_enter_sum f filters _ (find_init_lens h f)
  cases he : enter_sum f (find_init h f) with
  | halted o => exact ⟨o, rfl⟩
  | running s =>
    rw [he] at h1
    have hb := find_rank_bound h1
    have hc := find_bound_cast f
    have hs' : ((find_bound f : Nat) : Int) ≤ (steps : Int) := by exact_mod_cast hs
    rw [hc] at hs'
    exact find_run_ends H steps s h1 (by omega)

/-- The search for puzzles returns its counts within `find_bound` transitions
when there is at least one summand and one word and every invocation of
`solve` on a tuple to try returns within `fuel` slot transitions; the
invocations are then the tuples to try, each once and in increasing order, and
the counts and the output agree with them. -/
theorem find_puzzles_returns {u : Nat → Uninit} {h : Fresh} {fuel : Nat} {f : Finder}
    {filters : Bool} (hk1 : 1 ≤ f.summand_count) (hW : 1 ≤ f.word_count)
    (H : ∀ i si t, valid_tuple f filters si t = true →
      ∃ n d pr, engine u fuel f i si t = some (.returned n d pr))
    (steps : Nat) (hs : find_bound f ≤ steps) :
    ∃ g t o c, find_puzzles u h fuel steps f filters = some (.returned g t o c)
      ∧ Complete f filters c ∧ Logged u fuel f g t o c := by
  have H1 : ∀ i si t, valid_tuple f filters si t = true → engine u fuel f i si t ≠ none := by
    intro i si t hv hh
    obtain ⟨n, d, pr, he⟩ := H i si t hv
    rw [he] at hh; cases hh
  have H2 : ∀ i si t, valid_tuple f filters si t = true →
      engine u fuel f i si t ≠ some .fault := by
    intro i si t hv hh
    obtain ⟨n, d, pr, he⟩ := H i si t hv
    rw [he] at hh; cases hh
  obtain ⟨o, ho⟩ := find_puzzles_ends (h := h) H1 steps hs
  cases o with
  | returned g t o c =>
    exact ⟨g, t, o, c, ho, find_puzzles_complete ho, find_puzzles_logged ho⟩
  | fault =>
    exfalso
    unfold find_puzzles at ho
    have h1 := @shape_enter_sum f filters _ (find_init_lens h f)
    have h2 := @enter_sum_no_fault f (find_init h f) (limit_le f hW _)
    cases he : enter_sum f (find_init h f) with
    | halted o' =>
      rw [he] at ho h2
      simp only [Option.some.injEq] at ho
      subst ho
      exact h2
    | running s =>
      rw [he] at ho h1
      exact find_run_no_fault hk1 H2 steps s h1 ho

theorem bit_count_table_spec :
    ∀ x, x < 512 → bit_count_table.getD x 0
      = ((List.range 9).filter fun j => x.testBit j).length := by
  decide!

theorem chunk_count (m c : Nat) :
    bit_count_table.getD ((m >>> c) &&& 0x1ff) 0
      = ((List.range 9).filter fun j => m.testBit (c + j)).length := by
  have e : (0x1ff : Nat) = 2 ^ 9 - 1 := by norm_num
  have hlt : (m >>> c) &&& 0x1ff < 512 := by
    rw [e, Nat.and_pow_two_sub_one_eq_mod]
    exact Nat.mod_lt _ (by norm_num)
  rw [bit_count_table_spec _ hlt]
  congr 1
  apply List.filter_congr
  intro j hj
  rw [List.mem_range] at hj
  rw [Nat.testBit_and, Nat.testBit_shiftRight, e, Nat.testBit_two_pow_sub_one]
  simp [hj]

theorem total_letters_eq (m : Nat) : total_letters bit_count_table m = low_bits m := by
  unfold total_letters low_bits
  have h0 : m &&& 0x1ff = (m >>> 0) &&& 0x1ff := by simp
  rw [h0, chunk_count m 0, chunk_count m 9, chunk_count m 18]
  have hr : List.range 27 = List.range 9 ++ (List.range 9).map (fun x => 9 + x)
      ++ (List.range 9).map (fun x => 18 + x) := by decide
  rw [hr, List.filter_append, List.filter_append, List.length_append, List.length_append,
    List.filter_map, List.filter_map, List.length_map, List.length_map]
  simp only [Nat.zero_add]
  rfl

theorem foldl_or_init (g : Char → Nat) (l : List Char) (m : Nat) :
    l.foldl (fun m c => m ||| g c) m = m ||| l.foldl (fun m c => m ||| g c) 0 := by
  induction l generalizing m with
  | nil => simp
  | cons x xs ih =>
    simp only [List.foldl_cons]
    rw [ih (m ||| g x), ih (0 ||| g x), Nat.zero_or, Nat.or_assoc]

theorem letter_bits_append (a b : List Char) :
    letter_bits (a ++ b) = letter_bits a ||| letter_bits b := by
  unfold letter_bits
  rw [List.foldl_append, foldl_or_init]

theorem letter_bits_testBit (l : List Char) (i : Nat) :
    (letter_bits l).testBit i = true ↔ ∃ c ∈ l, c.toNat - ('A' : Char).toNat = i := by
  induction l using List.reverseRecOn with
  | nil => simp [letter_bits]
  | append_singleton l x ih =>
    rw [letter_bits_append, Nat.testBit_or, Bool.or_eq_true, ih]
    have e : letter_bits [x] = 2 ^ (x.toNat - ('A' : Char).toNat) := by
      simp [letter_bits, Nat.one_shiftLeft]
    rw [e, Nat.testBit_two_pow]
    simp only [decide_eq_true_eq, List.mem_append, List.mem_singleton]
    constructor
    · rintro (⟨c, hc, h⟩ | h)
      · exact ⟨c, Or.inl hc, h⟩
      · exact ⟨x, Or.inr rfl, h⟩
    · rintro ⟨c, hc | rfl, h⟩
      · exact Or.inl ⟨c, hc, h⟩
      · exact Or.inr h

theorem upper_code (c : Char) (h : 'A' ≤ c ∧ c ≤ 'Z') : 65 ≤ c.toNat ∧ c.toNat ≤ 90 := by
  have h1 : ('A' : Char).toNat ≤ c.toNat := h.1
  have h2 : c.toNat ≤ ('Z' : Char).toNat := h.2
  have e1 : ('A' : Char).toNat = 65 := rfl
  have e2 : ('Z' : Char).toNat = 90 := rfl
  omega

/-- The number of bits of the letter map of upper-case letters is the
number of distinct letters. -/
theorem low_bits_letter_bits (l : List Char) (h : upper l) :
    low_bits (letter_bits l) = l.dedup.length := by
  unfold low_bits
  have eA : ('A' : Char).toNat = 65 := rfl
  have hperm : (((List.range 27).filter fun i => (letter_bits l).testBit i).map
      fun i => Char.ofNat (i + 65)).Perm l.dedup := by
    rw [List.perm_ext_iff_of_nodup]
    · intro c
      rw [List.mem_map, List.mem_dedup]
      constructor
      · rintro ⟨i, hi, rfl⟩
        rw [List.mem_filter, letter_bits_testBit] at hi
        obtain ⟨_, c, hc, hci⟩ := hi
        have := upper_code c (h c hc)
        have e : i + 65 = c.toNat := by omega
        rw [e, Char.ofNat_toNat]
        exact hc
      · intro hc
        have := upper_code c (h c hc)
        refine ⟨c.toNat - 65, ?_, ?_⟩
        · rw [List.mem_filter, List.mem_range, letter_bits_testBit]
          exact ⟨by omega, c, hc, by rw [eA]⟩
        · have e : c.toNat - 65 + 65 = c.toNat := by omega
          rw [e, Char.ofNat_toNat]
    · apply List.Nodup.map_on
      · intro a ha b hb hab
        rw [List.mem_filter, List.mem_range] at ha hb
        have h1 := ofNat_toNat_small (a + 65) (by omega)
        have h2 := ofNat_toNat_small (b + 65) (by omega)
        rw [hab] at h1
        omega
      · exact List.Nodup.filter _ (List.nodup_range 27)
    · exact List.nodup_dedup l
  rw [← hperm.length_eq, List.length_map]

theorem foldl_range_getD {α β : Type} (h : β → α → β) (w : List α) (d : α) (n : Nat) (a : β)
    (hn : n ≤ w.length) :
    (List.range n).foldl (fun m j => h m (w.getD j d)) a = (w.take n).foldl h a := by
  induction n with
  | zero => simp
  | succ n ih =>
    have hlt : n < w.length := by omega
    rw [List.range_succ, List.foldl_append, ih (by omega), List.take_succ, List.foldl_append]
    simp [List.getD_eq_getElem?_getD, List.getElem?_eq_getElem hlt]

theorem word_letter_map_eq (w : List Char) : word_letter_map w w.length = letter_bits w := by
  unfold word_letter_map letter_bits
  rw [foldl_range_getD (fun m c => m ||| (1 <<< (c.toNat - ('A' : Char).toNat))) w '\x00'
    w.length 0 (le_refl _), List.take_length]

theorem is_word_upper {w : List Char} (h : is_word w = true) : upper w := by
  intro c hc
  simp only [is_word, Bool.and_eq_true, decide_eq_true_eq, List.all_eq_true] at h
  exact h.2 c hc

theorem FinderOK.length_get {f : Finder} (ok : FinderOK f) (x : Nat) :
    f.word_lengths.getD x 0 = (f.words.getD x []).length := by
  rw [ok.lengths_eq, List.getD_eq_getElem?_getD, List.getD_eq_getElem?_getD,
    List.getElem?_map]
  cases f.words[x]? <;> rfl

theorem FinderOK.letters_get {f : Finder} (ok : FinderOK f) (x : Nat) (hx : x < f.word_count) :
    f.letters_used.getD x 0 = letter_bits (f.words.getD x []) := by
  rw [ok.letters_eq]
  unfold letters_used_table
  rw [List.getD_eq_getElem?_getD, List.getElem?_map, List.getElem?_range hx]
  simp only [Option.map_some', Option.getD_some]
  rw [ok.length_get, word_letter_map_eq]

theorem FinderOK.word_get {f : Finder} (ok : FinderOK f) (x : Nat) (hx : x < f.word_count) :
    is_word (f.words.getD x []) = true := by
  apply ok.words_ok
  rw [ok.count_eq] at hx
  rw [List.getD_eq_getElem?_getD, List.getElem?_eq_getElem hx]
  exact List.getElem_mem hx

theorem dedup_length_mono (a b : List Char) (h : a ⊆ b) : a.dedup.length ≤ b.dedup.length := by
  rw [← List.card_toFinset, ← List.card_toFinset]
  apply Finset.card_le_card
  intro x hx
  rw [List.mem_toFinset] at hx ⊢
  exact h hx

theorem upper_append {a b : List Char} (ha : upper a) (hb : upper b) : upper (a ++ b) := by
  intro c hc
  rcases List.mem_append.1 hc with h | h
  · exact ha c h
  · exact hb c h

/-- The tests along a tuple, in the words of the specification. -/
theorem chain_ok_iff {f : Finder} (ok : FinderOK f) (si : Nat) (t : List Nat) (lo : Nat)
    (S : List Char) (hS : upper S) :
    chain_ok f true si lo (letter_bits S) t = true ↔
      ((∀ y ∈ t.head?, lo ≤ y) ∧ t.Chain' (fun a b => a + f.inc ≤ b)
        ∧ (∀ x ∈ t, x < f.word_count ∧ x ≠ si
            ∧ (f.words.getD x []).length ≤ (f.words.getD si []).length)
        ∧ (t ≠ [] →
            (S ++ (t.map fun x => f.words.getD x []).flatten).dedup.length ≤ f.base)) := by
  induction t generalizing lo S with
  | nil => simp [chain_ok]
  | cons x ts ih =>
    by_cases hx : x < f.word_count
    · have hw := is_word_upper (ok.word_get x hx)
      have hS' := upper_append hS hw
      have e1 : letter_bits S ||| f.letters_used.getD x 0
          = letter_bits (S ++ f.words.getD x []) := by
        rw [ok.letters_get x hx, letter_bits_append]
      have e2 : total_letters f.bit_count (letter_bits (S ++ f.words.getD x []))
          = (S ++ f.words.getD x []).dedup.length := by
        rw [ok.bits_eq, total_letters_eq, low_bits_letter_bits _ hS']
      simp only [chain_ok, word_ok, e1, e2, ih (x + f.inc) _ hS', ok.length_get,
        Bool.and_eq_true, decide_eq_true_eq, Bool.not_true, Bool.false_or,
        List.head?_cons, Option.mem_def, Option.some.injEq, forall_eq', List.chain'_cons',
        List.mem_cons, forall_eq_or_imp, ne_eq, not_false_eq_true, true_implies,
        List.map_cons, List.flatten_cons, List.append_assoc, reduceCtorEq]
      constructor
      · rintro ⟨⟨h1, ⟨h2, h3⟩, h4, h5⟩, h6, h7, h8, h9⟩
        refine ⟨h1, ⟨h6, h7⟩, ⟨⟨h2, h3, h4⟩, h8⟩, ?_⟩
        by_cases hts : ts = []
        · subst hts
          simpa using h5
        · exact h9 hts
      · rintro ⟨h1, ⟨h6, h7⟩, ⟨⟨h2, h3, h4⟩, h8⟩, h10⟩
        refine ⟨⟨h1, ⟨h2, h3⟩, h4, ?_⟩, h6, h7, h8, fun _ => h10⟩
        refine le_trans (dedup_length_mono _ _ ?_) h10
        intro c hc
        rcases List.mem_append.1 hc with h | h
        · exact List.mem_append_left _ h
        · exact List.mem_append_right _ (List.mem_append_left _ h)
    · constructor
      · intro h
        simp only [chain_ok, word_ok, Bool.and_eq_true, decide_eq_true_eq] at h
        exact absurd h.1.2.1.1 hx
      · rintro ⟨_, _, h, _⟩
        exact absurd (h x (List.mem_cons_self _ _)).1 hx

/-- The tuples the search tries are the tuples of the specification. -/
theorem valid_tuple_iff {f : Finder} (ok : FinderOK f) (hk : 1 ≤ f.summand_count) (si : Nat)
    (t : List Nat) : valid_tuple f true si t = true ↔ tuple_to_try f si t := by
  unfold valid_tuple tuple_to_try puzzle_letters
  simp only [Bool.and_eq_true, decide_eq_true_eq]
  constructor
  · rintro ⟨⟨⟨h1, h2⟩, h3⟩, h4⟩
    rw [ok.letters_get si h2,
      chain_ok_iff ok si t 0 _ (is_word_upper (ok.word_get si h2))] at h4
    obtain ⟨_, a2, a3, a4⟩ := h4
    refine ⟨h1, h2, h3, a2, a3, a4 ?_⟩
    intro hn
    rw [hn] at h3
    simp at h3
    omega
  · rintro ⟨h1, h2, h3, a2, a3, a4⟩
    refine ⟨⟨⟨h1, h2⟩, h3⟩, ?_⟩
    rw [ok.letters_get si h2,
      chain_ok_iff ok si t 0 _ (is_word_upper (ok.word_get si h2))]
    exact ⟨fun y _ => Nat.zero_le y, a2, a3, fun _ => a4⟩

theorem filterMap_length_of_some {α β : Type} (g : α → Option β) (l : List α)
    (h : ∀ x ∈ l, (g x).isSome = true) : (l.filterMap g).length = l.length := by
  induction l with
  | nil => rfl
  | cons a as ih =>
    have ha := h a (List.mem_cons_self _ _)
    cases hg : g a with
    | none => rw [hg] at ha; cases ha
    | some b =>
      rw [List.filterMap_cons_some hg, List.length_cons, List.length_cons,
        ih (fun x hx => h x (List.mem_cons_of_mem _ hx))]

/-- Under a sum of `L ≥ 1` letters every non-empty summand has a letter in
the last column. -/
theorem last_column_length (done : List (List Char)) (L : Nat) (hL : 1 ≤ L)
    (h : ∀ w ∈ done, w ≠ []) : (column_letters done L (L - 1)).length = done.length := by
  unfold column_letters
  apply filterMap_length_of_some
  intro w hw
  have hpos : 0 < w.length := List.length_pos.mpr (h w hw)
  have e : L - (L - 1) = 1 := by omega
  rw [e, if_pos (show 1 ≤ w.length from hpos)]
  rw [List.get?_eq_getElem?, List.getElem?_eq_getElem (by omega)]
  rfl

/-- The reformatting loops succeed only for at most `MAX_STATIC_SUMMANDS`
summands: the last letter of the seventh summand would be written to row 6 of
the grid. -/
theorem reformat_six {summands : List (List Char)} {summand_count : Nat}
    {summand_lengths : List Nat} {L : Nat} {l l' : Layout}
    (hcount : summand_count = summands.length)
    (hlens : summand_lengths = summands.map List.length)
    (hw : ∀ w ∈ summands, w ≠ [] ∧ w.length ≤ L ∧ (w.getD 0 '\x00').toNat < 128)
    (hL : L ≤ 16) (h0 : LayoutMid [] [] 0 L l)
    (hr : reformat summands summand_count summand_lengths (L : Int) l = some l') :
    summand_count ≤ MAX_STATIC_SUMMANDS := by
  rw [reformat_eq_bind] at hr
  have := foldl_bind_range
    (fun i x => (List.range (summand_lengths.getD i 0)).foldl
      (fun acc j => acc.bind (place_char summands summand_lengths (L : Int) i j)) (some x))
    (fun i x => LayoutMid (summands.take i) [] 0 L x ∧ i ≤ MAX_STATIC_SUMMANDS)
    summand_count l (by simp; exact h0) ?_ l' hr
  · exact this.2
  · intro i x y hi hx hy
    rw [hcount] at hi
    have hmem : summands[i] ∈ summands := List.getElem_mem _
    obtain ⟨w1, w2, w3⟩ := hw _ hmem
    have e1 : summands.getD i [] = summands[i] := List.getD_eq_getElem _ _ hi
    have e2 : summand_lengths.getD i 0 = (summands[i]).length := by
      rw [hlens, List.getD_eq_getElem _ _ (by simpa using hi)]
      simp
    have e3 : summands.take (i + 1) = summands.take i ++ [summands[i]] := by
      rw [List.take_succ, List.getElem?_eq_getElem hi]
      rfl
    refine ⟨?_, ?_⟩
    · rw [e3]
      exact (@LayoutMid.restart _ _ summands[i] _ _ hx.1).word e1 e2 w1 w2 hL w3 hy
    · have hpos : 0 < (summands[i]).length := List.length_pos.mpr w1
      have hL1 : 1 ≤ L := by omega
      have hy' : (List.range (summands[i]).length).foldl
          (fun acc j => acc.bind (place_char summands summand_lengths (L : Int) i j)) (some x)
          = some y := by
        rw [← e2]; exact hy
      have hq := foldl_bind_range
        (fun j => place_char summands summand_lengths (L : Int) i j)
        (fun j z => LayoutMid (summands.take i) summands[i] j L z
          ∧ (j = (summands[i]).length →
              (column_letters (summands.take i) L (L - 1)).length < MAX_STATIC_SUMMANDS))
        (summands[i]).length x
        ⟨@LayoutMid.restart _ _ summands[i] _ _ hx.1, fun hh => by omega⟩ ?_ y hy'
      · have h6 := hq.2 rfl
        rw [last_column_length _ L hL1
          (fun w hw' => (hw w (List.mem_of_mem_take hw')).1)] at h6
        rw [List.length_take, min_eq_left (by omega)] at h6
        omega
      · intro j z z' hj hz hz'
        refine ⟨hz.1.place e1 e2 hj w2 hL w3 hz', ?_⟩
        intro hjl
        have hb := (place_char_some hz').1.2
        rw [e2] at hb
        have hcol : (L : Int) - (((summands[i]).length : Int) - (j : Int))
            = ((L - 1 : Nat) : Int) := by omega
        rw [hcol] at hb
        have hcl := hz.1.col_len (L - 1) (by omega)
        have hnot : ¬ (L - (summands[i]).length ≤ L - 1
            ∧ L - 1 < L - (summands[i]).length + j) := by omega
        rw [if_neg hnot, Nat.add_zero] at hcl
        unfold iget at hb
        rw [Int.toNat_ofNat, hcl] at hb
        unfold summand_index at hb
        simp only [MAX_LEN_SHIFT, MAX_LEN, MAX_STATIC_SUMMANDS] at hb ⊢
        omega

/-- On a validated call with more than `MAX_STATIC_SUMMANDS` summands, none
longer than the sum, `solve` writes outside `static_summands` while it
reformats the summands, whatever the uninitialised storage holds and for every
`fuel`. -/
theorem many_summands_fault (u : Uninit) (fuel : Nat) (summands : List (List Char))
    (summand_count : Nat) (summand_lengths : List Nat) (longest_summand : Nat)
    (sum : List Char) (base : Nat) (print just_one : Bool)
    (hv : valid_instance summands summand_count summand_lengths longest_summand sum base
      = true)
    (hmany : MAX_STATIC_SUMMANDS < summand_count) (hlong : longest_summand ≤ sum.length) :
    solve u fuel summands summand_count summand_lengths longest_summand sum base print
      just_one = some .fault := by
  have V := valid_instance_facts hv
  obtain ⟨s1, s2, s3⟩ := is_word_spec V.sum_word
  unfold solve prepare
  simp only
  have h1 : ¬ (sum.length > MAX_LEN ∨ longest_summand > MAX_LEN) := by omega
  have h2 : ¬ longest_summand > sum.length := by omega
  rw [if_neg h1, if_neg h2]
  have hlongest : ∀ w ∈ summands, w.length ≤ sum.length := by
    intro w hw
    have := (le_foldl_max (summands.map List.length) 0).2 w.length
      (List.mem_map_of_mem _ hw)
    rw [← V.longest_eq] at this
    omega
  have hL16 : sum.length ≤ 16 := by simpa [MAX_LEN] using s2
  have hwords : ∀ w ∈ summands, w ≠ [] ∧ w.length ≤ sum.length
      ∧ (w.getD 0 '\x00').toNat < 128 := by
    intro w hw
    obtain ⟨w1, _, w3⟩ := is_word_spec (V.words w hw)
    refine ⟨w1, hlongest w hw, ?_⟩
    have : w.getD 0 '\x00' ∈ w := by
      rw [List.getD_eq_getElem _ _ (List.length_pos.mpr w1)]
      exact List.getElem_mem _
    exact (w3 _ this).2
  cases hr : reformat summands summand_count summand_lengths (sum.length : Int)
      (sum.foldl note_letter
        { letter_used := List.replicate 128 0
          total_letters_used := 0
          column_lengths := List.replicate (MAX_LEN + 1) 0
          reform_smnds := (List.range (MAX_LEN * MAX_STATIC_SUMMANDS)).map u.static_summands
          zero_or_one_start := List.replicate 128 0 }) with
  | none => rfl
  | some l2 =>
    have := reformat_six V.count_eq V.lengths_eq hwords hL16 (layout_initial u sum sum.length) hr
    omega

theorem prefix_path_length_le (summands : List (List Char)) (sum : List Char) (L c : Nat) :
    (prefix_path sum (columns summands L) c).length ≤ c * (summands.length + 1) := by
  induction c with
  | zero => simp [prefix_path]
  | succ c ih =>
    rw [prefix_path_succ, List.length_append]
    have hcol : (col_path sum (columns summands L) c).length ≤ summands.length + 1 := by
      unfold col_path
      rw [List.length_cons, List.length_reverse]
      have : ((columns summands L).getD c []).length ≤ summands.length := by
        unfold columns
        rw [List.getD_eq_getElem?_getD, List.getElem?_map]
        cases h : (List.range L)[c]? with
        | none => simp
        | some x =>
          simp only [Option.map_some', Option.getD_some]
          unfold column_letters
          exact List.length_filterMap_le _ _
      omega
    rw [Nat.succ_mul]
    omega

theorem fuel_bound_le (summands : List (List Char)) (sum : List Char) (base : Nat)
    (hL : sum.length ≤ MAX_LEN) :
    fuel_bound summands sum base ≤ (2 * base + 2) ^ (MAX_LEN * (summands.length + 1)) + 1 := by
  unfold fuel_bound
  apply Nat.add_le_add_right
  apply Nat.pow_le_pow_right (by omega)
  refine le_trans (prefix_path_length_le summands sum sum.length sum.length) ?_
  exact Nat.mul_le_mul_right _ hL

theorem chain_ok_weaken (f : Finder) (si : Nat) (t : List Nat) (lo m : Nat) (filters : Bool)
    (h : chain_ok f filters si lo m t = true) :
    ∀ x ∈ t, x < f.word_count ∧ x ≠ si := by
  induction t generalizing lo m with
  | nil => intro x hx; cases hx
  | cons y ys ih =>
    simp only [chain_ok, word_ok, Bool.and_eq_true, decide_eq_true_eq] at h
    intro x hx
    rcases List.mem_cons.1 hx with rfl | hx
    · exact ⟨h.1.2.1.1, h.1.2.1.2⟩
    · exact ih _ _ h.2 x hx

/-- The invocation of `solve` on a tuple to try is a validated call. -/
theorem tuple_valid_instance {f : Finder} (ok : FinderOK f) (hb : 2 ≤ f.base)
    (hb' : f.base ≤ MAX_BASE) (hk1 : 1 ≤ f.summand_count) {filters : Bool} {si : Nat}
    {t : List Nat} (hv : valid_tuple f filters si t = true) :
    valid_instance (t.map fun x => f.words.getD x []) f.summand_count
      (t.map fun x => f.word_lengths.getD x 0) (longest_of f t) (f.words.getD si []) f.base
      = true := by
  obtain ⟨_, v2, v3, v4⟩ := valid_tuple_facts hv
  have hmem := chain_ok_weaken f si t _ _ filters v4
  simp only [valid_instance, Bool.and_eq_true, decide_eq_true_eq, List.all_eq_true]
  refine ⟨⟨⟨⟨⟨⟨⟨hb, hb'⟩, hk1⟩, ?_⟩, ?_⟩, ?_⟩, ok.word_get si v2⟩, ?_⟩
  · rw [List.length_map, v3]
  · rw [List.map_map]
    apply List.map_congr_left
    intro x _
    exact ok.length_get x
  · unfold longest_of
    rw [List.map_map]
    congr 1
    apply List.map_congr_left
    intro x _
    exact ok.length_get x
  · intro w hw
    obtain ⟨x, hx, rfl⟩ := List.mem_map.1 hw
    exact ok.word_get x (hmem x hx).1

/-- With at most `MAX_STATIC_SUMMANDS` summands and words shorter than
`MAX_LEN`, every invocation of `solve` on a tuple to try returns within
`engine_fuel` slot transitions. -/
theorem engine_returns {f : Finder} (ok : FinderOK f) (hb : 2 ≤ f.base)
    (hb' : f.base ≤ MAX_BASE) (hk1 : 1 ≤ f.summand_count)
    (hk6 : f.summand_count ≤ MAX_STATIC_SUMMANDS)
    (hshort : ∀ w ∈ f.words, w.length < MAX_LEN) (u : Nat → Uninit) (fuel : Nat)
    (hfuel : engine_fuel f ≤ fuel) (filters : Bool) (i si : Nat) (t : List Nat)
    (hv : valid_tuple f filters si t = true) :
    ∃ n d pr, engine u fuel f i si t = some (.returned n d pr) := by
  have hvi := tuple_valid_instance ok hb hb' hk1 hv
  obtain ⟨_, v2, v3, _⟩ := valid_tuple_facts hv
  have hsum : (f.words.getD si []).length < MAX_LEN := by
    apply hshort
    have hx : si < f.words.length := by rw [← ok.count_eq]; exact v2
    rw [List.getD_eq_getElem?_getD, List.getElem?_eq_getElem hx]
    exact List.getElem_mem hx
  obtain ⟨n, d, pr, hr⟩ := solve_returns (u i) _ _ _ _ _ _ false false hvi hsum hk6
  have hle := fuel_bound_le (t.map fun x => f.words.getD x []) (f.words.getD si []) f.base
    (by omega)
  rw [List.length_map, v3] at hle
  have hmono := solve_mono (u i) _ (fuel - fuel_bound (t.map fun x => f.words.getD x [])
    (f.words.getD si []) f.base) _ _ _ _ _ _ _ _ _ hr
  refine ⟨n, d, pr, ?_⟩
  unfold engine
  have e : fuel_bound (t.map fun x => f.words.getD x []) (f.words.getD si []) f.base
      + (fuel - fuel_bound (t.map fun x => f.words.getD x []) (f.words.getD si []) f.base)
      = fuel := by
    unfold engine_fuel at hfuel
    omega
  rw [e] at hmono
  exact hmono

theorem chain_ok_order (f : Finder) (filters : Bool) (si : Nat) (t : List Nat) (lo m : Nat)
    (h : chain_ok f filters si lo m t = true) :
    (∀ y ∈ t.head?, lo ≤ y) ∧ t.Chain' (fun a b => a + f.inc ≤ b) ∧ ∀ x ∈ t, x ≠ si := by
  induction t generalizing lo m with
  | nil => simp
  | cons x ts ih =>
    simp only [chain_ok, word_ok, Bool.and_eq_true, decide_eq_true_eq] at h
    obtain ⟨a1, a2, a3⟩ := ih _ _ h.2
    refine ⟨?_, ?_, ?_⟩
    · intro y hy
      simp only [List.head?_cons, Option.mem_def, Option.some.injEq] at hy
      subst hy
      exact h.1.1
    · rw [List.chain'_cons']
      exact ⟨a1, a2⟩
    · intro y hy
      rcases List.mem_cons.1 hy with rfl | hy
      · exact h.1.2.1.2
      · exact a3 y hy

theorem key_lt_iff (a b : Call) : lex_lt a.key b.key = true ↔ call_lt a b := by
  unfold Call.key call_lt
  simp only [lex_lt, Bool.or_eq_true, Bool.and_eq_true, decide_eq_true_eq, lex_lt_iff_lex]

theorem ordered_of_keys (f : Finder) (filters : Bool) (calls : List Call)
    (hs : (calls.map Call.key).Pairwise (fun a b => lex_lt a b = true))
    (hv : ∀ x ∈ calls, valid_tuple f filters x.sum_index x.indices = true) :
    ordered_calls f calls := by
  have hp : calls.Pairwise call_lt := by
    rw [List.pairwise_map] at hs
    exact hs.imp (fun {a b} hab => (key_lt_iff a b).1 hab)
  refine ⟨hp, ?_, ?_⟩
  · unfold List.Nodup
    rw [List.pairwise_map]
    refine hp.imp ?_
    intro a b hab he
    simp only [Prod.mk.injEq] at he
    have : lex_lt a.key b.key = true := (key_lt_iff a b).2 hab
    unfold Call.key at this
    rw [he.1, he.2, lex_lt_irrefl] at this
    cases this
  · intro x hx
    obtain ⟨_, _, _, v4⟩ := valid_tuple_facts (hv x hx)
    obtain ⟨_, a2, a3⟩ := chain_ok_order f filters _ _ _ _ v4
    exact ⟨fun hm => a3 _ hm rfl, a2⟩

theorem ordered_of_traced {f : Finder} {filters : Bool} {s : FindState}
    (S : Shape f filters s) (T : Traced f filters s) :
    ordered_calls f s.calls ∧ about_to_call f s := by
  refine ⟨ordered_of_keys f filters s.calls T.sorted ?_, ?_⟩
  · intro x hx
    exact ((T.mem x.sum_index x.indices).1 (List.mem_map.2 ⟨x, hx, rfl⟩)).1
  · intro hk
    have hv := valid_of_shape S hk
    obtain ⟨_, _, _, v4⟩ := valid_tuple_facts hv
    obtain ⟨_, a2, a3⟩ := chain_ok_order f filters _ _ _ _ v4
    refine ⟨fun hm => a3 _ hm rfl, a2, ?_⟩
    intro x hx
    have hb := ((T.mem x.sum_index x.indices).1 (List.mem_map.2 ⟨x, hx, rfl⟩)).2
    have hbt : s.backtrack = false := by
      cases hb' : s.backtrack with
      | false => rfl
      | true => have := S.bt_hi hb'; omega
    have hd : s.depth = f.summand_count := depth_forward hk hbt
    have hcur : s.cursor = s.sum_index :: s.smnd_word_index := by
      unfold FindState.cursor FindState.chosen
      rw [hd, List.take_of_length_le (by rw [S.len_index])]
    unfold Before at hb
    rw [hbt, hcur] at hb
    simp only [Bool.false_eq_true, false_and, or_false] at hb
    simp only [lex_lt, Bool.or_eq_true, Bool.and_eq_true, decide_eq_true_eq,
      lex_lt_iff_lex] at hb
    exact hb

theorem ordered_of_complete {f : Finder} {filters : Bool} {calls : List Call}
    (C : Complete f filters calls) : ordered_calls f calls := by
  refine ordered_of_keys f filters calls C.sorted ?_
  intro x hx
  exact (C.mem x.sum_index x.indices).1 (List.mem_map.2 ⟨x, hx, rfl⟩)

theorem find_iterate_ordered {u : Nat → Uninit} {fuel : Nat} {f : Finder} {filters : Bool}
    (n : Nat) (s : FindState) (S : Shape f filters s) (T : Traced f filters s) :
    OrderedC f (find_iterate u fuel f filters n s) := by
  induction n generalizing s with
  | zero => exact ordered_of_traced S T
  | succ n ih =>
    unfold find_iterate
    have h1 := @find_step_shape u fuel f filters s S
    have h2 := @find_step_traced u fuel f filters s S T
    cases hs : find_step u fuel f filters s with
    | none => trivial
    | some c =>
      rw [hs] at h1 h2
      cases c with
      | running s' => exact ih s' h1 h2
      | halted o =>
        cases o with
        | fault => trivial
        | returned g t o cs => exact ordered_of_complete h2

/-- C17: after any number of transitions of `look_for_puzzles_specific_count`,
whatever `solve` answers, the invocations of `solve` recorded so far come in
strictly increasing order (by the index of the sum, then lexicographically by
the summand indices), so none is tried twice; every tuple of summand indices
leaves out the index of the sum and is strictly increasing when
`disallow_rep = 1`, non-decreasing when `disallow_rep = 0`; and a state that
is about to invoke `solve` holds such a tuple, which comes after every
invocation recorded. -/
theorem combination_order (u : Nat → Uninit) (h : Fresh) (fuel : Nat) (f : Finder) (n : Nat) :
    OrderedC f (find_after u h fuel f true n) := by
  unfold find_after
  have h1 := @shape_enter_sum f true _ (find_init_lens h f)
  have h2 := traced_init h f true
  cases he : enter_sum f (find_init h f) with
  | running s =>
    rw [he] at h1 h2
    exact find_iterate_ordered n s h1 h2
  | halted o =>
    rw [he] at h2
    cases o with
    | fault => trivial
    | returned g t o cs => exact ordered_of_complete h2

theorem foldl_max_le (l : List Nat) (a b : Nat) (ha : a ≤ b) (h : ∀ x ∈ l, x ≤ b) :
    l.foldl max a ≤ b := by
  induction l generalizing a with
  | nil => exact ha
  | cons x xs ih =>
    simp only [List.foldl_cons]
    exact ih _ (max_le ha (h x (List.mem_cons_self _ _)))
      (fun y hy => h y (List.mem_cons_of_mem _ hy))

theorem chain_ok_lengths (f : Finder) (si : Nat) (t : List Nat) (lo m : Nat)
    (h : chain_ok f true si lo m t = true) :
    ∀ x ∈ t, f.word_lengths.getD x 0 ≤ f.word_lengths.getD si 0 := by
  induction t generalizing lo m with
  | nil => intro x hx; cases hx
  | cons y ys ih =>
    simp only [chain_ok, word_ok, Bool.and_eq_true, decide_eq_true_eq, Bool.not_true,
      Bool.false_or] at h
    intro x hx
    rcases List.mem_cons.1 hx with rfl | hx
    · exact h.1.2.2.1
    · exact ih _ _ h.2 x hx

/-- With more than `MAX_STATIC_SUMMANDS` summands, the invocation of `solve`
on a tuple whose words are no longer than the sum is a fault. -/
theorem engine_faults {f : Finder} (ok : FinderOK f) (hb : 2 ≤ f.base)
    (hb' : f.base ≤ MAX_BASE) (hmany : MAX_STATIC_SUMMANDS < f.summand_count)
    (u : Nat → Uninit) (fuel : Nat) {filters : Bool} (i si : Nat) (t : List Nat)
    (hv : valid_tuple f filters si t = true)
    (hlen : ∀ x ∈ t, f.word_lengths.getD x 0 ≤ f.word_lengths.getD si 0) :
    engine u fuel f i si t = some .fault := by
  have hk1 : 1 ≤ f.summand_count := by unfold MAX_STATIC_SUMMANDS at hmany; omega
  have hvi := tuple_valid_instance ok hb hb' hk1 hv
  unfold engine
  apply many_summands_fault _ _ _ _ _ _ _ _ _ _ hvi hmany
  unfold longest_of
  rw [← ok.length_get si]
  apply foldl_max_le _ _ _ (Nat.zero_le _)
  intro x hx
  obtain ⟨y, hy, rfl⟩ := List.mem_map.1 hx
  exact hlen y hy

/-- A search for puzzles in which every invocation of `solve` on a tuple to
try is a fault, and which has a tuple to try, ends in a fault. -/
theorem find_puzzles_faults {u : Nat → Uninit} {h : Fresh} {fuel : Nat} {f : Finder}
    {filters : Bool}
    (H : ∀ i si t, valid_tuple f filters si t = true → engine u fuel f i si t = some .fault)
    (hex : ∃ si t, valid_tuple f filters si t = true)
    (steps : Nat) (hs : find_bound f ≤ steps) :
    find_puzzles u h fuel steps f filters = some .fault := by
  have H1 : ∀ i si t, valid_tuple f filters si t = true → engine u fuel f i si t ≠ none := by
    intro i si t hv hh
    rw [H i si t hv] at hh; cases hh
  obtain ⟨o, ho⟩ := find_puzzles_ends (h := h) H1 steps hs
  cases o with
  | fault => exact ho
  | returned g t o cs =>
    exfalso
    have C := find_puzzles_complete ho
    have L := find_puzzles_logged ho
    obtain ⟨si, tu, hv⟩ := hex
    obtain ⟨x, hx, hkey⟩ := List.mem_map.1 ((C.mem si tu).2 hv)
    obtain ⟨i, hi, hget⟩ := List.getElem_of_mem hx
    have hres := L.results i x (by rw [List.getElem?_eq_getElem hi, hget])
    obtain ⟨a1, a2, a3⟩ := C.args x hx
    unfold call_result at hres
    have hkey' : x.sum_index = si ∧ x.indices = tu := by
      unfold Call.key at hkey
      exact List.cons.inj hkey
    have hf := H i si tu hv
    unfold engine at hf
    rw [a1, a2, a3, hkey'.1, hkey'.2, hf] at hres
    cases hres

/-- C18 (failing input): with more than `MAX_STATIC_SUMMANDS` summands and at
least one tuple to try, `look_for_puzzles_specific_count` does not invoke
`solve` once on each tuple and return their number: the first invocation writes
outside `static_summands`, whatever the uninitialised storage holds and
whatever the bound on the slot transitions. -/
theorem finder_faults_beyond_six (u : Nat → Uninit) (h : Fresh) (fuel steps : Nat)
    (f : Finder) (ok : FinderOK f) (hb : 2 ≤ f.base) (hb' : f.base ≤ MAX_BASE)
    (hmany : MAX_STATIC_SUMMANDS < f.summand_count)
    (hex : ∃ si t, tuple_to_try f si t) (hs : find_bound f ≤ steps) :
    look_for_puzzles_specific_count u h fuel steps f = some .fault := by
  have hk1 : 1 ≤ f.summand_count := by unfold MAX_STATIC_SUMMANDS at hmany; omega
  unfold look_for_puzzles_specific_count
  apply find_puzzles_faults _ _ steps hs
  · intro i si t hv
    exact engine_faults ok hb hb' hmany u fuel i si t hv
      (chain_ok_lengths f si t _ _ (valid_tuple_facts hv).2.2.2)
  · obtain ⟨si, t, ht⟩ := hex
    exact ⟨si, t, (valid_tuple_iff ok hk1 si t).2 ht⟩

theorem seven_finder_ok : FinderOK seven_finder :=
  ⟨by decide, by decide, by decide!, by decide!, by decide⟩

/-- Witness for `finder_faults_beyond_six`: the words AB, A, B with AB as the
sum and seven summands; A seven times is a tuple to try, B seven times is
another, and the search ends in a fault. -/
theorem finder_faults_beyond_six_witness :
    tuple_to_try seven_finder 0 [1, 1, 1, 1, 1, 1, 1]
    ∧ tuple_to_try seven_finder 0 [2, 2, 2, 2, 2, 2, 2]
    ∧ look_for_puzzles_specific_count (fun _ => Uninit.zero) Fresh.zero 0 16777217 seven_finder
        = some .fault :=
  have h1 : tuple_to_try seven_finder 0 [1, 1, 1, 1, 1, 1, 1] :=
    (valid_tuple_iff seven_finder_ok (by decide) _ _).1 (by decide!)
  have h2 : tuple_to_try seven_finder 0 [2, 2, 2, 2, 2, 2, 2] :=
    (valid_tuple_iff seven_finder_ok (by decide) _ _).1 (by decide!)
  ⟨h1, h2, finder_faults_beyond_six (fun _ => Uninit.zero) Fresh.zero 0 16777217 seven_finder
    seven_finder_ok (by decide) (by decide) (by decide) ⟨0, [1, 1, 1, 1, 1, 1, 1], h1⟩
    (by decide)⟩

/-- Completeness of the enumeration inside the array bounds: with between 1
and `MAX_STATIC_SUMMANDS` summands and validated words shorter than `MAX_LEN`,
`look_for_puzzles_specific_count` returns; it has invoked `solve` exactly once
on each tuple to try (for every sum tried), in increasing order, and on no
other tuple, and `search_count` is the number of these invocations. -/
theorem enumeration_complete (u : Nat → Uninit) (h : Fresh) (fuel steps : Nat) (f : Finder)
    (ok : FinderOK f) (hb : 2 ≤ f.base) (hb' : f.base ≤ MAX_BASE)
    (hk1 : 1 ≤ f.summand_count) (hk6 : f.summand_count ≤ MAX_STATIC_SUMMANDS)
    (hshort : ∀ w ∈ f.words, w.length < MAX_LEN) (hW : 1 ≤ f.word_count)
    (hfuel : engine_fuel f ≤ fuel) (hsteps : find_bound f ≤ steps) :
    ∃ g t o cs, look_for_puzzles_specific_count u h fuel steps f = some (.returned g t o cs)
      ∧ ordered_calls f cs
      ∧ (∀ si tu, (∃ x ∈ cs, x.sum_index = si ∧ x.indices = tu) ↔ tuple_to_try f si tu)
      ∧ t = cs.length := by
  obtain ⟨g, t, o, cs, hr, C, L⟩ := find_puzzles_returns (h := h) hk1 hW
    (engine_returns ok hb hb' hk1 hk6 hshort u fuel hfuel true) steps hsteps
  refine ⟨g, t, o, cs, hr, ordered_of_complete C, ?_, L.tried_eq⟩
  intro si tu
  rw [← valid_tuple_iff ok hk1, ← C.mem si tu, List.mem_map]
  constructor
  · rintro ⟨x, hx, h1, h2⟩
    exact ⟨x, hx, by unfold Call.key; rw [h1, h2]⟩
  · rintro ⟨x, hx, hk⟩
    unfold Call.key at hk
    obtain ⟨h1, h2⟩ := List.cons.inj hk
    exact ⟨x, hx, h1, h2⟩

theorem send_more_quiet (u : Uninit) (k : Nat) :
    solve u (265 + k) ["SEND".toList, "MORE".toList] 2 [4, 4] 4 "MONEY".toList 10 false false
      = some (.returned 1 1 []) := by
  rw [solve_uninit u Uninit.zero _ _ _ _ _ _ _ _ _ (by decide!)]
  exact solve_mono _ _ _ _ _ _ _ _ _ _ _ _ (by decide!)

theorem money_finder_ok (disallow_rep : Bool) : FinderOK (money_finder disallow_rep) := by
  cases disallow_rep <;> exact ⟨by decide, by decide, by decide!, by decide!, by decide⟩

theorem count_loop_one (u : Nat → Nat → Uninit) (h : Nat → Fresh) (fuel steps : Nat)
    (f : Finder) (filters : Bool) (k g t : Nat) (o : List Report) (cs : List Call)
    (hr : find_puzzles (u k) (h k) fuel steps { f with summand_count := k } filters
      = some (.returned g t o cs)) :
    count_loop u h fuel steps f filters 1 k 0 0 [] [] = some (.returned g t o cs) := by
  unfold count_loop
  rw [hr]
  simp [count_loop]

theorem money_finder_two (disallow_rep : Bool) :
    ({ money_finder disallow_rep with summand_count := 2 } : Finder)
      = money_finder disallow_rep := by
  unfold money_finder
  dsimp only

theorem money_search_eq (u : Nat → Nat → Uninit) (h : Nat → Fresh) (fuel steps : Nat)
    (disallow_rep : Bool) :
    look_for_puzzles u h fuel steps
        ["SEND".toList, "MORE".toList, "MONEY".toList, "MOST".toList, "EARNS".toList] 5
        [4, 4, 5, 4, 5] 10 2 2 true disallow_rep false
      = count_loop u h fuel steps (money_finder disallow_rep) true 1 2 0 0 [] [] := by
  rfl

/-- C19: for the word list SEND, MORE, MONEY, MOST, EARNS, base 10, the range
[2,2] of summand counts, the exactly-one policy and every word tried as the
sum (with either setting of `disallow_rep`, and whatever the uninitialised
storage holds), `look_for_puzzles` returns once the bounds on the transitions
are large enough, and SEND + MORE = MONEY is among the puzzles it reports, so
the number found is at least 1. -/
theorem finds_send_more_money (u : Nat → Nat → Uninit) (h : Nat → Fresh)
    (disallow_rep : Bool) :
    ∃ F S, ∀ fuel steps, F ≤ fuel → S ≤ steps →
      ∃ g t o cs,
        look_for_puzzles u h fuel steps
            ["SEND".toList, "MORE".toList, "MONEY".toList, "MOST".toList, "EARNS".toList] 5
            [4, 4, 5, 4, 5] 10 2 2 true disallow_rep false
          = some (.returned g t o cs)
        ∧ (["SEND".toList, "MORE".toList], "MONEY".toList) ∈ puzzles o
        ∧ 1 ≤ g := by
  refine ⟨engine_fuel (money_finder disallow_rep) + 265, find_bound (money_finder disallow_rep),
    ?_⟩
  intro fuel steps hfuel hsteps
  have ok := money_finder_ok disallow_rep
  obtain ⟨g, t, o, cs, hr, C, L⟩ := @find_puzzles_returns (u 2) (h 2) fuel
    (money_finder disallow_rep) true (by show 1 ≤ 2; omega)
    (by show 1 ≤ 5; omega)
    (engine_returns ok (by show 2 ≤ 10; omega) (by show 10 ≤ 16; omega) (by show 1 ≤ 2; omega)
      (by show 2 ≤ 6; omega) (by cases disallow_rep <;> decide) (u 2) fuel (by omega) true)
    steps hsteps
  refine ⟨g, t, o, cs, ?_, ?_⟩
  · rw [money_search_eq]
    apply count_loop_one
    rw [money_finder_two]
    exact hr
  · have hv : valid_tuple (money_finder disallow_rep) true 2 [0, 1] = true := by
      cases disallow_rep <;> decide!
    obtain ⟨x, hx, hkey⟩ := List.mem_map.1 ((C.mem 2 [0, 1]).2 hv)
    obtain ⟨i, hi, hget⟩ := List.getElem_of_mem hx
    have hres := L.results i x (by rw [List.getElem?_eq_getElem hi, hget])
    obtain ⟨a1, a2, a3⟩ := C.args x hx
    unfold Call.key at hkey
    obtain ⟨k1, k2⟩ := List.cons.inj hkey
    rw [k2] at a1 a2 a3
    have b1 : x.summands = ["SEND".toList, "MORE".toList] := by
      rw [a1]; cases disallow_rep <;> rfl
    have b2 : x.summand_lengths = [4, 4] := by
      rw [a2]; cases disallow_rep <;> rfl
    have b3 : x.longest_summand = 4 := by
      rw [a3]; cases disallow_rep <;> rfl
    have b4 : (money_finder disallow_rep).words.getD x.sum_index [] = "MONEY".toList := by
      rw [k1]; rfl
    unfold call_result at hres
    rw [b1, b2, b3, b4] at hres
    have e : fuel = 265 + (fuel - 265) := by omega
    have hq := send_more_quiet (u 2 i) (fuel - 265)
    rw [← e] at hq
    have hsol : x.solutions = 1 := by
      have hh : (money_finder disallow_rep).summand_count = 2 := rfl
      have hb : (money_finder disallow_rep).base = 10 := rfl
      rw [hh, hb, hq] at hres
      simp only [Option.some.injEq, Outcome.returned.injEq] at hres
      exact hres.1.symm
    have hacc : acceptance (money_finder disallow_rep).exactly_one x.solutions = true := by
      rw [hsol]; rfl
    constructor
    · rw [L.output_eq]
      unfold puzzles
      rw [List.mem_filterMap]
      refine ⟨.puzzle none x.summands ((money_finder disallow_rep).words.getD x.sum_index [])
        x.difficulty, ?_, ?_⟩
      · rw [List.mem_flatMap]
        refine ⟨x, hx, ?_⟩
        unfold report_of
        rw [if_pos hacc]
        apply List.mem_append_right
        have he : (money_finder disallow_rep).exactly_one = true := rfl
        rw [he]
        simp
      · rw [b1, b4]
        rfl
    · rw [L.good_eq]
      apply List.length_pos_of_mem
      exact List.mem_filter.2 ⟨hx, hacc⟩

theorem eleven_finder_ok : FinderOK eleven_finder :=
  ⟨by decide, by decide, by decide!, by decide!, by decide⟩

/-- C14 (failing input): with more than `MAX_STATIC_SUMMANDS` summands, a
summand set that the letter-count filter of `look_for_puzzles_specific_count`
rejects (it passes every other test of the search, and has more than `base`
distinct letters together with the sum) is not one on which `solve` returns 0:
the invocation writes outside `static_summands`, whatever the uninitialised
storage holds and whatever the bound on the slot transitions. -/
theorem skipped_set_faults (u : Nat → Uninit) (fuel : Nat) (f : Finder) (i si : Nat)
    (t : List Nat) (ok : FinderOK f) (hb : 2 ≤ f.base) (hb' : f.base ≤ MAX_BASE)
    (hmany : MAX_STATIC_SUMMANDS < f.summand_count)
    (hv : valid_tuple f false si t = true)
    (hlen : ∀ x ∈ t, f.word_lengths.getD x 0 ≤ f.word_lengths.getD si 0)
    (hskip : valid_tuple f true si t = false) :
    f.base < (puzzle_letters (t.map fun x => f.words.getD x []) (f.words.getD si [])).length
    ∧ engine u fuel f i si t = some .fault := by
  have hk1 : 1 ≤ f.summand_count := by unfold MAX_STATIC_SUMMANDS at hmany; omega
  refine ⟨?_, engine_faults ok hb hb' hmany u fuel i si t hv hlen⟩
  by_contra hle
  obtain ⟨v1, v2, v3, v4⟩ := valid_tuple_facts hv
  obtain ⟨_, a2, _⟩ := chain_ok_order f false _ _ _ _ v4
  have hmem := chain_ok_weaken f si t _ _ false v4
  have htry : tuple_to_try f si t := by
    refine ⟨v1, v2, v3, a2, ?_, by omega⟩
    intro x hx
    have := hlen x hx
    rw [ok.length_get, ok.length_get] at this
    exact ⟨(hmem x hx).1, (hmem x hx).2, this⟩
  rw [(valid_tuple_iff ok hk1 si t).2 htry] at hskip
  cases hskip

/-- Witness for `skipped_set_faults`: A + B + C + D + E + F + G = HIJK in base
10 has 11 distinct letters.  The search with the filters skips G in the last
place and returns without an invocation; the invocation on the seven words is a
fault, and so is the search without the filters. -/
theorem skipped_set_faults_witness :
    (10 < (puzzle_letters ["A".toList, "B".toList, "C".toList, "D".toList, "E".toList,
        "F".toList, "G".toList] "HIJK".toList).length
      ∧ engine (fun _ => Uninit.zero) 0 eleven_finder 0 0 [1, 2, 3, 4, 5, 6, 7] = some .fault)
    ∧ look_for_puzzles_specific_count (fun _ => Uninit.zero) Fresh.zero 0 40 eleven_finder
        = some (.returned 0 0 [] [])
    ∧ find_puzzles (fun _ => Uninit.zero) Fresh.zero 0 (find_bound eleven_finder) eleven_finder
        false = some .fault := by
  refine ⟨skipped_set_faults (fun _ => Uninit.zero) 0 eleven_finder 0 0 [1, 2, 3, 4, 5, 6, 7]
    eleven_finder_ok (by decide) (by decide) (by decide) (by decide!) (by decide) (by decide!),
    by decide!, ?_⟩
  apply find_puzzles_faults _ ⟨0, [1, 2, 3, 4, 5, 6, 7], by decide!⟩ _ (le_refl _)
  intro i si t hv
  apply engine_faults eleven_finder_ok (by decide) (by decide) (by decide) _ _ i si t hv
  obtain ⟨v1, _, _, v4⟩ := valid_tuple_facts hv
  have hsi : si = 0 := by
    have : si < 1 := v1
    omega
  subst hsi
  intro x hx
  have hx8 : x < 8 := (chain_ok_weaken eleven_finder 0 t _ _ false v4 x hx).1
  have hall : ∀ y, y < 8 → eleven_finder.word_lengths.getD y 0
      ≤ eleven_finder.word_lengths.getD 0 0 := by decide
  exact hall x hx8

theorem lex_lt_asymm (a b : List Nat) (h : lex_lt a b = true) : lex_lt b a = false := by
  induction a generalizing b with
  | nil =>
    cases b with
    | nil => rfl
    | cons y ys => rfl
  | cons x xs ih =>
    cases b with
    | nil => simp [lex_lt] at h
    | cons y ys =>
      simp only [lex_lt, Bool.or_eq_true, Bool.and_eq_true, decide_eq_true_eq] at h
      rcases h with h | ⟨rfl, h⟩
      · have h1 : ¬ y < x := by omega
        have h2 : ¬ y = x := by omega
        simp [lex_lt, h1, h2]
      · simp [lex_lt, ih ys h]

theorem sorted_ext (l₁ l₂ : List (List Nat))
    (h₁ : l₁.Pairwise (fun a b => lex_lt a b = true))
    (h₂ : l₂.Pairwise (fun a b => lex_lt a b = true))
    (h : ∀ a, a ∈ l₁ ↔ a ∈ l₂) : l₁ = l₂ := by
  have anti : IsAntisymm (List Nat) (fun a b => lex_lt a b = true) :=
    ⟨fun a b hab hba => by rw [lex_lt_asymm a b hab] at hba; cases hba⟩
  have nd : ∀ l : List (List Nat), l.Pairwise (fun a b => lex_lt a b = true) → l.Nodup := by
    intro l hl
    exact hl.imp (fun {a b} hab he => by rw [he, lex_lt_irrefl] at hab; cases hab)
  exact List.eq_of_perm_of_sorted ((List.perm_ext_iff_of_nodup (nd _ h₁) (nd _ h₂)).2 h) h₁ h₂

theorem valid_true_false (f : Finder) (si : Nat) (t : List Nat)
    (h : valid_tuple f true si t = true) : valid_tuple f false si t = true := by
  have hc : ∀ (l : List Nat) (lo m : Nat), chain_ok f true si lo m l = true →
      chain_ok f false si lo m l = true := by
    intro l
    induction l with
    | nil => intro _ _ _; rfl
    | cons x xs ih =>
      intro lo m hx
      simp only [chain_ok, word_ok, Bool.and_eq_true, decide_eq_true_eq, Bool.not_true,
        Bool.false_or, Bool.not_false, Bool.true_or, and_true] at hx ⊢
      exact ⟨⟨hx.1.1, hx.1.2.1⟩, ih _ _ hx.2⟩
  simp only [valid_tuple, Bool.and_eq_true] at h ⊢
  exact ⟨h.1, hc _ _ _ h.2⟩

/-- The answer of `solve` on a tuple to try does not depend on the invocation
number, that is, on the uninitialised storage. -/
theorem engine_uninit {f : Finder} (ok : FinderOK f) (hb : 2 ≤ f.base)
    (hb' : f.base ≤ MAX_BASE) (hk1 : 1 ≤ f.summand_count) {filters : Bool}
    (u u' : Nat → Uninit) (fuel i j si : Nat) (t : List Nat)
    (hv : valid_tuple f filters si t = true) :
    engine u fuel f i si t = engine u' fuel f j si t := by
  unfold engine
  exact solve_uninit _ _ _ _ _ _ _ _ _ _ _ (tuple_valid_instance ok hb hb' hk1 hv)

/-- On a summand set that only the filters reject, `solve` returns 0 (at most
`MAX_STATIC_SUMMANDS` summands). -/
theorem rejected_returns_zero {f : Finder} (ok : FinderOK f) (hb : 2 ≤ f.base)
    (hb' : f.base ≤ MAX_BASE) (hk1 : 1 ≤ f.summand_count)
    (hk6 : f.summand_count ≤ MAX_STATIC_SUMMANDS) (u : Nat → Uninit) (fuel i si : Nat)
    (t : List Nat) (hv : valid_tuple f false si t = true)
    (hskip : valid_tuple f true si t = false) :
    ∃ out, engine u fuel f i si t = some (.returned 0 0 out) := by
  by_cases hlen : ∀ x ∈ t, f.word_lengths.getD x 0 ≤ f.word_lengths.getD si 0
  · have hvi := tuple_valid_instance ok hb hb' hk1 hv
    have hlet : f.base
        < (puzzle_letters (t.map fun x => f.words.getD x []) (f.words.getD si [])).length := by
      by_contra hle
      obtain ⟨v1, v2, v3, v4⟩ := valid_tuple_facts hv
      obtain ⟨_, a2, _⟩ := chain_ok_order f false _ _ _ _ v4
      have hmem := chain_ok_weaken f si t _ _ false v4
      have htry : tuple_to_try f si t := by
        refine ⟨v1, v2, v3, a2, ?_, by omega⟩
        intro x hx
        have := hlen x hx
        rw [ok.length_get, ok.length_get] at this
        exact ⟨(hmem x hx).1, (hmem x hx).2, this⟩
      rw [(valid_tuple_iff ok hk1 si t).2 htry] at hskip
      cases hskip
    unfold engine
    exact many_letters_returns_zero _ _ _ _ _ _ _ _ _ _ hvi hk6 hlet
  · push_neg at hlen
    obtain ⟨x, hx, hlt⟩ := hlen
    unfold engine
    apply short_sum_returns_zero
    rw [← ok.length_get si]
    have := (le_foldl_max (t.map fun y => f.word_lengths.getD y 0) 0).2
      (f.word_lengths.getD x 0) (List.mem_map_of_mem _ hx)
    unfold longest_of
    omega

theorem acceptance_zero (e : Bool) : acceptance e 0 = false := by
  cases e <;> rfl

theorem puzzles_report (f : Finder) (x : Call) :
    puzzles (report_of f x)
      = if acceptance f.exactly_one x.solutions then
          [(x.summands, f.words.getD x.sum_index [])]
        else [] := by
  unfold report_of
  rw [puzzles_append, puzzles_engine, List.nil_append]
  split_ifs <;> rfl

theorem accepted_by_keys (fuel : Nat) (f : Finder) (l : List Call)
    (h : ∀ x ∈ l, verdict fuel f x.key = acceptance f.exactly_one x.solutions
      ∧ puzzle_of_key f x.key = (x.summands, f.words.getD x.sum_index [])) :
    puzzles (l.flatMap (report_of f))
        = ((l.map Call.key).filter (verdict fuel f)).map (puzzle_of_key f)
    ∧ (l.filter fun x => acceptance f.exactly_one x.solutions).length
        = ((l.map Call.key).filter (verdict fuel f)).length := by
  induction l with
  | nil => exact ⟨rfl, rfl⟩
  | cons x xs ih =>
    obtain ⟨i1, i2⟩ := ih (fun y hy => h y (List.mem_cons_of_mem _ hy))
    obtain ⟨h1, h2⟩ := h x (List.mem_cons_self _ _)
    rw [List.flatMap_cons, puzzles_append, puzzles_report, List.map_cons, i1]
    by_cases ha : acceptance f.exactly_one x.solutions = true
    · simp only [List.filter_cons, h1, ha, if_true, List.map_cons, h2, List.length_cons, i2,
        List.singleton_append, and_self]
    · simp only [List.filter_cons, h1, ha, if_false, i2, List.nil_append, and_self,
        Bool.false_eq_true]

/-- The puzzles reported and the number found by a finished search, from the
keys of its invocations. -/
theorem accepted_of_run {f : Finder} (ok : FinderOK f) (hb : 2 ≤ f.base)
    (hb' : f.base ≤ MAX_BASE) (hk1 : 1 ≤ f.summand_count) {filters : Bool}
    {u : Nat → Uninit} {fuel g t : Nat} {o : List Report} {cs : List Call}
    (C : Complete f filters cs) (L : Logged u fuel f g t o cs) :
    puzzles o = ((cs.map Call.key).filter (verdict fuel f)).map (puzzle_of_key f)
    ∧ g = ((cs.map Call.key).filter (verdict fuel f)).length := by
  have hx : ∀ x ∈ cs, verdict fuel f x.key = acceptance f.exactly_one x.solutions
      ∧ puzzle_of_key f x.key = (x.summands, f.words.getD x.sum_index []) := by
    intro x hx
    have hv := (C.mem x.sum_index x.indices).1 (List.mem_map.2 ⟨x, hx, rfl⟩)
    obtain ⟨i, hi, hget⟩ := List.getElem_of_mem hx
    have hres := L.results i x (by rw [List.getElem?_eq_getElem hi, hget])
    obtain ⟨a1, a2, a3⟩ := C.args x hx
    unfold call_result at hres
    rw [a1, a2, a3] at hres
    have he : engine (fun _ => Uninit.zero) fuel f 0 x.sum_index x.indices
        = some (.returned x.solutions x.difficulty x.printed) := by
      rw [engine_uninit ok hb hb' hk1 (fun _ => Uninit.zero) u fuel 0 i _ _ hv]
      exact hres
    constructor
    · unfold verdict Call.key
      simp only [List.headD_cons, List.tail_cons]
      rw [he]
    · unfold puzzle_of_key Call.key
      simp only [List.headD_cons, List.tail_cons]
      rw [a1]
  obtain ⟨r1, r2⟩ := accepted_by_keys fuel f cs hx
  rw [L.output_eq, L.good_eq]
  exact ⟨r1, r2⟩

/-- Soundness of the filters inside the array bounds: with between 1 and
`MAX_STATIC_SUMMANDS` summands and validated words shorter than `MAX_LEN`, the
search with the filters on the word length and the number of letters and the
search without them both return, with the same number of good puzzles and the
same puzzles reported in the same order; the search without the filters tries
at least as many candidates. -/
theorem filters_sound (u u' : Nat → Uninit) (h h' : Fresh) (fuel steps : Nat) (f : Finder)
    (ok : FinderOK f) (hb : 2 ≤ f.base) (hb' : f.base ≤ MAX_BASE)
    (hk1 : 1 ≤ f.summand_count) (hk6 : f.summand_count ≤ MAX_STATIC_SUMMANDS)
    (hshort : ∀ w ∈ f.words, w.length < MAX_LEN) (hW : 1 ≤ f.word_count)
    (hfuel : engine_fuel f ≤ fuel) (hsteps : find_bound f ≤ steps) :
    ∃ g t o cs t' o' cs',
      look_for_puzzles_specific_count u h fuel steps f = some (.returned g t o cs)
      ∧ find_puzzles u' h' fuel steps f false = some (.returned g t' o' cs')
      ∧ puzzles o = puzzles o' ∧ t ≤ t' := by
  obtain ⟨g, t, o, cs, hr, C, L⟩ := find_puzzles_returns (h := h) hk1 hW
    (engine_returns ok hb hb' hk1 hk6 hshort u fuel hfuel true) steps hsteps
  obtain ⟨g', t', o', cs', hr', C', L'⟩ := find_puzzles_returns (h := h') hk1 hW
    (engine_returns ok hb hb' hk1 hk6 hshort u' fuel hfuel false) steps hsteps
  obtain ⟨p1, p2⟩ := accepted_of_run ok hb hb' hk1 C L
  obtain ⟨q1, q2⟩ := accepted_of_run ok hb hb' hk1 C' L'
  have hkeys : cs.map Call.key
      = (cs'.map Call.key).filter (fun key => valid_tuple f true (key.headD 0) key.tail) := by
    apply sorted_ext _ _ C.sorted (C'.sorted.filter _)
    intro a
    rw [List.mem_filter]
    constructor
    · intro ha
      obtain ⟨x, hx, rfl⟩ := List.mem_map.1 ha
      have hv := (C.mem x.sum_index x.indices).1 (List.mem_map.2 ⟨x, hx, rfl⟩)
      exact ⟨(C'.mem x.sum_index x.indices).2 (valid_true_false f _ _ hv), hv⟩
    · rintro ⟨ha, hv⟩
      obtain ⟨x, hx, rfl⟩ := List.mem_map.1 ha
      exact (C.mem x.sum_index x.indices).2 hv
  have hfilter : (cs.map Call.key).filter (verdict fuel f)
      = (cs'.map Call.key).filter (verdict fuel f) := by
    rw [hkeys, List.filter_filter]
    apply List.filter_congr
    intro a ha
    obtain ⟨x, hx, rfl⟩ := List.mem_map.1 ha
    have hvf := (C'.mem x.sum_index x.indices).1 (List.mem_map.2 ⟨x, hx, rfl⟩)
    cases hvt : valid_tuple f true x.sum_index x.indices with
    | true =>
      simp only [Call.key, List.headD_cons, List.tail_cons, hvt, Bool.and_true]
    | false =>
      obtain ⟨out, hz⟩ := rejected_returns_zero ok hb hb' hk1 hk6 (fun _ => Uninit.zero) fuel 0
        x.sum_index x.indices hvf hvt
      simp only [Call.key, List.headD_cons, List.tail_cons, hvt, Bool.and_false]
      unfold verdict
      simp only [List.headD_cons, List.tail_cons]
      rw [hz]
      exact (acceptance_zero _).symm
  have hg : g = g' := by rw [p2, q2, hfilter]
  subst hg
  refine ⟨g, t, o, cs, t', o', cs', hr, hr', ?_, ?_⟩
  · rw [p1, q1, hfilter]
  · rw [L.tried_eq, L'.tried_eq, ← List.length_map cs Call.key, ← List.length_map cs' Call.key,
      hkeys]
    exact List.length_filter_le _ _

/-! ## The search without the carry-bound test -/

theorem puzzle_ok_relax {p : Puzzle} {cols : List (List Char)} (ok : PuzzleOK p cols)
    (m : List Int) : PuzzleOK { p with max_carry := m } cols :=
  ⟨ok.sum_length, ok.sum_pos, ok.sum_le, ok.cols_length, ok.base_lo, ok.base_hi, ok.max_digit,
    ok.col_len, ok.grid, ok.last_col, ok.sum_letters, ok.col_letters, ok.zos_lo⟩

theorem asg_relax {p : Puzzle} {nm mv : List Int} {lm : List Char} {S : List Char}
    (h : AsgOK p nm mv lm S) (m : List Int) : AsgOK { p with max_carry := m } nm mv lm S :=
  ⟨h.len_nm, h.len_mv, h.len_lm, h.digit, h.owner, h.maxv, h.letter⟩

theorem asg_unrelax {p : Puzzle} {nm mv : List Int} {lm : List Char} {S : List Char}
    {m : List Int} (h : AsgOK { p with max_carry := m } nm mv lm S) : AsgOK p nm mv lm S :=
  ⟨h.len_nm, h.len_mv, h.len_lm, h.digit, h.owner, h.maxv, h.letter⟩

theorem good_at_relax {p : Puzzle} {cols : List (List Char)} {s : State} {c r : Nat}
    (G : GoodAt p cols s c r) (m : List Int) : GoodAt { p with max_carry := m } cols s c r :=
  ⟨G.col_eq, G.row_eq, G.col_le, G.col_lt, G.row_lt, G.count, asg_relax G.asg m, G.carry,
    G.need_row, G.need_sum, G.len_min⟩

theorem good_at_unrelax {p : Puzzle} {cols : List (List Char)} {s : State} {c r : Nat}
    {m : List Int} (G : GoodAt { p with max_carry := m } cols s c r) : GoodAt p cols s c r :=
  ⟨G.col_eq, G.row_eq, G.col_le, G.col_lt, G.row_lt, G.count, asg_unrelax G.asg, G.carry,
    G.need_row, G.need_sum, G.len_min⟩

theorem good_c_unrelax {p : Puzzle} {cols : List (List Char)} {m : List Int} {cfg : Config}
    (G : GoodC { p with max_carry := m } cols cfg) : GoodC p cols cfg := by
  cases cfg with
  | halted o => trivial
  | running s =>
    obtain ⟨c, r, G⟩ := G
    exact ⟨c, r, good_at_unrelax G⟩

theorem relaxed_here (mc : List Int) (s : State) (c : Nat) (hcol : s.curr_column = c)
    (hc : c ≤ MAX_LEN) : iget (relaxed mc s) s.curr_column = iget s.needed_carry s.curr_column := by
  have h1 : iget (relaxed mc s) s.curr_column = (relaxed mc s).getD c 0 := by
    rw [hcol]; exact iget_natCast _ _
  rw [h1]
  unfold relaxed
  have hlt : c < (List.range (MAX_LEN + 1)).length := by rw [List.length_range]; omega
  rw [List.getD_eq_getElem _ _ (by rw [List.length_map]; exact hlt)]
  simp only [List.getElem_map, List.getElem_range]
  rw [if_pos hcol.symm]

theorem relaxed_next (mc : List Int) (s : State) (c : Nat) (hcol : s.curr_column = c)
    (hc : c < MAX_LEN) : iget (relaxed mc s) (s.curr_column + 1) = iget mc (s.curr_column + 1) := by
  have e : s.curr_column + 1 = ((c + 1 : Nat) : Int) := by rw [hcol]; push_cast; rfl
  rw [e, iget_natCast, iget_natCast]
  unfold relaxed
  have hlt : c + 1 < (List.range (MAX_LEN + 1)).length := by rw [List.length_range]; omega
  rw [List.getD_eq_getElem _ _ (by rw [List.length_map]; exact hlt)]
  simp only [List.getElem_map, List.getElem_range]
  rw [if_neg (by rw [hcol]; push_cast; omega)]

/-- A slot transition of the variant is a slot transition of `solve` on a
puzzle that differs in the table `max_carry` only. -/
theorem step_unpruned_as {p : Puzzle} {cols : List (List Char)} (ok : PuzzleOK p cols)
    (s : State) (G : Good p cols s) :
    ∃ m, step_unpruned_exact p s = step { p with max_carry := m } s := by
  obtain ⟨c, r, G⟩ := G
  cases hin : s.in_summands with
  | true =>
    refine ⟨p.max_carry, ?_⟩
    unfold step_unpruned_exact step
    simp only [hin, if_true]
  | false =>
    refine ⟨relaxed p.max_carry s, ?_⟩
    unfold step_unpruned_exact step
    simp only [hin, Bool.false_eq_true, if_false]
    have hcol := G.col_eq
    have hcL : c ≤ MAX_LEN := le_trans G.col_le ok.sum_le
    have h1 := relaxed_here p.max_carry s c hcol hcL
    unfold step_sum_unpruned_exact step_sum
    by_cases hL : s.curr_column = p.sum_length
    · simp only [hL, if_true]
    · have hc : c < p.sum.length := by
        have := G.col_le
        rw [hcol, ok.sum_length] at hL
        omega
      have h2 := relaxed_next p.max_carry s c hcol (lt_of_lt_of_le hc ok.sum_le)
      simp only [hL, if_false]
      rw [h1, h2]
      simp only [gt_iff_lt, lt_irrefl, if_false]
      rfl

/-- The search invariant is kept by every slot transition of the variant. -/
theorem good_step_unpruned {p : Puzzle} {cols : List (List Char)} (ok : PuzzleOK p cols)
    (s : State) (G : Good p cols s) : GoodC p cols (step_unpruned_exact p s) := by
  obtain ⟨m, hm⟩ := step_unpruned_as ok s G
  rw [hm]
  obtain ⟨c, r, G⟩ := G
  exact good_c_unrelax (good_step (puzzle_ok_relax ok m) s ⟨c, r, good_at_relax G m⟩)

theorem step_unpruned_no_fault {p : Puzzle} {cols : List (List Char)} (ok : PuzzleOK p cols)
    (s : State) (G : Good p cols s) (hL : p.sum.length < MAX_LEN) :
    step_unpruned_exact p s ≠ .halted .fault := by
  obtain ⟨m, hm⟩ := step_unpruned_as ok s G
  rw [hm]
  obtain ⟨c, r, G⟩ := G
  exact step_no_fault (puzzle_ok_relax ok m) s ⟨c, r, good_at_relax G m⟩ hL

theorem run_unpruned_mono (p : Puzzle) (fuel k : Nat) (s : State) (o : Outcome)
    (h : run_unpruned_exact p fuel s = some o) : run_unpruned_exact p (fuel + k) s = some o := by
  induction fuel generalizing s with
  | zero => simp [run_unpruned_exact] at h
  | succ n ih =>
    rw [Nat.add_right_comm]
    simp only [run_unpruned_exact] at h ⊢
    cases hs : step_unpruned_exact p s with
    | halted o' => rw [hs] at h; exact h
    | running t => rw [hs] at h; exact ih t h

/-- Running the variant for `n` transitions and then for `k` more. -/
theorem iterate_unpruned_add (p : Puzzle) (n k : Nat) (s t : State)
    (h : iterate_unpruned_exact p n s = .running t) :
    iterate_unpruned_exact p (n + k) s = iterate_unpruned_exact p k t := by
  induction n generalizing s with
  | zero =>
    simp only [iterate_unpruned_exact, Config.running.injEq] at h
    rw [h, Nat.zero_add]
  | succ n ih =>
    rw [Nat.add_right_comm]
    simp only [iterate_unpruned_exact] at h ⊢
    cases hs : step_unpruned_exact p s with
    | halted o => rw [hs] at h; cases h
    | running s' => rw [hs] at h; exact ih s' h

theorem fill_max_carry_spec (base max_digit : Int) (cl : List Int) (n : Nat) (mc : List Int)
    (hlen : mc.length = MAX_LEN + 1) (hn : n ≤ MAX_LEN) :
    (fill_max_carry base max_digit cl n mc).length = MAX_LEN + 1
    ∧ (∀ i, n ≤ i → (fill_max_carry base max_digit cl n mc).getD i 0 = mc.getD i 0)
    ∧ ∀ c, c < n → (fill_max_carry base max_digit cl n mc).getD c 0
        = Int.tdiv (max_digit * cl.getD c 0
            + (fill_max_carry base max_digit cl n mc).getD (c + 1) 0) base := by
  induction n generalizing mc with
  | zero =>
    refine ⟨hlen, fun i _ => rfl, fun c hc => ?_⟩
    omega
  | succ n ih =>
    have hlen' : (mc.set n (Int.tdiv (max_digit * cl.getD n 0 + mc.getD (n + 1) 0) base)).length
        = MAX_LEN + 1 := by rw [List.length_set]; exact hlen
    obtain ⟨r1, r2, r3⟩ := ih _ hlen' (by omega)
    simp only [fill_max_carry]
    refine ⟨r1, ?_, ?_⟩
    · intro i hi
      rw [r2 i (by omega), getD_set_ne _ _ _ _ _ (by omega)]
    · intro c hc
      by_cases hcn : c < n
      · exact r3 c hcn
      · have e : c = n := by omega
        subst e
        rw [r2 c (le_refl _), r2 (c + 1) (by omega),
          getD_set_same _ _ _ _ (by rw [hlen]; omega), getD_set_ne _ _ _ _ _ (by omega)]

theorem prepare_max_carry {summands : List (List Char)} {summand_count : Nat}
    {summand_lengths : List Nat} {longest_summand : Nat} {sum : List Char} {base : Nat}
    {print just_one : Bool} {u : Uninit} {p : Puzzle}
    (hp : prepare u summands summand_count summand_lengths longest_summand sum base print
      just_one = .ok p) :
    p.max_carry = fill_max_carry p.base p.max_digit p.column_lengths sum.length
      (List.replicate (MAX_LEN + 1) 0) := by
  unfold prepare at hp
  simp only at hp
  split_ifs at hp with h1 h2
  split at hp
  · cases hp
  · split_ifs at hp with h3
    simp only [Except.ok.injEq] at hp
    subst hp
    rfl

/-- The table `max_carry` of a prepared puzzle. -/
theorem carry_bounds_of_prepare {summands : List (List Char)} {summand_count : Nat}
    {summand_lengths : List Nat} {longest_summand : Nat} {sum : List Char} {base : Nat}
    {print just_one : Bool} {u : Uninit} {p : Puzzle}
    (hv : valid_instance summands summand_count summand_lengths longest_summand sum base
      = true)
    (hp : prepare u summands summand_count summand_lengths longest_summand sum base print
      just_one = .ok p) :
    CarryBounds p (columns summands sum.length) := by
  have P := prepare_ok hv hp
  have hm := prepare_max_carry hp
  have hL : sum.length ≤ MAX_LEN := by
    have := P.ok.sum_le
    rwa [P.sum_eq] at this
  obtain ⟨r1, r2, r3⟩ := fill_max_carry_spec p.base p.max_digit p.column_lengths sum.length
    (List.replicate (MAX_LEN + 1) 0) (List.length_replicate _ _) hL
  rw [← hm] at r1 r2 r3
  constructor
  · rw [P.sum_eq, iget_natCast, r2 _ (le_refl _)]
    simp only [List.getD_eq_getElem?_getD, List.getElem?_replicate]
    split_ifs <;> rfl
  · intro c hc
    rw [P.sum_eq] at hc
    rw [iget_natCast, iget_natCast, r3 c hc]
    have := P.ok.col_len c (by rw [P.sum_eq]; exact hc)
    rw [iget_natCast] at this
    rw [this]

/-- The bounds of the table are not negative, and one more than the bound of
a column, times the base, is more than the column can deliver. -/
theorem CarryBounds.facts {p : Puzzle} {cols : List (List Char)} (ok : PuzzleOK p cols)
    (B : CarryBounds p cols) (c : Nat) (hc : c ≤ p.sum.length) :
    0 ≤ iget p.max_carry c
    ∧ (c < p.sum.length →
        p.max_digit * ((cols.getD c []).length : Int) + iget p.max_carry (c + 1 : Nat)
          < p.base * (iget p.max_carry c + 1)) := by
  have hb : (0 : Int) < p.base := by have := ok.base_lo; omega
  have hmd : (0 : Int) ≤ p.max_digit := by have := ok.max_digit; have := ok.base_lo; omega
  have key : ∀ k c, c + k = p.sum.length → 0 ≤ iget p.max_carry c := by
    intro k
    induction k with
    | zero =>
      intro c hck
      have : c = p.sum.length := by omega
      rw [this, B.last]
    | succ k ih =>
      intro c hck
      rw [B.col c (by omega)]
      apply Int.tdiv_nonneg _ hb.le
      have := ih (c + 1) (by omega)
      have h2 : (0 : Int) ≤ p.max_digit * ((cols.getD c []).length : Int) :=
        mul_nonneg hmd (by omega)
      omega
  refine ⟨key (p.sum.length - c) c (by omega), fun hlt => ?_⟩
  have hn : 0 ≤ p.max_digit * ((cols.getD c []).length : Int) + iget p.max_carry (c + 1 : Nat) := by
    have := key (p.sum.length - (c + 1)) (c + 1) (by omega)
    have h2 : (0 : Int) ≤ p.max_digit * ((cols.getD c []).length : Int) :=
      mul_nonneg hmd (by omega)
    omega
  rw [B.col c hlt]
  generalize p.max_digit * ((cols.getD c []).length : Int) + iget p.max_carry (c + 1 : Nat) = X
    at hn ⊢
  rw [Int.tdiv_eq_ediv hn hb.le]
  have := Int.lt_ediv_add_one_mul_self X hb
  linarith

/-! ### A carry above the bound stays above the bound -/

theorem map_sum_le (f : Char → Int) (l : List Char) (M : Int) (h : ∀ ch ∈ l, f ch ≤ M) :
    (l.map f).sum ≤ M * (l.length : Int) := by
  induction l with
  | nil => simp
  | cons x xs ih =>
    have h1 := h x (List.mem_cons_self _ _)
    have h2 := ih (fun ch hch => h ch (List.mem_cons_of_mem _ hch))
    simp only [List.map_cons, List.sum_cons, List.length_cons]
    push_cast
    linarith

theorem enter_summands_moves {t t' : State} (h : enter_summands t = .running t') :
    t' = { t with in_summands := decide (t.curr_smnd_row ≥ 0) } := by
  unfold enter_summands at h
  split_ifs at h with h1 h2
  · simp only [Config.running.injEq] at h
    subst h
    simp only [h2, decide_True]
  · simp only [Config.running.injEq] at h
    subst h
    simp only [h2, decide_False]

theorem step_unpruned_relaxed (p : Puzzle) (s : State) (c : Nat) (hcol : s.curr_column = c)
    (hc : c ≤ MAX_LEN) (hlt : s.curr_column ≠ p.sum_length → c < MAX_LEN) :
    step_unpruned_exact p s
      = step { p with max_carry :=
                 if s.in_summands then p.max_carry else relaxed p.max_carry s } s := by
  cases hin : s.in_summands with
  | true =>
    unfold step_unpruned_exact step
    simp only [hin, if_true]
  | false =>
    unfold step_unpruned_exact step
    simp only [hin, Bool.false_eq_true, if_false]
    have h1 := relaxed_here p.max_carry s c hcol hc
    unfold step_sum_unpruned_exact step_sum
    by_cases hL : s.curr_column = p.sum_length
    · simp only [hL, if_true]
    · have h2 := relaxed_next p.max_carry s c hcol (hlt hL)
      simp only [hL, if_false]
      rw [h1, h2]
      simp only [gt_iff_lt, lt_irrefl, if_false]
      rfl

theorem twin_step_unpruned {p p' : Puzzle} {cols : List (List Char)} (ok : PuzzleOK p cols)
    (ok' : PuzzleOK p' cols) (hp : TwinP p p') {s s' : State} (G : Good p cols s)
    (T : Twin s s') : TwinC (step_unpruned_exact p s) (step_unpruned_exact p' s') := by
  obtain ⟨c, r, G⟩ := G
  have hcol := G.col_eq
  have hc : c ≤ MAX_LEN := le_trans G.col_le ok.sum_le
  have hlt : s.curr_column ≠ p.sum_length → c < MAX_LEN := by
    intro hne
    rw [hcol, ok.sum_length] at hne
    have := G.col_le
    have := ok.sum_le
    have : (c : Int) ≠ (p.sum.length : Int) := hne
    omega
  have hcol' : s'.curr_column = c := by rw [T.same]; exact hcol
  have hL' : p'.sum_length = p.sum_length := by rw [hp]
  rw [step_unpruned_relaxed p s c hcol hc hlt,
    step_unpruned_relaxed p' s' c hcol' hc (by rw [hL', hcol', ← hcol]; exact hlt)]
  have hin' : s'.in_summands = s.in_summands := by rw [T.same]
  have hm : (if s'.in_summands then p'.max_carry else relaxed p'.max_carry s')
      = (if s.in_summands then p.max_carry else relaxed p.max_carry s) := by
    have e1 : p'.max_carry = p.max_carry := by rw [hp]
    have e2 : relaxed p.max_carry s' = relaxed p.max_carry s := by
      unfold relaxed
      rw [T.same]
    rw [hin', e1, e2]
  rw [hm]
  refine twin_step (puzzle_ok_relax ok _) (puzzle_ok_relax ok' _) ?_ ⟨c, r, good_at_relax G _⟩ T
  unfold TwinP
  conv_lhs => rw [hp]

theorem twin_run_unpruned {p p' : Puzzle} {cols : List (List Char)} (ok : PuzzleOK p cols)
    (ok' : PuzzleOK p' cols) (hp : TwinP p p') (fuel : Nat) (s s' : State)
    (G : Good p cols s) (T : Twin s s') : run_unpruned_exact p fuel s = run_unpruned_exact p' fuel s' := by
  induction fuel generalizing s s' with
  | zero => rfl
  | succ n ih =>
    have h := twin_step_unpruned ok ok' hp G T
    have hg := good_step_unpruned ok s G
    simp only [run_unpruned_exact]
    cases h1 : step_unpruned_exact p s with
    | halted o =>
      cases h2 : step_unpruned_exact p' s' with
      | halted o' => rw [h1, h2] at h; exact congrArg some h
      | running t' => rw [h1, h2] at h; exact h.elim
    | running t =>
      cases h2 : step_unpruned_exact p' s' with
      | halted o' => rw [h1, h2] at h; exact h.elim
      | running t' =>
        rw [h1, h2] at h
        rw [h1] at hg
        exact ih t t' hg h

theorem step_unpruned_initial {p : Puzzle} {cols : List (List Char)} (ok : PuzzleOK p cols)
    (u : Uninit) :
    step_unpruned_exact p (initial_state u)
      = step_unpruned_exact p
          (initial_state { u with value := 0, needed_sum := 0, curr_smnd_row := 0 }) := by
  have hlt : ∀ v : Uninit, (initial_state v).curr_column ≠ p.sum_length → 0 < MAX_LEN :=
    fun _ _ => by decide
  rw [step_unpruned_relaxed p (initial_state u) 0 rfl (Nat.zero_le _) (hlt u),
    step_unpruned_relaxed p _ 0 rfl (Nat.zero_le _) (hlt _)]
  exact step_initial (puzzle_ok_relax ok _) u

/-- The result of the variant on a validated instance does not depend on the
contents of the storage it does not initialise. -/
theorem solve_unpruned_uninit (u u' : Uninit) (fuel : Nat) (summands : List (List Char))
    (summand_count : Nat) (summand_lengths : List Nat) (longest_summand : Nat)
    (sum : List Char) (base : Nat) (print just_one : Bool)
    (hv : valid_instance summands summand_count summand_lengths longest_summand sum base
      = true) :
    solve_unpruned_exact u fuel summands summand_count summand_lengths longest_summand sum base
        print just_one
      = solve_unpruned_exact u' fuel summands summand_count summand_lengths longest_summand sum base
          print just_one := by
  unfold solve_unpruned_exact
  rcases prepare_twin u u' summands summand_count summand_lengths longest_summand sum base
    print just_one with ⟨o, h1, h2⟩ | ⟨p, p', h1, h2, hp⟩
  · rw [h1, h2]
  · rw [h1, h2]
    dsimp only
    have ok := (prepare_ok hv h1).ok
    have ok' := (prepare_ok hv h2).ok
    cases fuel with
    | zero => rfl
    | succ n =>
      have e1 : run_unpruned_exact p (n + 1) (initial_state u)
          = run_unpruned_exact p (n + 1)
              (initial_state { u with value := 0, needed_sum := 0, curr_smnd_row := 0 }) := by
        simp only [run_unpruned_exact]
        rw [step_unpruned_initial ok u]
      have e2 : run_unpruned_exact p' (n + 1) (initial_state u')
          = run_unpruned_exact p' (n + 1)
              (initial_state { u' with value := 0, needed_sum := 0, curr_smnd_row := 0 }) := by
        simp only [run_unpruned_exact]
        rw [step_unpruned_initial ok' u']
      rw [e1, e2]
      refine twin_run_unpruned ok ok' hp (n + 1) _ _ (good_init _) ⟨rfl, ?_, ?_, ?_⟩
      · exact agree_initial _ _ (by simp [initial_state])
      · exact agree_initial _ _ (by simp [initial_state])
      · simp [initial_state]

/-- More fuel does not change a result of the variant. -/
theorem solve_unpruned_mono (u : Uninit) (fuel k : Nat) (summands : List (List Char))
    (summand_count : Nat) (summand_lengths : List Nat) (longest_summand : Nat)
    (sum : List Char) (base : Nat) (print just_one : Bool) (o : Outcome)
    (h : solve_unpruned_exact u fuel summands summand_count summand_lengths longest_summand sum base
      print just_one = some o) :
    solve_unpruned_exact u (fuel + k) summands summand_count summand_lengths longest_summand sum
      base print just_one = some o := by
  unfold solve_unpruned_exact at h ⊢
  cases hp : prepare u summands summand_count summand_lengths longest_summand sum base print
    just_one with
  | error e => rw [hp] at h; exact h
  | ok p => rw [hp] at h; exact run_unpruned_mono p fuel k _ o h

/-! ## Words that pass the check -/

theorem upcase_parts (s : List Char) (hs : '\x00' ∉ s) :
    (upcase_and_check_legality s).string = (word_run s).map toupper
    ∧ (upcase_and_check_legality s).string_length = (word_run s).length
    ∧ (upcase_and_check_legality s).result
      = if (word_run s).all isalpha = true
          ∧ ((s.dropWhile is_blank).dropWhile fun c => !is_blank c).dropWhile is_blank = []
          ∧ (word_run s).length ≤ MAX_LEN then 1 else 0 := by
  have hsd : '\x00' ∉ s.dropWhile is_blank := fun h =>
    hs ((List.dropWhile_suffix is_blank).subset h)
  obtain ⟨e1, e2, e3⟩ := copy_word_eq (s.dropWhile is_blank) hsd 1 [] []
  refine ⟨?_, ?_, ?_⟩
  · unfold upcase_and_check_legality word_run
    simp only [skip_blanks_eq]
    rw [e2]; rfl
  · unfold upcase_and_check_legality word_run
    simp only [skip_blanks_eq]
    rw [e2]; simp
  · unfold upcase_and_check_legality word_run
    simp only [skip_blanks_eq]
    rw [e1, e2, e3]
    simp only [List.nil_append, List.length_map]
    by_cases ha : (List.takeWhile (fun c => !is_blank c) (List.dropWhile is_blank s)).all isalpha
        = true
    · simp only [ha, if_true, true_and]
      by_cases hr : List.dropWhile is_blank (List.dropWhile (fun c => !is_blank c)
          (List.dropWhile is_blank s)) = []
      · simp only [hr, List.headD_nil, ne_eq, not_true_eq_false, and_false, decide_False,
          Bool.false_eq_true, if_false, true_and, gt_iff_lt, decide_eq_true_eq]
        split_ifs <;> first | rfl | omega
      · have hh : (List.dropWhile is_blank (List.dropWhile (fun c => !is_blank c)
            (List.dropWhile is_blank s))).headD '\x00' ≠ '\x00' := by
          intro h0
          cases hl : List.dropWhile is_blank (List.dropWhile (fun c => !is_blank c)
            (List.dropWhile is_blank s)) with
          | nil => exact hr hl
          | cons y ys =>
            rw [hl] at h0
            have hy : y = '\x00' := h0
            have : y ∈ s := by
              have m1 : y ∈ List.dropWhile is_blank (List.dropWhile (fun c => !is_blank c)
                (List.dropWhile is_blank s)) := by rw [hl]; exact List.mem_cons_self _ _
              exact (List.dropWhile_suffix is_blank).subset
                ((List.dropWhile_suffix _).subset ((List.dropWhile_suffix is_blank).subset m1))
            exact hs (hy ▸ this)
        have hh2 : decide (1 ≠ 0 ∧ (List.dropWhile is_blank (List.dropWhile
            (fun c => !is_blank c) (List.dropWhile is_blank s))).headD '\x00' ≠ '\x00')
            = true := decide_eq_true ⟨by decide, hh⟩
        rw [hh2]
        simp only [if_true, hr, false_and, if_false]
        split_ifs <;> rfl
    · simp [ha]

/-- What `upcase_and_check_legality` has checked when it returns 1: the
string written back consists of upper-case letters, `*string_length` is its
length and is at most `MAX_LEN`; the length is 0 exactly when the string given
holds nothing but blanks, and in every other case the string written back is a
word. -/
theorem accepted_word (s : List Char) (hs : '\x00' ∉ s)
    (h : (upcase_and_check_legality s).result = 1) :
    (∀ c ∈ (upcase_and_check_legality s).string, 'A' ≤ c ∧ c ≤ 'Z')
    ∧ (upcase_and_check_legality s).string_length = (upcase_and_check_legality s).string.length
    ∧ (upcase_and_check_legality s).string_length ≤ MAX_LEN
    ∧ ((upcase_and_check_legality s).string_length = 0 ↔ ∀ c ∈ s, c = ' ' ∨ c = '\t')
    ∧ ((upcase_and_check_legality s).string_length ≠ 0 →
        is_word (upcase_and_check_legality s).string = true) := by
  obtain ⟨e1, e2, e3⟩ := upcase_parts s hs
  rw [e3] at h
  split_ifs at h with hc
  obtain ⟨h1, h2, h3⟩ := hc
  have hup : ∀ c ∈ (upcase_and_check_legality s).string, 'A' ≤ c ∧ c ≤ 'Z' := by
    rw [e1]
    intro c hc
    obtain ⟨x, hx, rfl⟩ := List.mem_map.1 hc
    exact toupper_upper x (List.all_eq_true.1 h1 x hx)
  have hlen : (upcase_and_check_legality s).string_length
      = (upcase_and_check_legality s).string.length := by
    rw [e1, e2, List.length_map]
  refine ⟨hup, hlen, by rw [e2]; exact h3, ?_, ?_⟩
  · rw [e2, List.length_eq_zero]
    unfold word_run
    constructor
    · intro h0
      have hd : s.dropWhile is_blank = [] := by
        cases hl : s.dropWhile is_blank with
        | nil => rfl
        | cons y ys =>
          have hy : ¬ is_blank y = true := by
            have := List.head_dropWhile_not is_blank s (by rw [hl]; simp)
            simpa [hl] using this
          rw [hl, List.takeWhile_cons] at h0
          simp only [Bool.not_eq_true] at hy
          simp [hy] at h0
      intro c hc
      have := List.dropWhile_eq_nil_iff.1 hd c hc
      simpa [is_blank] using this
    · intro hall
      have hd : s.dropWhile is_blank = [] := by
        apply List.dropWhile_eq_nil_iff.2
        intro c hc
        simpa [is_blank] using hall c hc
      rw [hd]
      rfl
  · intro hne
    unfold is_word
    have hn : (upcase_and_check_legality s).string ≠ [] := by
      intro h0
      rw [hlen, h0] at hne
      exact hne rfl
    have hl : (upcase_and_check_legality s).string.length ≤ MAX_LEN := by
      rw [← hlen, e2]; exact h3
    simp only [Bool.and_eq_true, decide_eq_true_eq, List.all_eq_true]
    exact ⟨⟨hn, hl⟩, hup⟩

/-- C21 (failing input): `upcase_and_check_legality` returns 1 for the empty
string and for a string of blanks, with the empty string written back and
`*string_length` set to 0: a string it accepts need not be a word of 1 to
`MAX_LEN` letters. -/
theorem blank_string_accepted :
    (upcase_and_check_legality []).result = 1
    ∧ (upcase_and_check_legality []).string = []
    ∧ (upcase_and_check_legality []).string_length = 0
    ∧ is_word (upcase_and_check_legality []).string = false
    ∧ (upcase_and_check_legality " \t ".toList).result = 1
    ∧ (upcase_and_check_legality " \t ".toList).string = []
    ∧ (upcase_and_check_legality " \t ".toList).string_length = 0 := by
  decide

/-! ## Storage that is read before it is written, and the two fixed-size tables -/

theorem search_state_good {summands : List (List Char)} {summand_count : Nat}
    {summand_lengths : List Nat} {longest_summand : Nat} {sum : List Char} {base : Nat}
    {print just_one : Bool} {u : Uninit} {n : Nat} {p : Puzzle} {s : State}
    (hv : valid_instance summands summand_count summand_lengths longest_summand sum base
      = true)
    (h : search_state u n summands summand_count summand_lengths longest_summand sum base
      print just_one = some (p, s)) :
    prepare u summands summand_count summand_lengths longest_summand sum base print just_one
        = .ok p
      ∧ iterate p n (initial_state u) = .running s
      ∧ Prepared summands sum base print just_one p
      ∧ Good p (columns summands sum.length) s := by
  unfold search_state at h
  cases hp : prepare u summands summand_count summand_lengths longest_summand sum base
      print just_one with
  | error o => rw [hp] at h; simp at h
  | ok p' =>
    rw [hp] at h
    simp only at h
    cases hit : iterate p' n (initial_state u) with
    | halted o => rw [hit] at h; simp at h
    | running s' =>
      rw [hit] at h
      simp only [Option.some.injEq, Prod.mk.injEq] at h
      obtain ⟨rfl, rfl⟩ := h
      have P := prepare_ok hv hp
      have G := good_iterate P.ok n (initial_state u) (good_init u)
      rw [hit] at G
      exact ⟨rfl, hit, P, G⟩

/-- C22: on a validated instance the outcome of `solve` does not depend on the
contents of the storage it reads before writing (`static_summands`,
`number_map`, `min_value`, `max_value`, `value`, `needed_sum`,
`curr_smnd_row`): a call that returns the count `n`, the difficulty `d` and the
lines `out` from the storage `u` returns the same from any other storage `u2`,
with the same fuel and with any fuel on which it comes to an end. -/
theorem solve_stateless (u u2 : Uninit) (fuel : Nat) (summands : List (List Char))
    (summand_count : Nat) (summand_lengths : List Nat) (longest_summand : Nat)
    (sum : List Char) (base : Nat) (print just_one : Bool)
    (hv : valid_instance summands summand_count summand_lengths longest_summand sum base
      = true)
    (n d : Nat) (out : List Line)
    (h : solve u fuel summands summand_count summand_lengths longest_summand sum base print
      just_one = some (.returned n d out)) :
    solve u2 fuel summands summand_count summand_lengths longest_summand sum base print
        just_one = some (.returned n d out)
      ∧ ∀ fuel2 o, solve u2 fuel2 summands summand_count summand_lengths longest_summand sum
          base print just_one = some o → o = .returned n d out := by
  have h2 : solve u2 fuel summands summand_count summand_lengths longest_summand sum base
      print just_one = some (.returned n d out) := by
    rw [← solve_uninit u u2 fuel summands summand_count summand_lengths longest_summand sum
      base print just_one hv]
    exact h
  refine ⟨h2, ?_⟩
  intro fuel2 o ho
  have a := solve_mono u2 fuel fuel2 summands summand_count summand_lengths longest_summand
    sum base print just_one _ h2
  have b := solve_mono u2 fuel2 fuel summands summand_count summand_lengths longest_summand
    sum base print just_one _ ho
  rw [Nat.add_comm fuel2 fuel, a] at b
  exact (Option.some.inj b).symm

theorem solve_stateless_witness :
    solve { Uninit.zero with number_map := fun _ => 7, value := 3, curr_smnd_row := 5 } 13
        ["I".toList, "BB".toList] 2 [1, 2] 2 "ILL".toList 10 true false
      = some (.returned 1 1 [.solution [('B', 9), ('I', 1), ('L', 0)]]) :=
  (solve_stateless Uninit.zero
    { Uninit.zero with number_map := fun _ => 7, value := 3, curr_smnd_row := 5 } 13
    ["I".toList, "BB".toList] 2 [1, 2] 2 "ILL".toList 10 true false (by decide!) 1 1
    [.solution [('B', 9), ('I', 1), ('L', 0)]] (by decide!)).1

/-- C23 (failing input): with more than `MAX_STATIC_SUMMANDS` summands the
reformatting loop of `solve` writes `reform_smnds` at an index outside the
`MAX_LEN * MAX_STATIC_SUMMANDS` cells of `static_summands`: the initialisation
of every validated call with seven or more summands, none longer than the sum,
ends in that write, before the search starts. -/
theorem grid_write_outside (u : Uninit) (fuel : Nat) (summands : List (List Char))
    (summand_count : Nat) (summand_lengths : List Nat) (longest_summand : Nat)
    (sum : List Char) (base : Nat) (print just_one : Bool)
    (hv : valid_instance summands summand_count summand_lengths longest_summand sum base
      = true)
    (hmany : MAX_STATIC_SUMMANDS < summand_count) (hlong : longest_summand ≤ sum.length) :
    prepare u summands summand_count summand_lengths longest_summand sum base print just_one
        = .error .fault
      ∧ solve u fuel summands summand_count summand_lengths longest_summand sum base print
          just_one = some .fault := by
  have h0 := many_summands_fault u 0 summands summand_count summand_lengths longest_summand
    sum base print just_one hv hmany hlong
  refine ⟨?_, many_summands_fault u fuel summands summand_count summand_lengths
    longest_summand sum base print just_one hv hmany hlong⟩
  unfold solve at h0
  cases hp : prepare u summands summand_count summand_lengths longest_summand sum base
      print just_one with
  | error o =>
    rw [hp] at h0
    simp only [Option.some.injEq] at h0
    rw [h0]
  | ok p =>
    rw [hp] at h0
    simp [run] at h0

theorem grid_write_outside_witness :
    prepare Uninit.zero
        ["A".toList, "A".toList, "A".toList, "A".toList, "A".toList, "A".toList, "A".toList]
        7 [1, 1, 1, 1, 1, 1, 1] 1 "AB".toList 10 false false = .error .fault
      ∧ solve Uninit.zero 0
        ["A".toList, "A".toList, "A".toList, "A".toList, "A".toList, "A".toList, "A".toList]
        7 [1, 1, 1, 1, 1, 1, 1] 1 "AB".toList 10 false false = some .fault :=
  grid_write_outside Uninit.zero 0
    ["A".toList, "A".toList, "A".toList, "A".toList, "A".toList, "A".toList, "A".toList]
    7 [1, 1, 1, 1, 1, 1, 1] 1 "AB".toList 10 false false (by decide!) (by decide) (by decide)

theorem grid_reads_inside {summands : List (List Char)} {summand_count : Nat}
    {summand_lengths : List Nat} {longest_summand : Nat} {sum : List Char} {base : Nat}
    {print just_one : Bool} {u : Uninit} {p : Puzzle}
    (hv : valid_instance summands summand_count summand_lengths longest_summand sum base
      = true)
    (hsix : summand_count ≤ MAX_STATIC_SUMMANDS)
    (hp : prepare u summands summand_count summand_lengths longest_summand sum base print
      just_one = .ok p) :
    ∀ c : Nat, c < sum.length →
      0 ≤ iget p.column_lengths c ∧ iget p.column_lengths c ≤ summand_count
      ∧ ∀ r : Nat, (r : Int) < iget p.column_lengths c →
          0 ≤ summand_index r c
          ∧ summand_index r c < (MAX_LEN * MAX_STATIC_SUMMANDS : Nat) := by
  have V := valid_instance_facts hv
  have P := prepare_ok hv hp
  intro c hc
  have hcL : c < p.sum.length := by rw [P.sum_eq]; exact hc
  have h1 := P.ok.col_len c hcL
  rw [columns_getD summands sum.length c hc] at h1
  have h2 := column_letters_length_le summands sum.length c
  have h3 : sum.length ≤ MAX_LEN := by have := P.ok.sum_le; rwa [P.sum_eq] at this
  have h4 : summands.length = summand_count := V.count_eq.symm
  rw [h1]
  refine ⟨by positivity, by exact_mod_cast (h4 ▸ h2), ?_⟩
  intro r hr
  have hr' : r < (column_letters summands sum.length c).length := by exact_mod_cast hr
  simp only [summand_index, MAX_LEN_SHIFT, MAX_LEN, MAX_STATIC_SUMMANDS] at *
  constructor
  · positivity
  · push_cast
    omega

/-- C24 (failing input): on the single-summand puzzle
`AAAAAAAAAAAAAAAA = AAAAAAAAAAAAAAAA` in base 10, whose sum has `MAX_LEN`
letters, the search of `solve` completes column 15 and writes
`needed_carry[16]`, outside the `MAX_LEN` cells of the array, whatever the
storage held before and however much fuel is given beyond 32 transitions. -/
theorem carry_write_outside (u : Uninit) (k : Nat) :
    solve u (32 + k) ["AAAAAAAAAAAAAAAA".toList] 1 [16] 16 "AAAAAAAAAAAAAAAA".toList 10
      false false = some .fault := by
  rw [solve_uninit u Uninit.zero _ _ _ _ _ _ _ _ _ (by decide!)]
  exact solve_mono _ _ _ _ _ _ _ _ _ _ _ _ (by decide!)

theorem good_not_accepting {p : Puzzle} {cols : List (List Char)} (ok : PuzzleOK p cols)
    (hL : p.sum.length = MAX_LEN) (s : State) (G : Good p cols s) :
    accepting p s = false := by
  obtain ⟨c, r, G⟩ := G
  have h1 := G.carry.2.1
  have h2 := G.col_eq
  have h3 := ok.sum_length
  unfold accepting
  have : s.curr_column ≠ p.sum_length := by
    rw [h2, h3, hL]
    exact_mod_cast (Nat.ne_of_lt h1)
  simp [this]

theorem run_counts_nothing {p : Puzzle} {cols : List (List Char)} (ok : PuzzleOK p cols)
    (hL : p.sum.length = MAX_LEN) (fuel : Nat) (s : State) (G : Good p cols s)
    (n d : Nat) (out : List Line) (h : run p fuel s = some (.returned n d out)) :
    n = s.solutions_found ∧ out = s.output := by
  induction fuel generalizing s with
  | zero => simp [run] at h
  | succ f ih =>
    simp only [run] at h
    have hk := step_keeps p s (good_not_accepting ok hL s G)
    have hg := good_step ok s G
    cases hs : step p s with
    | halted o =>
      rw [hs] at h hk
      simp only [Option.some.injEq] at h
      subst h
      rcases hk with hk | ⟨d', hk⟩
      · cases hk
      · simp only [Outcome.returned.injEq] at hk
        exact ⟨hk.1, hk.2.2⟩
    | running s' =>
      rw [hs] at h hk hg
      simp only at h
      obtain ⟨a, b⟩ := ih s' hg h
      exact ⟨a.trans hk.1, b.trans hk.2⟩

theorem full_length_sum_counts_nothing (u : Uninit) (fuel : Nat) (summands : List (List Char))
    (summand_count : Nat) (summand_lengths : List Nat) (longest_summand : Nat)
    (sum : List Char) (base : Nat) (print just_one : Bool)
    (hv : valid_instance summands summand_count summand_lengths longest_summand sum base
      = true)
    (hL : sum.length = MAX_LEN) (n d : Nat) (out : List Line)
    (h : solve u fuel summands summand_count summand_lengths longest_summand sum base print
      just_one = some (.returned n d out)) : n = 0 := by
  unfold solve at h
  cases hp : prepare u summands summand_count summand_lengths longest_summand sum base
      print just_one with
  | error o =>
    rw [hp] at h
    simp only [Option.some.injEq] at h
    subst h
    unfold prepare at hp
    simp only at hp
    split_ifs at hp
    · simp only [Except.error.injEq, Outcome.returned.injEq] at hp; exact hp.1.symm
    · simp only [Except.error.injEq, Outcome.returned.injEq] at hp; exact hp.1.symm
    · split at hp
      · simp at hp
      · split_ifs at hp
        simp only [Except.error.injEq, Outcome.returned.injEq] at hp; exact hp.1.symm
  | ok p =>
    rw [hp] at h
    simp only at h
    have P := prepare_ok hv hp
    have hL' : p.sum.length = MAX_LEN := by rw [P.sum_eq]; exact hL
    exact (run_counts_nothing P.ok hL' fuel (initial_state u) (good_init u) n d out h).1

/-! ## The column layout and the table of carry bounds -/

theorem column_letters_eq_map (summands : List (List Char)) (L c : Nat) (hc : c < L) :
    column_letters summands L c
      = (summands.filter fun w => decide (L - c ≤ w.length)).map
          fun w => w.getD (w.length - (L - c)) '\x00' := by
  induction summands with
  | nil => rfl
  | cons w ws ih =>
    by_cases hreach : L - c ≤ w.length
    · have hk : w.length - (L - c) < w.length := by omega
      rw [column_letters_cons_reach w ws L c hreach hk, ih,
        List.filter_cons_of_pos (by simpa using hreach), List.map_cons]
      congr 1
      simp [List.getD_eq_getElem?_getD, List.getElem?_eq_getElem hk]
    · rw [column_letters_cons_short w ws L c hreach, ih,
        List.filter_cons_of_neg (by simpa using hreach)]

/-- C25: the table `max_carry` of a prepared puzzle holds 0 in the place after
the last column and, in every column `c`, the floor of
`((base - 1) * column_lengths[c] + max_carry[c + 1]) / base`, where
`column_lengths[c]` is the number of summands that reach column `c`, those of
length at least `sum_length - c`. -/
theorem max_carry_table {summands : List (List Char)} {summand_count : Nat}
    {summand_lengths : List Nat} {longest_summand : Nat} {sum : List Char} {base : Nat}
    {print just_one : Bool} {u : Uninit} {p : Puzzle}
    (hv : valid_instance summands summand_count summand_lengths longest_summand sum base
      = true)
    (hp : prepare u summands summand_count summand_lengths longest_summand sum base print
      just_one = .ok p) :
    iget p.max_carry sum.length = 0
      ∧ ∀ c : Nat, c < sum.length →
          iget p.column_lengths c
              = ((summands.filter fun w => decide (sum.length - c ≤ w.length)).length : Int)
          ∧ 0 ≤ ((base : Int) - 1) * iget p.column_lengths c + iget p.max_carry (c + 1 : Nat)
          ∧ iget p.max_carry c
              = (((base : Int) - 1) * iget p.column_lengths c + iget p.max_carry (c + 1 : Nat))
                  / (base : Int) := by
  have P := prepare_ok hv hp
  have B := carry_bounds_of_prepare hv hp
  have hmd : p.max_digit = (base : Int) - 1 := by rw [P.ok.max_digit, P.base_eq]
  have hb : 2 ≤ base := by have := P.ok.base_lo; rw [P.base_eq] at this; exact_mod_cast this
  constructor
  · have := B.last
    rwa [P.sum_eq] at this
  · intro c hc
    have hcL : c < p.sum.length := by rw [P.sum_eq]; exact hc
    have h1 := P.ok.col_len c hcL
    have h2 := B.col c hcL
    have h3 := (B.facts P.ok (c + 1) (by omega)).1
    rw [columns_getD summands sum.length c hc] at h1 h2
    rw [column_letters_eq_map summands sum.length c hc, List.length_map] at h1 h2
    rw [hmd, P.base_eq] at h2
    have hnn : 0 ≤ ((base : Int) - 1)
        * (((summands.filter fun w => decide (sum.length - c ≤ w.length)).length : Nat) : Int)
        + iget p.max_carry (c + 1 : Nat) := by
      have : (0 : Int) ≤ (base : Int) - 1 := by omega
      positivity
    refine ⟨h1, ?_, ?_⟩
    · rw [h1]; exact hnn
    · rw [h1, h2]
      exact Int.tdiv_eq_ediv hnn (by omega)

theorem max_carry_table_witness :
    ∃ p, prepare Uninit.zero ["SEND".toList, "MORE".toList] 2 [4, 4] 4 "MONEY".toList 10
        false false = .ok p
      ∧ iget p.max_carry "MONEY".toList.length = 0
      ∧ ∀ c : Nat, c < "MONEY".toList.length →
          iget p.column_lengths c
              = ((["SEND".toList, "MORE".toList].filter
                  fun w => decide ("MONEY".toList.length - c ≤ w.length)).length : Int)
          ∧ 0 ≤ (((10 : Nat) : Int) - 1) * iget p.column_lengths c
              + iget p.max_carry (c + 1 : Nat)
          ∧ iget p.max_carry c
              = ((((10 : Nat) : Int) - 1) * iget p.column_lengths c
                  + iget p.max_carry (c + 1 : Nat)) / ((10 : Nat) : Int) := by
  have hsome : (prepare Uninit.zero ["SEND".toList, "MORE".toList] 2 [4, 4] 4 "MONEY".toList
      10 false false).isOk = true := by decide!
  cases hp : prepare Uninit.zero ["SEND".toList, "MORE".toList] 2 [4, 4] 4 "MONEY".toList 10
      false false with
  | error o => rw [hp] at hsome; simp [Except.isOk, Except.toBool] at hsome
  | ok p => exact ⟨p, rfl, max_carry_table (by decide!) hp⟩

/-- C26: in a prepared puzzle, for every column `c` below `sum_length`,
`column_lengths[c]` is the number of summands of length at least
`sum_length - c`, and the rows `0 .. column_lengths[c] - 1` of column `c` of the
reformatted grid hold, in summand order, the letters
`summands[i][length_i - (sum_length - c)]` of those summands. -/
theorem column_layout {summands : List (List Char)} {summand_count : Nat}
    {summand_lengths : List Nat} {longest_summand : Nat} {sum : List Char} {base : Nat}
    {print just_one : Bool} {u : Uninit} {p : Puzzle}
    (hv : valid_instance summands summand_count summand_lengths longest_summand sum base
      = true)
    (hp : prepare u summands summand_count summand_lengths longest_summand sum base print
      just_one = .ok p) :
    ∀ c : Nat, c < sum.length →
      iget p.column_lengths c
          = ((summands.filter fun w => decide (sum.length - c ≤ w.length)).length : Int)
      ∧ (List.range (summands.filter fun w => decide (sum.length - c ≤ w.length)).length).map
            (fun (r : Nat) => summand_char p.reform_smnds r c)
          = (summands.filter fun w => decide (sum.length - c ≤ w.length)).map
              fun w => w.getD (w.length - (sum.length - c)) '\x00' := by
  have P := prepare_ok hv hp
  intro c hc
  have hcL : c < p.sum.length := by rw [P.sum_eq]; exact hc
  have h1 := P.ok.col_len c hcL
  have h2 := P.ok.grid c hcL
  rw [columns_getD summands sum.length c hc] at h1 h2
  have hlen : (column_letters summands sum.length c).length
      = (summands.filter fun w => decide (sum.length - c ≤ w.length)).length := by
    rw [column_letters_eq_map summands sum.length c hc, List.length_map]
  refine ⟨by rw [h1, hlen], ?_⟩
  rw [← column_letters_eq_map summands sum.length c hc, ← hlen]
  apply List.ext_getElem
  · simp
  · intro r hr1 hr2
    simp only [List.length_map, List.length_range] at hr1
    rw [List.getElem_map, List.getElem_range, h2 r hr1, List.getD_eq_getElem?_getD,
      List.getElem?_eq_getElem hr2]
    rfl

theorem column_layout_witness :
    ∃ p, prepare Uninit.zero ["SEND".toList, "MORE".toList] 2 [4, 4] 4 "MONEY".toList 10
        false false = .ok p
      ∧ ∀ c : Nat, c < "MONEY".toList.length →
          iget p.column_lengths c
              = ((["SEND".toList, "MORE".toList].filter
                  fun w => decide ("MONEY".toList.length - c ≤ w.length)).length : Int)
          ∧ (List.range (["SEND".toList, "MORE".toList].filter
                fun w => decide ("MONEY".toList.length - c ≤ w.length)).length).map
                (fun (r : Nat) => summand_char p.reform_smnds r c)
              = (["SEND".toList, "MORE".toList].filter
                  fun w => decide ("MONEY".toList.length - c ≤ w.length)).map
                  fun w => w.getD (w.length - ("MONEY".toList.length - c)) '\x00' := by
  have hsome : (prepare Uninit.zero ["SEND".toList, "MORE".toList] 2 [4, 4] 4 "MONEY".toList
      10 false false).isOk = true := by decide!
  cases hp : prepare Uninit.zero ["SEND".toList, "MORE".toList] 2 [4, 4] 4 "MONEY".toList 10
      false false with
  | error o => rw [hp] at hsome; simp [Except.isOk, Except.toBool] at hsome
  | ok p => exact ⟨p, rfl, column_layout (by decide!) hp⟩

/-! ## Invariants of the reachable search states -/

/-- C27: in every search state a validated call of `solve` reaches,
`needed_carry[0]` is 0, and for every column `c` left of the current one the
digits of the summand letters of the column and the carry required of the next
column add up to the digit of the sum letter plus `base` times the carry
required of the column:
`digitsum(c) + needed_carry[c + 1] = digit(sum[c]) + base * needed_carry[c]`. -/
theorem carry_identity {summands : List (List Char)} {summand_count : Nat}
    {summand_lengths : List Nat} {longest_summand : Nat} {sum : List Char} {base : Nat}
    {print just_one : Bool} {u : Uninit} {n : Nat} {p : Puzzle} {s : State}
    (hv : valid_instance summands summand_count summand_lengths longest_summand sum base
      = true)
    (h : search_state u n summands summand_count summand_lengths longest_summand sum base
      print just_one = some (p, s)) :
    iget s.needed_carry 0 = 0
      ∧ ∀ c : Nat, (c : Int) < s.curr_column →
          ((column_letters summands sum.length c).map (mapping s)).sum
              + iget s.needed_carry (c + 1 : Nat)
            = mapping s (sum.getD c '\x00') + (base : Int) * iget s.needed_carry c := by
  obtain ⟨-, -, P, cx, r, G⟩ := search_state_good hv h
  obtain ⟨-, -, hc⟩ := G.carry
  have hcol := G.col_eq
  have hle := G.col_le
  rw [P.sum_eq] at hle
  constructor
  · have := hc 0 (Nat.zero_le _)
    simpa [iget, carry_of] using this
  · intro c hlt
    rw [hcol] at hlt
    have hlt' : c < cx := by exact_mod_cast hlt
    have h1 := hc (c + 1) hlt'
    have h0 := hc c (by omega)
    have e1 : iget s.needed_carry ((c + 1 : Nat) : Int) = s.needed_carry.getD (c + 1) 0 := by
      simp [iget]
    have e0 : iget s.needed_carry (c : Int) = s.needed_carry.getD c 0 := by
      simp [iget]
    rw [e1, e0, h1, h0]
    simp only [carry_of]
    rw [columns_getD summands sum.length c (by omega), P.sum_eq, P.base_eq]
    show _ = tget s.number_map (sum.getD c '\x00') + _
    have : mapping s = tget s.number_map := rfl
    rw [this]
    ring

theorem carry_identity_witness :
    ∃ p s, search_state Uninit.zero 5 ["A".toList, "A".toList] 2 [1, 1] 1 "B".toList 10
        false false = some (p, s)
      ∧ s.curr_column = 1
      ∧ iget s.needed_carry 0 = 0
      ∧ ∀ c : Nat, (c : Int) < s.curr_column →
          ((column_letters ["A".toList, "A".toList] "B".toList.length c).map (mapping s)).sum
              + iget s.needed_carry (c + 1 : Nat)
            = mapping s ("B".toList.getD c '\x00')
                + ((10 : Nat) : Int) * iget s.needed_carry c := by
  have hsome : (search_state Uninit.zero 5 ["A".toList, "A".toList] 2 [1, 1] 1 "B".toList 10
      false false).isSome = true := by decide!
  obtain ⟨⟨p, s⟩, hs⟩ := Option.isSome_iff_exists.1 hsome
  have f : (search_state Uninit.zero 5 ["A".toList, "A".toList] 2 [1, 1] 1 "B".toList 10
      false false).map (fun x => x.2.curr_column) = some 1 := by decide!
  rw [hs] at f
  simp only [Option.map_some', Option.some.injEq] at f
  exact ⟨p, s, hs, f, carry_identity (by decide!) hs⟩

/-- C28: in every search state a validated call of `solve` reaches, the tables
`number_map` and `letter_map` agree and the mapping is injective: a letter with
`map_count > 0` has a digit between 0 and `base - 1` and owns it in
`letter_map`; a digit whose `letter_map` cell is not empty belongs to a letter
with `map_count > 0` whose digit it is; two letters with `map_count > 0` and
the same digit are equal. -/
theorem mapping_invariant {summands : List (List Char)} {summand_count : Nat}
    {summand_lengths : List Nat} {longest_summand : Nat} {sum : List Char} {base : Nat}
    {print just_one : Bool} {u : Uninit} {n : Nat} {p : Puzzle} {s : State}
    (hv : valid_instance summands summand_count summand_lengths longest_summand sum base
      = true)
    (h : search_state u n summands summand_count summand_lengths longest_summand sum base
      print just_one = some (p, s)) :
    (∀ ch : Char, 0 < tget s.map_count ch →
        cget s.letter_map (tget s.number_map ch) = ch
        ∧ 0 ≤ tget s.number_map ch ∧ tget s.number_map ch ≤ (base : Int) - 1)
      ∧ (∀ d : Nat, d < MAX_BASE → cget s.letter_map d ≠ '\x00' →
          0 < tget s.map_count (cget s.letter_map d)
          ∧ tget s.number_map (cget s.letter_map d) = d)
      ∧ ∀ ch ch2 : Char, 0 < tget s.map_count ch → 0 < tget s.map_count ch2 →
          tget s.number_map ch = tget s.number_map ch2 → ch = ch2 := by
  obtain ⟨-, -, P, cx, r, G⟩ := search_state_good hv h
  have hcount := G.count.2
  have A := G.asg
  have hmd : p.max_digit = (base : Int) - 1 := by rw [P.ok.max_digit, P.base_eq]
  have mem : ∀ ch : Char, 0 < tget s.map_count ch →
      ch ∈ seen p (columns summands sum.length) s.in_summands s.backtrack cx r := by
    intro ch hpos
    rw [hcount ch] at hpos
    exact List.count_pos_iff.1 (by exact_mod_cast hpos)
  have first : ∀ ch : Char, 0 < tget s.map_count ch →
      cget s.letter_map (tget s.number_map ch) = ch
      ∧ 0 ≤ tget s.number_map ch ∧ tget s.number_map ch ≤ (base : Int) - 1 := by
    intro ch hpos
    obtain ⟨d1, d2, -, d4⟩ := A.digit ch (mem ch hpos)
    rw [hmd] at d2
    exact ⟨d4, d1, d2⟩
  refine ⟨first, ?_, ?_⟩
  · intro d hd hne
    have e : cget s.letter_map (d : Int) = s.letter_map.getD d '\x00' := by simp [cget]
    rw [e] at hne ⊢
    obtain ⟨o1, o2⟩ := A.owner d hd hne
    refine ⟨?_, o2⟩
    rw [hcount]
    exact_mod_cast List.count_pos_iff.2 o1
  · intro ch ch2 h1 h2 heq
    have a := (first ch h1).1
    have b := (first ch2 h2).1
    rw [heq] at a
    exact a.symm.trans b

theorem mapping_invariant_witness :
    ∃ p s, search_state Uninit.zero 5 ["A".toList, "A".toList] 2 [1, 1] 1 "B".toList 10
        false false = some (p, s)
      ∧ (∀ ch : Char, 0 < tget s.map_count ch →
          cget s.letter_map (tget s.number_map ch) = ch
          ∧ 0 ≤ tget s.number_map ch ∧ tget s.number_map ch ≤ ((10 : Nat) : Int) - 1)
      ∧ (∀ d : Nat, d < MAX_BASE → cget s.letter_map d ≠ '\x00' →
          0 < tget s.map_count (cget s.letter_map d)
          ∧ tget s.number_map (cget s.letter_map d) = d)
      ∧ ∀ ch ch2 : Char, 0 < tget s.map_count ch → 0 < tget s.map_count ch2 →
          tget s.number_map ch = tget s.number_map ch2 → ch = ch2 := by
  have hsome : (search_state Uninit.zero 5 ["A".toList, "A".toList] 2 [1, 1] 1 "B".toList 10
      false false).isSome = true := by decide!
  obtain ⟨⟨p, s⟩, hs⟩ := Option.isSome_iff_exists.1 hsome
  exact ⟨p, s, hs, mapping_invariant (by decide!) hs⟩

/-! ## What one transition does to the mapping and to the backtrack counter -/

theorem iterate_last (p : Puzzle) (n : Nat) (s : State) :
    iterate p (n + 1) s
      = match iterate p n s with
        | .running t => step p t
        | .halted o => .halted o := by
  induction n generalizing s with
  | zero =>
    simp only [iterate]
    cases step p s <;> rfl
  | succ n ih =>
    rw [iterate]
    cases hs : step p s with
    | halted o => simp only [iterate, hs]
    | running t =>
      simp only
      rw [ih t]
      conv_rhs => rw [iterate, hs]

theorem search_state_succ {summands : List (List Char)} {summand_count : Nat}
    {summand_lengths : List Nat} {longest_summand : Nat} {sum : List Char} {base : Nat}
    {print just_one : Bool} {u : Uninit} {n : Nat} {p : Puzzle} {s2 : State}
    (h : search_state u (n + 1) summands summand_count summand_lengths longest_summand sum
      base print just_one = some (p, s2)) :
    ∃ s, search_state u n summands summand_count summand_lengths longest_summand sum base
        print just_one = some (p, s) ∧ step p s = .running s2 := by
  unfold search_state at h ⊢
  cases hp : prepare u summands summand_count summand_lengths longest_summand sum base
      print just_one with
  | error o => rw [hp] at h; simp at h
  | ok q =>
    rw [hp] at h
    simp only at h ⊢
    rw [iterate_last] at h
    cases hit : iterate q n (initial_state u) with
    | halted o => rw [hit] at h; simp at h
    | running t =>
      rw [hit] at h
      simp only at h
      cases hst : step q t with
      | halted o => rw [hst] at h; simp at h
      | running t2 =>
        rw [hst] at h
        simp only [Option.some.injEq, Prod.mk.injEq] at h
        obtain ⟨rfl, rfl⟩ := h
        exact ⟨t, rfl, hst⟩

theorem enter_summands_tables {t t2 : State} (h : enter_summands t = .running t2) :
    t2.number_map = t.number_map ∧ t2.letter_map = t.letter_map
    ∧ t2.map_count = t.map_count ∧ t2.backtrack = t.backtrack
    ∧ t2.backtrack_count = t.backtrack_count := by
  rw [enter_summands_moves h]
  exact ⟨rfl, rfl, rfl, rfl, rfl⟩

theorem after_sum_char_tables {p : Puzzle} {t t2 : State}
    (h : after_sum_char p t = .running t2) :
    t2.number_map = t.number_map ∧ t2.letter_map = t.letter_map
    ∧ t2.map_count = t.map_count ∧ t2.backtrack = t.backtrack
    ∧ t2.backtrack_count = t.backtrack_count := by
  unfold after_sum_char at h
  dsimp only at h
  by_cases hb : t.backtrack = true
  · rw [if_pos hb] at h
    have e := enter_summands_tables h
    exact e
  · rw [if_neg hb] at h
    by_cases hr : iget p.column_lengths t.curr_column - 1 < 0
    · rw [if_pos hr] at h
      split at h
      · cases h
      · simp only [Config.running.injEq] at h
        subst h
        exact ⟨rfl, rfl, rfl, rfl, rfl⟩
    · rw [if_neg hr] at h
      have e := enter_summands_tables h
      exact e

theorem after_summand_tables {p : Puzzle} {t t2 : State}
    (h : after_summand p t = .running t2) :
    t2.number_map = t.number_map ∧ t2.letter_map = t.letter_map
    ∧ t2.map_count = t.map_count ∧ t2.backtrack = t.backtrack
    ∧ t2.backtrack_count = t.backtrack_count := by
  unfold after_summand summand_loop_test at h
  dsimp only at h
  by_cases hb : t.backtrack = true
  · rw [if_pos hb] at h
    by_cases hr : t.curr_smnd_row = iget p.column_lengths t.curr_column - 1
    · rw [if_pos hr] at h
      simp only [Config.running.injEq] at h
      subst h
      exact ⟨rfl, rfl, rfl, rfl, rfl⟩
    · rw [if_neg hr] at h
      simp only [Config.running.injEq] at h
      subst h
      exact ⟨rfl, rfl, rfl, rfl, rfl⟩
  · rw [if_neg hb] at h
    by_cases hr : t.curr_smnd_row = 0
    · rw [if_pos hr] at h
      split at h
      · cases h
      · simp only [Config.running.injEq] at h
        subst h
        exact ⟨rfl, rfl, rfl, rfl, rfl⟩
    · rw [if_neg hr] at h
      simp only [Config.running.injEq] at h
      subst h
      exact ⟨rfl, rfl, rfl, rfl, rfl⟩

theorem slot_effect_of {p : Puzzle} {s t s2 : State}
    (e : s2.number_map = t.number_map ∧ s2.letter_map = t.letter_map
      ∧ s2.map_count = t.map_count ∧ s2.backtrack = t.backtrack
      ∧ s2.backtrack_count = t.backtrack_count)
    (E : SlotEffect p s t.number_map t.letter_map t.map_count t.backtrack t.backtrack_count) :
    SlotEffect p s s2.number_map s2.letter_map s2.map_count s2.backtrack
      s2.backtrack_count := by
  obtain ⟨a, b, c, d, f⟩ := e
  rw [a, b, c, d, f]
  exact E

theorem step_slot_effect (p : Puzzle) (s s2 : State) (h : step p s = .running s2) :
    SlotEffect p s s2.number_map s2.letter_map s2.map_count s2.backtrack
      s2.backtrack_count := by
  unfold step at h
  by_cases hin : s.in_summands = true
  · rw [if_pos hin] at h
    have hx : summand_char p.reform_smnds s.curr_smnd_row s.curr_column = slot_letter p s := by
      simp [slot_letter, hin]
    have hat : at_check p s = false := by simp [at_check, hin]
    unfold step_summand at h
    dsimp only at h
    rw [hx] at h
    by_cases hb : s.backtrack = true
    · rw [if_pos hb] at h
      by_cases h1 : tget s.map_count (slot_letter p s) = 1
      · rw [if_pos h1] at h
        split at h
        · exact slot_effect_of (after_summand_tables h) (.release hat hb h1)
        · exact slot_effect_of (after_summand_tables h) (.reassign _ hat hb h1)
      · rw [if_neg h1] at h
        exact slot_effect_of (after_summand_tables h) (.unwind_summand hat hin hb h1)
    · rw [if_neg hb] at h
      have hb2 : s.backtrack = false := by simpa using hb
      by_cases h0 : tget s.map_count (slot_letter p s) ≠ 0
      · rw [if_pos h0] at h
        split at h
        · exact slot_effect_of (after_summand_tables h) (.fail hat hb2)
        · exact slot_effect_of (after_summand_tables h) (.reuse hat hb2 h0)
      · rw [if_neg h0] at h
        have h0z : tget s.map_count (slot_letter p s) = 0 := by simpa using h0
        split at h
        · exact slot_effect_of (after_summand_tables h) (.fail hat hb2)
        · exact slot_effect_of (after_summand_tables h) (.assign _ hat hb2 h0z)
  · rw [if_neg hin] at h
    have hin2 : s.in_summands = false := by simpa using hin
    have hx : cget p.sum s.curr_column = slot_letter p s := by
      simp [slot_letter, hin2]
    unfold step_sum at h
    dsimp only at h
    rw [hx] at h
    by_cases hcol : s.curr_column = p.sum_length
    · rw [if_pos hcol] at h
      have hat : at_check p s = true := by simp [at_check, hin2, hcol]
      by_cases hz : iget s.needed_carry s.curr_column = 0
      · rw [if_pos hz] at h
        split at h
        · cases h
        · exact slot_effect_of (enter_summands_tables h) (.check hat)
      · rw [if_neg hz] at h
        exact slot_effect_of (enter_summands_tables h) (.check hat)
    · rw [if_neg hcol] at h
      have hat : at_check p s = false := by simp [at_check, hcol]
      by_cases hb : s.backtrack = true
      · rw [if_pos hb] at h
        by_cases h1 : tget s.map_count (slot_letter p s) = 1
        · rw [if_pos h1] at h
          split at h
          · exact slot_effect_of (after_sum_char_tables h) (.release hat hb h1)
          · exact slot_effect_of (after_sum_char_tables h) (.reassign _ hat hb h1)
        · rw [if_neg h1] at h
          exact slot_effect_of (after_sum_char_tables h) (.unwind_sum hat hin2 hb h1)
      · rw [if_neg hb] at h
        have hb2 : s.backtrack = false := by simpa using hb
        by_cases hpr : iget s.needed_carry s.curr_column > iget p.max_carry s.curr_column
        · rw [if_pos hpr] at h
          exact slot_effect_of (after_sum_char_tables h) (.fail hat hb2)
        · rw [if_neg hpr] at h
          by_cases h0 : tget s.map_count (slot_letter p s) ≠ 0
          · rw [if_pos h0] at h
            have E := SlotEffect.reuse hat hb2 h0
            rw [← hb2] at E
            exact slot_effect_of (after_sum_char_tables h) E
          · rw [if_neg h0] at h
            have h0z : tget s.map_count (slot_letter p s) = 0 := by simpa using h0
            split at h
            · exact slot_effect_of (after_sum_char_tables h) (.fail hat hb2)
            · exact slot_effect_of (after_sum_char_tables h) (.assign _ hat hb2 h0z)

theorem pos_in_range (t : List Int) (ch : Char) (h : 0 < tget t ch) : ch.toNat < t.length := by
  by_contra hlt
  have : tget t ch = 0 := by
    simp only [tget, List.getD_eq_getElem?_getD]
    rw [List.getElem?_eq_none (by omega)]
    rfl
  omega

theorem tget_tset_other (t : List Int) (x ch : Char) (v : Int)
    (hne : tget (tset t x v) ch ≠ tget t ch) : ch = x := by
  by_contra hx
  exact hne (tget_tset_ne t x ch v (fun e => hx e.symm))

theorem tset_zero_cases (t : List Int) (x ch : Char) (v : Int) (hpos : 0 < tget t ch)
    (hz : tget (tset t x v) ch = 0) : ch = x ∧ v = 0 := by
  by_cases hx : ch = x
  · subst hx
    rw [tget_tset_same t ch v (pos_in_range t ch hpos)] at hz
    exact ⟨rfl, hz⟩
  · rw [tget_tset_ne t x ch v (fun e => hx e.symm)] at hz
    omega

/-- C29: a transition of the search that changes the digit of a letter with
`map_count > 0`, or brings its `map_count` to 0, is a backtrack move onto a slot
of that letter taken while its `map_count` is exactly 1; and a backtrack move
onto a slot whose letter has `map_count` greater than 1 leaves `number_map` and
`letter_map` as they are and lowers that `map_count` by one. -/
theorem reassignment_at_origin (p : Puzzle) (s s2 : State) (h : step p s = .running s2) :
    (∀ ch : Char, 0 < tget s.map_count ch →
        tget s2.number_map ch ≠ tget s.number_map ch ∨ tget s2.map_count ch = 0 →
        s.backtrack = true ∧ at_check p s = false ∧ ch = slot_letter p s
        ∧ tget s.map_count ch = 1)
      ∧ (s.backtrack = true → at_check p s = false →
          1 < tget s.map_count (slot_letter p s) →
          s2.number_map = s.number_map ∧ s2.letter_map = s.letter_map
          ∧ s2.map_count
              = tset s.map_count (slot_letter p s) (tget s.map_count (slot_letter p s) - 1)
          ∧ tget s2.map_count (slot_letter p s)
              = tget s.map_count (slot_letter p s) - 1) := by
  have E := step_slot_effect p s s2 h
  revert E
  generalize s2.number_map = nm
  generalize s2.letter_map = lm
  generalize s2.map_count = mc
  generalize s2.backtrack = bt
  generalize s2.backtrack_count = bc
  intro E
  cases E with
  | check hat =>
    refine ⟨fun ch hp hor => ?_, fun _ h2 _ => ?_⟩
    · rcases hor with a | b
      · exact absurd rfl a
      · omega
    · rw [hat] at h2; cases h2
  | release hat hb h1 =>
    refine ⟨fun ch hp hor => ?_, fun _ _ h3 => ?_⟩
    · rcases hor with a | b
      · exact absurd rfl a
      · obtain ⟨e, -⟩ := tset_zero_cases _ _ _ _ hp b
        exact ⟨hb, hat, e, by rw [e]; exact h1⟩
    · omega
  | reassign v hat hb h1 =>
    refine ⟨fun ch hp hor => ?_, fun _ _ h3 => ?_⟩
    · rcases hor with a | b
      · have e := tget_tset_other _ _ _ _ a
        exact ⟨hb, hat, e, by rw [e]; exact h1⟩
      · omega
    · omega
  | unwind_sum hat hin hb h1 =>
    refine ⟨fun ch hp hor => ?_, fun _ _ h3 => ?_⟩
    · rcases hor with a | b
      · exact absurd rfl a
      · obtain ⟨e, z⟩ := tset_zero_cases _ _ _ _ hp b
        omega
    · exact ⟨rfl, rfl, rfl, tget_tset_same _ _ _ (pos_in_range _ _ (by omega))⟩
  | unwind_summand hat hin hb h1 =>
    refine ⟨fun ch hp hor => ?_, fun _ _ h3 => ?_⟩
    · rcases hor with a | b
      · exact absurd rfl a
      · obtain ⟨e, z⟩ := tset_zero_cases _ _ _ _ hp b
        omega
    · exact ⟨rfl, rfl, rfl, tget_tset_same _ _ _ (pos_in_range _ _ (by omega))⟩
  | fail hat hb =>
    refine ⟨fun ch hp hor => ?_, fun h1 _ _ => ?_⟩
    · rcases hor with a | b
      · exact absurd rfl a
      · omega
    · rw [hb] at h1; cases h1
  | reuse hat hb h0 =>
    refine ⟨fun ch hp hor => ?_, fun h1 _ _ => ?_⟩
    · rcases hor with a | b
      · exact absurd rfl a
      · obtain ⟨e, z⟩ := tset_zero_cases _ _ _ _ hp b
        rw [e] at hp
        omega
    · rw [hb] at h1; cases h1
  | assign v hat hb h0 =>
    refine ⟨fun ch hp hor => ?_, fun h1 _ _ => ?_⟩
    · rcases hor with a | b
      · have e := tget_tset_other _ _ _ _ a
        rw [e] at hp
        omega
      · obtain ⟨e, z⟩ := tset_zero_cases _ _ _ _ hp b
        rw [e] at hp
        omega
    · rw [hb] at h1; cases h1

theorem reassignment_at_origin_witness :
    ∃ p s s2, search_state Uninit.zero 6 ["A".toList, "A".toList] 2 [1, 1] 1 "B".toList 10
        false false = some (p, s)
      ∧ step p s = .running s2
      ∧ s.backtrack = true ∧ tget s.map_count (slot_letter p s) = 2
      ∧ (∀ ch : Char, 0 < tget s.map_count ch →
          tget s2.number_map ch ≠ tget s.number_map ch ∨ tget s2.map_count ch = 0 →
          s.backtrack = true ∧ at_check p s = false ∧ ch = slot_letter p s
          ∧ tget s.map_count ch = 1)
      ∧ (s.backtrack = true → at_check p s = false →
          1 < tget s.map_count (slot_letter p s) →
          s2.number_map = s.number_map ∧ s2.letter_map = s.letter_map
          ∧ s2.map_count
              = tset s.map_count (slot_letter p s) (tget s.map_count (slot_letter p s) - 1)
          ∧ tget s2.map_count (slot_letter p s)
              = tget s.map_count (slot_letter p s) - 1) := by
  have hsome : (search_state Uninit.zero 7 ["A".toList, "A".toList] 2 [1, 1] 1 "B".toList 10
      false false).isSome = true := by decide!
  obtain ⟨⟨p, s2⟩, hs2⟩ := Option.isSome_iff_exists.1 hsome
  obtain ⟨s, hs, hst⟩ := search_state_succ hs2
  have f : (search_state Uninit.zero 6 ["A".toList, "A".toList] 2 [1, 1] 1 "B".toList 10
      false false).map (fun x => (x.2.backtrack, tget x.2.map_count (slot_letter x.1 x.2)))
      = some (true, 2) := by decide!
  rw [hs] at f
  simp only [Option.map_some', Option.some.injEq, Prod.mk.injEq] at f
  exact ⟨p, s, s2, hs, hst, f.1, f.2, reassignment_at_origin p s s2 hst⟩

/-- How `backtrack_count` changes in one transition: no transition of the
search lowers it, and a transition raises it by at most one.  A transition that
ends in the forward direction leaves it as it is.  A transition that ends in
the backtrack direction raises it by exactly one, except in two cases where it
leaves it as it is: the step taken at the test `curr_column == sum_length`, and
a backtrack move onto a summand slot whose letter has a `map_count` other than
1 (source lines 747-755, where the sibling branch of the sum slot, lines
507-517, counts). -/
theorem backtrack_count_step (p : Puzzle) (s s2 : State) (h : step p s = .running s2) :
    s.backtrack_count ≤ s2.backtrack_count
      ∧ s2.backtrack_count ≤ s.backtrack_count + 1
      ∧ (s2.backtrack = false → s2.backtrack_count = s.backtrack_count)
      ∧ (s2.backtrack = true →
          s2.backtrack_count
            = s.backtrack_count
              + (if at_check p s = true
                    ∨ (s.in_summands = true ∧ s.backtrack = true
                        ∧ tget s.map_count (slot_letter p s) ≠ 1)
                 then 0 else 1)) := by
  have E := step_slot_effect p s s2 h
  revert E
  generalize s2.number_map = nm
  generalize s2.letter_map = lm
  generalize s2.map_count = mc
  generalize s2.backtrack = bt
  generalize s2.backtrack_count = bc
  intro E
  cases E with
  | check hat => simp [hat]
  | release hat hb h1 => simp [hat, hb, h1]
  | reassign v hat hb h1 => simp
  | unwind_sum hat hin hb h1 => simp [hat, hin]
  | unwind_summand hat hin hb h1 => simp [hat, hin, hb, h1]
  | fail hat hb => simp [hat, hb]
  | reuse hat hb h0 => simp
  | assign v hat hb h0 => simp

theorem backtrack_count_step_witness :
    ∃ p s s2, search_state Uninit.zero 1 ["A".toList, "A".toList] 2 [1, 1] 1 "B".toList 10
        false false = some (p, s)
      ∧ step p s = .running s2
      ∧ s.backtrack_count ≤ s2.backtrack_count
      ∧ s2.backtrack_count ≤ s.backtrack_count + 1
      ∧ (s2.backtrack = false → s2.backtrack_count = s.backtrack_count)
      ∧ (s2.backtrack = true →
          s2.backtrack_count
            = s.backtrack_count
              + (if at_check p s = true
                    ∨ (s.in_summands = true ∧ s.backtrack = true
                        ∧ tget s.map_count (slot_letter p s) ≠ 1)
                 then 0 else 1)) := by
  have hsome : (search_state Uninit.zero 2 ["A".toList, "A".toList] 2 [1, 1] 1 "B".toList 10
      false false).isSome = true := by decide!
  obtain ⟨⟨p, s2⟩, hs2⟩ := Option.isSome_iff_exists.1 hsome
  obtain ⟨s, hs, hst⟩ := search_state_succ hs2
  exact ⟨p, s, s2, hs, hst, backtrack_count_step p s s2 hst⟩

/-- C30 (failing input): on `A + A = B` in base 10 the seventh transition of
the search is a backtrack move onto a summand slot (the letter `A`, mapped
twice, source lines 747-755); it ends in the backtrack direction and
`backtrack_count` is 1 before and after it: this failed attempt is not
counted. -/
theorem summand_unwind_not_counted :
    ∃ p s s2, search_state Uninit.zero 6 ["A".toList, "A".toList] 2 [1, 1] 1 "B".toList 10
        false false = some (p, s)
      ∧ step p s = .running s2
      ∧ s.in_summands = true ∧ s.backtrack = true ∧ slot_letter p s = 'A'
      ∧ tget s.map_count 'A' = 2
      ∧ s2.backtrack = true
      ∧ s.backtrack_count = 1 ∧ s2.backtrack_count = 1 := by
  have hsome : (search_state Uninit.zero 7 ["A".toList, "A".toList] 2 [1, 1] 1 "B".toList 10
      false false).isSome = true := by decide!
  obtain ⟨⟨p, s2⟩, hs2⟩ := Option.isSome_iff_exists.1 hsome
  obtain ⟨s, hs, hst⟩ := search_state_succ hs2
  have f6 : (search_state Uninit.zero 6 ["A".toList, "A".toList] 2 [1, 1] 1 "B".toList 10
      false false).map (fun x => (x.2.in_summands, x.2.backtrack, slot_letter x.1 x.2,
        tget x.2.map_count 'A', x.2.backtrack_count))
      = some (true, true, 'A', 2, 1) := by decide!
  have f7 : (search_state Uninit.zero 7 ["A".toList, "A".toList] 2 [1, 1] 1 "B".toList 10
      false false).map (fun x => (x.2.backtrack, x.2.backtrack_count))
      = some (true, 1) := by decide!
  rw [hs] at f6
  rw [hs2] at f7
  simp only [Option.map_some', Option.some.injEq, Prod.mk.injEq] at f6 f7
  exact ⟨p, s, s2, hs, hst, f6.1, f6.2.1, f6.2.2.1, f6.2.2.2.1, f7.1, f6.2.2.2.2, f7.2⟩

/-! ## The carry bound is sound -/

theorem addition_carry_bound {p : Puzzle} {cols : List (List Char)} (ok : PuzzleOK p cols)
    (B : CarryBounds p cols) (f : Char → Int)
    (hf : ∀ col ∈ cols, ∀ ch ∈ col, 0 ≤ f ch ∧ f ch ≤ p.max_digit) (k c : Nat)
    (hck : c + k = p.sum.length) :
    0 ≤ addition_carry_from p.base cols f k c
      ∧ addition_carry_from p.base cols f k c ≤ iget p.max_carry c := by
  have hb : (0 : Int) < p.base := by have := ok.base_lo; omega
  induction k generalizing c with
  | zero =>
    have hc : c = p.sum.length := by omega
    subst hc
    simp only [addition_carry_from]
    rw [B.last]
    exact ⟨le_refl _, le_refl _⟩
  | succ k ih =>
    have hc : c < p.sum.length := by omega
    obtain ⟨i0, i1⟩ := ih (c + 1) (by omega)
    simp only [addition_carry_from]
    have hmem : cols.getD c [] ∈ cols := by
      have hc' : c < cols.length := by rw [ok.cols_length]; exact hc
      rw [List.getD_eq_getElem _ _ hc']
      exact List.getElem_mem _
    have hsum_le : ((cols.getD c []).map f).sum ≤ p.max_digit * ((cols.getD c []).length : Int) :=
      map_sum_le f _ _ (fun ch hch => (hf _ hmem ch hch).2)
    have hsum_nn : 0 ≤ ((cols.getD c []).map f).sum :=
      List.sum_nonneg (by
        intro x hx
        obtain ⟨ch, hch, rfl⟩ := List.mem_map.1 hx
        exact (hf _ hmem ch hch).1)
    have h2 := B.col c hc
    have hnn : 0 ≤ p.max_digit * ((cols.getD c []).length : Int)
        + iget p.max_carry ((c + 1 : Nat) : Int) := by
      have := (B.facts ok (c + 1) (by omega)).1
      have hmd : (0 : Int) ≤ p.max_digit := by have := ok.max_digit; omega
      positivity
    rw [Int.tdiv_eq_ediv hnn hb.le] at h2
    constructor
    · exact Int.ediv_nonneg (by omega) hb.le
    · rw [h2]
      apply Int.ediv_le_ediv hb
      have e : ((c : Int) + 1) = ((c + 1 : Nat) : Int) := by push_cast; rfl
      push_cast at i1 ⊢
      linarith

/-- C36: in a prepared puzzle, for every column `c` up to `sum_length` and
every assignment of digits between 0 and `base - 1` to the letters of the
summands, the carry that the addition of the summands in base `base` produces
out of column `c` is at least 0 and at most `max_carry[c]`. -/
theorem carry_bound_sound {summands : List (List Char)} {summand_count : Nat}
    {summand_lengths : List Nat} {longest_summand : Nat} {sum : List Char} {base : Nat}
    {print just_one : Bool} {u : Uninit} {p : Puzzle}
    (hv : valid_instance summands summand_count summand_lengths longest_summand sum base
      = true)
    (hp : prepare u summands summand_count summand_lengths longest_summand sum base print
      just_one = .ok p)
    (f : Char → Int)
    (hf : ∀ w ∈ summands, ∀ ch ∈ w, 0 ≤ f ch ∧ f ch ≤ (base : Int) - 1)
    (c : Nat) (hc : c ≤ sum.length) :
    0 ≤ addition_carry base (columns summands sum.length) f sum.length c
      ∧ addition_carry base (columns summands sum.length) f sum.length c
          ≤ iget p.max_carry c := by
  have P := prepare_ok hv hp
  have B := carry_bounds_of_prepare hv hp
  have hmd : p.max_digit = (base : Int) - 1 := by rw [P.ok.max_digit, P.base_eq]
  have hf' : ∀ col ∈ columns summands sum.length, ∀ ch ∈ col,
      0 ≤ f ch ∧ f ch ≤ p.max_digit := by
    intro col hcol ch hch
    simp only [columns, List.mem_map, List.mem_range] at hcol
    obtain ⟨i, -, rfl⟩ := hcol
    obtain ⟨w, hw, hchw⟩ := mem_column_letters hch
    rw [hmd]
    exact hf w hw ch hchw
  have key := addition_carry_bound P.ok B f hf' (sum.length - c) c
    (by rw [P.sum_eq]; omega)
  rw [P.base_eq] at key
  exact key

theorem carry_bound_sound_witness :
    ∃ p, prepare Uninit.zero ["SEND".toList, "MORE".toList] 2 [4, 4] 4 "MONEY".toList 10
        false false = .ok p
      ∧ 0 ≤ addition_carry ((10 : Nat) : Int)
          (columns ["SEND".toList, "MORE".toList] "MONEY".toList.length) (fun _ => 9)
          "MONEY".toList.length 1
      ∧ addition_carry ((10 : Nat) : Int)
          (columns ["SEND".toList, "MORE".toList] "MONEY".toList.length) (fun _ => 9)
          "MONEY".toList.length 1 ≤ iget p.max_carry (1 : Nat) := by
  have hsome : (prepare Uninit.zero ["SEND".toList, "MORE".toList] 2 [4, 4] 4 "MONEY".toList
      10 false false).isOk = true := by decide!
  cases hp : prepare Uninit.zero ["SEND".toList, "MORE".toList] 2 [4, 4] 4 "MONEY".toList 10
      false false with
  | error o => rw [hp] at hsome; simp [Except.isOk, Except.toBool] at hsome
  | ok p =>
    exact ⟨p, rfl, carry_bound_sound (by decide!) hp (fun _ => 9)
      (fun _ _ _ _ => ⟨by norm_num, by norm_num⟩) 1 (by decide)⟩

/-! ## The count of distinct letters by bit masks -/

theorem foldl_or_letters (words : List (List Char)) (lu : List Nat)
    (hlu : ∀ i, i < words.length → lu.getD i 0 = letter_bits (words.getD i []))
    (idx : List Nat) (hidx : ∀ i ∈ idx, i < words.length) (S : List Char) :
    idx.foldl (fun m i => m ||| lu.getD i 0) (letter_bits S)
      = letter_bits (S ++ (idx.map fun i => words.getD i []).flatten) := by
  induction idx generalizing S with
  | nil => simp
  | cons x xs ih =>
    simp only [List.foldl_cons, List.map_cons, List.flatten_cons]
    rw [hlu x (hidx x (List.mem_cons_self _ _)), ← letter_bits_append,
      ih (fun i hi => hidx i (List.mem_cons_of_mem _ hi)), List.append_assoc]

theorem letters_used_get (words : List (List Char)) (i : Nat) (hi : i < words.length) :
    (letters_used_table words words.length (words.map List.length)).getD i 0
      = letter_bits (words.getD i []) := by
  unfold letters_used_table
  rw [List.getD_eq_getElem?_getD, List.getElem?_map, List.getElem?_range hi]
  simp only [Option.map_some', Option.getD_some]
  have e : (words.map List.length).getD i 0 = (words.getD i []).length := by
    rw [List.getD_eq_getElem?_getD, List.getD_eq_getElem?_getD, List.getElem?_map]
    cases words[i]? <;> rfl
  rw [e, word_letter_map_eq]

/-- C40: for every list of words over `'A'..'Z'`: bit `ch - 'A'` of
`letters_used[i]` is set exactly for the letters `ch` of word `i`, and no bit
from 26 on is set; `bit_count[n]` is the number of set bits of `n` for every
`n` below 512; and for the OR `m` of the masks of any words of the list, the
sum of `bit_count` over the three 9-bit chunks of `m` is the number of distinct
letters of those words together. -/
theorem letter_count_by_bitmask (words : List (List Char)) (hw : ∀ w ∈ words, upper w) :
    (∀ i, i < words.length → ∀ ch : Char, 'A' ≤ ch ∧ ch ≤ 'Z' →
        (((letters_used_table words words.length (words.map List.length)).getD i 0).testBit
            (ch.toNat - ('A' : Char).toNat) = true ↔ ch ∈ words.getD i []))
      ∧ (∀ i, i < words.length → ∀ k, 26 ≤ k →
          ((letters_used_table words words.length (words.map List.length)).getD i 0).testBit k
            = false)
      ∧ (∀ n, n < 512 →
          bit_count_table.getD n 0 = ((List.range 9).filter fun j => n.testBit j).length)
      ∧ ∀ idx : List Nat, (∀ i ∈ idx, i < words.length) →
          total_letters bit_count_table
              (idx.foldl (fun m i => m |||
                (letters_used_table words words.length (words.map List.length)).getD i 0) 0)
            = ((idx.map fun i => words.getD i []).flatten).dedup.length := by
  have hup : ∀ i, i < words.length → upper (words.getD i []) := by
    intro i hi
    apply hw
    rw [List.getD_eq_getElem _ _ hi]
    exact List.getElem_mem _
  have eA : ('A' : Char).toNat = 65 := rfl
  refine ⟨?_, ?_, bit_count_table_spec, ?_⟩
  · intro i hi ch hch
    rw [letters_used_get words i hi, letter_bits_testBit]
    constructor
    · rintro ⟨c, hc, e⟩
      have h1 := upper_code c (hup i hi c hc)
      have h2 := upper_code ch hch
      have : c = ch := char_toNat_inj (by omega)
      rw [← this]
      exact hc
    · intro h
      exact ⟨ch, h, rfl⟩
  · intro i hi k hk
    rw [letters_used_get words i hi]
    by_contra hne
    have ht : (letter_bits (words.getD i [])).testBit k = true := by simpa using hne
    obtain ⟨c, hc, e⟩ := (letter_bits_testBit _ _).1 ht
    have h1 := upper_code c (hup i hi c hc)
    omega
  · intro idx hidx
    have h0 := foldl_or_letters words _ (letters_used_get words) idx hidx []
    rw [show letter_bits [] = 0 from rfl, List.nil_append] at h0
    rw [h0, total_letters_eq, low_bits_letter_bits]
    intro c hc
    rw [List.mem_flatten] at hc
    obtain ⟨l, hl, hcl⟩ := hc
    rw [List.mem_map] at hl
    obtain ⟨i, hi, rfl⟩ := hl
    exact hup i (hidx i hi) c hcl

theorem letter_count_by_bitmask_witness :
    total_letters bit_count_table
        ([0, 1, 2].foldl (fun m i => m |||
          (letters_used_table ["SEND".toList, "MORE".toList, "MONEY".toList]
            ["SEND".toList, "MORE".toList, "MONEY".toList].length
            (["SEND".toList, "MORE".toList, "MONEY".toList].map List.length)).getD i 0) 0)
      = (([0, 1, 2].map fun i =>
          ["SEND".toList, "MORE".toList, "MONEY".toList].getD i []).flatten).dedup.length :=
  (letter_count_by_bitmask ["SEND".toList, "MORE".toList, "MONEY".toList]
    (fun w hw => is_word_upper
      ((by decide : ∀ w ∈ ["SEND".toList, "MORE".toList, "MONEY".toList], is_word w = true)
        w hw))).2.2.2 [0, 1, 2] (by decide)

/-! ## The counts of the search for puzzles -/

theorem tail_sum_bwd {p : Puzzle} {t : State} {cfg : Config}
    (hcfg : after_sum_char p t = cfg) (hb : t.backtrack = true) :
    (cfg = .halted (.returned t.solutions_found (difficulty_conv t.backtrack_count) t.output)
      ∧ t.curr_column = 0)
    ∨ ∃ s2, cfg = .running s2
        ∧ s2.number_map = t.number_map ∧ s2.letter_map = t.letter_map
        ∧ s2.map_count = t.map_count ∧ s2.backtrack = true
        ∧ s2.backtrack_count = t.backtrack_count := by
  subst hcfg
  cases h : after_sum_char p t with
  | running s2 =>
    obtain ⟨a, b, c, d, e⟩ := after_sum_char_tables h
    exact Or.inr ⟨s2, rfl, a, b, c, d.trans hb, e⟩
  | halted o =>
    left
    unfold after_sum_char at h
    dsimp only at h
    rw [if_pos hb] at h
    obtain ⟨a, b⟩ := enter_summands_halt _ o h
    dsimp only at a b
    exact ⟨by rw [b], by omega⟩

theorem tail_sum_fwd {p : Puzzle} {t : State} {cfg : Config}
    (hcfg : after_sum_char p t = cfg) (hb : t.backtrack = false) (h0 : 0 ≤ t.curr_column) :
    cfg = .halted .fault
    ∨ ∃ s2, cfg = .running s2
        ∧ s2.number_map = t.number_map ∧ s2.letter_map = t.letter_map
        ∧ s2.map_count = t.map_count ∧ s2.backtrack = false
        ∧ s2.backtrack_count = t.backtrack_count
        ∧ (0 < iget p.column_lengths t.curr_column →
            s2.in_summands = true ∧ s2.curr_column = t.curr_column
            ∧ s2.curr_smnd_row = iget p.column_lengths t.curr_column - 1
            ∧ s2.needed_sum = t.value + p.base * iget t.needed_carry t.curr_column) := by
  subst hcfg
  have hbn : ¬ t.backtrack = true := by rw [hb]; simp
  unfold after_sum_char
  dsimp only
  rw [if_neg hbn]
  by_cases hr : iget p.column_lengths t.curr_column - 1 < 0
  · rw [if_pos hr]
    cases hc : set_carry t.needed_carry (t.curr_column + 1)
        (t.value + p.base * iget t.needed_carry t.curr_column) with
    | none => left; rfl
    | some nc =>
      right
      exact ⟨_, rfl, rfl, rfl, rfl, hb, rfl, fun hpos => by omega⟩
  · rw [if_neg hr]
    right
    unfold enter_summands
    dsimp only
    rw [if_neg (by omega), if_pos (by omega)]
    exact ⟨_, rfl, rfl, rfl, rfl, hb, rfl, fun _ => ⟨rfl, rfl, rfl, rfl⟩⟩

theorem tail_summand_fwd {p : Puzzle} {t : State} {cfg : Config}
    (hcfg : after_summand p t = cfg) (hb : t.backtrack = false) :
    cfg = .halted .fault
    ∨ ∃ s2, cfg = .running s2
        ∧ s2.number_map = t.number_map ∧ s2.letter_map = t.letter_map
        ∧ s2.map_count = t.map_count ∧ s2.backtrack = false
        ∧ s2.backtrack_count = t.backtrack_count
        ∧ s2.needed_sum = t.needed_sum - t.value := by
  subst hcfg
  have hbn : ¬ t.backtrack = true := by rw [hb]; simp
  unfold after_summand summand_loop_test
  dsimp only
  rw [if_neg hbn]
  by_cases hr : t.curr_smnd_row = 0
  · rw [if_pos hr]
    cases hc : set_carry t.needed_carry (t.curr_column + 1) (t.needed_sum - t.value) with
    | none => left; rfl
    | some nc => right; exact ⟨_, rfl, rfl, rfl, rfl, hb, rfl, rfl⟩
  · rw [if_neg hr]
    right
    exact ⟨_, rfl, rfl, rfl, rfl, hb, rfl, rfl⟩

theorem tail_summand_bwd {p : Puzzle} {t : State} {cfg : Config}
    (hcfg : after_summand p t = cfg) (hb : t.backtrack = true) :
    ∃ s2, cfg = .running s2
      ∧ s2.number_map = t.number_map ∧ s2.letter_map = t.letter_map
      ∧ s2.map_count = t.map_count ∧ s2.backtrack = true
      ∧ s2.backtrack_count = t.backtrack_count
      ∧ s2.needed_sum = t.needed_sum := by
  subst hcfg
  unfold after_summand summand_loop_test
  dsimp only
  rw [if_pos hb]
  by_cases hr : t.curr_smnd_row = iget p.column_lengths t.curr_column - 1
  · rw [if_pos hr]
    exact ⟨_, rfl, rfl, rfl, rfl, hb, rfl, rfl⟩
  · rw [if_neg hr]
    exact ⟨_, rfl, rfl, rfl, rfl, hb, rfl, rfl⟩

theorem step_sum_split (p : Puzzle) (s : State) (h : s.curr_column ≠ p.sum_length) :
    step_sum p s = after_sum_char p (sum_char_part p s) := by
  unfold step_sum sum_char_part
  rw [if_neg h]
  dsimp only
  split_ifs <;> rfl

theorem sum_char_part_frame (p : Puzzle) (s : State) :
    (sum_char_part p s).curr_column = s.curr_column
      ∧ (sum_char_part p s).solutions_found = s.solutions_found
      ∧ (sum_char_part p s).output = s.output
      ∧ (sum_char_part p s).in_summands = s.in_summands := by
  unfold sum_char_part
  dsimp only
  split_ifs <;> exact ⟨rfl, rfl, rfl, rfl⟩

theorem sum_char_part_effect (p : Puzzle) (s : State) (hin : s.in_summands = false)
    (hcol : s.curr_column ≠ p.sum_length) :
    SlotEffect p s (sum_char_part p s).number_map (sum_char_part p s).letter_map
      (sum_char_part p s).map_count (sum_char_part p s).backtrack
      (sum_char_part p s).backtrack_count := by
  have hx : cget p.sum s.curr_column = slot_letter p s := by
    simp [slot_letter, hin]
  have hat : at_check p s = false := by simp [at_check, hcol]
  unfold sum_char_part
  dsimp only
  rw [hx]
  by_cases hb : s.backtrack = true
  · rw [if_pos hb]
    by_cases h1 : tget s.map_count (slot_letter p s) = 1
    · rw [if_pos h1]
      split
      · exact .release hat hb h1
      · exact .reassign _ hat hb h1
    · rw [if_neg h1]
      exact .unwind_sum hat hin hb h1
  · rw [if_neg hb]
    have hb2 : s.backtrack = false := by simpa using hb
    by_cases hpr : iget s.needed_carry s.curr_column > iget p.max_carry s.curr_column
    · rw [if_pos hpr]
      exact .fail hat hb2
    · rw [if_neg hpr]
      by_cases h0 : tget s.map_count (slot_letter p s) ≠ 0
      · rw [if_pos h0]
        have E := SlotEffect.reuse hat hb2 h0
        rw [← hb2] at E
        exact E
      · rw [if_neg h0]
        have h0z : tget s.map_count (slot_letter p s) = 0 := by simpa using h0
        split
        · exact .fail hat hb2
        · exact .assign _ hat hb2 h0z

theorem sum_char_part_count (p : Puzzle) (s : State) (hin : s.in_summands = false)
    (hcol : s.curr_column ≠ p.sum_length) (hbt : (sum_char_part p s).backtrack = true) :
    (sum_char_part p s).backtrack_count = s.backtrack_count + 1 := by
  have E := sum_char_part_effect p s hin hcol
  revert E hbt
  generalize (sum_char_part p s).number_map = nm
  generalize (sum_char_part p s).letter_map = lm
  generalize (sum_char_part p s).map_count = mc
  generalize (sum_char_part p s).backtrack = bt
  generalize (sum_char_part p s).backtrack_count = bc
  intro hbt E
  cases E with
  | check hat => simp [at_check, hin, hcol] at hat
  | release hat hb h1 => rfl
  | reassign v hat hb h1 => cases hbt
  | unwind_sum hat hin2 hb h1 => rfl
  | unwind_summand hat hin2 hb h1 => rw [hin] at hin2; cases hin2
  | fail hat hb => rfl
  | reuse hat hb h0 => cases hbt
  | assign v hat hb h0 => cases hbt

theorem after_summand_not_returned (p : Puzzle) (t : State) (k d : Nat) (out : List Line) :
    after_summand p t ≠ .halted (.returned k d out) := by
  intro h
  cases hb : t.backtrack with
  | true =>
    obtain ⟨s2, h2, -⟩ := tail_summand_bwd h hb
    cases h2
  | false =>
    rcases tail_summand_fwd h hb with hf | ⟨s2, h2, -⟩
    · cases hf
    · cases h2

/-- How the search loop is left with a returned value: at the first accepted
solution under `just_one`, or from the sum slot of column 0 after a decision to
backtrack, with the difficulty of the count after that decision. -/
theorem step_exit {p : Puzzle} {cols : List (List Char)} (ok : PuzzleOK p cols)
    (s : State) (G : Good p cols s) (k d : Nat) (out : List Line)
    (h : step p s = .halted (.returned k d out)) :
    (accepting p s = true ∧ p.just_one = true ∧ k = 1 ∧ d = 0)
    ∨ (accepting p s = false ∧ s.in_summands = false ∧ s.curr_column = 0
        ∧ s.curr_column ≠ p.sum_length
        ∧ (sum_char_part p s).backtrack = true
        ∧ k = s.solutions_found ∧ out = s.output
        ∧ d = difficulty_conv (sum_char_part p s).backtrack_count) := by
  obtain ⟨c, r, G⟩ := G
  have hcol := G.col_eq
  unfold step at h
  by_cases hin : s.in_summands = true
  · rw [if_pos hin] at h
    exfalso
    revert h
    unfold step_summand
    dsimp only
    split_ifs <;> exact after_summand_not_returned _ _ _ _ _
  · rw [if_neg hin] at h
    have hin2 : s.in_summands = false := by simpa using hin
    by_cases hc0 : s.curr_column = p.sum_length
    · unfold step_sum at h
      rw [if_pos hc0] at h
      have hne : ¬ (s.curr_column - 1 = -1) := by
        rw [hc0, ok.sum_length]; have := ok.sum_pos; omega
      by_cases hz : iget s.needed_carry s.curr_column = 0
      · rw [if_pos hz] at h
        dsimp only at h
        by_cases hj : p.just_one = true
        · rw [if_pos hj] at h
          simp only [Config.halted.injEq, Outcome.returned.injEq] at h
          left
          refine ⟨?_, hj, h.1.symm, h.2.1.symm⟩
          simp only [accepting, hin2, hz, Bool.not_false, Bool.true_and, Bool.and_eq_true,
            decide_eq_true_eq]
          exact ⟨hc0, trivial⟩
        · rw [if_neg hj] at h
          exact absurd (enter_summands_halt _ _ h).1 hne
      · rw [if_neg hz] at h
        exact absurd (enter_summands_halt _ _ h).1 hne
    · rw [step_sum_split p s hc0] at h
      obtain ⟨f1, f2, f3, -⟩ := sum_char_part_frame p s
      right
      have hacc : accepting p s = false := by simp [accepting, hc0]
      cases hb : (sum_char_part p s).backtrack with
      | true =>
        rcases tail_sum_bwd h hb with ⟨hf, hz⟩ | ⟨s2, h2, -⟩
        · simp only [Config.halted.injEq, Outcome.returned.injEq] at hf
          rw [f1] at hz
          rw [f2, f3] at hf
          exact ⟨hacc, hin2, hz, hc0, rfl, hf.1, hf.2.2, hf.2.1⟩
        · cases h2
      | false =>
        have h0 : 0 ≤ (sum_char_part p s).curr_column := by
          rw [f1, hcol]; exact Int.natCast_nonneg _
        rcases tail_sum_fwd h hb h0 with hf | ⟨s2, h2, -⟩
        · cases hf
        · cases h2

theorem run_halts_at (p : Puzzle) (fuel : Nat) (s0 : State) (o : Outcome)
    (h : run p fuel s0 = some o) :
    ∃ n s, n < fuel ∧ iterate p n s0 = .running s ∧ step p s = .halted o := by
  induction fuel generalizing s0 with
  | zero => simp [run] at h
  | succ f ih =>
    simp only [run] at h
    cases hs : step p s0 with
    | halted o2 =>
      rw [hs] at h
      simp only [Option.some.injEq] at h
      subst h
      exact ⟨0, s0, by omega, rfl, hs⟩
    | running s1 =>
      rw [hs] at h
      simp only at h
      obtain ⟨n, s, hn, hit, hst⟩ := ih s1 h
      refine ⟨n + 1, s, by omega, ?_, hst⟩
      simp only [iterate, hs]
      exact hit

theorem prepare_error_zero {u : Uninit} {summands : List (List Char)} {summand_count : Nat}
    {summand_lengths : List Nat} {longest_summand : Nat} {sum : List Char} {base : Nat}
    {print just_one : Bool} {k d : Nat} {out : List Line}
    (hp : prepare u summands summand_count summand_lengths longest_summand sum base print
      just_one = .error (.returned k d out)) : k = 0 ∧ d = 0 := by
  unfold prepare at hp
  simp only at hp
  split_ifs at hp
  · simp only [Except.error.injEq, Outcome.returned.injEq] at hp; exact ⟨hp.1.symm, hp.2.1.symm⟩
  · simp only [Except.error.injEq, Outcome.returned.injEq] at hp; exact ⟨hp.1.symm, hp.2.1.symm⟩
  · split at hp
    · simp at hp
    · split_ifs at hp
      simp only [Except.error.injEq, Outcome.returned.injEq] at hp
      exact ⟨hp.1.symm, hp.2.1.symm⟩

theorem summand_count_step (ch : Char) (summands : List (List Char)) (L c : Nat) (hc : c < L) :
    (summands.map fun w => (w.take (w.length - (L - (c + 1)))).count ch).sum
      = (summands.map fun w => (w.take (w.length - (L - c))).count ch).sum
        + (column_letters summands L c).count ch := by
  induction summands with
  | nil => simp [column_letters]
  | cons w ws ih =>
    simp only [List.map_cons, List.sum_cons, ih]
    by_cases hreach : L - c ≤ w.length
    · have hk : w.length - (L - c) < w.length := by omega
      rw [column_letters_cons_reach w ws L c hreach hk]
      have e : w.length - (L - (c + 1)) = (w.length - (L - c)) + 1 := by omega
      rw [e, List.take_succ, List.getElem?_eq_getElem hk]
      simp only [Option.toList_some, List.count_append, List.count_cons, List.count_nil]
      omega
    · rw [column_letters_cons_short w ws L c hreach]
      have e1 : w.length - (L - (c + 1)) = 0 := by omega
      have e2 : w.length - (L - c) = 0 := by omega
      rw [e1, e2]
      omega

theorem prefix_count (ch : Char) (summands : List (List Char)) (sum : List Char)
    (hlen : ∀ w ∈ summands, w.length ≤ sum.length) (c : Nat) (hc : c ≤ sum.length) :
    (prefix_letters sum (columns summands sum.length) c).count ch
      = (sum.take c).count ch
        + (summands.map fun w => (w.take (w.length - (sum.length - c))).count ch).sum := by
  induction c with
  | zero =>
    simp only [prefix_letters, List.take_zero, List.count_nil, Nat.sub_zero, zero_add]
    symm
    apply List.sum_eq_zero
    intro x hx
    obtain ⟨w, hw, rfl⟩ := List.mem_map.1 hx
    have e : w.length - sum.length = 0 := by have := hlen w hw; omega
    rw [e, List.take_zero, List.count_nil]
  | succ c ih =>
    have hlt : c < sum.length := by omega
    rw [prefix_letters_succ, List.count_append, ih (by omega), List.count_cons,
      columns_getD summands sum.length c hlt, summand_count_step ch summands sum.length c hlt,
      List.take_succ, List.getElem?_eq_getElem hlt, List.count_append,
      List.getD_eq_getElem _ _ hlt]
    simp only [Option.toList_some, List.count_cons, List.count_nil]
    omega

theorem empty_tables {p : Puzzle} {nm mv mc : List Int} {lm : List Char}
    (hcount : CountOK mc []) (hasg : AsgOK p nm mv lm []) :
    (∀ ch : Char, tget mc ch = 0) ∧ ∀ dg : Nat, dg < MAX_BASE → cget lm dg = '\x00' := by
  constructor
  · intro ch
    rw [hcount.2 ch]
    rfl
  · intro dg hdg
    rw [cget_natCast]
    by_contra hne
    have := (hasg.owner dg hdg hne).1
    simp at this

/-- C37: in every search state a validated call of `solve` reaches,
`map_count` of every letter is the number of slots of that letter on the
current path (the slots of the finished columns and the slots of the current
column that have been passed and not backtracked over); at the test
`curr_column == sum_length` it is the number of occurrences of the letter in
the sum and the summands together; and when the search loop is left by
exhaustion every `map_count` is 0 and every cell of `letter_map` is empty. -/
theorem reference_counts {summands : List (List Char)} {summand_count : Nat}
    {summand_lengths : List Nat} {longest_summand : Nat} {sum : List Char} {base : Nat}
    {print just_one : Bool} {u : Uninit} {n : Nat} {p : Puzzle} {s : State}
    (hv : valid_instance summands summand_count summand_lengths longest_summand sum base
      = true)
    (h : search_state u n summands summand_count summand_lengths longest_summand sum base
      print just_one = some (p, s)) :
    (∀ ch : Char, tget s.map_count ch
        = (((seen p (columns summands sum.length) s.in_summands s.backtrack
              s.curr_column.toNat s.curr_smnd_row.toNat).count ch : Nat) : Int))
      ∧ (at_check p s = true → ∀ ch : Char,
          tget s.map_count ch = (((sum ++ summands.flatten).count ch : Nat) : Int))
      ∧ ∀ k d out, step p s = .halted (.returned k d out) → accepting p s = false →
          (∀ ch : Char, tget (sum_char_part p s).map_count ch = 0)
          ∧ ∀ dg : Nat, dg < MAX_BASE → cget (sum_char_part p s).letter_map dg = '\x00' := by
  obtain ⟨-, -, P, G0⟩ := search_state_good hv h
  have G0' := G0
  obtain ⟨cx, r, G⟩ := G0
  have ok := P.ok
  have hcol := G.col_eq
  have hcx : s.curr_column.toNat = cx := by rw [hcol]; exact Int.toNat_natCast cx
  have hseen : seen p (columns summands sum.length) s.in_summands s.backtrack
      s.curr_column.toNat s.curr_smnd_row.toNat
      = seen p (columns summands sum.length) s.in_summands s.backtrack cx r := by
    rw [hcx]
    cases hin : s.in_summands with
    | true =>
      have := G.row_eq hin
      rw [this, Int.toNat_natCast]
    | false => simp [seen]
  refine ⟨?_, ?_, ?_⟩
  · intro ch
    rw [hseen]
    exact G.count.2 ch
  · intro hat ch
    simp only [at_check, Bool.and_eq_true, Bool.not_eq_true', decide_eq_true_eq] at hat
    obtain ⟨hin, hcL⟩ := hat
    have hcxL : cx = sum.length := by
      rw [hcol, ok.sum_length, P.sum_eq] at hcL
      exact_mod_cast hcL
    have hb : s.backtrack = false := by
      cases hb : s.backtrack with
      | false => rfl
      | true =>
        have := G.col_lt (Or.inr hb)
        rw [P.sum_eq] at this
        omega
    have hc := G.count.2 ch
    rw [hin, hb, seen_sum_fwd, P.sum_eq, hcxL,
      prefix_count ch summands sum P.words_le sum.length (le_refl _)] at hc
    rw [hc, List.take_length, List.count_append, List.count_flatten]
    simp
  · intro k d out hst hacc
    rcases step_exit ok s G0' k d out hst with ⟨a1, -⟩ | ⟨-, hin, hz, hne, hbt, -⟩
    · rw [hacc] at a1; cases a1
    · have hcx0 : cx = 0 := by
        rw [hcol] at hz
        exact_mod_cast hz
      subst hcx0
      have hx : slot_letter p s = p.sum.getD 0 '\x00' := by
        simp only [slot_letter, hin, hz]
        simp [cget]
      have E := sum_char_part_effect p s hin hne
      have hcount := G.count
      have hasg := G.asg
      rw [hin] at hcount hasg
      revert E hbt
      generalize (sum_char_part p s).number_map = nm
      generalize (sum_char_part p s).letter_map = lm
      generalize (sum_char_part p s).map_count = mc
      generalize (sum_char_part p s).backtrack = bt
      generalize (sum_char_part p s).backtrack_count = bc
      intro hbt E
      cases E with
      | check hat => simp [at_check, hne] at hat
      | release hat hb h1 =>
        rw [hb, seen_sum_bwd] at hcount hasg
        simp only [prefix_letters, List.nil_append] at hcount hasg
        rw [hx] at h1 ⊢
        obtain ⟨a, b⟩ := retry_fail_tables hasg hcount h1
        exact empty_tables b a
      | reassign v hat hb h1 => cases hbt
      | unwind_sum hat hin2 hb h1 =>
        rw [hb, seen_sum_bwd] at hcount
        simp only [prefix_letters, List.nil_append] at hcount
        rw [hx] at h1
        exact absurd (hcount.one_iff.2 (by simp)) h1
      | unwind_summand hat hin2 hb h1 => rw [hin] at hin2; cases hin2
      | fail hat hb =>
        rw [hb, seen_sum_fwd] at hcount hasg
        simp only [prefix_letters] at hcount hasg
        exact empty_tables hcount hasg
      | reuse hat hb h0 => cases hbt
      | assign v hat hb h0 => cases hbt

theorem reference_counts_witness :
    ∃ p s, search_state Uninit.zero 5 ["A".toList, "A".toList] 2 [1, 1] 1 "B".toList 10
        false false = some (p, s)
      ∧ at_check p s = true
      ∧ (∀ ch : Char, tget s.map_count ch
          = (((seen p (columns ["A".toList, "A".toList] "B".toList.length) s.in_summands
                s.backtrack s.curr_column.toNat s.curr_smnd_row.toNat).count ch : Nat) : Int))
      ∧ ∀ ch : Char,
          tget s.map_count ch
            = ((("B".toList ++ ["A".toList, "A".toList].flatten).count ch : Nat) : Int) := by
  have hsome : (search_state Uninit.zero 5 ["A".toList, "A".toList] 2 [1, 1] 1 "B".toList 10
      false false).isSome = true := by decide!
  obtain ⟨⟨p, s⟩, hs⟩ := Option.isSome_iff_exists.1 hsome
  have f : (search_state Uninit.zero 5 ["A".toList, "A".toList] 2 [1, 1] 1 "B".toList 10
      false false).map (fun x => at_check x.1 x.2) = some true := by decide!
  rw [hs] at f
  simp only [Option.map_some', Option.some.injEq] at f
  have R := reference_counts (by decide!) hs
  exact ⟨p, s, hs, f, R.1, R.2.1 f⟩

/-! ## The search without the carry-bound test, on machine integers -/

/-- On BBBBBBBBBBBBBBB + BBBBBBBBBBBBBBB = ABAAAAAAAAAAAAAA in base 10, a sum
of `MAX_LEN` letters, the variant on `int`s returns the count 0 at its 429th
slot transition: the product `needed_carry * base` leaves the range of an
`int` before the last column is reached, and the wrapped value fails there. -/
theorem unpruned32_long_sum :
    solve_unpruned32 Uninit.zero 428 ["BBBBBBBBBBBBBBB".toList, "BBBBBBBBBBBBBBB".toList] 2
        [15, 15] 15 "ABAAAAAAAAAAAAAA".toList 10 false false = none
    ∧ solve_unpruned32 Uninit.zero 429 ["BBBBBBBBBBBBBBB".toList, "BBBBBBBBBBBBBBB".toList] 2
        [15, 15] 15 "ABAAAAAAAAAAAAAA".toList 10 false false = some (.returned 0 1 []) :=
  ⟨by decide!, by decide!⟩

/-! ## The difficulty levels of a returning call -/

/-- How a call of `solve` on a validated instance returns: from a pre-check,
with count 0 and difficulty 0; at the first accepted solution under `just_one`,
with count 1 and difficulty 0; or from the sum slot of column 0, with the
difficulty of the count of backtracks after the decision taken there. -/
theorem returned_call_kinds (u : Uninit) (summands : List (List Char)) (summand_count : Nat)
    (summand_lengths : List Nat) (longest_summand : Nat) (sum : List Char) (base : Nat)
    (print just_one : Bool)
    (hv : valid_instance summands summand_count summand_lengths longest_summand sum base
      = true) (fuel n d : Nat) (out : List Line)
    (h : solve u fuel summands summand_count summand_lengths longest_summand sum base print
      just_one = some (.returned n d out)) :
    (prepare u summands summand_count summand_lengths longest_summand sum base print
        just_one = .error (.returned n d out) ∧ n = 0 ∧ d = 0)
    ∨ ∃ p k s, k < fuel
        ∧ search_state u k summands summand_count summand_lengths longest_summand sum base
            print just_one = some (p, s)
        ∧ step p s = .halted (.returned n d out)
        ∧ ((just_one = true ∧ accepting p s = true ∧ n = 1 ∧ d = 0)
          ∨ (accepting p s = false ∧ s.in_summands = false ∧ s.curr_column = 0
              ∧ n = s.solutions_found
              ∧ d = difficulty_conv (sum_char_part p s).backtrack_count
              ∧ (sum_char_part p s).backtrack_count = s.backtrack_count + 1
              ∧ 1 ≤ d ∧ d ≤ 5)) := by
  unfold solve at h
  cases hp : prepare u summands summand_count summand_lengths longest_summand sum base
      print just_one with
  | error o =>
    rw [hp] at h
    simp only [Option.some.injEq] at h
    subst h
    exact Or.inl ⟨rfl, prepare_error_zero hp⟩
  | ok p =>
    rw [hp] at h
    simp only at h
    right
    obtain ⟨k, s, hk, hit, hst⟩ := run_halts_at p fuel (initial_state u) _ h
    have hss : search_state u k summands summand_count summand_lengths longest_summand sum
        base print just_one = some (p, s) := by
      unfold search_state
      rw [hp]
      simp only
      rw [hit]
    obtain ⟨-, -, P, G⟩ := search_state_good hv hss
    refine ⟨p, k, s, hk, hss, hst, ?_⟩
    rcases step_exit P.ok s G n d out hst with ⟨a1, a2, a3, a4⟩ | ⟨b1, b2, b3, b4, b5, b6, b7, b8⟩
    · left
      rw [P.just_one_eq] at a2
      exact ⟨a2, a1, a3, a4⟩
    · right
      have hc := sum_char_part_count p s b2 b4 b5
      have hr := difficulty_conv_range (sum_char_part p s).backtrack_count
      exact ⟨b1, b2, b3, b6, b8, hc, by rw [b8]; exact hr.1, by rw [b8]; exact hr.2⟩

/-- C9 (amended): the difficulty level `solve` reports.  For every call that
returns, validated or not, the level is one of 0, 1, ..., 5, and it is 0 only
when the call returned from a pre-check or `just_one` is set.  For a validated
instance the level is determined: it is 0 when the call returns from a
pre-check (the count is 0 then), it is 0 when the call returns at the first
accepted solution under `just_one` (the count is 1 then), and in every other
case, also under `just_one` when no solution is found, the search loop was
left from the sum slot of column 0 and the level is `difficulty_conv` of
`backtrack_count` as it stands after the decision taken at that slot, a value
from 1 to 5.  And `solve` does return, within `fuel_bound` slot transitions, on
every validated instance with a sum of fewer than `MAX_LEN` letters and at most
`MAX_STATIC_SUMMANDS` summands. -/
theorem difficulty_levels (u : Uninit) (summands : List (List Char))
    (summand_count : Nat) (summand_lengths : List Nat) (longest_summand : Nat)
    (sum : List Char) (base : Nat) (print just_one : Bool) :
    (∀ (fuel n d : Nat) (out : List Line),
      solve u fuel summands summand_count summand_lengths longest_summand sum base
        print just_one = some (.returned n d out) →
      d ≤ 5 ∧ (d = 0 → just_one = true
        ∨ prepare u summands summand_count summand_lengths longest_summand sum base print
            just_one = .error (.returned n d out)))
    ∧ (valid_instance summands summand_count summand_lengths longest_summand sum base = true →
        (∀ (fuel n d : Nat) (out : List Line),
          solve u fuel summands summand_count summand_lengths longest_summand sum base
            print just_one = some (.returned n d out) →
          (prepare u summands summand_count summand_lengths longest_summand sum base print
              just_one = .error (.returned n d out) ∧ n = 0 ∧ d = 0)
          ∨ ∃ p k s, k < fuel
              ∧ search_state u k summands summand_count summand_lengths longest_summand sum
                  base print just_one = some (p, s)
              ∧ step p s = .halted (.returned n d out)
              ∧ ((just_one = true ∧ accepting p s = true ∧ n = 1 ∧ d = 0)
                ∨ (accepting p s = false ∧ s.in_summands = false ∧ s.curr_column = 0
                    ∧ n = s.solutions_found
                    ∧ d = difficulty_conv (sum_char_part p s).backtrack_count
                    ∧ (sum_char_part p s).backtrack_count = s.backtrack_count + 1
                    ∧ 1 ≤ d ∧ d ≤ 5)))
        ∧ (sum.length < MAX_LEN → summand_count ≤ MAX_STATIC_SUMMANDS →
            ∃ n d out, solve u (fuel_bound summands sum base) summands summand_count
              summand_lengths longest_summand sum base print just_one
                = some (.returned n d out))) :=
  ⟨fun fuel n d out h =>
      difficulty_of_return u fuel summands summand_count summand_lengths longest_summand sum
        base print just_one n d out h,
    fun hv =>
      ⟨fun fuel n d out h =>
          returned_call_kinds u summands summand_count summand_lengths longest_summand sum
            base print just_one hv fuel n d out h,
        fun hL hsix =>
          solve_returns u summands summand_count summand_lengths longest_summand sum base
            print just_one hv hL hsix⟩⟩

/-- Witness for `difficulty_levels`: `I + BB = ILL` in base 10 under
`just_one` returns at the first solution with difficulty 0, and the validated
instance `A + A = A` in base 2, which has no solution, searched under
`just_one`, reports a difficulty that is `difficulty_conv` of a count of
backtracks, not 0. -/
theorem difficulty_levels_witness :
    (solve Uninit.zero 100 ["I".toList, "BB".toList] 2 [1, 2] 2 "ILL".toList 10 false true
        = some (.returned 1 0 [])
      ∧ ((0 : Nat) ≤ 5 ∧ ((0 : Nat) = 0 → true = true
        ∨ prepare Uninit.zero ["I".toList, "BB".toList] 2 [1, 2] 2 "ILL".toList 10 false
            true = .error (.returned 1 0 []))))
    ∧ (valid_instance ["A".toList, "A".toList] 2 [1, 1] 1 "A".toList 2 = true
      ∧ solve Uninit.zero 100 ["A".toList, "A".toList] 2 [1, 1] 1 "A".toList 2 false true
          = some (.returned 0 1 [])
      ∧ ((prepare Uninit.zero ["A".toList, "A".toList] 2 [1, 1] 1 "A".toList 2 false true
            = .error (.returned 0 1 []) ∧ 0 = 0 ∧ 1 = 0)
        ∨ ∃ p k s, k < 100
            ∧ search_state Uninit.zero k ["A".toList, "A".toList] 2 [1, 1] 1 "A".toList 2
                false true = some (p, s)
            ∧ step p s = .halted (.returned 0 1 [])
            ∧ ((true = true ∧ accepting p s = true ∧ 0 = 1 ∧ 1 = 0)
              ∨ (accepting p s = false ∧ s.in_summands = false ∧ s.curr_column = 0
                  ∧ 0 = s.solutions_found
                  ∧ 1 = difficulty_conv (sum_char_part p s).backtrack_count
                  ∧ (sum_char_part p s).backtrack_count = s.backtrack_count + 1
                  ∧ 1 ≤ 1 ∧ 1 ≤ 5)))
      ∧ ∃ n d out, solve Uninit.zero (fuel_bound ["A".toList, "A".toList] "A".toList 2)
          ["A".toList, "A".toList] 2 [1, 1] 1 "A".toList 2 false true
            = some (.returned n d out)) :=
  ⟨⟨by decide!,
      (difficulty_levels Uninit.zero ["I".toList, "BB".toList] 2 [1, 2] 2 "ILL".toList 10
        false true).1 100 1 0 [] (by decide!)⟩,
    by decide!, by decide!,
    ((difficulty_levels Uninit.zero ["A".toList, "A".toList] 2 [1, 1] 1 "A".toList 2
      false true).2 (by decide!)).1 100 0 1 [] (by decide!),
    ((difficulty_levels Uninit.zero ["A".toList, "A".toList] 2 [1, 1] 1 "A".toList 2
      false true).2 (by decide!)).2 (by decide) (by decide)⟩

/-! ## The lines written, in order -/

/-- C20 (counterexample): on the string "ab1c" `upcase_and_check_legality`
returns 0, writes back "AB1C" and sets `*string_length` to 4: the whole run of
non-blank characters, upper-cased.  The run of alphabetic characters of this
string is "ab", of length 2; the string is not replaced by it. -/
theorem upcase_keeps_non_letters :
    '\x00' ∉ "ab1c".toList
    ∧ (upcase_and_check_legality "ab1c".toList).result = 0
    ∧ (upcase_and_check_legality "ab1c".toList).string = "AB1C".toList
    ∧ (upcase_and_check_legality "ab1c".toList).string_length = 4
    ∧ (alpha_run "ab1c".toList).map toupper = "AB".toList
    ∧ (alpha_run "ab1c".toList).length = 2
    ∧ (upcase_and_check_legality "ab1c".toList).string
        ≠ (alpha_run "ab1c".toList).map toupper
    ∧ (upcase_and_check_legality "ab1c".toList).string_length
        ≠ (alpha_run "ab1c".toList).length := by
  decide

end CSolver
